import Mathlib

/-!
# Spell-Checkers: the three set implementations and the word checker

A verification development for `AVLSet.hpp`, `HashSet.hpp`, `SkipListSet.hpp` and
`WordChecker.cpp`.

Conventions of the embedding.

* A C++ function whose execution can dereference a null pointer, read outside an array or
  leave the node graph in a shape that is no longer a tree returns an `Option`; `none` stands
  for such an execution.  Theorems about reachable sets prove that the result is `some`.
* The `int` counters `sz`, `cp`, `lv` are natural numbers: they start at a small constant and
  only grow by insertions, so they stay far below `2^31` for every set that fits in memory.
* Loops that follow pointers are given a fuel argument where the recursion is not structural;
  running out of fuel yields `none` and is proved not to happen.
* A `std::string` is the list of its characters; a function that can throw
  `std::out_of_range` returns an `Option`, and `none` is the exception.
* The `int` loop counters of `WordChecker.cpp` are natural numbers, compared with
  `word.length()` in `size_t`; they stay below `2^31` for every word shorter than that.
-/

namespace SpellCheckers

/-! ## AVLSet.hpp -/

/-- A (possibly null) owning pointer to a `NodeA`: `null` is `nullptr`, `mk element left right`
is a node with its two owned subtrees.  The non-owning `parent` field is kept separately, as
the chain of `ParentLink`s of the node a pointer is on. -/
inductive NodeA (α : Type) where
  | null : NodeA α
  | mk (element : α) (left : NodeA α) (right : NodeA α) : NodeA α
  deriving DecidableEq, Repr

/-- What the `parent` field of a node leads to: the parent's element, the slot of the parent
the node hangs in, and the parent's other subtree. -/
inductive ParentLink (α : Type) where
  | ofLeft (element : α) (right : NodeA α) : ParentLink α
  | ofRight (element : α) (left : NodeA α) : ParentLink α
  deriving DecidableEq, Repr

namespace NodeA

variable {α : Type}

/-- `heightHelper`: `-1` for `nullptr`, else one more than the larger child height. -/
def heightHelper : NodeA α → Int
  | null => -1
  | mk _ l r =>
    let hl := heightHelper l
    let hr := heightHelper r
    if hl > hr then hl + 1 else hr + 1

/-- `preorderHelper`, with the sequence of `visit` calls as the result. -/
def preorderHelper : NodeA α → List α
  | null => []
  | mk e l r => e :: (preorderHelper l ++ preorderHelper r)

/-- `inorderHelper`, with the sequence of `visit` calls as the result. -/
def inorderHelper : NodeA α → List α
  | null => []
  | mk e l r => inorderHelper l ++ e :: inorderHelper r

/-- `postorderHelper`, with the sequence of `visit` calls as the result. -/
def postorderHelper : NodeA α → List α
  | null => []
  | mk e l r => postorderHelper l ++ (postorderHelper r ++ [e])

/-- The parent node seen from above, once `child` is the subtree in the slot the link names. -/
def attach (child : NodeA α) : ParentLink α → NodeA α
  | .ofLeft e r => mk e child r
  | .ofRight e l => mk e l child

/-- The whole tree: follow the `parent` fields from `current` up to the root. -/
def rootOf : NodeA α → List (ParentLink α) → NodeA α
  | current, [] => current
  | current, p :: up => rootOf (attach current p) up

variable [LinearOrder α]

/-- The descent loop of `add` (lines 219-253), entered with `current` on a node.  The result
is `none` when an equal element is met (`f` stays `false`); otherwise it is `current` after
the `break`, with the new leaf linked below it, and the parent chain of `current`. -/
def descend (element : α) : NodeA α → List (ParentLink α) → Option (NodeA α × List (ParentLink α))
  | null, _ => none
  | mk e l r, up =>
    if e > element then
      match l with
      | null => some (mk e (mk element null null) r, up)
      | mk le ll lr => descend element (mk le ll lr) (.ofLeft e r :: up)
    else if e < element then
      match r with
      | null => some (mk e l (mk element null null), up)
      | mk re rl rr => descend element (mk re rl rr) (.ofRight e l :: up)
    else none

/-- The update of the parent's child link inside a rotation:
`if (P->element > N->element) P->left = X; else P->right = X;` for the rotated node `N` with
element `old`.  The result says whether the link written is the one that held `N`; with no
parent nothing is written. -/
def relinks (old : α) : Option (ParentLink α) → Bool
  | none => true
  | some (.ofLeft pe _) => decide (pe > old)
  | some (.ofRight pe _) => !decide (pe > old)

/-- `llRotation(node)`: `none` when `node->left` is null or the parent's other link is
overwritten. -/
def llRotation (parent : Option (ParentLink α)) : NodeA α → Option (NodeA α)
  | mk b (mk a t1 t2) t3 => if relinks b parent then some (mk a t1 (mk b t2 t3)) else none
  | _ => none

/-- `lrRotation(node)`: `none` when `node->left` or `node->left->right` is null or the
parent's other link is overwritten. -/
def lrRotation (parent : Option (ParentLink α)) : NodeA α → Option (NodeA α)
  | mk c (mk a t1 (mk b t2 t3)) t4 =>
    if relinks c parent then some (mk b (mk a t1 t2) (mk c t3 t4)) else none
  | _ => none

/-- `rlRotation(node)`: `none` when `node->right` or `node->right->left` is null or the
parent's other link is overwritten. -/
def rlRotation (parent : Option (ParentLink α)) : NodeA α → Option (NodeA α)
  | mk a t1 (mk c (mk b t2 t3) t4) =>
    if relinks a parent then some (mk b (mk a t1 t2) (mk c t3 t4)) else none
  | _ => none

/-- `rrRotation(node)`: `none` when `node->right` is null or the parent's other link is
overwritten. -/
def rrRotation (parent : Option (ParentLink α)) : NodeA α → Option (NodeA α)
  | mk a t1 (mk b t2 t3) => if relinks a parent then some (mk b (mk a t1 t2) t3) else none
  | _ => none

/-- The rotation chosen at `current` by lines 264-317, when the balance factor is off:
`none` is a null dereference, `some none` is "no case applies, nothing is rotated",
`some (some t)` is the rotated subtree `t`. -/
def rotateAt (element : α) (parent : Option (ParentLink α)) :
    NodeA α → Option (Option (NodeA α))
  | null => none
  | mk e l r =>
    if e > element then
      match l with
      | null => none
      | mk le _ _ =>
        if le > element then (llRotation parent (mk e l r)).map some
        else if le < element then (lrRotation parent (mk e l r)).map some
        else some none
    else if e < element then
      match r with
      | null => none
      | mk re _ _ =>
        if re < element then (rrRotation parent (mk e l r)).map some
        else if re > element then (rlRotation parent (mk e l r)).map some
        else some none
    else some none

/-- The loop `while(current != nullptr)` of lines 259-320.  `current` is a node, `up` its
parent chain; the result is the root once `current` has run past it.  After a rotation
`current->parent` is the new root of the rotated subtree, so that node is visited next, with
the same chain above it. -/
def rebalanceWalk (element : α) : Nat → NodeA α → List (ParentLink α) → Option (NodeA α)
  | 0, _, _ => none
  | _ + 1, null, _ => none
  | fuel + 1, mk e l r, up =>
    let dif := heightHelper l - heightHelper r
    let next : Option (NodeA α) :=
      match up with
      | [] => some (mk e l r)
      | p :: above => rebalanceWalk element fuel (attach (mk e l r) p) above
    if dif > 1 ∨ dif < -1 then
      match rotateAt element up.head? (mk e l r) with
      | none => none
      | some none => next
      | some (some t) => rebalanceWalk element fuel t up
    else next

/-- The loop of lines 259-320 once more, with the number of calls of `llRotation`,
`lrRotation`, `rlRotation` and `rrRotation` it makes next to its result. -/
def rebalanceWalkCount (element : α) :
    Nat → NodeA α → List (ParentLink α) → Option (NodeA α × Nat)
  | 0, _, _ => none
  | _ + 1, null, _ => none
  | fuel + 1, mk e l r, up =>
    let dif := heightHelper l - heightHelper r
    let next : Option (NodeA α × Nat) :=
      match up with
      | [] => some (mk e l r, 0)
      | p :: above => rebalanceWalkCount element fuel (attach (mk e l r) p) above
    if dif > 1 ∨ dif < -1 then
      match rotateAt element up.head? (mk e l r) with
      | none => none
      | some none => next
      | some (some t) => (rebalanceWalkCount element fuel t up).map fun p => (p.1, p.2 + 1)
    else next

/-- One round of the loop of lines 259-320: the node `current` is on, the link to its
parent, the difference `dif` of line 261, and whether the round called one of `llRotation`,
`lrRotation`, `rlRotation` and `rrRotation`. -/
structure WalkVisit (α : Type) where
  current : NodeA α
  parent : Option (ParentLink α)
  dif : Int
  rotated : Bool
  deriving DecidableEq, Repr

/-- The loop of lines 259-320 once more, with the rounds it makes, in order, as the
result. -/
def walkVisits (element : α) :
    Nat → NodeA α → List (ParentLink α) → Option (List (WalkVisit α))
  | 0, _, _ => none
  | _ + 1, null, _ => none
  | fuel + 1, mk e l r, up =>
    let dif := heightHelper l - heightHelper r
    let next : Option (List (WalkVisit α)) :=
      match up with
      | [] => some []
      | p :: above => walkVisits element fuel (attach (mk e l r) p) above
    if dif > 1 ∨ dif < -1 then
      match rotateAt element up.head? (mk e l r) with
      | none => none
      | some none => next.map fun vs => ⟨mk e l r, up.head?, dif, false⟩ :: vs
      | some (some t) =>
        (walkVisits element fuel t up).map fun vs => ⟨mk e l r, up.head?, dif, true⟩ :: vs
    else next.map fun vs => ⟨mk e l r, up.head?, dif, false⟩ :: vs

/-- `copyHelper(node, parent)`, with `parent` after the call as the result: the copy of
`node` is linked into the slot of `parent` that the comparison of the two elements names, and
the copies of the children of `node` are linked below it the same way.  `none` is the read of
`parent->element` through a null `parent`. -/
def copyHelper : NodeA α → NodeA α → Option (NodeA α)
  | null, parent => some parent
  | mk e l r, parent =>
    match parent with
    | null => none
    | mk pe pl pr =>
      match copyHelper l (mk e null null) with
      | none => none
      | some n1 =>
        match copyHelper r n1 with
        | none => none
        | some newNode => if e < pe then some (mk pe newNode pr) else some (mk pe pl newNode)

/-- The search loop of `contains` (lines 329-345). -/
def containsLoop (element : α) : NodeA α → Bool
  | null => false
  | mk e l r =>
    if e = element then true
    else if e > element then containsLoop element l
    else containsLoop element r

end NodeA

/-- The member variables of `AVLSet`. -/
structure AVLSet (α : Type) where
  balance : Bool
  sz : Nat
  root : NodeA α
  deriving DecidableEq, Repr

namespace AVLSet

variable {α : Type}

/-- `AVLSet(bool shouldBalance)`. -/
def new (shouldBalance : Bool) : AVLSet α :=
  { balance := shouldBalance, sz := 0, root := .null }

/-- `size()`. -/
def size (s : AVLSet α) : Nat := s.sz

/-- `height()`. -/
def height (s : AVLSet α) : Int := s.root.heightHelper

/-- `inorder(visit)`, with the sequence of `visit` calls as the result. -/
def inorder (s : AVLSet α) : List α := s.root.inorderHelper

/-- `preorder(visit)`, with the sequence of `visit` calls as the result. -/
def preorder (s : AVLSet α) : List α := s.root.preorderHelper

/-- `postorder(visit)`, with the sequence of `visit` calls as the result. -/
def postorder (s : AVLSet α) : List α := s.root.postorderHelper

variable [LinearOrder α]

/-- `contains(element)`. -/
def contains (s : AVLSet α) (element : α) : Bool := s.root.containsLoop element

/-- `add(element)`.  The walk gets fuel for one visit per ancestor and one more visit per
rotation; a rotation lifts the new leaf by a level, so there are no more rotations than
levels. -/
def add (s : AVLSet α) (element : α) : Option (AVLSet α) :=
  match s.root with
  | .null => some { s with root := .mk element .null .null, sz := s.sz + 1 }
  | .mk e l r =>
    match NodeA.descend element (.mk e l r) [] with
    | none => some s
    | some (current, up) =>
      if s.balance then
        (NodeA.rebalanceWalk element (2 * (up.length + 2)) current up).map
          fun t => { s with root := t, sz := s.sz + 1 }
      else some { s with root := NodeA.rootOf current up, sz := s.sz + 1 }

/-- The number of calls of the four rotation functions that `add(element)` makes: the walk
of lines 255-322 is entered only with balancing on and after a new leaf was linked in (`f`
is `true`). -/
def addRotations (s : AVLSet α) (element : α) : Option Nat :=
  match s.root with
  | .null => some 0
  | .mk e l r =>
    match NodeA.descend element (.mk e l r) [] with
    | none => some 0
    | some (current, up) =>
      if s.balance then
        (NodeA.rebalanceWalkCount element (2 * (up.length + 2)) current up).map Prod.snd
      else some 0

/-- The rounds of the walk of lines 255-322 that `add(element)` makes: none when the walk is
not entered. -/
def addVisits (s : AVLSet α) (element : α) : Option (List (NodeA.WalkVisit α)) :=
  match s.root with
  | .null => some []
  | .mk e l r =>
    match NodeA.descend element (.mk e l r) [] with
    | none => some []
    | some (current, up) =>
      if s.balance then NodeA.walkVisits element (2 * (up.length + 2)) current up
      else some []

/-- Calls of `add`, one per element of the list, in order. -/
def addAll (s : AVLSet α) : List α → Option (AVLSet α)
  | [] => some s
  | x :: xs => (s.add x).bind fun s' => addAll s' xs

/-- `AVLSet(const AVLSet& s)`, the copy constructor. -/
def copy (s : AVLSet α) : Option (AVLSet α) :=
  match s.root with
  | .null => some { balance := s.balance, sz := s.sz, root := .null }
  | .mk e l r =>
    match NodeA.copyHelper l (.mk e .null .null) with
    | none => none
    | some root1 =>
      match NodeA.copyHelper r root1 with
      | none => none
      | some root2 => some { balance := s.balance, sz := s.sz, root := root2 }

/-- `operator=(const AVLSet& s)` on the set `this`; `sameObject` says that `s` is `this`
itself (`this == &s`), in which case nothing is done. -/
def copyAssign (this s : AVLSet α) (sameObject : Bool) : Option (AVLSet α) :=
  if sameObject then some this else s.copy

/-- `AVLSet(AVLSet&& s)`, the move constructor: the new set, and `s` after the call.
`std::move` on the `bool` and the `int` member copies them, so `s` keeps `balance` and `sz`;
its `root` is set to null. -/
def move (s : AVLSet α) : AVLSet α × AVLSet α :=
  ({ balance := s.balance, sz := s.sz, root := s.root }, { s with root := .null })

/-- `operator=(AVLSet&& s)` on a set `this` that is not `s`: `this` and `s` after the call.
The tree of `this` is deleted first (`deleteHelper` tests for null, so that cannot fail). -/
def moveAssign (_this s : AVLSet α) : AVLSet α × AVLSet α :=
  ({ balance := s.balance, sz := s.sz, root := s.root }, { s with root := .null })

end AVLSet


/-! ### Notions used to state and prove the properties of `AVLSet` -/

namespace NodeA

variable {α : Type}

/-- The elements to the left of the subtree a parent chain leads up from, in order. -/
def leftOf : List (ParentLink α) → List α
  | [] => []
  | .ofLeft _ _ :: up => leftOf up
  | .ofRight e l :: up => leftOf up ++ (inorderHelper l ++ [e])

/-- The elements to the right of the subtree a parent chain leads up from, in order. -/
def rightOf : List (ParentLink α) → List α
  | [] => []
  | .ofLeft e r :: up => (e :: inorderHelper r) ++ rightOf up
  | .ofRight _ _ :: up => rightOf up

/-- The AVL balance condition at every node: the heights of the two subtrees differ by at
most one. -/
def IsAVL : NodeA α → Prop
  | null => True
  | mk _ l r =>
    (heightHelper l - heightHelper r ≤ 1 ∧ -1 ≤ heightHelper l - heightHelper r) ∧
      IsAVL l ∧ IsAVL r

variable [LinearOrder α]

/-- Plain recursive insertion into a binary search tree, the reference for the descent of
`add`. -/
def insertRec (x : α) : NodeA α → NodeA α
  | null => mk x null null
  | mk e l r =>
    if e > x then mk e (insertRec x l) r
    else if e < x then mk e l (insertRec x r)
    else mk e l r

/-- The binary-search-tree order: the inorder sequence is strictly ascending. -/
def IsBST (t : NodeA α) : Prop := (inorderHelper t).Pairwise (· < ·)

/-- A subtree that got one level higher by the insertion of `x` leans to the side of `x`,
or is the new leaf itself. -/
def Tilted (x : α) : NodeA α → Prop
  | null => False
  | mk e l r =>
    (x < e → heightHelper l = heightHelper r + 1) ∧
    (e < x → heightHelper r = heightHelper l + 1) ∧
    (e = x → l = null ∧ r = null)

/-- The state of a subtree the walk has left behind: balanced, and either as high as it was
before the insertion (`h`) or one higher and leaning towards `x`. -/
def Grown (x : α) (h : Int) (t : NodeA α) : Prop :=
  IsAVL t ∧ (heightHelper t = h ∨ (heightHelper t = h + 1 ∧ Tilted x t))

/-- The state of the node the walk is about to visit, whose subtree had height `h` before
the insertion: the child on the side of `x` is `Grown`, the other child is untouched. -/
def Visit (x : α) (h : Int) : NodeA α → Prop
  | null => False
  | mk e l r =>
    (x < e ∧ ∃ hl, Grown x hl l ∧ IsAVL r ∧
        (hl - heightHelper r ≤ 1 ∧ -1 ≤ hl - heightHelper r) ∧ h = max hl (heightHelper r) + 1) ∨
    (e < x ∧ ∃ hr, Grown x hr r ∧ IsAVL l ∧
        (heightHelper l - hr ≤ 1 ∧ -1 ≤ heightHelper l - hr) ∧ h = max (heightHelper l) hr + 1)

/-- The ancestors still to be visited, for a subtree that had height `h` before the
insertion: each was balanced, has its untouched subtree balanced, and has `x` on the side
the walk comes from. -/
def PathOK (x : α) : Int → List (ParentLink α) → Prop
  | _, [] => True
  | h, .ofLeft e r :: up =>
    x < e ∧ IsAVL r ∧ (h - heightHelper r ≤ 1 ∧ -1 ≤ h - heightHelper r) ∧
      PathOK x (max h (heightHelper r) + 1) up
  | h, .ofRight e l :: up =>
    e < x ∧ IsAVL l ∧ (heightHelper l - h ≤ 1 ∧ -1 ≤ heightHelper l - h) ∧
      PathOK x (max (heightHelper l) h + 1) up

/-- The right-leaning chain of the elements of a list: what a plain binary search tree
becomes when its elements arrive in ascending order. -/
def chainOf : List α → NodeA α
  | [] => null
  | x :: xs => mk x null (chainOf xs)

/-- The step of the walk from a node to its parent. -/
def moveUp (x : α) (fuel : Nat) (t : NodeA α) : List (ParentLink α) → Option (NodeA α)
  | [] => some t
  | p :: above => rebalanceWalk x fuel (attach t p) above

/-- What makes the rotation of a round safe: the child on the side of `x` is there with an
element other than `x`, one of the four cases applies, for the double rotations the
grandchild is there, and the rotation chosen returns. -/
def SafeAt (x : α) (v : WalkVisit α) : Prop :=
  ((∃ a le ll lr r, v.current = mk a (mk le ll lr) r ∧ x < a ∧ le ≠ x ∧
      ((x < le ∧ rotateAt x v.parent v.current = (llRotation v.parent v.current).map some) ∨
       (le < x ∧ lr ≠ null ∧
         rotateAt x v.parent v.current = (lrRotation v.parent v.current).map some))) ∨
   (∃ a l re rl rr, v.current = mk a l (mk re rl rr) ∧ a < x ∧ re ≠ x ∧
      ((re < x ∧ rotateAt x v.parent v.current = (rrRotation v.parent v.current).map some) ∨
       (x < re ∧ rl ≠ null ∧
         rotateAt x v.parent v.current = (rlRotation v.parent v.current).map some)))) ∧
  ∃ t, rotateAt x v.parent v.current = some (some t)

/-- A subtree the walk can pass without a rotation: a node with a balance factor in range
and height `h`. -/
def Calm (h : Int) : NodeA α → Prop
  | null => False
  | mk e l r =>
    (heightHelper l - heightHelper r ≤ 1 ∧ -1 ≤ heightHelper l - heightHelper r) ∧
      heightHelper (mk e l r) = h

end NodeA

namespace AVLSet

variable {α : Type} [LinearOrder α]

/-- What holds of every `AVLSet` built by `add` calls from an empty one. -/
structure Inv (s : AVLSet α) : Prop where
  bst : s.root.IsBST
  count : s.sz = s.root.inorderHelper.length
  avl : s.balance = true → s.root.IsAVL

end AVLSet

/-! ## HashSet.hpp -/

/-- The member variables of `HashSet`.  A chain of `NodeH` is the list of its elements, from
the node the bucket points to onwards; `arr` is the array of the chains, `none` when the
pointer is null (in a set that was moved from). -/
structure HashSet (α : Type) where
  hashFunction : α → Nat
  arr : Option (List (List α))
  sz : Nat
  cp : Nat

namespace HashSet

variable {α : Type}

/-- `DEFAULT_CAPACITY`. -/
def DEFAULT_CAPACITY : Nat := 10

/-- `HashSet(hashFunction)`: an array of `DEFAULT_CAPACITY` null chains. -/
def new (hashFunction : α → Nat) : HashSet α :=
  { hashFunction := hashFunction, arr := some (List.replicate DEFAULT_CAPACITY []),
    sz := 0, cp := DEFAULT_CAPACITY }

/-- `size()`. -/
def size (s : HashSet α) : Nat := s.sz

/-- The counting loop of `elementsAtIndex` over one chain. -/
def countChain : List α → Nat
  | [] => 0
  | _ :: next => countChain next + 1

/-- `elementsAtIndex(index)`; `none` is a read through a null `arr` or past its end. -/
def elementsAtIndex (s : HashSet α) (index : Nat) : Option Nat :=
  if index > s.cp then some 0
  else
    match s.arr with
    | none => none
    | some arr =>
      match arr[index]? with
      | none => none
      | some chain => some (countChain chain)

/-- Lines 298-310 and 328-340: a new node with `element` is linked behind the last node of
the chain of bucket `index` (or becomes the chain, when the bucket is null). -/
def linkAtEnd (arr : List (List α)) (index : Nat) (element : α) : Option (List (List α)) :=
  match arr[index]? with
  | none => none
  | some chain => some (arr.set index (chain ++ [element]))

/-- The body of the rehash loop of lines 292-313 for bucket `i` of the old array: each
node of its chain, in order, gets a copy linked into the bucket of the new array that its
hash value names. -/
def rehashBucket (hashFunction : α → Nat) (arr : List (List α)) (newCp : Nat)
    (newArr : List (List α)) (i : Nat) : Option (List (List α)) :=
  match arr[i]? with
  | none => none
  | some chain =>
    chain.foldlM (fun newArr e => linkAtEnd newArr (hashFunction e % newCp) e) newArr

/-- The rehash of lines 291-313: a new array of `newCp` null chains, filled from the
buckets `0 .. oldCp - 1` of the old array. -/
def rehash (hashFunction : α → Nat) (arr : List (List α)) (oldCp newCp : Nat) :
    Option (List (List α)) :=
  (List.range oldCp).foldlM (rehashBucket hashFunction arr newCp) (List.replicate newCp [])

variable [DecidableEq α]

/-- The loop that looks for `element` in one chain (in `contains` and `isElementAtIndex`). -/
def scanChain (element : α) : List α → Bool
  | [] => false
  | e :: next => if e = element then true else scanChain element next

/-- `contains(element)`; `none` is a division by a zero capacity, or a read through a null
`arr` or past its end. -/
def contains (s : HashSet α) (element : α) : Option Bool :=
  if s.cp = 0 then none
  else
    match s.arr with
    | none => none
    | some arr =>
      match arr[s.hashFunction element % s.cp]? with
      | none => none
      | some chain => some (scanChain element chain)

/-- `isElementAtIndex(element, index)`; `none` is a read through a null `arr` or past its
end. -/
def isElementAtIndex (s : HashSet α) (element : α) (index : Nat) : Option Bool :=
  if index > s.cp then some false
  else
    match s.arr with
    | none => none
    | some arr =>
      match arr[index]? with
      | none => none
      | some chain => some (scanChain element chain)

/-- `add(element)`.  The test `double(sz) / double(cp) > 0.8` is `4 * cp < 5 * sz` on the
integers: for `0 < cp < 2^31` the quotient is either exactly `4/5`, which rounds to the very
`double` the literal `0.8` denotes, or it differs from `4/5` by at least `1 / (5 * cp)`, far
more than the rounding errors of the quotient and of the literal. -/
def add (s : HashSet α) (element : α) : Option (HashSet α) :=
  match s.contains element with
  | none => none
  | some true => some s
  | some false =>
    match s.arr with
    | none => none
    | some arr =>
      let sz := s.sz + 1
      if 4 * s.cp < 5 * sz then
        let cp := s.cp * 2 + 1
        match rehash s.hashFunction arr s.cp cp with
        | none => none
        | some newArr =>
          (linkAtEnd newArr (s.hashFunction element % cp) element).map
            fun a => { s with arr := some a, sz := sz, cp := cp }
      else
        (linkAtEnd arr (s.hashFunction element % s.cp) element).map
          fun a => { s with arr := some a, sz := sz }

/-- Calls of `add`, one per element of the list, in order. -/
def addAll (s : HashSet α) : List α → Option (HashSet α)
  | [] => some s
  | x :: xs => (s.add x).bind fun s' => addAll s' xs

omit [DecidableEq α] in
/-- The body of the copy loop (lines 181-193 and 231-243) for bucket `i`.  The local pointer
`current` starts as a copy of the null `arr[i]`, is then set to a new node for the first
element of the chain `s.arr[i]`, and the other elements are linked behind it; `arr[i]`
itself is never assigned.  The result is the array, as it was, and the chain built behind
`current`, which no pointer of the set leads to.  `none` is a read through a null `s.arr`
or past the end of an array. -/
def copyBucket (source : Option (List (List α))) (arr : List (List α)) (i : Nat) :
    Option (List (List α) × List α) :=
  match arr[i]?, source with
  | some _, some sourceArr =>
    match sourceArr[i]? with
    | none => none
    | some chain => some (arr, chain.foldl (fun current e => current ++ [e]) [])
  | _, _ => none

omit [DecidableEq α] in
/-- `HashSet(const HashSet& s)`, the copy constructor: a new array of `s.cp` null chains and
the copy loop over its buckets. -/
def copy (s : HashSet α) : Option (HashSet α) :=
  ((List.range s.cp).foldlM (fun arr i => (copyBucket s.arr arr i).map Prod.fst)
      (List.replicate s.cp [])).map
    fun arr => { hashFunction := s.hashFunction, arr := some arr, sz := s.sz, cp := s.cp }

omit [DecidableEq α] in
/-- `operator=(const HashSet& s)` on the set `this`; `sameObject` says that `s` is `this`
itself, in which case nothing is done.  Otherwise the chains of `this` are deleted, which
reads `arr[i]` for every `i < cp`, and the rest is the copy constructor. -/
def copyAssign (this s : HashSet α) (sameObject : Bool) : Option (HashSet α) :=
  if sameObject then some this
  else
    match this.arr with
    | none => if this.cp = 0 then s.copy else none
    | some arr => if this.cp ≤ arr.length then s.copy else none

omit [DecidableEq α] in
/-- `HashSet(HashSet&& s)`, the move constructor: the new set, and `s` after the call.
`std::move` on the `int` members copies them, so `s` keeps `sz` and `cp`; its `arr` is set
to null.  (What `std::move` leaves in `s.hashFunction` is unspecified; it is kept here, and
nothing reads it.) -/
def move (s : HashSet α) : HashSet α × HashSet α :=
  ({ hashFunction := s.hashFunction, arr := s.arr, sz := s.sz, cp := s.cp },
    { s with arr := none })

omit [DecidableEq α] in
/-- `operator=(HashSet&& s)` on a set `this` that is not `s`: `this` and `s` after the call.
The chains of `this` are deleted first, which reads `arr[i]` for every `i < cp`; `none` is a
read through a null `arr` or past its end. -/
def moveAssign (this s : HashSet α) : Option (HashSet α × HashSet α) :=
  match this.arr with
  | none => if this.cp = 0 then some s.move else none
  | some arr => if this.cp ≤ arr.length then some s.move else none

end HashSet

/-! ### Notions used to state and prove the properties of `HashSet` -/

namespace HashSet

variable {α : Type}

/-- Every element of every chain sits in the bucket its hash value names for capacity
`cp`. -/
def Homed (hashFunction : α → Nat) (cp : Nat) (arr : List (List α)) : Prop :=
  ∀ i chain, arr[i]? = some chain → ∀ e ∈ chain, hashFunction e % cp = i

/-- What holds of every `HashSet` built by `add` calls from a new one; `arr` is its bucket
array. -/
structure Inv (s : HashSet α) (arr : List (List α)) : Prop where
  arr_eq : s.arr = some arr
  length : arr.length = s.cp
  cp_pos : 0 < s.cp
  load : 5 * s.sz ≤ 4 * s.cp
  home : Homed s.hashFunction s.cp arr
  nodup : arr.flatten.Nodup
  count : s.sz = arr.flatten.length

end HashSet

/-! ## SkipListSet.hpp -/

/-- `enum class SkipListKind`. -/
inductive SkipListKind where
  | Normal
  | NegInf
  | PosInf
  deriving DecidableEq, Repr

/-- `SkipListKey`: a kind and an element; the sentinels carry `ElementType()`. -/
structure SkipListKey (α : Type) where
  kind : SkipListKind
  element : α
  deriving DecidableEq, Repr

namespace SkipListKey

variable {α : Type} [LinearOrder α]

/-- `operator==`. -/
def eq (a other : SkipListKey α) : Bool :=
  decide (a.kind = other.kind) &&
    (decide (a.kind ≠ SkipListKind.Normal) || decide (a.element = other.element))

/-- `operator<`. -/
def lt (a other : SkipListKey α) : Bool :=
  match a.kind with
  | .NegInf => decide (other.kind ≠ SkipListKind.NegInf)
  | .PosInf => false
  | .Normal =>
    decide (other.kind = SkipListKind.PosInf) ||
      (decide (other.kind = SkipListKind.Normal) && decide (a.element < other.element))

end SkipListKey

/-- `struct Node` of the skip list.  A pointer to a node is its index in the list of the
nodes allocated so far, `none` is `nullptr`. -/
structure Node (α : Type) where
  key : SkipListKey α
  bottom : Option Nat
  right : Option Nat
  deriving DecidableEq, Repr

/-- The assignment `node->right = r`. -/
def Node.setRight {α : Type} (node : Node α) (r : Option Nat) : Node α :=
  { node with right := r }

/-- The assignment `node->bottom = b`. -/
def Node.setBottom {α : Type} (node : Node α) (b : Option Nat) : Node α :=
  { node with bottom := b }

/-- The member variables of `SkipListSet`, and `nodes`, the nodes it has allocated, in the
order of allocation.  The level tester is the list of the answers it is going to give to
`shouldOccupyNextLevel`, in order; once they are used up it answers no.  An `add` that
returns has asked finitely many times and got a no last, so every tester that lets the calls
return is such a list for these calls. -/
structure SkipListSet (α : Type) where
  levelTester : List Bool
  sz : Nat
  lv : Nat
  head : Option Nat
  tail : Option Nat
  topHead : Option Nat
  topTail : Option Nat
  nodes : List (Node α)
  deriving DecidableEq, Repr

namespace SkipListSet

variable {α : Type} [LinearOrder α] [Inhabited α]

/-- `SkipListSet(levelTester)`: the tail sentinel is allocated first, then the head. -/
def new (levelTester : List Bool) : SkipListSet α :=
  { levelTester := levelTester, sz := 0, lv := 0,
    head := some 1, tail := some 0, topHead := some 1, topTail := some 0,
    nodes := [⟨⟨.PosInf, default⟩, none, none⟩, ⟨⟨.NegInf, default⟩, none, some 0⟩] }

/-- `size()`. -/
def size (s : SkipListSet α) : Nat := s.sz

/-- `levelCount()`. -/
def levelCount (s : SkipListSet α) : Nat := s.lv + 1

/-- The search loop of `add` (lines 535-555) from `current`.  The result is `current` after
the `break` and the nodes, with the new node linked in when the loop ends on the bottom
level.  `none` is a null dereference (or no fuel left). -/
def addSearch (s : SkipListKey α) : Nat → Nat → List (Node α) → Option (Nat × List (Node α))
  | 0, _, _ => none
  | fuel + 1, current, nodes =>
    match nodes[current]? with
    | none => none
    | some cur =>
      if cur.key.eq s then some (current, nodes)
      else
        match cur.right with
        | none => none
        | some r =>
          match nodes[r]? with
          | none => none
          | some rn =>
            if s.lt rn.key then
              match cur.bottom with
              | none =>
                some (current,
                  (nodes ++ [(⟨s, none, cur.right⟩ : Node α)]).set current
                    (cur.setRight (some nodes.length)))
              | some b => addSearch s fuel b nodes
            else addSearch s fuel r nodes

/-- The loop of lines 577-588: from `temp`, go right while the key to the right is below `s`,
else go down, until `remaining` (`lv - level - count`) levels have been descended. -/
def descendTo (s : SkipListKey α) (nodes : List (Node α)) : Nat → Nat → Nat → Option Nat
  | _, temp, 0 => some temp
  | 0, _, _ + 1 => none
  | fuel + 1, temp, remaining + 1 =>
    match nodes[temp]? with
    | none => none
    | some t =>
      match t.right with
      | none => none
      | some r =>
        match nodes[r]? with
        | none => none
        | some rn =>
          if rn.key.lt s then descendTo s nodes fuel r (remaining + 1)
          else
            match t.bottom with
            | none => none
            | some b => descendTo s nodes fuel b remaining

/-- The loop of lines 589-592: go right while the key to the right is below `s`. -/
def scanRight (s : SkipListKey α) (nodes : List (Node α)) : Nat → Nat → Option Nat
  | 0, _ => none
  | fuel + 1, temp =>
    match nodes[temp]? with
    | none => none
    | some t =>
      match t.right with
      | none => none
      | some r =>
        match nodes[r]? with
        | none => none
        | some rn =>
          if rn.key.lt s then scanRight s nodes fuel r else some temp

/-- The promotion loop of lines 560-597, one round per answer of the level tester; `level`
and `c` are the local variables, the set carries `lv`, `topHead`, `topTail` and the nodes.
The answers left over go back into `levelTester`. -/
def promote (s : SkipListKey α) : List Bool → Nat → Nat → SkipListSet α → Option (SkipListSet α)
  | [], _, _, set => some { set with levelTester := [] }
  | false :: answers, _, _, set => some { set with levelTester := answers }
  | true :: answers, level, c, set =>
    if level + 1 > set.lv then
      let newTopTail := set.nodes.length
      let nl := set.nodes.length + 1
      let newTopHead := set.nodes.length + 2
      promote s answers (level + 1) nl
        { set with
          lv := level + 1
          topHead := some newTopHead
          topTail := some newTopTail
          nodes := set.nodes ++
            [(⟨⟨.PosInf, default⟩, set.topTail, none⟩ : Node α), ⟨s, some c, some newTopTail⟩,
              ⟨⟨.NegInf, default⟩, set.topHead, some nl⟩] }
    else
      match set.topHead with
      | none => none
      | some top =>
        match descendTo s set.nodes set.nodes.length top (set.lv - (level + 1)) with
        | none => none
        | some temp =>
          match scanRight s set.nodes set.nodes.length temp with
          | none => none
          | some temp =>
            match set.nodes[temp]? with
            | none => none
            | some t =>
              promote s answers (level + 1) set.nodes.length
                { set with
                  nodes := (set.nodes ++ [(⟨s, some c, t.right⟩ : Node α)]).set temp
                    (t.setRight (some set.nodes.length)) }

/-- `add(element)`.  The pointer loops get as much fuel as there are nodes: each round is on
a node the loop has not been on before. -/
def add (set : SkipListSet α) (element : α) : Option (SkipListSet α) :=
  let s : SkipListKey α := ⟨.Normal, element⟩
  match set.topHead with
  | none => none
  | some top =>
    match addSearch s set.nodes.length top set.nodes with
    | none => none
    | some (current, nodes) =>
      match nodes[current]? with
      | none => none
      | some cur =>
        match cur.right with
        | none => none
        | some c =>
          match nodes[c]? with
          | none => none
          | some cn =>
            if cn.key.eq s then
              (promote s set.levelTester 0 c { set with nodes := nodes }).map
                fun set' => { set' with sz := set'.sz + 1 }
            else some { set with nodes := nodes, sz := set.sz + 1 }

/-- The search loop of `contains` (lines 608-626) from `current`. -/
def containsLoop (s : SkipListKey α) (nodes : List (Node α)) : Nat → Nat → Option Bool
  | 0, _ => none
  | fuel + 1, current =>
    match nodes[current]? with
    | none => none
    | some cur =>
      if cur.key.eq s then some true
      else
        match cur.right with
        | none => none
        | some r =>
          match nodes[r]? with
          | none => none
          | some rn =>
            if s.lt rn.key then
              match cur.bottom with
              | none => some false
              | some b => containsLoop s nodes fuel b
            else containsLoop s nodes fuel r

/-- `contains(element)`. -/
def contains (set : SkipListSet α) (element : α) : Option Bool :=
  match set.topHead with
  | none => none
  | some top => containsLoop ⟨.Normal, element⟩ set.nodes set.nodes.length top

/-- The loop `for (i = 0; i < lv - level; i++) temp = temp->bottom`. -/
def goDown (nodes : List (Node α)) : Nat → Option Nat → Option (Option Nat)
  | 0, temp => some temp
  | n + 1, temp =>
    match temp with
    | none => none
    | some t =>
      match nodes[t]? with
      | none => none
      | some tn => goDown nodes n tn.bottom

/-- The loop `while (temp != nullptr) { result++; temp = temp->right; }` of
`elementsOnLevel`. -/
def countRight (nodes : List (Node α)) : Nat → Option Nat → Option Nat
  | _, none => some 0
  | 0, some _ => none
  | fuel + 1, some t =>
    match nodes[t]? with
    | none => none
    | some tn => (countRight nodes fuel tn.right).map (· + 1)

/-- `elementsOnLevel(level)`; the result is an `int` that is converted to `unsigned`, here an
integer. -/
def elementsOnLevel (set : SkipListSet α) (level : Nat) : Option Int :=
  if level > set.lv then some 0
  else
    match goDown set.nodes (set.lv - level) set.topHead with
    | none => none
    | some temp => (countRight set.nodes (set.nodes.length + 1) temp).map fun n => (n : Int) - 2

/-- The loop `while (temp != nullptr)` of `isElementOnLevel`. -/
def findRight (s : SkipListKey α) (nodes : List (Node α)) : Nat → Option Nat → Option Bool
  | _, none => some false
  | 0, some _ => none
  | fuel + 1, some t =>
    match nodes[t]? with
    | none => none
    | some tn => if s.eq tn.key then some true else findRight s nodes fuel tn.right

/-- `isElementOnLevel(element, level)`. -/
def isElementOnLevel (set : SkipListSet α) (element : α) (level : Nat) : Option Bool :=
  if level > set.lv then some false
  else
    match goDown set.nodes (set.lv - level) set.topHead with
    | none => none
    | some temp => findRight ⟨.Normal, element⟩ set.nodes (set.nodes.length + 1) temp

/-- Calls of `add`, one per element of the list, in order. -/
def addAll (s : SkipListSet α) : List α → Option (SkipListSet α)
  | [] => some s
  | x :: xs => (s.add x).bind fun s' => addAll s' xs

/-- The loop of lines 331-337 of the copy constructor, `n` rounds: a new head sentinel and a
new tail sentinel per round, each with the one before as its `bottom`.  The result is
`topHead`, `topTail` and the nodes of the copy. -/
def copySentinels (headKey tailKey : SkipListKey α) :
    Nat → Nat → Nat → List (Node α) → Nat × Nat × List (Node α)
  | 0, topHead, topTail, nodes => (topHead, topTail, nodes)
  | n + 1, topHead, topTail, nodes =>
    copySentinels headKey tailKey n nodes.length (nodes.length + 1)
      (nodes ++ [(⟨headKey, some topHead, none⟩ : Node α), ⟨tailKey, some topTail, none⟩])

/-- The loop of lines 350-356 and the assignment of line 357 after it: `temp` walks a level
of the source `src` until its key is that of `topTail` of the copy, a new node per step is
linked to the right of `current`; then `current->right = currentTail`.  The result is the
nodes of the copy. -/
def copyRow (src : List (Node α)) (topTail : Nat) (currentTail : Option Nat) :
    Nat → Option Nat → Nat → List (Node α) → Option (List (Node α))
  | 0, _, _, _ => none
  | fuel + 1, temp, current, nodes =>
    match temp with
    | none => none
    | some t =>
      match src[t]? with
      | none => none
      | some tn =>
        match nodes[topTail]? with
        | none => none
        | some tt =>
          match nodes[current]? with
          | none => none
          | some cur =>
            if tn.key.eq tt.key then some (nodes.set current (cur.setRight currentTail))
            else
              copyRow src topTail currentTail fuel tn.right nodes.length
                ((nodes ++ [(⟨tn.key, none, none⟩ : Node α)]).set current
                  (cur.setRight (some nodes.length)))

/-- One round of the loop of lines 339-358: level `i` of the source `s` is copied onto level
`i` of the copy. -/
def copyLevel (s : SkipListSet α) (topHead topTail : Nat) (nodes : List (Node α)) (i : Nat) :
    Option (List (Node α)) :=
  match goDown s.nodes (s.lv - i) s.topHead with
  | none => none
  | some temp =>
    match goDown nodes (s.lv - i) (some topHead) with
    | none => none
    | some current =>
      match goDown nodes (s.lv - i) (some topTail) with
      | none => none
      | some currentTail =>
        match temp with
        | none => none
        | some t =>
          match s.nodes[t]? with
          | none => none
          | some tn =>
            match current with
            | none => none
            | some c => copyRow s.nodes topTail currentTail s.nodes.length tn.right c nodes

/-- The loop of lines 371-374: `currentBot` goes right until its key is `key`. -/
def scanBottom (key : SkipListKey α) (nodes : List (Node α)) : Nat → Option Nat → Option Nat
  | 0, _ => none
  | fuel + 1, currentBot =>
    match currentBot with
    | none => none
    | some b =>
      match nodes[b]? with
      | none => none
      | some bn => if key.eq bn.key then some b else scanBottom key nodes fuel bn.right

/-- The loop of lines 369-377: every node to the right of `current`, `current` included,
gets as its `bottom` the node that `currentBot` reaches. -/
def linkBottoms : Nat → Option Nat → Option Nat → List (Node α) → Option (List (Node α))
  | _, none, _, nodes => some nodes
  | 0, some _, _, _ => none
  | fuel + 1, some c, currentBot, nodes =>
    match nodes[c]? with
    | none => none
    | some cn =>
      match scanBottom cn.key nodes nodes.length currentBot with
      | none => none
      | some b => linkBottoms fuel cn.right (some b) (nodes.set c (cn.setBottom (some b)))

/-- One round of the loop of lines 360-378: the `bottom` fields of level `i + 1` of the
copy. -/
def linkLevel (lv topHead : Nat) (nodes : List (Node α)) (i : Nat) : Option (List (Node α)) :=
  match goDown nodes (lv - i - 1) (some topHead) with
  | none => none
  | some current =>
    match current with
    | none => none
    | some c =>
      match nodes[c]? with
      | none => none
      | some cn => linkBottoms nodes.length (some c) cn.bottom nodes

/-- `SkipListSet(const SkipListSet& s)`.  The nodes of the copy are new ones, so its pointers
are indices in its own list of nodes.  `clone` is the list of the answers that the level
tester made by `s.levelTester->clone()` is going to give. -/
def copy (s : SkipListSet α) (clone : List Bool) : Option (SkipListSet α) :=
  match s.head with
  | none => none
  | some h =>
    match s.nodes[h]? with
    | none => none
    | some hn =>
      match s.tail with
      | none => none
      | some t =>
        match s.nodes[t]? with
        | none => none
        | some tn =>
          let sentinels := copySentinels hn.key tn.key s.lv 0 1
            [(⟨hn.key, none, none⟩ : Node α), ⟨tn.key, none, none⟩]
          let topHead := sentinels.1
          let topTail := sentinels.2.1
          match (List.range (s.lv + 1)).foldlM (copyLevel s topHead topTail) sentinels.2.2 with
          | none => none
          | some nodes =>
            match (List.range s.lv).foldlM (linkLevel s.lv topHead) nodes with
            | none => none
            | some nodes' =>
              some { levelTester := clone, sz := s.sz, lv := s.lv, head := some 0,
                     tail := some 1, topHead := some topHead, topTail := some topTail,
                     nodes := nodes' }

/-- `SkipListSet(SkipListSet&& s)`, the move constructor: the new set, which takes over the
nodes, and `s` after the call.  `std::move` on the `int` members copies them, so `s` keeps
`sz` and `lv`; its four pointers are set to null, and it has no nodes left.  (Its level
tester pointer is null as well; here it is the tester with no answers left, and nothing
reads it.) -/
def move (s : SkipListSet α) : SkipListSet α × SkipListSet α :=
  ({ levelTester := s.levelTester, sz := s.sz, lv := s.lv, head := s.head, tail := s.tail,
     topHead := s.topHead, topTail := s.topTail, nodes := s.nodes },
    { levelTester := [], sz := s.sz, lv := s.lv, head := none, tail := none,
      topHead := none, topTail := none, nodes := [] })

/-- The loop of lines 497-503 that deletes the nodes of a level from `current` on: it reads
the `right` field of every node up to the null pointer. -/
def deleteRight (nodes : List (Node α)) : Nat → Nat → Option Unit
  | 0, _ => none
  | fuel + 1, current =>
    match nodes[current]? with
    | none => none
    | some cn =>
      match cn.right with
      | none => some ()
      | some r => deleteRight nodes fuel r

/-- The loop of lines 487-505 that deletes the levels, `rounds` rounds from round `i` on:
down from `topHead` by `lv - i` levels, `break` on a null pointer, else delete the level.  No
round reads a node that an earlier round has deleted, so the nodes are read as they were;
`none` is a null dereference. -/
def deleteLevels (set : SkipListSet α) : Nat → Nat → Option Unit
  | 0, _ => some ()
  | rounds + 1, i =>
    match goDown set.nodes (set.lv - i) set.topHead with
    | none => none
    | some none => some ()
    | some (some current) =>
      match deleteRight set.nodes set.nodes.length current with
      | none => none
      | some _ => deleteLevels set rounds (i + 1)

/-- `~SkipListSet()`, the destructor (lines 297-319): its loop is the loop of lines 487-505,
run for `lv + 1` rounds from round 0.  `none` is a null dereference. -/
def destroy (set : SkipListSet α) : Option Unit :=
  deleteLevels set (set.lv + 1) 0

/-- `operator=(SkipListSet&& s)` on a set `this` that is not `s`: `this` and `s` after the
call.  The levels of `this` are deleted first. -/
def moveAssign (this s : SkipListSet α) : Option (SkipListSet α × SkipListSet α) :=
  match deleteLevels this (this.lv + 1) 0 with
  | none => none
  | some _ => some s.move

end SkipListSet

/-! ### Notions used to state and prove the properties of `SkipListSet` -/

namespace SkipListSet

variable {α : Type} [LinearOrder α] [Inhabited α]

/-- A level of the skip list as it lies in memory: the nodes met by following `right` from
the head sentinel of the level, each with its index. -/
abbrev Row (α : Type) := List (Nat × Node α)

/-- Two neighbours on a level: the `right` field of the first is the index of the second,
and the keys ascend. -/
def Link (a b : Nat × Node α) : Prop :=
  a.2.right = some b.1 ∧ a.2.key.lt b.2.key = true

/-- A well-formed level: linked and strictly ascending from a `NegInf` sentinel to a `PosInf`
sentinel whose `right` is null. -/
def RowOK (r : Row α) : Prop :=
  r.Chain' Link ∧
  (∃ h, r.head? = some h ∧ h.2.key = ⟨.NegInf, default⟩) ∧
  (∃ t, r.getLast? = some t ∧ t.2.key = ⟨.PosInf, default⟩ ∧ t.2.right = none)

/-- The `bottom` fields of a level: null on the lowest level, else the index of the node
with the same key one level down. -/
def Bottoms (r : Row α) : Option (Row α) → Prop
  | none => ∀ p ∈ r, p.2.bottom = none
  | some below => ∀ p ∈ r, ∃ q ∈ below, p.2.bottom = some q.1 ∧ q.2.key = p.2.key

/-- A well-formed tower of levels, the top level first. -/
def TowerOK : List (Row α) → Prop
  | [] => True
  | r :: below => RowOK r ∧ Bottoms r below.head? ∧ TowerOK below

/-- The nodes of a level are in memory as the level says. -/
def Agrees (nodes : List (Node α)) (r : Row α) : Prop :=
  ∀ p ∈ r, nodes[p.1]? = some p.2

/-- The keys on a level. -/
def keysOf (r : Row α) : List (SkipListKey α) := r.map fun p => p.2.key

/-- The lowest level of a tower. -/
def baseOf (rows : List (Row α)) : Row α := rows.getLast?.getD []

/-- The nodes met by following `right` from `temp` up to the null pointer, each with its
index: a level as it is read from memory. -/
def followRight (nodes : List (Node α)) : Nat → Option Nat → Option (Row α)
  | _, none => some []
  | 0, some _ => none
  | fuel + 1, some t =>
    match nodes[t]? with
    | none => none
    | some tn => (followRight nodes fuel tn.right).map fun rest => (t, tn) :: rest

/-- The nodes of level `level`, read the way `elementsOnLevel` and `isElementOnLevel` read
it: down from `topHead`, then along `right`. -/
def levelNodes (set : SkipListSet α) (level : Nat) : Option (Row α) :=
  match goDown set.nodes (set.lv - level) set.topHead with
  | none => none
  | some temp => followRight set.nodes (set.nodes.length + 1) temp

/-- Level `level` of a tower that is given top level first; no nodes when there is no such
level. -/
def levelRow (rows : List (Row α)) (level : Nat) : Row α := rows.reverse[level]?.getD []

/-- The number of times the level tester says yes before its first no. -/
def yesCount : List Bool → Nat
  | true :: answers => yesCount answers + 1
  | _ => 0

/-- The levels `rows`, the top level first, lie in the memory `nodes`: they form a
well-formed tower, no node is on two levels or twice on one, and every allocated node is on
a level. -/
structure Stored (nodes : List (Node α)) (rows : List (Row α)) : Prop where
  tower : TowerOK rows
  agrees : ∀ r ∈ rows, Agrees nodes r
  nodup : (rows.flatten.map Prod.fst).Nodup
  count : rows.flatten.length = nodes.length

/-- What holds of every `SkipListSet` built by `add` calls from a new one; `rows` are its
levels, the top level first. -/
structure Inv (set : SkipListSet α) (rows : List (Row α)) : Prop where
  stored : Stored set.nodes rows
  levels : rows.length = set.lv + 1
  topHead : set.topHead = (rows.head?.bind List.head?).map Prod.fst
  topTail : set.topTail = (rows.head?.bind List.getLast?).map Prod.fst
  head : set.head = (rows.getLast?.bind List.head?).map Prod.fst
  tail : set.tail = (rows.getLast?.bind List.getLast?).map Prod.fst

/-- The levels `rows` lie in the memory `nodes`, whatever their links are: `Stored` without
the condition on the tower. -/
structure Laid (nodes : List (Node α)) (rows : List (Row α)) : Prop where
  agrees : ∀ r ∈ rows, Agrees nodes r
  nodup : (rows.flatten.map Prod.fst).Nodup
  count : rows.flatten.length = nodes.length

/-- A level that has its two sentinels only, not linked yet. -/
def IsPair (headKey tailKey : SkipListKey α) (r : Row α) : Prop :=
  ∃ hi ti hb tb, r = [(hi, (⟨headKey, hb, none⟩ : Node α)), (ti, ⟨tailKey, tb, none⟩)]

/-- The index and the `bottom` field of the first node of a level. -/
def headInfo (r : Row α) : Option (Nat × Option Nat) := r.head?.map fun p => (p.1, p.2.bottom)

/-- The index and the `bottom` field of the last node of a level. -/
def lastInfo (r : Row α) : Option (Nat × Option Nat) :=
  r.getLast?.map fun p => (p.1, p.2.bottom)

/-- The `bottom` field of the first is the index of the second. -/
def DownLink (a b : Option (Nat × Option Nat)) : Prop :=
  ∃ i j jb, a = some (i, some j) ∧ b = some (j, jb)

/-- The `right` field of the first is the index of the second. -/
def RightTo (a b : Nat × Node α) : Prop := a.2.right = some b.1

/-- Two nodes with the same index, key and `right` field. -/
def SameButBottom (a b : Nat × Node α) : Prop :=
  a.1 = b.1 ∧ a.2.key = b.2.key ∧ a.2.right = b.2.right

end SkipListSet
/-! ## WordChecker.cpp -/

namespace WordChecker

/-- The number of values of `size_t`, the type of `word.length()` (64 bits). -/
def sizeMax : Nat := 2 ^ 64

/-- `word.at(i)` on a `std::string`, which is the list of its characters here; `none` is
the exception `std::out_of_range`. -/
def charAt (word : List Char) (i : Nat) : Option Char := word[i]?

/-- `word.substr(pos, len)`: the characters from position `pos` on, at most `len` of them;
`none` is the exception `std::out_of_range`, thrown when `pos` is beyond the length. -/
def substr (word : List Char) (pos len : Nat) : Option (List Char) :=
  if pos > word.length then none else some ((word.drop pos).take len)

/-- The vector `letter` of `insertAdjacent` and `replaceCharacter`. -/
def letter : List (List Char) :=
  [['A'], ['B'], ['C'], ['D'], ['E'], ['F'], ['G'], ['H'], ['I'], ['J'], ['K'], ['L'], ['M'],
    ['N'], ['O'], ['P'], ['Q'], ['R'], ['S'], ['T'], ['U'], ['V'], ['W'], ['X'], ['Y'], ['Z']]

/-- `if(wordExists(temp)) result.push_back(temp);`. -/
def pushIfExists (wordExists : List Char → Bool) (result : List (List Char))
    (temp : List Char) : List (List Char) :=
  if wordExists temp then result ++ [temp] else result

/-- The string `temp` of `swapAdjacent` for position `i`. -/
def swapAt (word : List Char) (i : Nat) : Option (List Char) :=
  match substr word 0 i, charAt word (i + 1), charAt word i,
      substr word (i + 2) (word.length - i - 2) with
  | some a, some b, some c, some d => some (a ++ [b] ++ [c] ++ d)
  | _, _, _, _ => none

/-- The loop of `swapAdjacent` from `i` on; the first argument is the number of rounds that
are left up to the bound. -/
def swapAdjacentLoop (wordExists : List Char → Bool) (word : List Char) :
    Nat → Nat → List (List Char) → Option (List (List Char))
  | 0, _, result => some result
  | rounds + 1, i, result =>
    match swapAt word i with
    | none => none
    | some temp =>
      swapAdjacentLoop wordExists word rounds (i + 1) (pushIfExists wordExists result temp)

/-- `swapAdjacent(word)`.  The bound `word.length() - 1` of the loop is computed in
`size_t`, so for the empty word it is `sizeMax - 1`. -/
def swapAdjacent (wordExists : List Char → Bool) (word : List Char) :
    Option (List (List Char)) :=
  swapAdjacentLoop wordExists word ((word.length + sizeMax - 1) % sizeMax) 0 []

/-- The string `temp` of the first loop of `insertAdjacent` for position `i` and a letter. -/
def insertAt (word : List Char) (i : Nat) (l : List Char) : Option (List Char) :=
  match substr word 0 i, substr word i (word.length - i) with
  | some a, some b => some (a ++ l ++ b)
  | _, _ => none

/-- `insertAdjacent(word)`. -/
def insertAdjacent (wordExists : List Char → Bool) (word : List Char) :
    Option (List (List Char)) :=
  match (List.range word.length).foldlM
      (fun result i =>
        letter.foldlM (fun result l => (insertAt word i l).map (pushIfExists wordExists result))
          result) [] with
  | none => none
  | some result =>
    some (letter.foldl (fun result l => pushIfExists wordExists result (word ++ l)) result)

/-- The string `temp` of `deleteCharacter` for position `i`. -/
def deleteAt (word : List Char) (i : Nat) : Option (List Char) :=
  match substr word 0 i, substr word (i + 1) (word.length - i - 1) with
  | some a, some b => some (a ++ b)
  | _, _ => none

/-- `deleteCharacter(word)`. -/
def deleteCharacter (wordExists : List Char → Bool) (word : List Char) :
    Option (List (List Char)) :=
  (List.range word.length).foldlM
    (fun result i => (deleteAt word i).map (pushIfExists wordExists result)) []

/-- The string `temp` of `replaceCharacter` for position `i` and a letter. -/
def replaceAt (word : List Char) (i : Nat) (l : List Char) : Option (List Char) :=
  match substr word 0 i, substr word (i + 1) (word.length - i - 1) with
  | some a, some b => some (a ++ l ++ b)
  | _, _ => none

/-- `replaceCharacter(word)`. -/
def replaceCharacter (wordExists : List Char → Bool) (word : List Char) :
    Option (List (List Char)) :=
  (List.range word.length).foldlM
    (fun result i =>
      letter.foldlM (fun result l => (replaceAt word i l).map (pushIfExists wordExists result))
        result) []

/-- The body of the loop of `splitAdjacent` for position `i`. -/
def splitAt (wordExists : List Char → Bool) (word : List Char) (result : List (List Char))
    (i : Nat) : Option (List (List Char)) :=
  match substr word 0 i, substr word i (word.length - i) with
  | some temp0, some temp1 =>
    if wordExists temp0 && wordExists temp1 then some (result ++ [temp0 ++ [' '] ++ temp1])
    else some result
  | _, _ => none

/-- `splitAdjacent(word)`. -/
def splitAdjacent (wordExists : List Char → Bool) (word : List Char) :
    Option (List (List Char)) :=
  (List.range word.length).foldlM (splitAt wordExists word) []

/-- One of the five loops of `findSuggestions`: the strings of `words` that `result` does
not hold yet are pushed onto it, in order. -/
def pushNew (result words : List (List Char)) : List (List Char) :=
  words.foldl (fun result w => if w ∈ result then result else result ++ [w]) result

/-- `findSuggestions(word)`; `wordExists` is the `contains` of the set the checker was made
with.  `none` is an exception thrown on the way. -/
def findSuggestions (wordExists : List Char → Bool) (word : List Char) :
    Option (List (List Char)) :=
  match swapAdjacent wordExists word with
  | none => none
  | some wordFromSwap =>
    match insertAdjacent wordExists word with
    | none => none
    | some wordFromInsert =>
      match deleteCharacter wordExists word with
      | none => none
      | some wordFromDelete =>
        match replaceCharacter wordExists word with
        | none => none
        | some wordFromReplace =>
          match splitAdjacent wordExists word with
          | none => none
          | some wordFromSplit =>
            some (pushNew (pushNew (pushNew (pushNew (pushNew [] wordFromSwap) wordFromInsert)
              wordFromDelete) wordFromReplace) wordFromSplit)

end WordChecker

/-! ### Notions used to state the properties of `WordChecker` -/

namespace WordChecker

/-- The `contains` of a set of strings that holds exactly "CAT", "CAR" and "CARS". -/
def catCarCars (w : List Char) : Bool :=
  decide (w ∈ [['C', 'A', 'T'], ['C', 'A', 'R'], ['C', 'A', 'R', 'S']])

/-- The position of the first string equal to `s` in a list of strings, and the length of
the list when there is none. -/
def firstIndex (s : List Char) : List (List Char) → Nat
  | [] => 0
  | w :: ws => if w = s then 0 else firstIndex s ws + 1

end WordChecker


/-! ## Properties of `AVLSet` -/

namespace NodeA
variable {α : Type}

theorem inorderHelper_rootOf (t : NodeA α) (up : List (ParentLink α)) :
    inorderHelper (rootOf t up) = leftOf up ++ (inorderHelper t ++ rightOf up) := by
  induction up generalizing t with
  | nil => simp [rootOf, leftOf, rightOf]
  | cons p up ih =>
    cases p <;> simp [rootOf, attach, leftOf, rightOf, ih, inorderHelper]

variable [LinearOrder α]

theorem descend_eq_none_iff (x : α) (t : NodeA α) (up : List (ParentLink α)) (ht : t ≠ null) :
    descend x t up = none ↔ containsLoop x t = true := by
  induction t generalizing up with
  | null => exact absurd rfl ht
  | mk e l r ihl ihr =>
    unfold descend containsLoop
    by_cases h1 : e > x
    · have h2 : e ≠ x := ne_of_gt h1
      simp only [h1, h2, if_true, if_false]
      cases l with
      | null => simp [containsLoop]
      | mk le ll lr => exact ihl _ (by simp)
    · by_cases h3 : e < x
      · have h2 : e ≠ x := ne_of_lt h3
        simp only [h1, h2, h3, if_true, if_false]
        cases r with
        | null => simp [containsLoop]
        | mk re rl rr => exact ihr _ (by simp)
      · have h2 : e = x := le_antisymm (not_lt.mp h1) (not_lt.mp h3)
        simp [h1, h3, h2]

theorem descend_rootOf (x : α) (t : NodeA α) (up : List (ParentLink α))
    (cur : NodeA α) (up' : List (ParentLink α)) (h : descend x t up = some (cur, up')) :
    rootOf cur up' = rootOf (insertRec x t) up := by
  induction t generalizing up with
  | null => simp [descend] at h
  | mk e l r ihl ihr =>
    unfold descend at h
    unfold insertRec
    by_cases h1 : e > x
    · simp only [h1, if_true] at h ⊢
      cases l with
      | null =>
        simp only [Option.some.injEq, Prod.mk.injEq] at h
        obtain ⟨rfl, rfl⟩ := h
        simp [insertRec]
      | mk le ll lr =>
        have := ihl _ h
        simpa [rootOf, attach] using this
    · by_cases h3 : e < x
      · simp only [h1, h3, if_true, if_false] at h ⊢
        cases r with
        | null =>
          simp only [Option.some.injEq, Prod.mk.injEq] at h
          obtain ⟨rfl, rfl⟩ := h
          simp [insertRec]
        | mk re rl rr =>
          have := ihr _ h
          simpa [rootOf, attach] using this
      · simp [h1, h3] at h

theorem isBST_mk (e : α) (l r : NodeA α) :
    IsBST (mk e l r) ↔ IsBST l ∧ IsBST r ∧ (∀ a ∈ inorderHelper l, a < e) ∧
      (∀ b ∈ inorderHelper r, e < b) := by
  unfold IsBST
  simp only [inorderHelper, List.pairwise_append, List.pairwise_cons, List.mem_cons]
  constructor
  · rintro ⟨hl, ⟨hr1, hr2⟩, h⟩
    exact ⟨hl, hr2, fun a ha => h a ha e (Or.inl rfl), hr1⟩
  · rintro ⟨hl, hr, h1, h2⟩
    refine ⟨hl, ⟨h2, hr⟩, ?_⟩
    intro a ha b hb
    rcases hb with rfl | hb
    · exact h1 a ha
    · exact lt_trans (h1 a ha) (h2 b hb)

theorem containsLoop_iff (x : α) (t : NodeA α) (h : IsBST t) :
    containsLoop x t = true ↔ x ∈ inorderHelper t := by
  induction t with
  | null => simp [containsLoop, inorderHelper]
  | mk e l r ihl ihr =>
    rw [isBST_mk] at h
    obtain ⟨hl, hr, h1, h2⟩ := h
    unfold containsLoop
    simp only [inorderHelper, List.mem_append, List.mem_cons]
    by_cases h0 : e = x
    · simp [h0]
    · by_cases h3 : e > x
      · simp only [h0, h3, if_true, if_false, ihl hl]
        constructor
        · exact Or.inl
        · rintro (h | h | h)
          · exact h
          · exact absurd h.symm h0
          · exact absurd (lt_trans (h2 x h) h3) (lt_irrefl _)
      · simp only [h0, h3, if_false, ihr hr]
        constructor
        · exact fun h => Or.inr (Or.inr h)
        · rintro (h | h | h)
          · exact absurd (h1 x h) (fun h4 => h3 (lt_of_le_of_ne (le_of_lt h4) (Ne.symm h0) |> fun h5 => h5))
          · exact absurd h.symm h0
          · exact h

theorem mem_insertRec (x a : α) (t : NodeA α) :
    a ∈ inorderHelper (insertRec x t) ↔ a = x ∨ a ∈ inorderHelper t := by
  induction t with
  | null => simp [insertRec, inorderHelper]
  | mk e l r ihl ihr =>
    unfold insertRec
    split_ifs with h1 h2
    · simp only [inorderHelper, List.mem_append, List.mem_cons, ihl]; tauto
    · simp only [inorderHelper, List.mem_append, List.mem_cons, ihr]; tauto
    · have : e = x := le_antisymm (not_lt.mp h1) (not_lt.mp h2)
      simp only [inorderHelper, List.mem_append, List.mem_cons]
      subst this; tauto

theorem isBST_insertRec (x : α) (t : NodeA α) (h : IsBST t) : IsBST (insertRec x t) := by
  induction t with
  | null => simp [insertRec, IsBST, inorderHelper]
  | mk e l r ihl ihr =>
    have h' := h
    rw [isBST_mk] at h'
    obtain ⟨hl, hr, h1, h2⟩ := h'
    unfold insertRec
    split_ifs with h3 h4
    · rw [isBST_mk]
      refine ⟨ihl hl, hr, ?_, h2⟩
      intro a ha
      rcases (mem_insertRec x a l).mp ha with rfl | ha
      · exact h3
      · exact h1 a ha
    · rw [isBST_mk]
      refine ⟨hl, ihr hr, h1, ?_⟩
      intro a ha
      rcases (mem_insertRec x a r).mp ha with rfl | ha
      · exact h4
      · exact h2 a ha
    · exact h

theorem length_insertRec (x : α) (t : NodeA α) (h : containsLoop x t = false) :
    (inorderHelper (insertRec x t)).length = (inorderHelper t).length + 1 := by
  induction t with
  | null => simp [insertRec, inorderHelper]
  | mk e l r ihl ihr =>
    unfold containsLoop at h
    unfold insertRec
    by_cases h0 : e = x
    · simp [h0] at h
    · simp only [h0, if_false] at h
      by_cases h1 : e > x
      · simp only [h1, if_true] at h ⊢
        simp only [inorderHelper, List.length_append, List.length_cons, ihl h]; omega
      · have h2 : e < x := lt_of_le_of_ne (not_lt.mp h1) h0
        simp only [h1, h2, if_true, if_false] at h ⊢
        simp only [inorderHelper, List.length_append, List.length_cons, ihr h]; omega

end NodeA

namespace NodeA
variable {α : Type}

theorem heightHelper_mk (e : α) (l r : NodeA α) :
    heightHelper (mk e l r) = max (heightHelper l) (heightHelper r) + 1 := by
  simp only [heightHelper]
  split_ifs <;> omega

theorem heightHelper_ge (t : NodeA α) : -1 ≤ heightHelper t := by
  induction t with
  | null => simp [heightHelper]
  | mk e l r ihl ihr => rw [heightHelper_mk]; omega

theorem heightHelper_null : heightHelper (null : NodeA α) = -1 := rfl

variable [LinearOrder α]

theorem rebalanceWalk_succ (x : α) (fuel : Nat) (e : α) (l r : NodeA α)
    (up : List (ParentLink α)) :
    rebalanceWalk x (fuel + 1) (mk e l r) up =
      if heightHelper l - heightHelper r > 1 ∨ heightHelper l - heightHelper r < -1 then
        match rotateAt x up.head? (mk e l r) with
        | none => none
        | some none => moveUp x fuel (mk e l r) up
        | some (some t) => rebalanceWalk x fuel t up
      else moveUp x fuel (mk e l r) up := by
  cases up <;> rfl

theorem rebalanceWalk_mono (x : α) (fuel : Nat) (t : NodeA α) (up : List (ParentLink α))
    (res : NodeA α) (h : rebalanceWalk x fuel t up = some res) :
    rebalanceWalk x (fuel + 1) t up = some res := by
  induction fuel generalizing t up with
  | zero => simp [rebalanceWalk] at h
  | succ n ih =>
    cases t with
    | null => simp [rebalanceWalk] at h
    | mk e l r =>
      rw [rebalanceWalk_succ] at h ⊢
      have hmove : ∀ t', moveUp x n t' up = some res → moveUp x (n + 1) t' up = some res := by
        intro t' h'
        cases up with
        | nil => exact h'
        | cons p above => exact ih _ _ h'
      split_ifs at h ⊢ with hd
      · cases hrot : rotateAt x up.head? (mk e l r) with
        | none => simp [hrot] at h
        | some o =>
          cases o with
          | none => simp only [hrot] at h ⊢; exact hmove _ h
          | some t' => simp only [hrot] at h ⊢; exact ih _ _ h
      · exact hmove _ h

theorem moveUp_mono (x : α) (fuel : Nat) (t : NodeA α) (up : List (ParentLink α))
    (res : NodeA α) (h : moveUp x fuel t up = some res) :
    moveUp x (fuel + 1) t up = some res := by
  cases up with
  | nil => exact h
  | cons p above => exact rebalanceWalk_mono x _ _ _ _ h

/-- One visit of the walk on the left side. -/
theorem visit_left (x e : α) (l r : NodeA α) (hl : Int) (up : List (ParentLink α))
    (hx : x < e) (hg : Grown x hl l) (hr : IsAVL r)
    (hb : hl - heightHelper r ≤ 1 ∧ -1 ≤ hl - heightHelper r)
    (hrel : relinks e up.head? = true) :
    ∃ t, Grown x (max hl (heightHelper r) + 1) t ∧
      inorderHelper t = inorderHelper (mk e l r) ∧
      ∀ fuel res, moveUp x fuel t up = some res →
        rebalanceWalk x (fuel + 2) (mk e l r) up = some res := by
  obtain ⟨havl, hgl⟩ := hg
  have hrge := heightHelper_ge r
  by_cases hd : heightHelper l - heightHelper r > 1 ∨ heightHelper l - heightHelper r < -1
  · -- a rotation
    have hgl' : heightHelper l = hl + 1 ∧ Tilted x l := by
      rcases hgl with h | h
      · omega
      · exact h
    obtain ⟨hlh, htl⟩ := hgl'
    cases l with
    | null => exact absurd htl (by simp [Tilted])
    | mk le ll lr =>
      obtain ⟨ht1, ht2, ht3⟩ := htl
      rw [heightHelper_mk] at hlh hd
      obtain ⟨⟨ha1, ha2⟩, hall, halr⟩ := havl
      have hllge := heightHelper_ge ll
      have hlrge := heightHelper_ge lr
      by_cases h1 : le > x
      · have ht1' := ht1 h1
        refine ⟨mk le ll (mk e lr r), ⟨⟨⟨?_, ?_⟩, hall, ⟨?_, ?_⟩, halr, hr⟩, Or.inl ?_⟩, ?_, ?_⟩
        · rw [heightHelper_mk]; omega
        · rw [heightHelper_mk]; omega
        · omega
        · omega
        · rw [heightHelper_mk, heightHelper_mk]; omega
        · simp [inorderHelper]
        · intro fuel res hm
          have hrot : rotateAt x up.head? (mk e (mk le ll lr) r) =
              some (some (mk le ll (mk e lr r))) := by
            simp [rotateAt, hx, h1, llRotation, hrel]
          rw [rebalanceWalk_succ, if_pos (by rw [heightHelper_mk]; exact hd), hrot]
          simp only
          rw [rebalanceWalk_succ, if_neg (by rw [heightHelper_mk]; omega)]
          exact hm
      · by_cases h2 : le < x
        · have ht2' := ht2 h2
          cases lr with
          | null => rw [heightHelper_null] at ht2'; omega
          | mk b t2 t3 =>
            rw [heightHelper_mk] at ht2' hlh hd ha1 ha2
            obtain ⟨⟨hb1, hb2⟩, hat2, hat3⟩ := halr
            refine ⟨mk b (mk le ll t2) (mk e t3 r),
              ⟨⟨⟨?_, ?_⟩, ⟨⟨?_, ?_⟩, hall, hat2⟩, ⟨?_, ?_⟩, hat3, hr⟩, Or.inl ?_⟩, ?_, ?_⟩
            · rw [heightHelper_mk, heightHelper_mk]; omega
            · rw [heightHelper_mk, heightHelper_mk]; omega
            · omega
            · omega
            · omega
            · omega
            · rw [heightHelper_mk, heightHelper_mk, heightHelper_mk]; omega
            · simp [inorderHelper]
            · intro fuel res hm
              have hrot : rotateAt x up.head? (mk e (mk le ll (mk b t2 t3)) r) =
                  some (some (mk b (mk le ll t2) (mk e t3 r))) := by
                simp [rotateAt, hx, h1, h2, lrRotation, hrel]
              rw [rebalanceWalk_succ,
                if_pos (by rw [heightHelper_mk, heightHelper_mk]; exact hd), hrot]
              simp only
              rw [rebalanceWalk_succ,
                if_neg (by rw [heightHelper_mk, heightHelper_mk]; omega)]
              exact hm
        · have h3 : le = x := le_antisymm (not_lt.mp h1) (not_lt.mp h2)
          obtain ⟨rfl, rfl⟩ := ht3 h3
          simp only [heightHelper_null] at hlh hd
          omega
  · -- no rotation
    refine ⟨mk e l r, ⟨⟨⟨by omega, by omega⟩, havl, hr⟩, ?_⟩, rfl, ?_⟩
    · rw [heightHelper_mk]
      by_cases hc : heightHelper l = hl + 1 ∧ hl = heightHelper r
      · right
        refine ⟨by omega, fun _ => by omega, fun h => absurd hx (not_lt_of_gt h), ?_⟩
        intro h; exact absurd hx (by rw [h]; exact lt_irrefl _)
      · left
        rcases hgl with h | ⟨h, _⟩ <;> omega
    · intro fuel res hm
      rw [rebalanceWalk_succ, if_neg hd]
      exact moveUp_mono _ _ _ _ _ hm

/-- One visit of the walk on the right side. -/
theorem visit_right (x e : α) (l r : NodeA α) (hr : Int) (up : List (ParentLink α))
    (hx : e < x) (hg : Grown x hr r) (hl : IsAVL l)
    (hb : heightHelper l - hr ≤ 1 ∧ -1 ≤ heightHelper l - hr)
    (hrel : relinks e up.head? = true) :
    ∃ t, Grown x (max (heightHelper l) hr + 1) t ∧
      inorderHelper t = inorderHelper (mk e l r) ∧
      ∀ fuel res, moveUp x fuel t up = some res →
        rebalanceWalk x (fuel + 2) (mk e l r) up = some res := by
  obtain ⟨havl, hgr⟩ := hg
  have hlge := heightHelper_ge l
  have hnx : ¬ e > x := not_lt_of_gt hx
  by_cases hd : heightHelper l - heightHelper r > 1 ∨ heightHelper l - heightHelper r < -1
  · -- a rotation
    have hgr' : heightHelper r = hr + 1 ∧ Tilted x r := by
      rcases hgr with h | h
      · omega
      · exact h
    obtain ⟨hrh, htr⟩ := hgr'
    cases r with
    | null => exact absurd htr (by simp [Tilted])
    | mk re rl rr =>
      obtain ⟨ht1, ht2, ht3⟩ := htr
      rw [heightHelper_mk] at hrh hd
      obtain ⟨⟨ha1, ha2⟩, harl, harr⟩ := havl
      have hrlge := heightHelper_ge rl
      have hrrge := heightHelper_ge rr
      by_cases h1 : re < x
      · have ht2' := ht2 h1
        refine ⟨mk re (mk e l rl) rr, ⟨⟨⟨?_, ?_⟩, ⟨⟨?_, ?_⟩, hl, harl⟩, harr⟩, Or.inl ?_⟩, ?_, ?_⟩
        · rw [heightHelper_mk]; omega
        · rw [heightHelper_mk]; omega
        · omega
        · omega
        · rw [heightHelper_mk, heightHelper_mk]; omega
        · simp [inorderHelper]
        · intro fuel res hm
          have hrot : rotateAt x up.head? (mk e l (mk re rl rr)) =
              some (some (mk re (mk e l rl) rr)) := by
            simp [rotateAt, hx, hnx, h1, rrRotation, hrel]
          rw [rebalanceWalk_succ, if_pos (by rw [heightHelper_mk]; exact hd), hrot]
          simp only
          rw [rebalanceWalk_succ, if_neg (by rw [heightHelper_mk]; omega)]
          exact hm
      · by_cases h2 : re > x
        · have ht1' := ht1 h2
          cases rl with
          | null => rw [heightHelper_null] at ht1'; omega
          | mk b t2 t3 =>
            rw [heightHelper_mk] at ht1' hrh hd ha1 ha2
            obtain ⟨⟨hb1, hb2⟩, hat2, hat3⟩ := harl
            refine ⟨mk b (mk e l t2) (mk re t3 rr),
              ⟨⟨⟨?_, ?_⟩, ⟨⟨?_, ?_⟩, hl, hat2⟩, ⟨?_, ?_⟩, hat3, harr⟩, Or.inl ?_⟩, ?_, ?_⟩
            · rw [heightHelper_mk, heightHelper_mk]; omega
            · rw [heightHelper_mk, heightHelper_mk]; omega
            · omega
            · omega
            · omega
            · omega
            · rw [heightHelper_mk, heightHelper_mk, heightHelper_mk]; omega
            · simp [inorderHelper]
            · intro fuel res hm
              have hrot : rotateAt x up.head? (mk e l (mk re (mk b t2 t3) rr)) =
                  some (some (mk b (mk e l t2) (mk re t3 rr))) := by
                simp [rotateAt, hx, hnx, h1, h2, rlRotation, hrel]
              rw [rebalanceWalk_succ,
                if_pos (by rw [heightHelper_mk, heightHelper_mk]; exact hd), hrot]
              simp only
              rw [rebalanceWalk_succ,
                if_neg (by rw [heightHelper_mk, heightHelper_mk]; omega)]
              exact hm
        · have h3 : re = x := le_antisymm (not_lt.mp h2) (not_lt.mp h1)
          obtain ⟨rfl, rfl⟩ := ht3 h3
          simp only [heightHelper_null] at hrh hd
          omega
  · -- no rotation
    refine ⟨mk e l r, ⟨⟨⟨by omega, by omega⟩, hl, havl⟩, ?_⟩, rfl, ?_⟩
    · rw [heightHelper_mk]
      by_cases hc : heightHelper r = hr + 1 ∧ hr = heightHelper l
      · right
        refine ⟨by omega, fun h => absurd hx (not_lt_of_gt h), fun _ => by omega, ?_⟩
        intro h; exact absurd hx (by rw [h]; exact lt_irrefl _)
      · left
        rcases hgr with h | ⟨h, _⟩ <;> omega
    · intro fuel res hm
      rw [rebalanceWalk_succ, if_neg hd]
      exact moveUp_mono _ _ _ _ _ hm

end NodeA

namespace NodeA
variable {α : Type} [LinearOrder α]

theorem IsBST.of_rootOf (t : NodeA α) (up : List (ParentLink α)) (h : IsBST (rootOf t up)) :
    IsBST t := by
  unfold IsBST at h ⊢
  rw [inorderHelper_rootOf] at h
  exact (List.pairwise_append.mp (List.pairwise_append.mp h).2.1).1

theorem relinks_of_isBST (e : α) (l r : NodeA α) (up : List (ParentLink α))
    (h : IsBST (rootOf (mk e l r) up)) : relinks e up.head? = true := by
  cases up with
  | nil => rfl
  | cons p above =>
    have h' : IsBST (attach (mk e l r) p) := IsBST.of_rootOf _ above h
    have he : e ∈ inorderHelper (mk e l r) := by simp [inorderHelper]
    cases p with
    | ofLeft pe pr =>
      rw [attach, isBST_mk] at h'
      simpa [relinks] using h'.2.2.1 e he
    | ofRight pe pl =>
      rw [attach, isBST_mk] at h'
      simpa [relinks] using le_of_lt (h'.2.2.2 e he)

theorem isBST_rootOf_congr (t t' : NodeA α) (up : List (ParentLink α))
    (h : inorderHelper t' = inorderHelper t) (hb : IsBST (rootOf t up)) :
    IsBST (rootOf t' up) := by
  unfold IsBST at hb ⊢
  rw [inorderHelper_rootOf] at hb ⊢
  rw [h]; exact hb

omit [LinearOrder α] in
theorem inorderHelper_attach_congr (t t' : NodeA α) (p : ParentLink α)
    (h : inorderHelper t' = inorderHelper t) :
    inorderHelper (attach t' p) = inorderHelper (attach t p) := by
  cases p <;> simp [attach, inorderHelper, h]

/-- The walk from a visited node to the root: it returns, the result is balanced and has the
inorder sequence of the tree it started from. -/
theorem rebalanceWalk_spec (x : α) (up : List (ParentLink α)) (cur : NodeA α) (h0 : Int)
    (hv : Visit x h0 cur) (hp : PathOK x h0 up) (hb : IsBST (rootOf cur up)) :
    ∃ res, rebalanceWalk x (2 * up.length + 2) cur up = some res ∧ IsAVL res ∧
      inorderHelper res = inorderHelper (rootOf cur up) := by
  induction up generalizing cur h0 with
  | nil =>
    cases cur with
    | null => exact absurd hv (by simp [Visit])
    | mk e l r =>
      have hrel := relinks_of_isBST e l r [] hb
      rcases hv with ⟨hx, hl, hg, hr, hbal, rfl⟩ | ⟨hx, hr, hg, hl, hbal, rfl⟩
      · obtain ⟨t, hgt, hin, hw⟩ := visit_left x e l r hl [] hx hg hr hbal hrel
        exact ⟨t, hw 0 t rfl, hgt.1, hin⟩
      · obtain ⟨t, hgt, hin, hw⟩ := visit_right x e l r hr [] hx hg hl hbal hrel
        exact ⟨t, hw 0 t rfl, hgt.1, hin⟩
  | cons p above ih =>
    cases cur with
    | null => exact absurd hv (by simp [Visit])
    | mk e l r =>
      have hrel := relinks_of_isBST e l r (p :: above) hb
      have key : ∃ t, Grown x h0 t ∧ inorderHelper t = inorderHelper (mk e l r) ∧
          ∀ fuel res, moveUp x fuel t (p :: above) = some res →
            rebalanceWalk x (fuel + 2) (mk e l r) (p :: above) = some res := by
        rcases hv with ⟨hx, hl, hg, hr, hbal, rfl⟩ | ⟨hx, hr, hg, hl, hbal, rfl⟩
        · exact visit_left x e l r hl _ hx hg hr hbal hrel
        · exact visit_right x e l r hr _ hx hg hl hbal hrel
      obtain ⟨t, hgt, hin, hw⟩ := key
      have hb' : IsBST (rootOf (attach t p) above) :=
        isBST_rootOf_congr _ _ above (inorderHelper_attach_congr _ _ p hin) hb
      cases p with
      | ofLeft pe pr =>
        obtain ⟨hx, hpr, hbal, hp'⟩ := hp
        have hv' : Visit x (max h0 (heightHelper pr) + 1) (attach t (.ofLeft pe pr)) :=
          Or.inl ⟨hx, h0, hgt, hpr, hbal, rfl⟩
        obtain ⟨res, hres, havl, hino⟩ := ih _ _ hv' hp' hb'
        refine ⟨res, ?_, havl, ?_⟩
        · have := hw (2 * above.length + 2) res hres
          simpa [List.length_cons, Nat.mul_add] using this
        · rw [hino]
          simp only [inorderHelper_rootOf, rootOf]
          rw [inorderHelper_attach_congr _ _ _ hin]
      | ofRight pe pl =>
        obtain ⟨hx, hpl, hbal, hp'⟩ := hp
        have hv' : Visit x (max (heightHelper pl) h0 + 1) (attach t (.ofRight pe pl)) :=
          Or.inr ⟨hx, h0, hgt, hpl, hbal, rfl⟩
        obtain ⟨res, hres, havl, hino⟩ := ih _ _ hv' hp' hb'
        refine ⟨res, ?_, havl, ?_⟩
        · have := hw (2 * above.length + 2) res hres
          simpa [List.length_cons, Nat.mul_add] using this
        · rw [hino]
          simp only [inorderHelper_rootOf, rootOf]
          rw [inorderHelper_attach_congr _ _ _ hin]

/-- The descent hands the walk a node and a chain that fit `Visit` and `PathOK`. -/
theorem descend_visit (x : α) (t : NodeA α) (up : List (ParentLink α)) (cur : NodeA α)
    (up' : List (ParentLink α)) (havl : IsAVL t) (hp : PathOK x (heightHelper t) up)
    (h : descend x t up = some (cur, up')) :
    ∃ h0, Visit x h0 cur ∧ PathOK x h0 up' := by
  induction t generalizing up with
  | null => simp [descend] at h
  | mk e l r ihl ihr =>
    obtain ⟨hbal, hal, har⟩ := havl
    unfold descend at h
    rw [heightHelper_mk] at hp
    by_cases h1 : e > x
    · simp only [h1, if_true] at h
      cases l with
      | null =>
        simp only [Option.some.injEq, Prod.mk.injEq] at h
        obtain ⟨rfl, rfl⟩ := h
        refine ⟨_, Or.inl ⟨h1, -1, ⟨?_, Or.inr ⟨?_, ?_⟩⟩, har, ?_, rfl⟩, ?_⟩
        · simp [IsAVL, heightHelper]
        · simp [heightHelper]
        · simp [Tilted]
        · simpa [heightHelper] using hbal
        · simpa [heightHelper] using hp
      | mk le ll lr =>
        exact ihl (.ofLeft e r :: up) hal ⟨h1, har, hbal, hp⟩ h
    · by_cases h3 : e < x
      · simp only [h1, h3, if_true, if_false] at h
        cases r with
        | null =>
          simp only [Option.some.injEq, Prod.mk.injEq] at h
          obtain ⟨rfl, rfl⟩ := h
          refine ⟨_, Or.inr ⟨h3, -1, ⟨?_, Or.inr ⟨?_, ?_⟩⟩, hal, ?_, rfl⟩, ?_⟩
          · simp [IsAVL, heightHelper]
          · simp [heightHelper]
          · simp [Tilted]
          · simpa [heightHelper] using hbal
          · simpa [heightHelper] using hp
        | mk re rl rr =>
          exact ihr (.ofRight e l :: up) har ⟨h3, hal, hbal, hp⟩ h
      · simp [h1, h3] at h

end NodeA

namespace AVLSet
variable {α : Type} [LinearOrder α]

open NodeA

theorem avl_inv_new (b : Bool) : Inv (new b : AVLSet α) :=
  ⟨by simp [new, IsBST, inorderHelper], by simp [new, inorderHelper], fun _ => by simp [new, IsAVL]⟩

/-- One `add` on a set that satisfies `Inv`: it returns, keeps `Inv` and the flag, changes
nothing when the element is there and else adds it to the inorder sequence. -/
theorem avl_add_spec (s : AVLSet α) (x : α) (hs : Inv s) :
    ∃ s', s.add x = some s' ∧ Inv s' ∧ s'.balance = s.balance ∧
      (s.contains x = true → s' = s) ∧
      (s.contains x = false → s'.sz = s.sz + 1 ∧
        s'.root.inorderHelper = (insertRec x s.root).inorderHelper) := by
  obtain ⟨bal, sz, root⟩ := s
  obtain ⟨hbst, hcount, havl⟩ := hs
  simp only at hbst hcount havl
  cases root with
  | null =>
    refine ⟨_, rfl, ⟨?_, ?_, ?_⟩, rfl, ?_, ?_⟩
    · simp [IsBST, inorderHelper]
    · simp [inorderHelper] at hcount ⊢; exact hcount
    · intro _; simp [IsAVL, heightHelper]
    · simp [contains, containsLoop]
    · intro _; simp [insertRec]
  | mk e l r =>
    cases hd : descend x (NodeA.mk e l r) [] with
    | none =>
      have hc : containsLoop x (NodeA.mk e l r) = true :=
        (descend_eq_none_iff x _ [] (by simp)).mp hd
      refine ⟨_, by simp [add, hd], ⟨hbst, hcount, havl⟩, rfl, fun _ => rfl, ?_⟩
      intro h; simp [contains, hc] at h
    | some cu =>
      obtain ⟨cur, up⟩ := cu
      have hc : containsLoop x (NodeA.mk e l r) = false := by
        cases hcc : containsLoop x (NodeA.mk e l r) with
        | false => rfl
        | true => rw [(descend_eq_none_iff x _ [] (by simp)).mpr hcc] at hd; cases hd
      have hroot : rootOf cur up = insertRec x (NodeA.mk e l r) := by
        simpa [rootOf] using descend_rootOf x _ [] cur up hd
      have hbst' : IsBST (insertRec x (NodeA.mk e l r)) := isBST_insertRec x _ hbst
      have hlen := length_insertRec x _ hc
      cases bal with
      | false =>
        refine ⟨⟨false, sz + 1, rootOf cur up⟩, by simp [add, hd], ⟨?_, ?_, ?_⟩, rfl, ?_, ?_⟩
        · simpa [hroot] using hbst'
        · simp only [hroot, hlen, hcount]
        · intro h; cases h
        · intro h; simp [contains, hc] at h
        · intro _; simp [hroot]
      | true =>
        obtain ⟨h0, hv, hp⟩ := descend_visit x _ [] cur up (havl rfl) (by simp [PathOK]) hd
        obtain ⟨res, hres, hravl, hrin⟩ :=
          rebalanceWalk_spec x up cur h0 hv hp (by rw [hroot]; exact hbst')
        have hres' : rebalanceWalk x (2 * (up.length + 2)) cur up = some res := by
          have h1 := rebalanceWalk_mono x _ _ _ _ hres
          have h2 := rebalanceWalk_mono x _ _ _ _ h1
          simpa [Nat.mul_add] using h2
        rw [hroot] at hrin
        refine ⟨⟨true, sz + 1, res⟩, by simp [add, hd, hres'], ⟨?_, ?_, ?_⟩, rfl, ?_, ?_⟩
        · unfold IsBST; simp only [hrin]; exact hbst'
        · simp only [hrin, hlen, hcount]
        · intro _; exact hravl
        · intro h; simp [contains, hc] at h
        · intro _; exact ⟨rfl, hrin⟩

theorem mem_add (s s' : AVLSet α) (x a : α) (hs : Inv s) (h : s.add x = some s') :
    a ∈ s'.root.inorderHelper ↔ a = x ∨ a ∈ s.root.inorderHelper := by
  obtain ⟨s'', h1, _, _, h3, h4⟩ := avl_add_spec s x hs
  rw [h] at h1
  cases h1
  cases hc : s.contains x with
  | true =>
    rw [h3 hc]
    have : x ∈ s.root.inorderHelper := (containsLoop_iff x _ hs.bst).mp hc
    constructor
    · exact Or.inr
    · rintro (rfl | h)
      · exact this
      · exact h
  | false => rw [(h4 hc).2, mem_insertRec]

/-- A sequence of `add` calls on a set that satisfies `Inv`. -/
theorem avl_addAll_spec (xs : List α) (s : AVLSet α) (hs : Inv s) :
    ∃ s', s.addAll xs = some s' ∧ Inv s' ∧ s'.balance = s.balance ∧
      ∀ a, a ∈ s'.root.inorderHelper ↔ a ∈ xs ∨ a ∈ s.root.inorderHelper := by
  induction xs generalizing s with
  | nil => exact ⟨s, rfl, hs, rfl, by simp⟩
  | cons x xs ih =>
    obtain ⟨s1, h1, hinv1, hb1, _, _⟩ := avl_add_spec s x hs
    obtain ⟨s2, h2, hinv2, hb2, hm⟩ := ih s1 hinv1
    refine ⟨s2, by simp [addAll, h1, h2], hinv2, hb2.trans hb1, ?_⟩
    intro a
    rw [hm, mem_add s s1 x a hs h1]
    simp only [List.mem_cons]
    tauto

theorem avl_size_eq_dedup (xs : List α) (s : AVLSet α) (hs : Inv s)
    (hm : ∀ a, a ∈ s.root.inorderHelper ↔ a ∈ xs) : s.size = xs.dedup.length := by
  have hnd : s.root.inorderHelper.Nodup :=
    List.Pairwise.imp (fun h => ne_of_lt h) hs.bst
  have hperm : s.root.inorderHelper.Perm xs.dedup :=
    (List.perm_ext_iff_of_nodup hnd (List.nodup_dedup xs)).mpr
      (fun a => by rw [hm, List.mem_dedup])
  rw [size, hs.count, hperm.length_eq]

end AVLSet

namespace NodeA
variable {α : Type} [LinearOrder α]

/-- `copyHelper` on a node of a binary search tree leaves an equal subtree in the slot of
the parent that the comparison of the two elements names. -/
theorem copyHelper_spec (node : NodeA α) (hb : IsBST node) (pe : α) (pl pr : NodeA α) :
    (∀ e l r, node = mk e l r → e < pe → copyHelper node (mk pe pl pr) = some (mk pe node pr)) ∧
    (∀ e l r, node = mk e l r → ¬ e < pe → copyHelper node (mk pe pl pr) = some (mk pe pl node)) := by
  induction node generalizing pe pl pr with
  | null => exact ⟨fun e l r h => (by cases h), fun e l r h => (by cases h)⟩
  | mk e l r ihl ihr =>
    rw [isBST_mk] at hb
    obtain ⟨hl, hr, h1, h2⟩ := hb
    have hleft : copyHelper l (mk e null null) = some (mk e l null) := by
      cases l with
      | null => rfl
      | mk le ll lr =>
        exact (ihl hl e null null).1 le ll lr rfl (h1 le (by simp [inorderHelper]))
    have hright : copyHelper r (mk e l null) = some (mk e l r) := by
      cases r with
      | null => rfl
      | mk re rl rr =>
        exact (ihr hr e l null).2 re rl rr rfl
          (not_lt_of_gt (h2 re (by simp [inorderHelper])))
    constructor
    · intro e' l' r' h hlt
      cases h
      simp [copyHelper, hleft, hright, hlt]
    · intro e' l' r' h hlt
      cases h
      simp [copyHelper, hleft, hright, hlt]

end NodeA

namespace AVLSet
variable {α : Type} [LinearOrder α]

/-- The copy constructor on a set in binary-search-tree order returns an equal set. -/
theorem copy_eq (s : AVLSet α) (hb : s.root.IsBST) : s.copy = some s := by
  obtain ⟨bal, sz, root⟩ := s
  cases root with
  | null => rfl
  | mk e l r =>
    simp only at hb
    have hb' := hb
    rw [NodeA.isBST_mk] at hb'
    obtain ⟨hl, hr, h1, h2⟩ := hb'
    have hleft : NodeA.copyHelper l (.mk e .null .null) = some (.mk e l .null) := by
      cases l with
      | null => rfl
      | mk le ll lr =>
        exact (NodeA.copyHelper_spec _ hl e .null .null).1 le ll lr rfl
          (h1 le (by simp [NodeA.inorderHelper]))
    have hright : NodeA.copyHelper r (.mk e l .null) = some (.mk e l r) := by
      cases r with
      | null => rfl
      | mk re rl rr =>
        exact (NodeA.copyHelper_spec _ hr e l .null).2 re rl rr rfl
          (not_lt_of_gt (h2 re (by simp [NodeA.inorderHelper])))
    simp [copy, hleft, hright]

end AVLSet

namespace NodeA
variable {α : Type} [LinearOrder α]

omit [LinearOrder α] in
theorem heightHelper_chainOf (xs : List α) : heightHelper (chainOf xs) = (xs.length : Int) - 1 := by
  induction xs with
  | nil => rfl
  | cons x xs ih =>
    rw [chainOf, heightHelper_mk, ih, heightHelper_null, List.length_cons]
    push_cast
    omega

theorem insertRec_chainOf (x : α) (ys : List α) (h : ∀ y ∈ ys, y < x) :
    insertRec x (chainOf ys) = chainOf (ys ++ [x]) := by
  induction ys with
  | nil => rfl
  | cons y ys ih =>
    have hy : y < x := h y (List.mem_cons_self _ _)
    rw [chainOf, insertRec, if_neg (not_lt_of_gt hy), if_pos hy,
      ih (fun z hz => h z (List.mem_cons_of_mem _ hz))]
    rfl

omit [LinearOrder α] in
theorem inorderHelper_chainOf (xs : List α) : inorderHelper (chainOf xs) = xs := by
  induction xs with
  | nil => rfl
  | cons x xs ih => simp [chainOf, inorderHelper, ih]

end NodeA

namespace AVLSet
variable {α : Type} [LinearOrder α]

/-- Without balancing, a new element that is not there goes where `insertRec` puts it. -/
theorem add_unbalanced (sz : Nat) (root : NodeA α) (x : α)
    (hx : NodeA.containsLoop x root = false) :
    (⟨false, sz, root⟩ : AVLSet α).add x = some ⟨false, sz + 1, NodeA.insertRec x root⟩ := by
  cases root with
  | null => rfl
  | mk e l r =>
    cases hd : NodeA.descend x (NodeA.mk e l r) [] with
    | none =>
      rw [(NodeA.descend_eq_none_iff x _ [] (by simp)).mp hd] at hx
      cases hx
    | some cu =>
      obtain ⟨cur, up⟩ := cu
      have hroot : NodeA.rootOf cur up = NodeA.insertRec x (NodeA.mk e l r) := by
        simpa [NodeA.rootOf] using NodeA.descend_rootOf x _ [] cur up hd
      simp [add, hd, hroot]

/-- Without balancing, an ascending sequence of new largest elements extends the
right-leaning chain. -/
theorem addAll_chainOf (xs ys : List α) (sz : Nat) (h : (ys ++ xs).Sorted (· < ·)) :
    (⟨false, sz, NodeA.chainOf ys⟩ : AVLSet α).addAll xs =
      some ⟨false, sz + xs.length, NodeA.chainOf (ys ++ xs)⟩ := by
  induction xs generalizing ys sz with
  | nil => simp [addAll]
  | cons x xs ih =>
    have hp : (ys ++ x :: xs).Pairwise (· < ·) := h
    have hlt : ∀ y ∈ ys, y < x := by
      intro y hy
      exact (List.pairwise_append.mp hp).2.2 y hy x (List.mem_cons_self _ _)
    have hbst : (NodeA.chainOf ys).IsBST := by
      rw [NodeA.IsBST, NodeA.inorderHelper_chainOf]
      exact (List.pairwise_append.mp hp).1
    have hx : NodeA.containsLoop x (NodeA.chainOf ys) = false := by
      cases hc : NodeA.containsLoop x (NodeA.chainOf ys) with
      | false => rfl
      | true =>
        have := (NodeA.containsLoop_iff x _ hbst).mp hc
        rw [NodeA.inorderHelper_chainOf] at this
        exact absurd (hlt x this) (lt_irrefl _)
    rw [addAll, add_unbalanced sz _ x hx, NodeA.insertRec_chainOf x ys hlt]
    simp only [Option.some_bind]
    rw [ih (ys ++ [x]) (sz + 1) (by simpa using h)]
    simp only [List.append_assoc, List.singleton_append, List.length_cons]
    congr 2
    omega

end AVLSet

namespace NodeA
variable {α : Type}

theorem preorderHelper_perm (t : NodeA α) : (preorderHelper t).Perm (inorderHelper t) := by
  induction t with
  | null => exact List.Perm.refl _
  | mk e l r ihl ihr =>
    simp only [preorderHelper, inorderHelper]
    exact (List.Perm.cons e (ihl.append ihr)).trans List.perm_middle.symm

theorem postorderHelper_perm (t : NodeA α) : (postorderHelper t).Perm (inorderHelper t) := by
  induction t with
  | null => exact List.Perm.refl _
  | mk e l r ihl ihr =>
    simp only [postorderHelper, inorderHelper]
    refine ihl.append ?_
    exact (List.perm_append_comm.trans (List.Perm.cons e ihr))

/-- The walk that counts its rotations returns the tree that the walk returns. -/
theorem rebalanceWalkCount_fst [LinearOrder α] (x : α) (fuel : Nat) (t : NodeA α)
    (up : List (ParentLink α)) :
    (rebalanceWalkCount x fuel t up).map Prod.fst = rebalanceWalk x fuel t up := by
  induction fuel generalizing t up with
  | zero => rfl
  | succ fuel ih =>
    cases t with
    | null => rfl
    | mk e l r =>
      have hnext : (match up with
          | [] => some (mk e l r, 0)
          | p :: above => rebalanceWalkCount x fuel (attach (mk e l r) p) above).map Prod.fst =
          (match up with
          | [] => some (mk e l r)
          | p :: above => rebalanceWalk x fuel (attach (mk e l r) p) above) := by
        cases up with
        | nil => rfl
        | cons p above => exact ih _ _
      unfold rebalanceWalkCount rebalanceWalk
      simp only
      split_ifs with h
      · cases hrot : rotateAt x up.head? (mk e l r) with
        | none => rfl
        | some o =>
          cases o with
          | none => exact hnext
          | some t' =>
            simp only [Option.map_map]
            rw [← ih t' up]
            rfl
      · exact hnext

end NodeA

namespace NodeA
variable {α : Type}

theorem length_pos_of_height (t : NodeA α) (h : 0 ≤ heightHelper t) :
    1 ≤ (inorderHelper t).length := by
  cases t with
  | null => simp [heightHelper] at h
  | mk e l r => simp only [inorderHelper, List.length_append, List.length_cons]; omega

/-- A balanced tree of height `k` has at least `2 ^ (k / 2)` elements; stated with squares. -/
theorem isAVL_size (t : NodeA α) (h : IsAVL t) (k : Nat) (hk : heightHelper t = (k : Int)) :
    2 ^ k ≤ (inorderHelper t).length ^ 2 := by
  induction t generalizing k with
  | null => simp [heightHelper] at hk
  | mk e l r ihl ihr =>
    obtain ⟨⟨hb1, hb2⟩, hl, hr⟩ := h
    rw [heightHelper_mk] at hk
    have hlge := heightHelper_ge l
    have hrge := heightHelper_ge r
    simp only [inorderHelper, List.length_append, List.length_cons]
    generalize hsl : (inorderHelper l).length = sl at ihl
    generalize hsr : (inorderHelper r).length = sr at ihr
    rcases Nat.lt_or_ge k 2 with hk2 | hk2
    · interval_cases k
      · have : 1 ≤ sl + (sr + 1) := by omega
        nlinarith
      · have : 1 ≤ sl ∨ 1 ≤ sr := by
          rcases le_total (heightHelper l) (heightHelper r) with h1 | h1
          · right; rw [← hsr]; exact length_pos_of_height r (by omega)
          · left; rw [← hsl]; exact length_pos_of_height l (by omega)
        have : 2 ≤ sl + (sr + 1) := by omega
        nlinarith
    · obtain ⟨m, rfl⟩ : ∃ m, k = m + 2 := ⟨k - 2, by omega⟩
      have h1 : 2 ^ m ≤ sl ^ 2 := by
        have := ihl hl (heightHelper l).toNat (by omega)
        refine le_trans (Nat.pow_le_pow_right (by norm_num) ?_) this
        omega
      have h2 : 2 ^ m ≤ sr ^ 2 := by
        have := ihr hr (heightHelper r).toNat (by omega)
        refine le_trans (Nat.pow_le_pow_right (by norm_num) ?_) this
        omega
      have h3 : 2 ^ m ≤ sl * sr := by
        by_contra hc
        push_neg at hc
        have : (sl * sr) * (sl * sr) < 2 ^ m * 2 ^ m := Nat.mul_self_lt_mul_self hc
        have : 2 ^ m * 2 ^ m ≤ sl ^ 2 * sr ^ 2 := Nat.mul_le_mul h1 h2
        nlinarith
      have : 2 ^ (m + 2) = 4 * 2 ^ m := by ring
      rw [this]
      nlinarith

end NodeA

namespace NodeA
variable {α : Type} [LinearOrder α]

theorem walkVisits_count (x : α) (fuel : Nat) (t : NodeA α) (up : List (ParentLink α)) :
    (walkVisits x fuel t up).map (List.countP WalkVisit.rotated) =
      (rebalanceWalkCount x fuel t up).map Prod.snd := by
  induction fuel generalizing t up with
  | zero => rfl
  | succ fuel ih =>
    cases t with
    | null => rfl
    | mk e l r =>
      have hnext : ∀ d : Int, ((match up with
          | [] => some ([] : List (WalkVisit α))
          | p :: above => walkVisits x fuel (attach (mk e l r) p) above).map
            fun vs => (⟨mk e l r, up.head?, d, false⟩ : WalkVisit α) :: vs).map
              (List.countP WalkVisit.rotated) =
          (match up with
          | [] => some (mk e l r, 0)
          | p :: above => rebalanceWalkCount x fuel (attach (mk e l r) p) above).map
            Prod.snd := by
        intro d
        cases up with
        | nil => rfl
        | cons p above =>
          simp only [Option.map_map]
          rw [← ih]
          cases walkVisits x fuel (attach (mk e l r) p) above <;> simp
      unfold walkVisits rebalanceWalkCount
      simp only
      split_ifs with h
      · cases hrot : rotateAt x up.head? (mk e l r) with
        | none => rfl
        | some o =>
          cases o with
          | none => exact hnext _
          | some t' =>
            simp only [Option.map_map]
            have := ih t' up
            cases h1 : walkVisits x fuel t' up <;> cases h2 : rebalanceWalkCount x fuel t' up <;>
              simp [h1, h2] at this ⊢
            exact this
      · exact hnext _


/-- A round on the left side that finds the balance factor out of range: the rotation is safe
and leaves a subtree of the height from before the insertion. -/
theorem visit_left_off (x e : α) (l r : NodeA α) (hl : Int) (up : List (ParentLink α))
    (d : Int) (b : Bool)
    (hx : x < e) (hg : Grown x hl l)
    (hb : hl - heightHelper r ≤ 1 ∧ -1 ≤ hl - heightHelper r)
    (hrel : relinks e up.head? = true)
    (hd : heightHelper l - heightHelper r > 1 ∨ heightHelper l - heightHelper r < -1) :
    SafeAt x ⟨mk e l r, up.head?, d, b⟩ ∧
      ∃ t, rotateAt x up.head? (mk e l r) = some (some t) ∧
        Calm (max hl (heightHelper r) + 1) t := by
  obtain ⟨havl, hgl⟩ := hg
  have hrge := heightHelper_ge r
  have hgl' : heightHelper l = hl + 1 ∧ Tilted x l := by
    rcases hgl with h | h
    · omega
    · exact h
  obtain ⟨hlh, htl⟩ := hgl'
  cases l with
  | null => exact absurd htl (by simp [Tilted])
  | mk le ll lr =>
    obtain ⟨ht1, ht2, ht3⟩ := htl
    rw [heightHelper_mk] at hlh hd
    obtain ⟨⟨ha1, ha2⟩, hall, halr⟩ := havl
    have hllge := heightHelper_ge ll
    have hlrge := heightHelper_ge lr
    by_cases h1 : le > x
    · have ht1' := ht1 h1
      have hrot : rotateAt x up.head? (mk e (mk le ll lr) r) =
          some (some (mk le ll (mk e lr r))) := by
        simp [rotateAt, hx, h1, llRotation, hrel]
      have hsel : rotateAt x up.head? (mk e (mk le ll lr) r) =
          (llRotation up.head? (mk e (mk le ll lr) r)).map some := by
        simp [rotateAt, hx, h1]
      refine ⟨⟨Or.inl ⟨e, le, ll, lr, r, rfl, hx, ne_of_gt h1, Or.inl ⟨h1, hsel⟩⟩, _, hrot⟩,
        _, hrot, ⟨?_, ?_⟩, ?_⟩
      · rw [heightHelper_mk]; omega
      · rw [heightHelper_mk]; omega
      · rw [heightHelper_mk, heightHelper_mk]; omega
    · by_cases h2 : le < x
      · have ht2' := ht2 h2
        cases lr with
        | null => rw [heightHelper_null] at ht2'; omega
        | mk c t2 t3 =>
          rw [heightHelper_mk] at ht2' hlh hd ha1 ha2
          obtain ⟨⟨hb1, hb2⟩, hat2, hat3⟩ := halr
          have hrot : rotateAt x up.head? (mk e (mk le ll (mk c t2 t3)) r) =
              some (some (mk c (mk le ll t2) (mk e t3 r))) := by
            simp [rotateAt, hx, h1, h2, lrRotation, hrel]
          have hsel : rotateAt x up.head? (mk e (mk le ll (mk c t2 t3)) r) =
              (lrRotation up.head? (mk e (mk le ll (mk c t2 t3)) r)).map some := by
            simp [rotateAt, hx, h1, h2]
          refine ⟨⟨Or.inl ⟨e, le, ll, _, r, rfl, hx, ne_of_lt h2,
            Or.inr ⟨h2, by simp, hsel⟩⟩, _, hrot⟩, _, hrot, ⟨?_, ?_⟩, ?_⟩
          · rw [heightHelper_mk, heightHelper_mk]; omega
          · rw [heightHelper_mk, heightHelper_mk]; omega
          · rw [heightHelper_mk, heightHelper_mk, heightHelper_mk]; omega
      · have h3 : le = x := le_antisymm (not_lt.mp h1) (not_lt.mp h2)
        obtain ⟨rfl, rfl⟩ := ht3 h3
        simp only [heightHelper_null] at hlh hd
        omega

/-- A round on the left side that finds the balance factor in range. -/
theorem visit_left_on (x e : α) (l r : NodeA α) (hl : Int)
    (hx : x < e) (hg : Grown x hl l) (hr : IsAVL r)
    (hb : hl - heightHelper r ≤ 1 ∧ -1 ≤ hl - heightHelper r)
    (hd : ¬ (heightHelper l - heightHelper r > 1 ∨ heightHelper l - heightHelper r < -1)) :
    Grown x (max hl (heightHelper r) + 1) (mk e l r) := by
  obtain ⟨havl, hgl⟩ := hg
  have hrge := heightHelper_ge r
  refine ⟨⟨⟨by omega, by omega⟩, havl, hr⟩, ?_⟩
  rw [heightHelper_mk]
  by_cases hc : heightHelper l = hl + 1 ∧ hl = heightHelper r
  · right
    refine ⟨by omega, fun _ => by omega, fun h => absurd hx (not_lt_of_gt h), ?_⟩
    intro h; exact absurd hx (by rw [h]; exact lt_irrefl _)
  · left
    rcases hgl with h | ⟨h, _⟩ <;> omega

/-- A round on the right side that finds the balance factor out of range: the rotation is
safe and leaves a subtree of the height from before the insertion. -/
theorem visit_right_off (x e : α) (l r : NodeA α) (hr : Int) (up : List (ParentLink α))
    (d : Int) (b : Bool)
    (hx : e < x) (hg : Grown x hr r)
    (hb : heightHelper l - hr ≤ 1 ∧ -1 ≤ heightHelper l - hr)
    (hrel : relinks e up.head? = true)
    (hd : heightHelper l - heightHelper r > 1 ∨ heightHelper l - heightHelper r < -1) :
    SafeAt x ⟨mk e l r, up.head?, d, b⟩ ∧
      ∃ t, rotateAt x up.head? (mk e l r) = some (some t) ∧
        Calm (max (heightHelper l) hr + 1) t := by
  obtain ⟨havl, hgr⟩ := hg
  have hlge := heightHelper_ge l
  have hnx : ¬ e > x := not_lt_of_gt hx
  have hgr' : heightHelper r = hr + 1 ∧ Tilted x r := by
    rcases hgr with h | h
    · omega
    · exact h
  obtain ⟨hrh, htr⟩ := hgr'
  cases r with
  | null => exact absurd htr (by simp [Tilted])
  | mk re rl rr =>
    obtain ⟨ht1, ht2, ht3⟩ := htr
    rw [heightHelper_mk] at hrh hd
    obtain ⟨⟨ha1, ha2⟩, harl, harr⟩ := havl
    have hrlge := heightHelper_ge rl
    have hrrge := heightHelper_ge rr
    by_cases h1 : re < x
    · have ht2' := ht2 h1
      have hrot : rotateAt x up.head? (mk e l (mk re rl rr)) =
          some (some (mk re (mk e l rl) rr)) := by
        simp [rotateAt, hx, hnx, h1, rrRotation, hrel]
      have hsel : rotateAt x up.head? (mk e l (mk re rl rr)) =
          (rrRotation up.head? (mk e l (mk re rl rr))).map some := by
        simp [rotateAt, hx, hnx, h1]
      refine ⟨⟨Or.inr ⟨e, l, re, rl, rr, rfl, hx, ne_of_lt h1, Or.inl ⟨h1, hsel⟩⟩, _, hrot⟩,
        _, hrot, ⟨?_, ?_⟩, ?_⟩
      · rw [heightHelper_mk]; omega
      · rw [heightHelper_mk]; omega
      · rw [heightHelper_mk, heightHelper_mk]; omega
    · by_cases h2 : re > x
      · have ht1' := ht1 h2
        cases rl with
        | null => rw [heightHelper_null] at ht1'; omega
        | mk c t2 t3 =>
          rw [heightHelper_mk] at ht1' hrh hd ha1 ha2
          obtain ⟨⟨hb1, hb2⟩, hat2, hat3⟩ := harl
          have hrot : rotateAt x up.head? (mk e l (mk re (mk c t2 t3) rr)) =
              some (some (mk c (mk e l t2) (mk re t3 rr))) := by
            simp [rotateAt, hx, hnx, h1, h2, rlRotation, hrel]
          have hsel : rotateAt x up.head? (mk e l (mk re (mk c t2 t3) rr)) =
              (rlRotation up.head? (mk e l (mk re (mk c t2 t3) rr))).map some := by
            simp [rotateAt, hx, hnx, h1, h2]
          refine ⟨⟨Or.inr ⟨e, l, re, _, rr, rfl, hx, ne_of_gt h2,
            Or.inr ⟨h2, by simp, hsel⟩⟩, _, hrot⟩, _, hrot, ⟨?_, ?_⟩, ?_⟩
          · rw [heightHelper_mk, heightHelper_mk]; omega
          · rw [heightHelper_mk, heightHelper_mk]; omega
          · rw [heightHelper_mk, heightHelper_mk, heightHelper_mk]; omega
      · have h3 : re = x := le_antisymm (not_lt.mp h2) (not_lt.mp h1)
        obtain ⟨rfl, rfl⟩ := ht3 h3
        simp only [heightHelper_null] at hrh hd
        omega

/-- A round on the right side that finds the balance factor in range. -/
theorem visit_right_on (x e : α) (l r : NodeA α) (hr : Int)
    (hx : e < x) (hg : Grown x hr r) (hl : IsAVL l)
    (hb : heightHelper l - hr ≤ 1 ∧ -1 ≤ heightHelper l - hr)
    (hd : ¬ (heightHelper l - heightHelper r > 1 ∨ heightHelper l - heightHelper r < -1)) :
    Grown x (max (heightHelper l) hr + 1) (mk e l r) := by
  obtain ⟨havl, hgr⟩ := hg
  have hlge := heightHelper_ge l
  refine ⟨⟨⟨by omega, by omega⟩, hl, havl⟩, ?_⟩
  rw [heightHelper_mk]
  by_cases hc : heightHelper r = hr + 1 ∧ hr = heightHelper l
  · right
    refine ⟨by omega, fun h => absurd hx (not_lt_of_gt h), fun _ => by omega, ?_⟩
    intro h; exact absurd hx (by rw [h]; exact lt_irrefl _)
  · left
    rcases hgr with h | ⟨h, _⟩ <;> omega


/-- The walk from a subtree of the height from before the insertion: no round finds a
balance factor out of range, none rotates. -/
theorem walkVisits_calm (x : α) (fuel : Nat) (t : NodeA α) (up : List (ParentLink α))
    (h0 : Int) (visits : List (WalkVisit α)) (ht : Calm h0 t) (hp : PathOK x h0 up)
    (h : walkVisits x fuel t up = some visits) :
    ∀ v ∈ visits, (v.dif ≤ 1 ∧ -1 ≤ v.dif) ∧ v.rotated = false := by
  induction fuel generalizing t up h0 visits with
  | zero => simp [walkVisits] at h
  | succ fuel ih =>
    cases t with
    | null => exact absurd ht (by simp [Calm])
    | mk e l r =>
      obtain ⟨hbal, hh⟩ := ht
      have hd : ¬ (heightHelper l - heightHelper r > 1 ∨
          heightHelper l - heightHelper r < -1) := by omega
      unfold walkVisits at h
      simp only [if_neg hd] at h
      cases up with
      | nil =>
        simp only [Option.map_some', Option.some.injEq] at h
        subst h
        intro v hv
        simp only [List.mem_singleton] at hv
        subst hv
        exact ⟨hbal, rfl⟩
      | cons p above =>
        simp only [Option.map_eq_some'] at h
        obtain ⟨vs, hvs, rfl⟩ := h
        have hrest : ∀ v ∈ vs, (v.dif ≤ 1 ∧ -1 ≤ v.dif) ∧ v.rotated = false := by
          cases p with
          | ofLeft pe pr =>
            obtain ⟨_, _, hb', hp'⟩ := hp
            refine ih (attach (mk e l r) (.ofLeft pe pr)) above _ vs ⟨?_, rfl⟩ ?_ hvs
            · rw [hh]; exact hb'
            · rw [heightHelper_mk, hh]; exact hp'
          | ofRight pe pl =>
            obtain ⟨_, _, hb', hp'⟩ := hp
            refine ih (attach (mk e l r) (.ofRight pe pl)) above _ vs ⟨?_, rfl⟩ ?_ hvs
            · rw [hh]; exact hb'
            · rw [heightHelper_mk, hh]; exact hp'
        intro v hv
        rcases List.mem_cons.mp hv with rfl | hv
        · exact ⟨hbal, rfl⟩
        · exact hrest v hv

/-- The rounds of the walk from a visited node to the root: at most one rotates, the rounds
after it find balance factors in range, and a round that finds one out of range rotates
safely. -/
theorem walkVisits_spec (x : α) (fuel : Nat) (cur : NodeA α) (up : List (ParentLink α))
    (h0 : Int) (visits : List (WalkVisit α))
    (hv : Visit x h0 cur) (hp : PathOK x h0 up) (hb : IsBST (rootOf cur up))
    (h : walkVisits x fuel cur up = some visits) :
    visits.countP WalkVisit.rotated ≤ 1 ∧
    (∀ pre v post, visits = pre ++ v :: post → v.rotated = true →
      ∀ w ∈ post, w.dif ≤ 1 ∧ -1 ≤ w.dif) ∧
    ∀ v ∈ visits, (v.dif > 1 ∨ v.dif < -1) → v.rotated = true ∧ SafeAt x v := by
  induction fuel generalizing cur up h0 visits with
  | zero => simp [walkVisits] at h
  | succ fuel ih =>
    cases cur with
    | null => exact absurd hv (by simp [Visit])
    | mk e l r =>
      have hrel := relinks_of_isBST e l r up hb
      by_cases hd : heightHelper l - heightHelper r > 1 ∨ heightHelper l - heightHelper r < -1
      · -- the round rotates
        have key : ∀ d b, SafeAt x ⟨mk e l r, up.head?, d, b⟩ ∧
            ∃ t, rotateAt x up.head? (mk e l r) = some (some t) ∧ Calm h0 t := by
          intro d b
          rcases hv with ⟨hx, hl, hg, _, hbal, rfl⟩ | ⟨hx, hr, hg, _, hbal, rfl⟩
          · exact visit_left_off x e l r hl up d b hx hg hbal hrel hd
          · exact visit_right_off x e l r hr up d b hx hg hbal hrel hd
        obtain ⟨t, hrot, hcalm⟩ := (key 0 false).2
        unfold walkVisits at h
        simp only [if_pos hd, hrot, Option.map_eq_some'] at h
        obtain ⟨vs, hvs, rfl⟩ := h
        have hrest := walkVisits_calm x fuel t up h0 vs hcalm hp hvs
        have hcount : vs.countP WalkVisit.rotated = 0 := by
          rw [List.countP_eq_zero]
          intro v hv'
          simp [(hrest v hv').2]
        refine ⟨?_, ?_, ?_⟩
        · rw [List.countP_cons, hcount]; simp
        · intro pre v post hsplit hvr w hw
          cases pre with
          | nil =>
            simp only [List.nil_append, List.cons.injEq] at hsplit
            obtain ⟨_, rfl⟩ := hsplit
            exact (hrest w hw).1
          | cons a pre' =>
            simp only [List.cons_append, List.cons.injEq] at hsplit
            obtain ⟨_, rfl⟩ := hsplit
            exact (hrest w (by simp [hw])).1
        · intro v hv' hoff
          rcases List.mem_cons.mp hv' with rfl | hv'
          · exact ⟨rfl, (key _ _).1⟩
          · have := (hrest v hv').1
            omega
      · -- the round moves on
        have hgrown : Grown x h0 (mk e l r) := by
          rcases hv with ⟨hx, hl, hg, hr, hbal, rfl⟩ | ⟨hx, hr, hg, hl, hbal, rfl⟩
          · exact visit_left_on x e l r hl hx hg hr hbal hd
          · exact visit_right_on x e l r hr hx hg hl hbal hd
        unfold walkVisits at h
        simp only [if_neg hd] at h
        cases up with
        | nil =>
          simp only [Option.map_some', Option.some.injEq] at h
          subst h
          refine ⟨by simp, ?_, ?_⟩
          · intro pre v post hsplit hvr
            cases pre with
            | nil =>
              simp only [List.nil_append, List.cons.injEq] at hsplit
              obtain ⟨rfl, _⟩ := hsplit
              simp at hvr
            | cons a pre' => simp at hsplit
          · intro v hv' hoff
            simp only [List.mem_singleton] at hv'
            subst hv'
            exact absurd hoff hd
        | cons p above =>
          simp only [Option.map_eq_some'] at h
          obtain ⟨vs, hvs, rfl⟩ := h
          have hrest : vs.countP WalkVisit.rotated ≤ 1 ∧
              (∀ pre v post, vs = pre ++ v :: post → v.rotated = true →
                ∀ w ∈ post, w.dif ≤ 1 ∧ -1 ≤ w.dif) ∧
              ∀ v ∈ vs, (v.dif > 1 ∨ v.dif < -1) → v.rotated = true ∧ SafeAt x v := by
            cases p with
            | ofLeft pe pr =>
              obtain ⟨hx, hpr, hbal, hp'⟩ := hp
              exact ih (attach (mk e l r) (.ofLeft pe pr)) above _ vs
                (Or.inl ⟨hx, h0, hgrown, hpr, hbal, rfl⟩) hp' hb hvs
            | ofRight pe pl =>
              obtain ⟨hx, hpl, hbal, hp'⟩ := hp
              exact ih (attach (mk e l r) (.ofRight pe pl)) above _ vs
                (Or.inr ⟨hx, h0, hgrown, hpl, hbal, rfl⟩) hp' hb hvs
          obtain ⟨hc, hq, hs⟩ := hrest
          refine ⟨?_, ?_, ?_⟩
          · rw [List.countP_cons]; simpa using hc
          · intro pre v post hsplit hvr
            cases pre with
            | nil =>
              simp only [List.nil_append, List.cons.injEq] at hsplit
              obtain ⟨rfl, _⟩ := hsplit
              simp at hvr
            | cons a pre' =>
              simp only [List.cons_append, List.cons.injEq] at hsplit
              exact hq pre' v post hsplit.2 hvr
          · intro v hv' hoff
            rcases List.mem_cons.mp hv' with rfl | hv'
            · exact absurd hoff hd
            · exact hs v hv' hoff

end NodeA

namespace AVLSet
variable {α : Type} [LinearOrder α]

open NodeA

/-- The walk of `add` on a balanced search tree: `add` returns, at most one round rotates, the
rounds after it find balance factors in range, and a round that finds one out of range
rotates safely. -/
theorem addVisits_spec (s : AVLSet α) (x : α) (hb : s.balance = true) (hbst : s.root.IsBST)
    (havl : s.root.IsAVL) :
    ∃ visits s', s.add x = some s' ∧ s.addVisits x = some visits ∧
      s.addRotations x = some (visits.countP WalkVisit.rotated) ∧
      visits.countP WalkVisit.rotated ≤ 1 ∧
      (∀ pre v post, visits = pre ++ v :: post → v.rotated = true →
        ∀ w ∈ post, w.dif ≤ 1 ∧ -1 ≤ w.dif) ∧
      ∀ v ∈ visits, (v.dif > 1 ∨ v.dif < -1) → v.rotated = true ∧ SafeAt x v := by
  obtain ⟨bal, sz, root⟩ := s
  simp only at hb hbst havl
  subst hb
  cases root with
  | null => exact ⟨[], _, rfl, rfl, rfl, by simp, by simp, by simp⟩
  | mk e l r =>
    cases hd : descend x (NodeA.mk e l r) [] with
    | none =>
      exact ⟨[], ⟨true, sz, NodeA.mk e l r⟩, by simp [add, hd], by simp [addVisits, hd],
        by simp [addRotations, hd], by simp, by simp, by simp⟩
    | some cu =>
      obtain ⟨cur, up⟩ := cu
      have hroot : rootOf cur up = insertRec x (NodeA.mk e l r) := by
        simpa [rootOf] using descend_rootOf x _ [] cur up hd
      have hbst' : IsBST (rootOf cur up) := by
        rw [hroot]; exact isBST_insertRec x _ hbst
      obtain ⟨h0, hv, hp⟩ := descend_visit x _ [] cur up havl (by simp [PathOK]) hd
      obtain ⟨res, hres, _, _⟩ := rebalanceWalk_spec x up cur h0 hv hp hbst'
      have hres' : rebalanceWalk x (2 * (up.length + 2)) cur up = some res := by
        have h1 := rebalanceWalk_mono x _ _ _ _ hres
        have h2 := rebalanceWalk_mono x _ _ _ _ h1
        simpa [Nat.mul_add] using h2
      have hcnt := rebalanceWalkCount_fst x (2 * (up.length + 2)) cur up
      rw [hres', Option.map_eq_some'] at hcnt
      obtain ⟨rn, hrn, _⟩ := hcnt
      have hvis := walkVisits_count x (2 * (up.length + 2)) cur up
      rw [hrn, Option.map_some', Option.map_eq_some'] at hvis
      obtain ⟨visits, hvisits, hn⟩ := hvis
      obtain ⟨h1, h2, h3⟩ := walkVisits_spec x _ cur up h0 visits hv hp hbst' hvisits
      exact ⟨visits, ⟨true, sz + 1, res⟩, by simp [add, hd, hres'],
        by simp [addVisits, hd, hvisits],
        by simp [addRotations, hd, hrn, hn], h1, h2, h3⟩

end AVLSet


/-! ### The claims about `AVLSet` -/

/-- C1: after `add` on each element of `xs`, in order, on an empty `AVLSet` (balancing on
or off), every call returns and `contains(e)` is true exactly when `e` occurs in `xs`. -/
theorem C1_avl_contains_iff_mem {α : Type} [LinearOrder α] (shouldBalance : Bool)
    (xs : List α) (e : α) :
    ∃ s, (AVLSet.new shouldBalance).addAll xs = some s ∧ (s.contains e = true ↔ e ∈ xs) := by
  obtain ⟨s, h, hinv, _, hm⟩ := AVLSet.avl_addAll_spec xs (AVLSet.new shouldBalance) (AVLSet.avl_inv_new _)
  refine ⟨s, h, ?_⟩
  rw [AVLSet.contains, NodeA.containsLoop_iff e _ hinv.bst, hm]
  simp [AVLSet.new, NodeA.inorderHelper]

/-- C2: after the elements of `xs` are added to an empty `AVLSet` (balancing on or off),
`size()` is the number of distinct elements of `xs`, and adding an element that is already
there returns the set unchanged: same `size()`, and `contains` still true. -/
theorem C2_avl_size_distinct {α : Type} [LinearOrder α] (shouldBalance : Bool)
    (xs : List α) :
    ∃ s, (AVLSet.new shouldBalance).addAll xs = some s ∧ s.size = xs.dedup.length ∧
      ∀ y, s.contains y = true →
        ∃ s', s.add y = some s' ∧ s'.size = s.size ∧ s'.contains y = true := by
  obtain ⟨s, h, hinv, _, hm⟩ := AVLSet.avl_addAll_spec xs (AVLSet.new shouldBalance) (AVLSet.avl_inv_new _)
  refine ⟨s, h, AVLSet.avl_size_eq_dedup xs s hinv ?_, ?_⟩
  · intro a; rw [hm]; simp [AVLSet.new, NodeA.inorderHelper]
  · intro y hy
    obtain ⟨s', h1, _, _, h3, _⟩ := AVLSet.avl_add_spec s y hinv
    have := h3 hy
    subst this
    exact ⟨s', h1, rfl, hy⟩

/-- C3: after any sequence of `add` calls on an empty `AVLSet`, balancing on or off, the
sequence of elements that `inorder` passes to `visit` is strictly ascending. -/
theorem C3_avl_inorder_ascending {α : Type} [LinearOrder α] (shouldBalance : Bool)
    (xs : List α) :
    ∃ s, (AVLSet.new shouldBalance).addAll xs = some s ∧ s.inorder.Sorted (· < ·) := by
  obtain ⟨s, h, hinv, _, _⟩ := AVLSet.avl_addAll_spec xs (AVLSet.new shouldBalance) (AVLSet.avl_inv_new _)
  exact ⟨s, h, hinv.bst⟩

/-- C4: with balancing on, after each `add` of a sequence (after the first `n` calls, for
every `n`) every node has subtree heights that differ by at most one, the height of an empty
subtree being `-1`. -/
theorem C4_avl_balanced_after_each_add {α : Type} [LinearOrder α] (xs : List α) (n : Nat) :
    ∃ s, (AVLSet.new true).addAll (xs.take n) = some s ∧ s.root.IsAVL ∧
      NodeA.heightHelper (NodeA.null : NodeA α) = -1 := by
  obtain ⟨s, h, hinv, hb, _⟩ := AVLSet.avl_addAll_spec (xs.take n) (AVLSet.new true) (AVLSet.avl_inv_new _)
  exact ⟨s, h, hinv.avl (by rw [hb]; rfl), rfl⟩

/-- C16: for a set `s` built by `add` calls, the copy constructor and the copy assignment
(onto any set, or onto `s` itself) return, and the result has the `size()`, `height()`,
`contains()` and the preorder, inorder and postorder visit sequences of `s`. -/
theorem C16_avl_copy_same_observations {α : Type} [LinearOrder α] (shouldBalance : Bool)
    (xs : List α) (this : AVLSet α) :
    ∃ s, (AVLSet.new shouldBalance).addAll xs = some s ∧
      ∀ made, made ∈ [s.copy, this.copyAssign s false, s.copyAssign s true] →
        ∃ c, made = some c ∧ c.size = s.size ∧ c.height = s.height ∧
          (∀ e, c.contains e = s.contains e) ∧ c.preorder = s.preorder ∧
          c.inorder = s.inorder ∧ c.postorder = s.postorder := by
  obtain ⟨s, h, hinv, _, _⟩ := AVLSet.avl_addAll_spec xs (AVLSet.new shouldBalance) (AVLSet.avl_inv_new _)
  refine ⟨s, h, ?_⟩
  intro made hmade
  have hc := AVLSet.copy_eq s hinv.bst
  have : made = some s := by
    simp only [List.mem_cons, List.mem_singleton, List.not_mem_nil, or_false] at hmade
    rcases hmade with rfl | rfl | rfl
    · exact hc
    · simp [AVLSet.copyAssign, hc]
    · simp [AVLSet.copyAssign]
  exact ⟨s, this, rfl, rfl, fun _ => rfl, rfl, rfl, rfl⟩

/-- C20: the elements of a strictly ascending sequence of length `n`, added in that order to
an empty `AVLSet` with balancing off, give `height() = n - 1`. -/
theorem C20_avl_unbalanced_chain_height {α : Type} [LinearOrder α] (xs : List α)
    (h : xs.Sorted (· < ·)) :
    ∃ s, (AVLSet.new false).addAll xs = some s ∧ s.height = (xs.length : Int) - 1 := by
  have := AVLSet.addAll_chainOf xs [] 0 (by simpa using h)
  refine ⟨_, this, ?_⟩
  simp [AVLSet.height, NodeA.heightHelper_chainOf]

/-- C20, the stated cases: `-1` for the empty set and `2` for the elements 1, 2, 3. -/
theorem C20_avl_unbalanced_chain_height_witness :
    ([] : List Nat).Sorted (· < ·) ∧ [1, 2, 3].Sorted (· < ·) ∧
    (∃ s, (AVLSet.new false).addAll ([] : List Nat) = some s ∧ s.height = -1) ∧
    (∃ s, (AVLSet.new false).addAll [1, 2, 3] = some s ∧ s.height = 2) :=
  ⟨by decide, by decide,
    by simpa using C20_avl_unbalanced_chain_height ([] : List Nat) (by decide),
    by simpa using C20_avl_unbalanced_chain_height [1, 2, 3] (by decide)⟩

/-- C19: three elements `a < b < c`, added in any of the six orders to an empty `AVLSet`
with balancing on, give `height() = 1`, the inorder sequence `[a, b, c]` and the preorder
sequence `[b, a, c]`. -/
theorem C19_avl_three_elements {α : Type} [LinearOrder α] (a b c : α) (hab : a < b)
    (hbc : b < c) (xs : List α)
    (hxs : xs ∈ [[a, b, c], [a, c, b], [b, a, c], [b, c, a], [c, a, b], [c, b, a]]) :
    ∃ s, (AVLSet.new true).addAll xs = some s ∧ s.height = 1 ∧ s.inorder = [a, b, c] ∧
      s.preorder = [b, a, c] := by
  have hac : a < c := lt_trans hab hbc
  have nba : ¬ b < a := not_lt_of_gt hab
  have ncb : ¬ c < b := not_lt_of_gt hbc
  have nca : ¬ c < a := not_lt_of_gt hac
  simp only [List.mem_cons, List.mem_singleton, List.not_mem_nil, or_false] at hxs
  rcases hxs with rfl | rfl | rfl | rfl | rfl | rfl <;>
    simp [AVLSet.addAll, AVLSet.add, AVLSet.new, NodeA.descend, NodeA.rebalanceWalk,
      NodeA.rotateAt, NodeA.llRotation, NodeA.lrRotation, NodeA.rlRotation, NodeA.rrRotation,
      NodeA.relinks, NodeA.attach, NodeA.heightHelper, AVLSet.height, AVLSet.inorder,
      AVLSet.preorder, NodeA.inorderHelper, NodeA.preorderHelper, hab, hbc, hac, nba, ncb, nca]

/-- C19, the stated case: the ascending order 1, 2, 3. -/
theorem C19_avl_three_elements_witness :
    (1 : Nat) < 2 ∧ (2 : Nat) < 3 ∧
    ∃ s, (AVLSet.new true).addAll [1, 2, 3] = some s ∧ s.height = 1 ∧ s.inorder = [1, 2, 3] ∧
      s.preorder = [2, 1, 3] :=
  ⟨by decide, by decide, C19_avl_three_elements 1 2 3 (by decide) (by decide) [1, 2, 3] (by simp)⟩

/-- C25: in an `AVLSet` built by `add` calls, with balancing on or off, every element that
was added is contained, and `add(e)` for an element `e` with `contains(e)` true returns the
set as it was and calls no rotation; so `size()`, `height()` and the preorder, inorder and
postorder visit sequences are the same before and after. -/
theorem C25_avl_add_contained_changes_nothing {α : Type} [LinearOrder α]
    (shouldBalance : Bool) (xs : List α) :
    ∃ s, (AVLSet.new shouldBalance).addAll xs = some s ∧ (∀ e ∈ xs, s.contains e = true) ∧
      ∀ e, s.contains e = true →
        s.addRotations e = some 0 ∧
        ∃ s', s.add e = some s' ∧ s' = s ∧ s'.size = s.size ∧ s'.height = s.height ∧
          s'.preorder = s.preorder ∧ s'.inorder = s.inorder ∧
          s'.postorder = s.postorder := by
  obtain ⟨s, h, hinv, _, hm⟩ :=
    AVLSet.avl_addAll_spec xs (AVLSet.new shouldBalance) (AVLSet.avl_inv_new _)
  refine ⟨s, h, ?_, ?_⟩
  · intro e he
    exact (NodeA.containsLoop_iff e _ hinv.bst).mpr ((hm e).mpr (Or.inl he))
  · intro e hc
    obtain ⟨s', h1, _, _, h2, _⟩ := AVLSet.avl_add_spec s e hinv
    have hs' := h2 hc
    refine ⟨?_, s', h1, hs', by rw [hs'], by rw [hs'], by rw [hs'], by rw [hs'], by rw [hs']⟩
    obtain ⟨bal, sz, root⟩ := s
    cases root with
    | null => rfl
    | mk a l r =>
      have : NodeA.descend e (NodeA.mk a l r) [] = none :=
        (NodeA.descend_eq_none_iff e _ [] (by simp)).mpr hc
      simp only [AVLSet.addRotations, this]

/-- C27: in an `AVLSet` built by `add` calls, each of `preorder`, `inorder` and `postorder`
calls `visit` `size()` times and passes every contained element once and no other element;
the three sequences are permutations of one another; and at every node `preorderHelper`
passes the element before the elements of the left and then the right subtree,
`inorderHelper` between them and `postorderHelper` after them. -/
theorem C27_avl_traversals {α : Type} [LinearOrder α] (shouldBalance : Bool) (xs : List α) :
    ∃ s, (AVLSet.new shouldBalance).addAll xs = some s ∧
      s.preorder.length = s.size ∧ s.inorder.length = s.size ∧
      s.postorder.length = s.size ∧
      (∀ e, s.preorder.count e = (if s.contains e = true then 1 else 0) ∧
        s.inorder.count e = (if s.contains e = true then 1 else 0) ∧
        s.postorder.count e = (if s.contains e = true then 1 else 0)) ∧
      s.preorder.Perm s.inorder ∧ s.postorder.Perm s.inorder ∧
      s.preorder.Perm s.postorder ∧
      ∀ (e : α) (l r : NodeA α),
        (NodeA.mk e l r).preorderHelper = [e] ++ l.preorderHelper ++ r.preorderHelper ∧
        (NodeA.mk e l r).inorderHelper = l.inorderHelper ++ [e] ++ r.inorderHelper ∧
        (NodeA.mk e l r).postorderHelper = l.postorderHelper ++ r.postorderHelper ++ [e] := by
  obtain ⟨s, h, hinv, _, _⟩ :=
    AVLSet.avl_addAll_spec xs (AVLSet.new shouldBalance) (AVLSet.avl_inv_new _)
  have hpre := NodeA.preorderHelper_perm s.root
  have hpost := NodeA.postorderHelper_perm s.root
  have hnd : s.root.inorderHelper.Nodup := List.Pairwise.imp (fun h => ne_of_lt h) hinv.bst
  have hcount : ∀ e, s.root.inorderHelper.count e = (if s.contains e = true then 1 else 0) := by
    intro e
    by_cases hc : s.contains e = true
    · rw [if_pos hc]
      exact List.count_eq_one_of_mem hnd ((NodeA.containsLoop_iff e _ hinv.bst).mp hc)
    · rw [if_neg hc]
      exact List.count_eq_zero_of_not_mem
        (fun hmem => hc ((NodeA.containsLoop_iff e _ hinv.bst).mpr hmem))
  refine ⟨s, h, ?_, ?_, ?_, ?_, hpre, hpost, hpre.trans hpost.symm, ?_⟩
  · rw [AVLSet.preorder, AVLSet.size, hpre.length_eq, hinv.count]
  · rw [AVLSet.inorder, AVLSet.size, hinv.count]
  · rw [AVLSet.postorder, AVLSet.size, hpost.length_eq, hinv.count]
  · intro e
    exact ⟨by rw [AVLSet.preorder, hpre.count_eq]; exact hcount e, hcount e,
      by rw [AVLSet.postorder, hpost.count_eq]; exact hcount e⟩
  · intro e l r
    simp [NodeA.preorderHelper, NodeA.inorderHelper, NodeA.postorderHelper]

/-- C34: an `AVLSet` with balancing on, built from an empty set by `add` calls and holding
`n >= 1` elements, has a `height()` that is not negative and satisfies
`2 ^ height() <= n ^ 2` and `2 ^ (height() / 2) <= n`. -/
theorem C34_avl_height_logarithmic {α : Type} [LinearOrder α] (xs : List α) :
    ∃ s, (AVLSet.new true).addAll xs = some s ∧
      (1 ≤ s.size → 0 ≤ s.height ∧ 2 ^ s.height.toNat ≤ s.size ^ 2 ∧
        2 ^ (s.height.toNat / 2) ≤ s.size) := by
  obtain ⟨s, h, hinv, hb, _⟩ :=
    AVLSet.avl_addAll_spec xs (AVLSet.new true) (AVLSet.avl_inv_new _)
  refine ⟨s, h, fun hn => ?_⟩
  have havl : s.root.IsAVL := hinv.avl (by rw [hb]; rfl)
  have hcount := hinv.count
  rw [AVLSet.size] at hn ⊢
  rw [AVLSet.height]
  have h0 : 0 ≤ s.root.heightHelper := by
    cases hr : s.root with
    | null => rw [hr] at hcount; simp [NodeA.inorderHelper] at hcount; omega
    | mk e l r =>
      rw [NodeA.heightHelper_mk]
      have := NodeA.heightHelper_ge l
      omega
  have h1 : 2 ^ s.root.heightHelper.toNat ≤ s.sz ^ 2 := by
    rw [hcount]
    exact NodeA.isAVL_size s.root havl _ (by omega)
  refine ⟨h0, h1, ?_⟩
  have h2 : (2 ^ (s.root.heightHelper.toNat / 2)) ^ 2 ≤ s.sz ^ 2 := by
    rw [← pow_mul]
    refine le_trans (Nat.pow_le_pow_right (by norm_num) ?_) h1
    omega
  exact (Nat.pow_le_pow_iff_left (by norm_num)).mp h2

/-- C35: for every sequence `xs`, the `AVLSet` built from `xs` with balancing on and the one
built with balancing off have the same `size()`, the same `contains(e)` for every `e` and the
same inorder visit sequence; the shape can differ: for 1, 2, 3 the heights are 1 and 2 and
the preorder and postorder sequences differ. -/
theorem C35_avl_balancing_changes_only_shape {α : Type} [LinearOrder α] (xs : List α) :
    (∃ s u, (AVLSet.new true).addAll xs = some s ∧ (AVLSet.new false).addAll xs = some u ∧
      s.size = u.size ∧ (∀ e, s.contains e = u.contains e) ∧ s.inorder = u.inorder) ∧
    ((AVLSet.new true).addAll [1, 2, 3]).map AVLSet.height = some 1 ∧
    ((AVLSet.new false).addAll [1, 2, 3]).map AVLSet.height = some 2 ∧
    ((AVLSet.new true).addAll [1, 2, 3]).map AVLSet.preorder = some [2, 1, 3] ∧
    ((AVLSet.new false).addAll [1, 2, 3]).map AVLSet.preorder = some [1, 2, 3] ∧
    ((AVLSet.new true).addAll [1, 2, 3]).map AVLSet.postorder = some [1, 3, 2] ∧
    ((AVLSet.new false).addAll [1, 2, 3]).map AVLSet.postorder = some [3, 2, 1] := by
  constructor
  · obtain ⟨s, hs, hinvs, _, hms⟩ :=
      AVLSet.avl_addAll_spec xs (AVLSet.new true) (AVLSet.avl_inv_new _)
    obtain ⟨u, hu, hinvu, _, hmu⟩ :=
      AVLSet.avl_addAll_spec xs (AVLSet.new false) (AVLSet.avl_inv_new _)
    have hms' : ∀ a, a ∈ s.root.inorderHelper ↔ a ∈ xs := by
      intro a; rw [hms]; simp [AVLSet.new, NodeA.inorderHelper]
    have hmu' : ∀ a, a ∈ u.root.inorderHelper ↔ a ∈ xs := by
      intro a; rw [hmu]; simp [AVLSet.new, NodeA.inorderHelper]
    refine ⟨s, u, hs, hu, ?_, ?_, ?_⟩
    · rw [AVLSet.avl_size_eq_dedup xs s hinvs hms', AVLSet.avl_size_eq_dedup xs u hinvu hmu']
    · intro e
      rw [Bool.eq_iff_iff, AVLSet.contains, AVLSet.contains,
        NodeA.containsLoop_iff e _ hinvs.bst, NodeA.containsLoop_iff e _ hinvu.bst, hms', hmu']
    · have hnds : s.root.inorderHelper.Nodup := List.Pairwise.imp (fun h => ne_of_lt h) hinvs.bst
      have hndu : u.root.inorderHelper.Nodup := List.Pairwise.imp (fun h => ne_of_lt h) hinvu.bst
      have hperm : s.root.inorderHelper.Perm u.root.inorderHelper :=
        (List.perm_ext_iff_of_nodup hnds hndu).mpr (fun a => by rw [hms', hmu'])
      exact List.eq_of_perm_of_sorted hperm hinvs.bst hinvu.bst
  · exact ⟨by decide, by decide, by decide, by decide, by decide, by decide⟩

/-- C32: for an `AVLSet` with balancing on whose tree is a search tree that satisfies the
AVL balance condition, and every element `e`, `add(e)` returns and its upward walk calls the
rotation functions at most once: every round after a round that rotated finds a balance
factor in {-1, 0, 1}. -/
theorem C32_avl_at_most_one_rotation {α : Type} [LinearOrder α] (s : AVLSet α) (e : α)
    (hb : s.balance = true) (hbst : s.root.IsBST) (havl : s.root.IsAVL) :
    ∃ visits s', s.add e = some s' ∧ s.addVisits e = some visits ∧
      s.addRotations e = some (visits.countP NodeA.WalkVisit.rotated) ∧
      visits.countP NodeA.WalkVisit.rotated ≤ 1 ∧
      ∀ pre v post, visits = pre ++ v :: post → v.rotated = true →
        ∀ w ∈ post, -1 ≤ w.dif ∧ w.dif ≤ 1 := by
  obtain ⟨visits, s', h1, h2, h3, h4, h5, _⟩ := AVLSet.addVisits_spec s e hb hbst havl
  exact ⟨visits, s', h1, h2, h3, h4, fun pre v post hs hv w hw =>
    ⟨(h5 pre v post hs hv w hw).2, (h5 pre v post hs hv w hw).1⟩⟩

/-- C32, a case with a rotation: 3 added to the set that holds 1 with 2 to its right. -/
theorem C32_avl_at_most_one_rotation_witness :
    (AVLSet.mk true 2 (.mk 1 .null (.mk 2 .null .null)) : AVLSet Nat).balance = true ∧
    (NodeA.mk 1 .null (.mk 2 .null .null) : NodeA Nat).IsBST ∧
    (NodeA.mk 1 .null (.mk 2 .null .null) : NodeA Nat).IsAVL ∧
    ∃ visits s',
      (AVLSet.mk true 2 (.mk 1 .null (.mk 2 .null .null)) : AVLSet Nat).add 3 = some s' ∧
      (AVLSet.mk true 2 (.mk 1 .null (.mk 2 .null .null)) : AVLSet Nat).addVisits 3 =
        some visits ∧
      (AVLSet.mk true 2 (.mk 1 .null (.mk 2 .null .null)) : AVLSet Nat).addRotations 3 =
        some (visits.countP NodeA.WalkVisit.rotated) ∧
      visits.countP NodeA.WalkVisit.rotated ≤ 1 ∧
      ∀ pre v post, visits = pre ++ v :: post → v.rotated = true →
        ∀ w ∈ post, -1 ≤ w.dif ∧ w.dif ≤ 1 :=
  ⟨rfl, by simp [NodeA.IsBST, NodeA.inorderHelper],
    by simp [NodeA.IsAVL, NodeA.heightHelper],
    C32_avl_at_most_one_rotation _ 3 rfl (by simp [NodeA.IsBST, NodeA.inorderHelper])
      (by simp [NodeA.IsAVL, NodeA.heightHelper])⟩

/-- C33: in an `AVLSet` with balancing on built by `add` calls, `add(e)` returns, and every
round of its upward walk that finds a balance factor outside {-1, 0, 1} is on a node whose
child on the side of `e` is there with an element other than `e`; one of the cases LL, LR,
RR, RL applies and its rotation function is the one called; for LR and RL the grandchild
`node->left->right` or `node->right->left` is there; and the rotation returns a subtree, so
it reads no empty link. -/
theorem C33_avl_rotations_read_no_empty_link {α : Type} [LinearOrder α] (xs : List α) :
    ∃ s, (AVLSet.new true).addAll xs = some s ∧
      ∀ e, ∃ visits s', s.add e = some s' ∧ s.addVisits e = some visits ∧
        ∀ v ∈ visits, (v.dif > 1 ∨ v.dif < -1) →
          v.rotated = true ∧
          ((∃ a le ll lr r, v.current = .mk a (.mk le ll lr) r ∧ e < a ∧ le ≠ e ∧
              ((e < le ∧ NodeA.rotateAt e v.parent v.current =
                  (NodeA.llRotation v.parent v.current).map some) ∨
               (le < e ∧ lr ≠ .null ∧ NodeA.rotateAt e v.parent v.current =
                  (NodeA.lrRotation v.parent v.current).map some))) ∨
           (∃ a l re rl rr, v.current = .mk a l (.mk re rl rr) ∧ a < e ∧ re ≠ e ∧
              ((re < e ∧ NodeA.rotateAt e v.parent v.current =
                  (NodeA.rrRotation v.parent v.current).map some) ∨
               (e < re ∧ rl ≠ .null ∧ NodeA.rotateAt e v.parent v.current =
                  (NodeA.rlRotation v.parent v.current).map some)))) ∧
          ∃ t, NodeA.rotateAt e v.parent v.current = some (some t) := by
  obtain ⟨s, h, hinv, hb, _⟩ :=
    AVLSet.avl_addAll_spec xs (AVLSet.new true) (AVLSet.avl_inv_new _)
  have hb' : s.balance = true := by rw [hb]; rfl
  refine ⟨s, h, fun e => ?_⟩
  obtain ⟨visits, s', h1, h2, _, _, _, h6⟩ :=
    AVLSet.addVisits_spec s e hb' hinv.bst (hinv.avl hb')
  exact ⟨visits, s', h1, h2, fun v hv hoff => ⟨(h6 v hv hoff).1, (h6 v hv hoff).2⟩⟩


/-! ## Properties of `HashSet` -/

namespace HashSet
variable {α : Type}

theorem countChain_eq (chain : List α) : countChain chain = chain.length := by
  induction chain with
  | nil => rfl
  | cons e next ih => simp [countChain, ih]

theorem linkAtEnd_some (arr : List (List α)) (i : Nat) (e : α) (hi : i < arr.length) :
    linkAtEnd arr i e = some (arr.set i (arr[i] ++ [e])) := by
  simp [linkAtEnd, List.getElem?_eq_getElem hi]

theorem flatten_set_perm (arr : List (List α)) (i : Nat) (e : α) (hi : i < arr.length) :
    (arr.set i (arr[i] ++ [e])).flatten.Perm (e :: arr.flatten) := by
  induction arr generalizing i with
  | nil => simp at hi
  | cons c rest ih =>
    cases i with
    | zero =>
      simp only [List.set_cons_zero, List.flatten_cons, List.getElem_cons_zero,
        List.append_assoc, List.singleton_append]
      exact List.perm_middle
    | succ i =>
      simp only [List.set_cons_succ, List.flatten_cons, List.getElem_cons_succ]
      have hi' : i < rest.length := by simpa using hi
      exact ((ih i hi').append_left c).trans List.perm_middle

theorem homed_set (h : α → Nat) (cp : Nat) (arr : List (List α)) (e : α)
    (hi : h e % cp < arr.length) (hh : Homed h cp arr) :
    Homed h cp (arr.set (h e % cp) (arr[h e % cp] ++ [e])) := by
  intro j chain hj a ha
  by_cases h1 : h e % cp = j
  · rw [← h1, List.getElem?_set_self hi] at hj
    cases hj
    rw [List.mem_append] at ha
    rcases ha with ha | ha
    · rw [← h1]; exact hh _ _ (List.getElem?_eq_getElem hi) a ha
    · simp only [List.mem_singleton] at ha
      rw [ha]; exact h1
  · rw [List.getElem?_set_ne h1] at hj
    exact hh j chain hj a ha

/-- The inner rehash loop: the nodes of one old chain are linked into the new array. -/
theorem foldlM_linkAtEnd (h : α → Nat) (cp : Nat) (hcp : 0 < cp) (chain : List α)
    (acc : List (List α)) (hlen : acc.length = cp) (hh : Homed h cp acc) :
    ∃ acc', chain.foldlM (fun newArr e => linkAtEnd newArr (h e % cp) e) acc = some acc' ∧
      acc'.length = cp ∧ Homed h cp acc' ∧ acc'.flatten.Perm (acc.flatten ++ chain) := by
  induction chain generalizing acc with
  | nil => exact ⟨acc, rfl, hlen, hh, by simp⟩
  | cons e rest ih =>
    have hi : h e % cp < acc.length := by rw [hlen]; exact Nat.mod_lt _ hcp
    obtain ⟨acc', h1, h2, h3, h4⟩ := ih (acc.set (h e % cp) (acc[h e % cp] ++ [e]))
      (by simpa using hlen) (homed_set h cp acc e hi hh)
    refine ⟨acc', ?_, h2, h3, ?_⟩
    · rw [List.foldlM_cons, linkAtEnd_some acc _ e hi]
      exact h1
    · refine h4.trans ?_
      refine ((flatten_set_perm acc _ e hi).append_right rest).trans ?_
      simpa using (@List.perm_middle _ e acc.flatten rest).symm

theorem foldlM_range_getElem {β γ : Type} (f : γ → β → Option γ) (l : List β)
    (g : γ → Nat → Option γ) (hg : ∀ acc i (h : i < l.length), g acc i = f acc (l.get ⟨i, h⟩))
    (init : γ) :
    (List.range l.length).foldlM g init = l.foldlM f init := by
  induction l generalizing g init with
  | nil => rfl
  | cons x rest ih =>
    rw [List.length_cons, List.range_succ_eq_map, List.foldlM_cons, List.foldlM_cons]
    have h0 : g init 0 = f init x := hg init 0 (by simp)
    rw [h0]
    cases hf : f init x with
    | none => rfl
    | some acc =>
      simp only [Option.some_bind, Option.bind_eq_bind]
      rw [List.foldlM_map]
      exact ih (fun acc i => g acc (i + 1))
        (fun acc i h => hg acc (i + 1) (by simpa using h)) acc

/-- The outer rehash loop over the old chains. -/
theorem foldlM_chains (h : α → Nat) (cp : Nat) (hcp : 0 < cp) (chains : List (List α))
    (acc : List (List α)) (hlen : acc.length = cp) (hh : Homed h cp acc) :
    ∃ acc', chains.foldlM
        (fun newArr chain =>
          chain.foldlM (fun newArr e => linkAtEnd newArr (h e % cp) e) newArr) acc = some acc' ∧
      acc'.length = cp ∧ Homed h cp acc' ∧ acc'.flatten.Perm (acc.flatten ++ chains.flatten) := by
  induction chains generalizing acc with
  | nil => exact ⟨acc, rfl, hlen, hh, by simp⟩
  | cons c rest ih =>
    obtain ⟨a1, h1, h2, h3, h4⟩ := foldlM_linkAtEnd h cp hcp c acc hlen hh
    obtain ⟨a2, k1, k2, k3, k4⟩ := ih a1 h2 h3
    refine ⟨a2, ?_, k2, k3, ?_⟩
    · rw [List.foldlM_cons, h1]; exact k1
    · refine k4.trans ?_
      simpa [List.append_assoc] using h4.append_right rest.flatten

theorem homed_replicate (h : α → Nat) (cp n : Nat) : Homed h cp (List.replicate n []) := by
  intro i chain hi e he
  rw [List.getElem?_replicate] at hi
  split_ifs at hi
  cases hi
  simp at he

/-- The rehash of lines 291-313 returns an array of the new capacity that holds the same
elements, each in the bucket of its hash value for the new capacity. -/
theorem rehash_spec (h : α → Nat) (arr : List (List α)) (newCp : Nat) (hcp : 0 < newCp) :
    ∃ newArr, rehash h arr arr.length newCp = some newArr ∧ newArr.length = newCp ∧
      Homed h newCp newArr ∧ newArr.flatten.Perm arr.flatten := by
  obtain ⟨a, h1, h2, h3, h4⟩ := foldlM_chains h newCp hcp arr (List.replicate newCp [])
    (by simp) (homed_replicate h newCp newCp)
  refine ⟨a, ?_, h2, h3, by simpa using h4⟩
  unfold rehash
  rw [foldlM_range_getElem
    (fun newArr chain => chain.foldlM (fun newArr e => linkAtEnd newArr (h e % newCp) e) newArr)
    arr (rehashBucket h arr newCp)
    (fun acc i hi => by simp [rehashBucket, List.getElem?_eq_getElem hi])]
  exact h1

end HashSet

namespace HashSet
variable {α : Type} [DecidableEq α]

theorem scanChain_eq (e : α) (chain : List α) : scanChain e chain = decide (e ∈ chain) := by
  induction chain with
  | nil => simp [scanChain]
  | cons a next ih =>
    unfold scanChain
    by_cases h : a = e
    · simp [h]
    · have h' : ¬ e = a := fun h1 => h h1.symm
      simp [h, h', ih]

omit [DecidableEq α] in
theorem mem_flatten_iff_home (s : HashSet α) (arr : List (List α)) (hs : Inv s arr) (e : α)
    (chain : List α) (i : Nat) (hc : arr[i]? = some chain) :
    e ∈ chain ↔ e ∈ arr.flatten ∧ i = s.hashFunction e % s.cp := by
  constructor
  · intro he
    refine ⟨List.mem_flatten.mpr ⟨chain, ?_, he⟩, (hs.home i chain hc e he).symm⟩
    exact List.mem_iff_getElem?.mpr ⟨i, hc⟩
  · rintro ⟨he, hi⟩
    obtain ⟨c, hcm, hec⟩ := List.mem_flatten.mp he
    obtain ⟨j, hj⟩ := List.mem_iff_getElem?.mp hcm
    have := hs.home j c hj e hec
    rw [← hi] at this
    subst this
    rw [hc] at hj
    cases hj
    exact hec

omit [DecidableEq α] in
theorem inv_index_lt (s : HashSet α) (arr : List (List α)) (hs : Inv s arr) (e : α) :
    s.hashFunction e % s.cp < arr.length := by
  rw [hs.length]; exact Nat.mod_lt _ hs.cp_pos

theorem contains_spec (s : HashSet α) (arr : List (List α)) (hs : Inv s arr) (e : α) :
    s.contains e = some (decide (e ∈ arr.flatten)) := by
  have hi := inv_index_lt s arr hs e
  have hc := List.getElem?_eq_getElem hi
  have hne : s.cp ≠ 0 := Nat.pos_iff_ne_zero.mp hs.cp_pos
  simp only [contains, hne, if_false, hs.arr_eq, hc, scanChain_eq, Option.some.injEq,
    decide_eq_decide]
  rw [mem_flatten_iff_home s arr hs e _ _ hc]
  simp

theorem isElementAtIndex_spec (s : HashSet α) (arr : List (List α)) (hs : Inv s arr) (e : α)
    (i : Nat) (hi : i < s.cp) :
    s.isElementAtIndex e i =
      some (decide (e ∈ arr.flatten ∧ i = s.hashFunction e % s.cp)) := by
  have hi' : i < arr.length := by rw [hs.length]; exact hi
  have hc := List.getElem?_eq_getElem hi'
  have hle : ¬ i > s.cp := by omega
  simp only [isElementAtIndex, hle, if_false, hs.arr_eq, hc, scanChain_eq, Option.some.injEq,
    decide_eq_decide]
  exact mem_flatten_iff_home s arr hs e _ _ hc

omit [DecidableEq α] in
theorem hash_inv_new (h : α → Nat) : Inv (new h) (List.replicate DEFAULT_CAPACITY []) := by
  refine ⟨rfl, by simp [new], by simp [new, DEFAULT_CAPACITY], by simp [new],
    homed_replicate _ _ _, ?_, ?_⟩
  · simp [DEFAULT_CAPACITY]
  · simp [new, DEFAULT_CAPACITY]

/-- One `add` on a set that satisfies `Inv`. -/
theorem hash_add_spec (s : HashSet α) (arr : List (List α)) (hs : Inv s arr) (e : α) :
    ∃ s' arr', s.add e = some s' ∧ Inv s' arr' ∧ s'.hashFunction = s.hashFunction ∧
      (e ∈ arr.flatten → s' = s ∧ arr' = arr) ∧
      (e ∉ arr.flatten → arr'.flatten.Perm (e :: arr.flatten) ∧ s'.sz = s.sz + 1 ∧
        s'.cp = if 4 * s.cp < 5 * (s.sz + 1) then s.cp * 2 + 1 else s.cp) := by
  by_cases he : e ∈ arr.flatten
  · refine ⟨s, arr, ?_, hs, rfl, fun _ => ⟨rfl, rfl⟩, fun h => absurd he h⟩
    simp [add, contains_spec s arr hs e, he]
  · have hcon : s.contains e = some false := by simp [contains_spec s arr hs e, he]
    by_cases hg : 4 * s.cp < 5 * (s.sz + 1)
    · -- the array grows
      obtain ⟨newArr, hr1, hr2, hr3, hr4⟩ :=
        rehash_spec s.hashFunction arr (s.cp * 2 + 1) (by omega)
      rw [hs.length] at hr1
      have hi : s.hashFunction e % (s.cp * 2 + 1) < newArr.length := by
        rw [hr2]; exact Nat.mod_lt _ (by omega)
      have hperm := (flatten_set_perm newArr _ e hi).trans (hr4.cons e)
      refine ⟨{ s with arr := some (newArr.set _ (newArr[s.hashFunction e % (s.cp * 2 + 1)] ++ [e])),
                       sz := s.sz + 1, cp := s.cp * 2 + 1 }, _, ?_,
        ⟨rfl, ?_, ?_, ?_, ?_, ?_, ?_⟩, rfl, fun h => absurd h he, fun _ => ⟨hperm, rfl, ?_⟩⟩
      · simp [add, hcon, hs.arr_eq, hg, hr1, linkAtEnd_some newArr _ e hi]
      · simpa using hr2
      · simp
      · have := hs.load; have := hs.cp_pos; simp only; omega
      · exact homed_set _ _ _ e hi hr3
      · exact hperm.nodup_iff.mpr (List.nodup_cons.mpr ⟨he, hs.nodup⟩)
      · simp only [hperm.length_eq, List.length_cons, hs.count]
      · simp [hg]
    · -- no growth
      have hi := inv_index_lt s arr hs e
      have hperm := flatten_set_perm arr _ e hi
      refine ⟨{ s with arr := some (arr.set _ (arr[s.hashFunction e % s.cp] ++ [e])),
                       sz := s.sz + 1 }, _, ?_,
        ⟨rfl, ?_, ?_, ?_, ?_, ?_, ?_⟩, rfl, fun h => absurd h he, fun _ => ⟨hperm, rfl, ?_⟩⟩
      · simp [add, hcon, hs.arr_eq, hg, linkAtEnd_some arr _ e hi]
      · simpa using hs.length
      · exact hs.cp_pos
      · simp only; omega
      · exact homed_set _ _ _ e hi hs.home
      · exact hperm.nodup_iff.mpr (List.nodup_cons.mpr ⟨he, hs.nodup⟩)
      · simp only [hperm.length_eq, List.length_cons, hs.count]
      · simp [hg]

/-- A sequence of `add` calls on a set that satisfies `Inv`. -/
theorem hash_addAll_spec (xs : List α) (s : HashSet α) (arr : List (List α)) (hs : Inv s arr) :
    ∃ s' arr', s.addAll xs = some s' ∧ Inv s' arr' ∧ s'.hashFunction = s.hashFunction ∧
      ∀ a, a ∈ arr'.flatten ↔ a ∈ xs ∨ a ∈ arr.flatten := by
  induction xs generalizing s arr with
  | nil => exact ⟨s, arr, rfl, hs, rfl, by simp⟩
  | cons x xs ih =>
    obtain ⟨s1, arr1, h1, hinv1, hf1, hin, hout⟩ := hash_add_spec s arr hs x
    obtain ⟨s2, arr2, h2, hinv2, hf2, hm⟩ := ih s1 arr1 hinv1
    refine ⟨s2, arr2, by simp [addAll, h1, h2], hinv2, hf2.trans hf1, ?_⟩
    intro a
    rw [hm]
    by_cases hx : x ∈ arr.flatten
    · rw [(hin hx).2]
      simp only [List.mem_cons]
      constructor
      · rintro (h | h)
        · exact Or.inl (Or.inr h)
        · exact Or.inr h
      · rintro ((rfl | h) | h)
        · exact Or.inr hx
        · exact Or.inl h
        · exact Or.inr h
    · rw [(hout hx).1.mem_iff]
      simp only [List.mem_cons]
      tauto

theorem hash_size_eq_dedup (xs : List α) (s : HashSet α) (arr : List (List α)) (hs : Inv s arr)
    (hm : ∀ a, a ∈ arr.flatten ↔ a ∈ xs) : s.size = xs.dedup.length := by
  have hperm : arr.flatten.Perm xs.dedup :=
    (List.perm_ext_iff_of_nodup hs.nodup (List.nodup_dedup xs)).mpr
      (fun a => by rw [hm, List.mem_dedup])
  rw [size, hs.count, hperm.length_eq]

/-- The sets built by `add` calls from a new one. -/
theorem addAll_new (h : α → Nat) (xs : List α) :
    ∃ s arr, (new h).addAll xs = some s ∧ Inv s arr ∧ s.hashFunction = h ∧
      ∀ a, a ∈ arr.flatten ↔ a ∈ xs := by
  obtain ⟨s, arr, h1, h2, h3, h4⟩ := hash_addAll_spec xs (new h) _ (hash_inv_new h)
  refine ⟨s, arr, h1, h2, h3, ?_⟩
  intro a; rw [h4]; simp

end HashSet

namespace HashSet
variable {α : Type} [DecidableEq α]

/-- A property of the new set that every `add` on a set satisfying `Inv` keeps holds after
any sequence of `add` calls. -/
theorem addAll_induction (P : HashSet α → Prop)
    (hP : ∀ s arr e s', Inv s arr → P s → s.add e = some s' → P s')
    (xs : List α) (s : HashSet α) (arr : List (List α)) (hs : Inv s arr) (h0 : P s)
    (s' : HashSet α) (h : s.addAll xs = some s') : P s' := by
  induction xs generalizing s arr with
  | nil => simp only [addAll, Option.some.injEq] at h; rw [← h]; exact h0
  | cons x xs ih =>
    obtain ⟨s1, arr1, h1, hinv1, _, _, _⟩ := hash_add_spec s arr hs x
    simp only [addAll, h1, Option.some_bind] at h
    exact ih s1 arr1 hinv1 (hP s arr x s1 hs h0 h1) h

/-- The capacity of a set with at most nine elements, from its size. -/
theorem capacity_small (h : α → Nat) (xs : List α) (s : HashSet α)
    (hs : (new h).addAll xs = some s) :
    (s.sz ≤ 8 → s.cp = 10) ∧ (s.sz = 9 → s.cp = 21) := by
  refine addAll_induction (fun s => (s.sz ≤ 8 → s.cp = 10) ∧ (s.sz = 9 → s.cp = 21))
    ?_ xs (new h) _ (hash_inv_new h) ?_ s hs
  · intro s arr e s' hinv hp hadd
    obtain ⟨s1, arr1, h1, _, _, hin, hout⟩ := hash_add_spec s arr hinv e
    rw [hadd] at h1
    cases h1
    by_cases he : e ∈ arr.flatten
    · rw [(hin he).1]; exact hp
    · obtain ⟨_, hsz, hcp⟩ := hout he
      rw [hsz, hcp]
      constructor
      · intro h8
        have := hp.1 (by omega)
        rw [if_neg (by omega)]; exact this
      · intro h9
        have := hp.1 (by omega)
        rw [if_pos (by omega)]; omega
  · simp [new, DEFAULT_CAPACITY]

end HashSet

namespace HashSet
variable {α : Type}

/-- The counts of the buckets of a set that satisfies `Inv`, bucket by bucket. -/
theorem elementsAtIndex_range (s : HashSet α) (arr : List (List α)) (hs : Inv s arr) :
    (List.range s.cp).map s.elementsAtIndex = (arr.map List.length).map some := by
  apply List.ext_getElem
  · simp [hs.length]
  · intro i h1 h2
    simp only [List.length_map, List.length_range] at h1
    have hi : i < arr.length := by rw [hs.length]; exact h1
    simp only [List.getElem_map, List.getElem_range, elementsAtIndex, hs.arr_eq,
      if_neg (Nat.not_lt.mpr (Nat.le_of_lt h1)), List.getElem?_eq_getElem hi, countChain_eq]

end HashSet


/-! ### The claims about `HashSet` -/

/-- C5: after the elements of `xs` are added, in order, to a new `HashSet` built with any
hash function `h`, every call returns and `contains(e)` is true exactly when `e` occurs in
`xs`; resizes on the way are part of the `add` calls. -/
theorem C5_hash_contains_iff_mem {α : Type} [DecidableEq α] (h : α → Nat) (xs : List α)
    (e : α) :
    ∃ s, (HashSet.new h).addAll xs = some s ∧ s.contains e = some (decide (e ∈ xs)) := by
  obtain ⟨s, arr, h1, hinv, _, hm⟩ := HashSet.addAll_new h xs
  refine ⟨s, h1, ?_⟩
  rw [HashSet.contains_spec s arr hinv e]
  simp [hm]

/-- C6: after the elements of `xs` are added to a new `HashSet`, `size()` is the number of
distinct elements of `xs`, and adding an element that is already there returns the set
unchanged: same `size()`, and `contains` still true. -/
theorem C6_hash_size_distinct {α : Type} [DecidableEq α] (h : α → Nat) (xs : List α) :
    ∃ s, (HashSet.new h).addAll xs = some s ∧ s.size = xs.dedup.length ∧
      ∀ y, s.contains y = some true →
        ∃ s', s.add y = some s' ∧ s'.size = s.size ∧ s'.contains y = some true := by
  obtain ⟨s, arr, h1, hinv, _, hm⟩ := HashSet.addAll_new h xs
  refine ⟨s, h1, HashSet.hash_size_eq_dedup xs s arr hinv hm, ?_⟩
  intro y hy
  refine ⟨s, ?_, rfl, hy⟩
  simp [HashSet.add, hy]

/-- C7: in a `HashSet` built by `add` calls from a new one, for an index `i` below the
capacity `isElementAtIndex(e, i)` returns, and it is true exactly when `contains(e)` is true
and `i` is `h(e) mod capacity` for the current capacity. -/
theorem C7_hash_bucket_is_hash_mod_capacity {α : Type} [DecidableEq α] (h : α → Nat)
    (xs : List α) (e : α) (i : Nat) :
    ∃ s, (HashSet.new h).addAll xs = some s ∧
      (i < s.cp → ∃ b, s.isElementAtIndex e i = some b ∧
        (b = true ↔ s.contains e = some true ∧ i = h e % s.cp)) := by
  obtain ⟨s, arr, h1, hinv, hf, hm⟩ := HashSet.addAll_new h xs
  refine ⟨s, h1, fun hi => ⟨_, HashSet.isElementAtIndex_spec s arr hinv e i hi, ?_⟩⟩
  rw [HashSet.contains_spec s arr hinv e, hf]
  simp

/-- C8: after each `add` of a sequence on a new `HashSet` (after the first `n` calls, for
every `n`) the load is at most 0.8: `5 * size <= 4 * capacity`. -/
theorem C8_hash_load_factor {α : Type} [DecidableEq α] (h : α → Nat) (xs : List α)
    (n : Nat) :
    ∃ s, (HashSet.new h).addAll (xs.take n) = some s ∧ 5 * s.size ≤ 4 * s.cp := by
  obtain ⟨s, arr, h1, hinv, _, _⟩ := HashSet.addAll_new h (xs.take n)
  exact ⟨s, h1, hinv.load⟩

/-- C9: a new `HashSet` has capacity 10; on a set built by `add` calls, `add(e)` of an
element that is not contained keeps the capacity `c` when `5 * (n + 1) <= 4 * c` and makes it
`2 * c + 1` otherwise, `n` being the size, and `add(e)` of a contained element keeps the
capacity; so for nine distinct elements the capacity is 10 after the eighth `add` and 21
after the ninth. -/
theorem C9_hash_capacity_growth {α : Type} [DecidableEq α] (h : α → Nat) :
    (HashSet.new h).cp = 10 ∧
    (∀ (xs : List α) (e : α), ∃ s s', (HashSet.new h).addAll xs = some s ∧ s.add e = some s' ∧
      (s.contains e = some false →
        (5 * (s.size + 1) ≤ 4 * s.cp → s'.cp = s.cp) ∧
        (4 * s.cp < 5 * (s.size + 1) → s'.cp = 2 * s.cp + 1)) ∧
      (s.contains e = some true → s'.cp = s.cp)) ∧
    (∀ xs : List α, xs.Nodup → xs.length = 9 →
      ∃ s8 s9, (HashSet.new h).addAll (xs.take 8) = some s8 ∧ s8.cp = 10 ∧
        (HashSet.new h).addAll xs = some s9 ∧ s9.cp = 21) := by
  refine ⟨rfl, ?_, ?_⟩
  · intro xs e
    obtain ⟨s, arr, h1, hinv, _, _⟩ := HashSet.addAll_new h xs
    obtain ⟨s', arr', h2, _, _, hin, hout⟩ := HashSet.hash_add_spec s arr hinv e
    refine ⟨s, s', h1, h2, ?_, ?_⟩
    · intro hc
      rw [HashSet.contains_spec s arr hinv e] at hc
      have he : e ∉ arr.flatten := by simpa using hc
      obtain ⟨_, _, hcp⟩ := hout he
      rw [hcp, HashSet.size]
      constructor
      · intro hle; rw [if_neg (by omega)]
      · intro hlt; rw [if_pos hlt]; omega
    · intro hc
      rw [HashSet.contains_spec s arr hinv e] at hc
      have he : e ∈ arr.flatten := by simpa using hc
      rw [(hin he).1]
  · intro xs hnd hlen
    obtain ⟨s8, arr8, h8, hinv8, _, hm8⟩ := HashSet.addAll_new h (xs.take 8)
    obtain ⟨s9, arr9, h9, hinv9, _, hm9⟩ := HashSet.addAll_new h xs
    have hsz8 : s8.sz = 8 := by
      have := HashSet.hash_size_eq_dedup (xs.take 8) s8 arr8 hinv8 hm8
      rw [List.Nodup.dedup (hnd.sublist (List.take_sublist 8 xs))] at this
      rw [HashSet.size] at this
      rw [this, List.length_take]; omega
    have hsz9 : s9.sz = 9 := by
      have := HashSet.hash_size_eq_dedup xs s9 arr9 hinv9 hm9
      rw [List.Nodup.dedup hnd, HashSet.size] at this
      rw [this, hlen]
    exact ⟨s8, s9, h8, (HashSet.capacity_small h _ s8 h8).1 (by omega), h9,
      (HashSet.capacity_small h _ s9 h9).2 hsz9⟩

/-- C17: the set with the one element 1 (hash value 1) and what the copy constructor and the
copy assignment make from it: `size()` is copied, but every bucket of the result is empty,
so `contains(1)`, `elementsAtIndex(1)` and `isElementAtIndex(1, 1)` differ from the
source. -/
theorem C17_hash_copy_has_empty_buckets :
    ∃ s c c', (HashSet.new fun n : Nat => n).addAll [1] = some s ∧ s.copy = some c ∧
      (HashSet.new fun n : Nat => n).copyAssign s false = some c' ∧
      s.size = 1 ∧ c.size = 1 ∧ c'.size = 1 ∧
      s.contains 1 = some true ∧ c.contains 1 = some false ∧ c'.contains 1 = some false ∧
      s.elementsAtIndex 1 = some 1 ∧ c.elementsAtIndex 1 = some 0 ∧
      c'.elementsAtIndex 1 = some 0 ∧
      s.isElementAtIndex 1 1 = some true ∧ c.isElementAtIndex 1 1 = some false ∧
      c'.isElementAtIndex 1 1 = some false :=
  ⟨_, _, _, rfl, rfl, rfl, rfl, rfl, rfl, rfl, rfl, rfl, rfl, rfl, rfl, rfl, rfl, rfl⟩

/-- C22: in a `HashSet` built by `add` calls from a new one, `elementsAtIndex(i)` returns
for every index `i` from 0 to the capacity minus one, and the sum of the results is
`size()`; it is the number of the elements added when they are distinct, so 9 for nine
distinct elements. -/
theorem C22_hash_bucket_counts_sum_to_size {α : Type} [DecidableEq α] (h : α → Nat)
    (xs : List α) :
    ∃ (s : HashSet α) (counts : List Nat), (HashSet.new h).addAll xs = some s ∧
      (List.range s.cp).map s.elementsAtIndex = counts.map some ∧
      counts.sum = s.size ∧ (xs.Nodup → counts.sum = xs.length) ∧
      (xs.Nodup → xs.length = 9 → counts.sum = 9) := by
  obtain ⟨s, arr, h1, hinv, _, hm⟩ := HashSet.addAll_new h xs
  have hsum : (arr.map List.length).sum = s.size := by
    rw [HashSet.size, hinv.count, List.length_flatten]
  have hnd : xs.Nodup → (arr.map List.length).sum = xs.length := by
    intro hx
    rw [hsum, HashSet.hash_size_eq_dedup xs s arr hinv hm, List.Nodup.dedup hx]
  exact ⟨s, arr.map List.length, h1, HashSet.elementsAtIndex_range s arr hinv, hsum, hnd,
    fun hx h9 => by rw [hnd hx, h9]⟩

/-- C23: in a `HashSet` built by `add` calls, for the index that is the capacity itself
`elementsAtIndex` and `isElementAtIndex` do not return the default: the test is
`index > cp`, so they go on to read `arr[cp]`, past the end of the array (`none`).  For the
indices above the capacity they return 0 and false. -/
theorem C23_hash_index_at_capacity_reads_past_end {α : Type} [DecidableEq α] (h : α → Nat)
    (xs : List α) (e : α) :
    ∃ s, (HashSet.new h).addAll xs = some s ∧
      s.elementsAtIndex s.cp = none ∧ s.isElementAtIndex e s.cp = none ∧
      ∀ i, s.cp < i → s.elementsAtIndex i = some 0 ∧ s.isElementAtIndex e i = some false := by
  obtain ⟨s, arr, h1, hinv, _, _⟩ := HashSet.addAll_new h xs
  have hnone : arr[s.cp]? = none := List.getElem?_eq_none (by rw [hinv.length])
  refine ⟨s, h1, ?_, ?_, ?_⟩
  · simp [HashSet.elementsAtIndex, hinv.arr_eq, hnone]
  · simp [HashSet.isElementAtIndex, hinv.arr_eq, hnone]
  · intro i hi
    simp [HashSet.elementsAtIndex, HashSet.isElementAtIndex, hi]


/-! ## Properties of `SkipListSet` -/

namespace SkipListKey
variable {α : Type} [LinearOrder α]

theorem key_eq_iff (a b : SkipListKey α) (hb : b.kind = .Normal) : a.eq b = true ↔ a = b := by
  obtain ⟨ak, ae⟩ := a
  obtain ⟨bk, be⟩ := b
  simp only at hb
  subst hb
  cases ak <;> simp [eq]

theorem key_lt_irrefl (a : SkipListKey α) : a.lt a = false := by
  obtain ⟨ak, ae⟩ := a
  cases ak <;> simp [lt]

theorem key_lt_trans (a b c : SkipListKey α) (h1 : a.lt b = true) (h2 : b.lt c = true) :
    a.lt c = true := by
  obtain ⟨ak, ae⟩ := a
  obtain ⟨bk, be⟩ := b
  obtain ⟨ck, ce⟩ := c
  cases ak <;> cases bk <;> cases ck <;> simp_all [lt]
  exact lt_trans h1 h2

theorem key_lt_asymm (a b : SkipListKey α) (h1 : a.lt b = true) : b.lt a = false := by
  cases h : b.lt a with
  | false => rfl
  | true => have := key_lt_trans a b a h1 h; rw [key_lt_irrefl] at this; cases this

theorem key_ne_of_lt (a b : SkipListKey α) (h1 : a.lt b = true) : a ≠ b := by
  rintro rfl; rw [key_lt_irrefl] at h1; cases h1

/-- After a key that is below it, a key that a normal key `s` is not below is below `s` or
is `s`. -/
theorem lt_or_eq_of_not_lt (a b s : SkipListKey α) (hs : s.kind = .Normal)
    (hab : a.lt b = true) (h : s.lt b = false) : b.lt s = true ∨ b = s := by
  obtain ⟨ak, ae⟩ := a
  obtain ⟨bk, be⟩ := b
  obtain ⟨sk, se⟩ := s
  simp only at hs
  subst hs
  cases ak <;> cases bk <;> simp_all [lt]
  · exact lt_or_eq_of_le h
  · exact lt_or_eq_of_le h

theorem kind_ne_posInf_of_lt (a b : SkipListKey α) (h : a.lt b = true) :
    a.kind ≠ .PosInf := by
  intro hk
  simp [lt, hk] at h

end SkipListKey

namespace SkipListSet
variable {α : Type} [LinearOrder α] [Inhabited α]

open SkipListKey

theorem row_next (r pre post : Row α) (a : Nat × Node α) (hr : RowOK r)
    (hsplit : r = pre ++ a :: post) (ha : a.2.key.kind ≠ .PosInf) :
    ∃ b post', post = b :: post' ∧ Link a b := by
  obtain ⟨hchain, _, t, hlast, htk, _⟩ := hr
  cases post with
  | nil =>
    exfalso
    rw [hsplit] at hlast
    have : a = t := by simpa using hlast
    rw [this, htk] at ha
    exact ha rfl
  | cons b post' =>
    refine ⟨b, post', rfl, ?_⟩
    rw [hsplit] at hchain
    exact (List.chain'_cons.mp (List.chain'_split.mp hchain).2).1

theorem row_pairwise (r : Row α) (hr : RowOK r) :
    r.Pairwise (fun a b => a.2.key.lt b.2.key = true) := by
  haveI : IsTrans (Nat × Node α) (fun a b => a.2.key.lt b.2.key = true) :=
    ⟨fun a b c h1 h2 => key_lt_trans _ _ _ h1 h2⟩
  exact List.chain'_iff_pairwise.mp (hr.1.imp fun {_ _} h => h.2)

/-- Between two neighbours on a level with keys below and above `s` there is no room for
the key `s` on the level. -/
theorem not_mem_keysOf_between (r pre post : Row α) (a b : Nat × Node α)
    (s : SkipListKey α) (hr : RowOK r) (hsplit : r = pre ++ a :: b :: post)
    (ha : a.2.key.lt s = true) (hb : s.lt b.2.key = true) : s ∉ keysOf r := by
  have hp := row_pairwise r hr
  rw [hsplit] at hp
  intro hmem
  rw [keysOf, hsplit, List.mem_map] at hmem
  obtain ⟨p, hpm, hpk⟩ := hmem
  rw [List.pairwise_append] at hp
  obtain ⟨_, hp2, hp3⟩ := hp
  rw [List.pairwise_cons] at hp2
  obtain ⟨hp4, hp5⟩ := hp2
  rw [List.pairwise_cons] at hp5
  rw [List.mem_append, List.mem_cons, List.mem_cons] at hpm
  rcases hpm with h | h | h | h
  · have h1 := hp3 p h a (List.mem_cons_self _ _)
    have h2 := key_lt_trans _ _ _ h1 ha
    rw [hpk, key_lt_irrefl] at h2; cases h2
  · rw [h] at hpk; rw [hpk, key_lt_irrefl] at ha; cases ha
  · rw [h] at hpk; rw [hpk, key_lt_irrefl] at hb; cases hb
  · have h1 := hp5.1 p h
    have h2 := key_lt_trans _ _ _ hb h1
    rw [hpk, key_lt_irrefl] at h2; cases h2

omit [LinearOrder α] [Inhabited α] in
theorem baseOf_cons_cons (r r' : Row α) (rest : List (Row α)) :
    baseOf (r :: r' :: rest) = baseOf (r' :: rest) := by
  simp [baseOf, List.getLast?_cons_cons]

/-- Level containment: a key on any level is on the lowest level. -/
theorem mem_base_of_mem (rows : List (Row α)) (ht : TowerOK rows) (r : Row α)
    (hr : r ∈ rows) (p : Nat × Node α) (hp : p ∈ r) : p.2.key ∈ keysOf (baseOf rows) := by
  induction rows generalizing r p with
  | nil => simp at hr
  | cons r0 below ih =>
    cases below with
    | nil =>
      simp only [List.mem_singleton] at hr
      subst hr
      simp only [baseOf, List.getLast?_singleton, Option.getD_some, keysOf, List.mem_map]
      exact ⟨p, hp, rfl⟩
    | cons r1 rest =>
      rw [baseOf_cons_cons]
      obtain ⟨_, hb, ht'⟩ := ht
      rcases List.mem_cons.mp hr with rfl | hr'
      · obtain ⟨q, hq, _, hqk⟩ := hb p hp
        rw [← hqk]
        exact ih ht' r1 (List.mem_cons_self _ _) q hq
      · exact ih ht' r hr' p hp

end SkipListSet

namespace SkipListSet
variable {α : Type} [LinearOrder α] [Inhabited α]

open SkipListKey

omit [LinearOrder α] [Inhabited α] in
theorem agrees_at (nodes : List (Node α)) (r pre post : Row α) (a : Nat × Node α)
    (h : Agrees nodes r) (hsplit : r = pre ++ a :: post) : nodes[a.1]? = some a.2 :=
  h a (by rw [hsplit]; simp)

/-- The search loop of `contains`, started on a node whose key is not above `s`, returns
whether `s` is on the lowest level. -/
theorem containsLoop_spec (s : SkipListKey α) (hs : s.kind = .Normal) (nodes : List (Node α))
    (fuel : Nat) (cur : Row α) (below : List (Row α)) (pre post : Row α) (a : Nat × Node α)
    (ht : TowerOK (cur :: below)) (hag : ∀ r ∈ cur :: below, Agrees nodes r)
    (hsplit : cur = pre ++ a :: post) (hor : a.2.key.lt s = true ∨ a.2.key = s)
    (hfuel : post.length + 1 + below.flatten.length ≤ fuel) :
    containsLoop s nodes fuel a.1 = some (decide (s ∈ keysOf (baseOf (cur :: below)))) := by
  induction fuel generalizing cur below pre post a with
  | zero => omega
  | succ fuel ih =>
    have hcur := agrees_at nodes cur pre post a (hag cur (List.mem_cons_self _ _)) hsplit
    have hamem : a ∈ cur := by rw [hsplit]; simp
    unfold containsLoop
    simp only [hcur]
    by_cases heq : a.2.key.eq s = true
    · rw [if_pos heq]
      have hk : a.2.key = s := (key_eq_iff _ _ hs).mp heq
      have := mem_base_of_mem (cur :: below) ht cur (List.mem_cons_self _ _) a hamem
      rw [hk] at this
      simp [this]
    · rw [if_neg heq]
      have hlt : a.2.key.lt s = true := by
        rcases hor with h | h
        · exact h
        · exact absurd ((key_eq_iff _ _ hs).mpr h) heq
      obtain ⟨b, post', hpost, hlink⟩ :=
        row_next cur pre post a ht.1 hsplit (kind_ne_posInf_of_lt _ _ hlt)
      subst hpost
      have hb : nodes[b.1]? = some b.2 :=
        agrees_at nodes cur (pre ++ [a]) post' b (hag cur (List.mem_cons_self _ _))
          (by rw [hsplit]; simp)
      simp only [hlink.1, hb]
      by_cases hsb : s.lt b.2.key = true
      · rw [if_pos hsb]
        cases below with
        | nil =>
          have hbot : a.2.bottom = none := ht.2.1 a hamem
          simp only [hbot]
          have := not_mem_keysOf_between cur pre post' a b s ht.1 hsplit hlt hsb
          simp [baseOf, this]
        | cons r1 rest =>
          obtain ⟨q, hq, hbot, hqk⟩ := ht.2.1 a hamem
          obtain ⟨pre1, post1, hr1⟩ := List.append_of_mem hq
          simp only [hbot]
          rw [baseOf_cons_cons]
          refine ih r1 rest pre1 post1 q ht.2.2
            (fun r hr => hag r (List.mem_cons_of_mem _ hr)) hr1 (by rw [hqk]; exact Or.inl hlt) ?_
          simp only [List.flatten_cons, List.length_append, List.length_cons, hr1] at hfuel
          omega
      · rw [if_neg hsb]
        have hor' := lt_or_eq_of_not_lt a.2.key b.2.key s hs hlink.2 (by simpa using hsb)
        refine ih cur below (pre ++ [a]) post' b ht hag (by rw [hsplit]; simp) hor' ?_
        simp only [List.length_cons] at hfuel
        omega

end SkipListSet

namespace SkipListSet
variable {α : Type} [LinearOrder α] [Inhabited α]

open SkipListKey

/-- A level stays well-formed when a node with key `s` is linked in between two neighbours
with keys below and above `s`. -/
theorem rowOK_insert (pre post : Row α) (c b : Nat × Node α) (s : SkipListKey α) (N : Nat)
    (bot : Option Nat) (hr : RowOK (pre ++ c :: b :: post))
    (hc : c.2.key.lt s = true) (hb : s.lt b.2.key = true) :
    RowOK (pre ++ (c.1, c.2.setRight (some N)) :: (N, ⟨s, bot, c.2.right⟩) ::
      b :: post) := by
  obtain ⟨hchain, ⟨h, hh, hhk⟩, ⟨t, ht, htk, htr⟩⟩ := hr
  refine ⟨?_, ?_, ?_⟩
  · rw [List.chain'_append] at hchain ⊢
    obtain ⟨h1, h2, h3⟩ := hchain
    rw [List.chain'_cons] at h2
    refine ⟨h1, ?_, ?_⟩
    · rw [List.chain'_cons, List.chain'_cons]
      exact ⟨⟨rfl, hc⟩, ⟨h2.1.1, hb⟩, h2.2⟩
    · intro x hx y hy
      simp only [List.head?_cons, Option.mem_def, Option.some.injEq] at hy
      subst hy
      exact h3 x hx c rfl
  · cases pre with
    | nil =>
      simp only [List.nil_append, List.head?_cons, Option.some.injEq] at hh ⊢
      subst hh
      exact ⟨_, rfl, hhk⟩
    | cons p0 pre' => exact ⟨h, by simpa using hh, hhk⟩
  · refine ⟨t, ?_, htk, htr⟩
    simp only [List.getLast?_append, List.getLast?_cons_cons] at ht ⊢
    exact ht

omit [LinearOrder α] [Inhabited α] in
/-- The `bottom` fields of a level that got a node linked in. -/
theorem bottoms_insert (pre post : Row α) (c : Nat × Node α) (s : SkipListKey α) (N : Nat)
    (bot : Option Nat) (rb : Option (Row α)) (right : Option Nat)
    (hb : Bottoms (pre ++ c :: post) rb)
    (hn : Bottoms [(N, (⟨s, bot, right⟩ : Node α))] rb) :
    Bottoms (pre ++ (c.1, c.2.setRight (some N)) :: (N, ⟨s, bot, right⟩) :: post)
      rb := by
  cases rb with
  | none =>
    intro p hp
    simp only [List.mem_append, List.mem_cons] at hp
    rcases hp with h | h | h | h
    · exact hb p (by simp [h])
    · rw [h]; exact hb c (by simp)
    · rw [h]; exact hn _ (by simp)
    · exact hb p (by simp [h])
  | some below =>
    intro p hp
    simp only [List.mem_append, List.mem_cons] at hp
    rcases hp with h | h | h | h
    · exact hb p (by simp [h])
    · rw [h]; exact hb c (by simp)
    · rw [h]; exact hn _ (by simp)
    · exact hb p (by simp [h])

omit [LinearOrder α] [Inhabited α] in
/-- The `bottom` fields of a level keep leading to the level below when that level is
replaced by one that has the same indices with the same keys, and maybe more. -/
theorem bottoms_ext (r below below' : Row α)
    (hext : ∀ q ∈ below, ∃ q' ∈ below', q'.1 = q.1 ∧ q'.2.key = q.2.key)
    (hb : Bottoms r (some below)) : Bottoms r (some below') := by
  intro p hp
  obtain ⟨q, hq, h1, h2⟩ := hb p hp
  obtain ⟨q', hq', h3, h4⟩ := hext q hq
  exact ⟨q', hq', by rw [h3]; exact h1, by rw [h4]; exact h2⟩

/-- A tower stays well-formed when one of its levels is replaced by a well-formed level with
the same indices and keys, and maybe more. -/
theorem towerOK_replace (above below : List (Row α)) (r r' : Row α)
    (ht : TowerOK (above ++ r :: below)) (hr : RowOK r')
    (hext : ∀ q ∈ r, ∃ q' ∈ r', q'.1 = q.1 ∧ q'.2.key = q.2.key)
    (hb : Bottoms r' below.head?) : TowerOK (above ++ r' :: below) := by
  induction above with
  | nil => exact ⟨hr, hb, ht.2.2⟩
  | cons r0 above ih =>
    obtain ⟨h1, h2, h3⟩ := ht
    refine ⟨h1, ?_, ih h3⟩
    cases above with
    | nil => exact bottoms_ext r0 r r' hext h2
    | cons r1 above' => exact h2

omit [LinearOrder α] [Inhabited α] in
theorem agrees_lt (nodes : List (Node α)) (r : Row α) (h : Agrees nodes r)
    (p : Nat × Node α) (hp : p ∈ r) : p.1 < nodes.length := by
  have := h p hp
  exact (List.getElem?_eq_some.mp this).1

omit [LinearOrder α] [Inhabited α] in
/-- A level that does not hold the node at index `i` does not see a write to that node, nor
an allocation. -/
theorem agrees_update (nodes more : List (Node α)) (r : Row α) (i : Nat) (n : Node α)
    (h : Agrees nodes r) (hi : ∀ p ∈ r, p.1 ≠ i) :
    Agrees ((nodes ++ more).set i n) r := by
  intro p hp
  have hlt := agrees_lt nodes r h p hp
  rw [List.getElem?_set_ne (fun h' => hi p hp h'.symm), List.getElem?_append_left hlt]
  exact h p hp

omit [LinearOrder α] [Inhabited α] in
theorem agrees_append (nodes more : List (Node α)) (r : Row α) (h : Agrees nodes r) :
    Agrees (nodes ++ more) r := by
  intro p hp
  rw [List.getElem?_append_left (agrees_lt nodes r h p hp)]
  exact h p hp

end SkipListSet

namespace SkipListSet
variable {α : Type} [LinearOrder α] [Inhabited α]

open SkipListKey

theorem towerOK_mid (above below : List (Row α)) (r : Row α)
    (ht : TowerOK (above ++ r :: below)) : RowOK r ∧ Bottoms r below.head? ∧ TowerOK below := by
  induction above with
  | nil => exact ht
  | cons r0 above ih => exact ih ht.2.2

omit [LinearOrder α] [Inhabited α] in
/-- The indices on the levels of a stored tower are below the number of allocated nodes. -/
theorem stored_index_lt (nodes : List (Node α)) (rows : List (Row α))
    (hag : ∀ r ∈ rows, Agrees nodes r) (i : Nat) (hi : i ∈ rows.flatten.map Prod.fst) :
    i < nodes.length := by
  obtain ⟨p, hp, rfl⟩ := List.mem_map.mp hi
  obtain ⟨r, hr, hpr⟩ := List.mem_flatten.mp hp
  exact agrees_lt nodes r (hag r hr) p hpr

omit [LinearOrder α] [Inhabited α] in
theorem flatten_split (above below : List (Row α)) (pre post : Row α) (c : Nat × Node α) :
    (above ++ (pre ++ c :: post) :: below).flatten =
      (above.flatten ++ pre) ++ c :: (post ++ below.flatten) := by
  simp [List.append_assoc]

omit [LinearOrder α] [Inhabited α] in
/-- No other node of the tower has the index of a given node of the tower. -/
theorem index_ne_of_nodup (above below : List (Row α)) (pre post : Row α) (c : Nat × Node α)
    (h : ((above ++ (pre ++ c :: post) :: below).flatten.map Prod.fst).Nodup)
    (p : Nat × Node α)
    (hp : p ∈ above.flatten ∨ p ∈ pre ∨ p ∈ post ∨ p ∈ below.flatten) : p.1 ≠ c.1 := by
  rw [flatten_split] at h
  have h' := (List.perm_middle.map Prod.fst).nodup_iff.mp h
  rw [List.map_cons, List.nodup_cons] at h'
  intro heq
  apply h'.1
  rw [← heq]
  refine List.mem_map.mpr ⟨p, ?_, rfl⟩
  simp only [List.mem_append]
  tauto

omit [LinearOrder α] [Inhabited α] in
theorem perm_insert_mid (A P Q : List Nat) (c N : Nat) :
    (A ++ (P ++ c :: N :: Q)).Perm (N :: (A ++ (P ++ c :: Q))) := by
  have := @List.perm_middle _ N (A ++ (P ++ [c])) Q
  simpa [List.append_assoc] using this

/-- A stored tower stays one when a node with key `s` is allocated and linked in on one
level, between two neighbours with keys below and above `s`, with a fitting `bottom`. -/
theorem stored_insert (nodes : List (Node α)) (above below : List (Row α)) (pre post : Row α)
    (c b : Nat × Node α) (s : SkipListKey α) (bot : Option Nat)
    (hst : Stored nodes (above ++ (pre ++ c :: b :: post) :: below))
    (hc : c.2.key.lt s = true) (hb : s.lt b.2.key = true)
    (hn : Bottoms [(nodes.length, (⟨s, bot, c.2.right⟩ : Node α))] below.head?) :
    Stored ((nodes ++ [(⟨s, bot, c.2.right⟩ : Node α)]).set c.1
        (c.2.setRight (some nodes.length)))
      (above ++ (pre ++ (c.1, c.2.setRight (some nodes.length)) ::
        (nodes.length, ⟨s, bot, c.2.right⟩) :: b :: post) :: below) := by
  obtain ⟨htower, hagree, hnodup, hcount⟩ := hst
  obtain ⟨hrow, hbot, _⟩ := towerOK_mid above below _ htower
  have hclt : c.1 < nodes.length :=
    agrees_lt nodes (pre ++ c :: b :: post) (hagree _ (by simp)) c (by simp)
  have hother := index_ne_of_nodup above below pre (b :: post) c hnodup
  have hfresh : nodes.length ∉
      (above ++ (pre ++ c :: b :: post) :: below).flatten.map Prod.fst := by
    intro h
    exact absurd (stored_index_lt nodes _ hagree _ h) (lt_irrefl _)
  refine ⟨?_, ?_, ?_, ?_⟩
  · -- the tower
    refine towerOK_replace above below _ _ htower
      (rowOK_insert pre post c b s nodes.length bot hrow hc hb) ?_
      (bottoms_insert pre (b :: post) c s nodes.length bot _ _ hbot hn)
    intro q hq
    simp only [List.mem_append, List.mem_cons] at hq
    rcases hq with h | h | h | h
    · exact ⟨q, by simp [h], rfl, rfl⟩
    · exact ⟨(c.1, c.2.setRight (some nodes.length)), by simp, by rw [h], by rw [h]; rfl⟩
    · exact ⟨q, by simp [h], rfl, rfl⟩
    · exact ⟨q, by simp [h], rfl, rfl⟩
  · -- the memory
    intro r hr
    simp only [List.mem_append, List.mem_cons] at hr
    rcases hr with h | h | h
    · refine agrees_update nodes _ r c.1 _ (hagree r (by simp [h])) ?_
      intro p hp
      exact hother p (Or.inl (List.mem_flatten.mpr ⟨r, h, hp⟩))
    · subst h
      intro p hp
      simp only [List.mem_append, List.mem_cons] at hp
      have hold : ∀ q, q ∈ pre ∨ q ∈ b :: post →
          ((nodes ++ [(⟨s, bot, c.2.right⟩ : Node α)]).set c.1
            (c.2.setRight (some nodes.length)))[q.1]? = some q.2 := by
        intro q hq
        have hq1 : q.1 ≠ c.1 := hother q (by tauto)
        have hq2 : q ∈ pre ++ c :: b :: post := by
          simp only [List.mem_append, List.mem_cons] at hq ⊢; tauto
        have hq3 := hagree (pre ++ c :: b :: post) (by simp) q hq2
        rw [List.getElem?_set_ne (fun h' => hq1 h'.symm),
          List.getElem?_append_left (List.getElem?_eq_some.mp hq3).1]
        exact hq3
      rcases hp with h | h | h | h
      · exact hold p (Or.inl h)
      · rw [h]
        exact List.getElem?_set_self (by simp; omega)
      · rw [h]
        rw [List.getElem?_set_ne (by simp; omega)]
        simp
      · exact hold p (Or.inr (by simp only [List.mem_cons]; exact h))
    · refine agrees_update nodes _ r c.1 _ (hagree r (by simp [h])) ?_
      intro p hp
      exact hother p (Or.inr (Or.inr (Or.inr (List.mem_flatten.mpr ⟨r, h, hp⟩))))
  · -- no index twice
    have hperm : ((above ++ (pre ++ (c.1, c.2.setRight (some nodes.length)) ::
          (nodes.length, (⟨s, bot, c.2.right⟩ : Node α)) :: b :: post) :: below).flatten.map
            Prod.fst).Perm
        (nodes.length :: (above ++ (pre ++ c :: b :: post) :: below).flatten.map Prod.fst) := by
      simp only [List.flatten_append, List.flatten_cons, List.map_append, List.map_cons,
        List.append_assoc, List.cons_append]
      exact perm_insert_mid _ _ _ _ _
    exact hperm.nodup_iff.mpr (List.nodup_cons.mpr ⟨hfresh, hnodup⟩)
  · -- every node on a level
    simp only [List.flatten_append, List.flatten_cons, List.length_append, List.length_cons,
      List.length_set, List.length_nil] at hcount ⊢
    omega

end SkipListSet

namespace SkipListSet
variable {α : Type} [LinearOrder α] [Inhabited α]

open SkipListKey

/-- A stored tower stays one when a new top level is allocated that holds the sentinels and
one node with key `s`, with `bottom` fields on the sentinels and on a node with key `s` of
the old top level. -/
theorem stored_newTop (nodes : List (Node α)) (top : Row α) (rest : List (Row α))
    (h t c : Nat × Node α) (s : SkipListKey α) (hs : s.kind = .Normal)
    (hst : Stored nodes (top :: rest)) (hh : top.head? = some h) (ht : top.getLast? = some t)
    (hc : c ∈ top) (hck : c.2.key = s) :
    Stored (nodes ++ [(⟨⟨.PosInf, default⟩, some t.1, none⟩ : Node α),
        ⟨s, some c.1, some nodes.length⟩, ⟨⟨.NegInf, default⟩, some h.1, some (nodes.length + 1)⟩])
      ([(nodes.length + 2, (⟨⟨.NegInf, default⟩, some h.1, some (nodes.length + 1)⟩ : Node α)),
        (nodes.length + 1, ⟨s, some c.1, some nodes.length⟩),
        (nodes.length, ⟨⟨.PosInf, default⟩, some t.1, none⟩)] :: top :: rest) := by
  obtain ⟨htower, hagree, hnodup, hcount⟩ := hst
  obtain ⟨⟨_, ⟨h', hh', hhk⟩, ⟨t', ht', htk, _⟩⟩, _, _⟩ := id htower
  rw [hh] at hh'; cases hh'
  rw [ht] at ht'; cases ht'
  have hhm : h ∈ top := List.mem_of_mem_head? hh
  have htm : t ∈ top := List.mem_of_mem_getLast? ht
  have hlt : ∀ i ∈ (top :: rest).flatten.map Prod.fst, i < nodes.length :=
    fun i hi => stored_index_lt nodes _ hagree i hi
  refine ⟨⟨⟨?_, ⟨_, rfl, rfl⟩, ⟨_, rfl, rfl, rfl⟩⟩, ?_, htower⟩, ?_, ?_, ?_⟩
  · simp [Link, SkipListKey.lt, hs]
  · intro p hp
    simp only [List.mem_cons, List.mem_singleton, List.not_mem_nil, or_false] at hp
    rcases hp with rfl | rfl | rfl
    · exact ⟨h, hhm, rfl, hhk⟩
    · exact ⟨c, hc, rfl, hck⟩
    · exact ⟨t, htm, rfl, htk⟩
  · intro r hr
    rcases List.mem_cons.mp hr with rfl | hr'
    · intro p hp
      simp only [List.mem_cons, List.mem_singleton, List.not_mem_nil, or_false] at hp
      rcases hp with rfl | rfl | rfl
      · rw [List.getElem?_append_right (by simp)]
        simp [Nat.add_sub_cancel_left]
      · rw [List.getElem?_append_right (by simp)]
        simp [Nat.add_sub_cancel_left]
      · rw [List.getElem?_append_right (by simp)]
        simp
    · exact agrees_append nodes _ r (hagree r hr')
  · simp only [List.flatten_cons, List.map_append, List.map_cons, List.map_nil,
      List.cons_append, List.nil_append, List.nodup_cons, List.mem_cons]
    simp only [List.flatten_cons, List.map_append] at hnodup hlt
    refine ⟨?_, ?_, ?_, hnodup⟩
    · rintro (h1 | h1 | h1)
      · omega
      · omega
      · exact absurd (hlt _ h1) (by omega)
    · rintro (h1 | h1)
      · omega
      · exact absurd (hlt _ h1) (by omega)
    · intro h1
      exact absurd (hlt _ h1) (by omega)
  · simp only [List.flatten_cons, List.length_append, List.length_cons, List.length_nil]
      at hcount ⊢
    omega

omit [LinearOrder α] [Inhabited α] in
/-- The head of a level that got a node linked in has the index it had. -/
theorem head_insert (pre post : Row α) (c n : Nat × Node α) (r : Option Nat) :
    (pre ++ (c.1, c.2.setRight r) :: n :: post).head?.map Prod.fst =
      (pre ++ c :: post).head?.map Prod.fst := by
  cases pre <;> simp

omit [LinearOrder α] [Inhabited α] in
/-- The last node of a level that got a node linked in before its last node is the same. -/
theorem getLast_insert (pre post : Row α) (c b n : Nat × Node α) (r : Option Nat) :
    (pre ++ (c.1, c.2.setRight r) :: n :: b :: post).getLast? =
      (pre ++ c :: b :: post).getLast? := by
  simp [List.getLast?_append, List.getLast?_cons_cons]

end SkipListSet

namespace SkipListSet
variable {α : Type} [LinearOrder α] [Inhabited α]

open SkipListKey

omit [Inhabited α] in
/-- After a key that is below it, a key that is not below a normal key `s` is above `s` or
is `s`. -/
theorem gt_or_eq_of_not_lt (a b s : SkipListKey α) (hs : s.kind = .Normal)
    (hab : a.lt b = true) (h : b.lt s = false) : s.lt b = true ∨ b = s := by
  obtain ⟨ak, ae⟩ := a
  obtain ⟨bk, be⟩ := b
  obtain ⟨sk, se⟩ := s
  simp only at hs
  subst hs
  cases ak <;> cases bk <;> simp_all [SkipListKey.lt]
  · exact (lt_or_eq_of_le h).imp id Eq.symm
  · exact (lt_or_eq_of_le h).imp id Eq.symm

/-- The search loop of `add`, started on a node whose key is not above `s`: it ends on a
node with key `s`, with nothing changed, or on the node of the lowest level behind which `s`
belongs, with a new node for `s` linked in there. -/
theorem addSearch_spec (s : SkipListKey α) (hs : s.kind = .Normal) (nodes : List (Node α))
    (fuel : Nat) (cur : Row α) (below : List (Row α)) (pre post : Row α) (a : Nat × Node α)
    (ht : TowerOK (cur :: below)) (hag : ∀ r ∈ cur :: below, Agrees nodes r)
    (hsplit : cur = pre ++ a :: post) (hor : a.2.key.lt s = true ∨ a.2.key = s)
    (hfuel : post.length + 1 + below.flatten.length ≤ fuel) :
    (∃ r pre' post' c, r ∈ cur :: below ∧ r = pre' ++ c :: post' ∧ c.2.key = s ∧
        addSearch s fuel a.1 nodes = some (c.1, nodes)) ∨
    (∃ pre' post' c b, baseOf (cur :: below) = pre' ++ c :: b :: post' ∧
        c.2.key.lt s = true ∧ s.lt b.2.key = true ∧
        addSearch s fuel a.1 nodes =
          some (c.1, (nodes ++ [(⟨s, none, c.2.right⟩ : Node α)]).set c.1
            (c.2.setRight (some nodes.length)))) := by
  induction fuel generalizing cur below pre post a with
  | zero => omega
  | succ fuel ih =>
    have hcur := agrees_at nodes cur pre post a (hag cur (List.mem_cons_self _ _)) hsplit
    have hamem : a ∈ cur := by rw [hsplit]; simp
    unfold addSearch
    simp only [hcur]
    by_cases heq : a.2.key.eq s = true
    · rw [if_pos heq]
      exact Or.inl ⟨cur, pre, post, a, List.mem_cons_self _ _, hsplit,
        (key_eq_iff _ _ hs).mp heq, rfl⟩
    · rw [if_neg heq]
      have hlt : a.2.key.lt s = true := by
        rcases hor with h | h
        · exact h
        · exact absurd ((key_eq_iff _ _ hs).mpr h) heq
      obtain ⟨b, post', hpost, hlink⟩ :=
        row_next cur pre post a ht.1 hsplit (kind_ne_posInf_of_lt _ _ hlt)
      subst hpost
      have hb : nodes[b.1]? = some b.2 :=
        agrees_at nodes cur (pre ++ [a]) post' b (hag cur (List.mem_cons_self _ _))
          (by rw [hsplit]; simp)
      simp only [hlink.1, hb]
      by_cases hsb : s.lt b.2.key = true
      · rw [if_pos hsb]
        cases below with
        | nil =>
          have hbot : a.2.bottom = none := ht.2.1 a hamem
          simp only [hbot]
          refine Or.inr ⟨pre, post', a, b, ?_, hlt, hsb, ?_⟩
          · simp [baseOf, hsplit]
          · rw [hlink.1]
        | cons r1 rest =>
          obtain ⟨q, hq, hbot, hqk⟩ := ht.2.1 a hamem
          obtain ⟨pre1, post1, hr1⟩ := List.append_of_mem hq
          simp only [hbot]
          rw [baseOf_cons_cons]
          have := ih r1 rest pre1 post1 q ht.2.2
            (fun r hr => hag r (List.mem_cons_of_mem _ hr)) hr1 (by rw [hqk]; exact Or.inl hlt)
            (by
              simp only [List.flatten_cons, List.length_append, List.length_cons, hr1] at hfuel
              omega)
          rcases this with ⟨r, pre', post', c, h1, h2, h3, h4⟩ | h
          · exact Or.inl ⟨r, pre', post', c, List.mem_cons_of_mem _ h1, h2, h3, h4⟩
          · exact Or.inr h
      · rw [if_neg hsb]
        have hor' := lt_or_eq_of_not_lt a.2.key b.2.key s hs hlink.2 (by simpa using hsb)
        exact ih cur below (pre ++ [a]) post' b ht hag (by rw [hsplit]; simp) hor'
          (by simp only [List.length_cons] at hfuel; omega)

/-- The loop that descends to the level of a promotion ends on that level, on a node with a
key below `s`. -/
theorem descendTo_spec (s : SkipListKey α) (nodes : List (Node α))
    (fuel remaining : Nat) (cur : Row α) (below : List (Row α)) (pre post : Row α)
    (a : Nat × Node α) (ht : TowerOK (cur :: below))
    (hag : ∀ r ∈ cur :: below, Agrees nodes r) (hsplit : cur = pre ++ a :: post)
    (hlt : a.2.key.lt s = true) (hrem : remaining ≤ below.length)
    (hfuel : post.length + 1 + below.flatten.length ≤ fuel) :
    ∃ target pre' post' q, (cur :: below)[remaining]? = some target ∧
      target = pre' ++ q :: post' ∧ q.2.key.lt s = true ∧
      descendTo s nodes fuel a.1 remaining = some q.1 := by
  induction fuel generalizing cur below pre post a remaining with
  | zero => omega
  | succ fuel ih =>
    cases remaining with
    | zero => exact ⟨cur, pre, post, a, by simp, hsplit, hlt, by simp [descendTo]⟩
    | succ remaining =>
      have hcur := agrees_at nodes cur pre post a (hag cur (List.mem_cons_self _ _)) hsplit
      have hamem : a ∈ cur := by rw [hsplit]; simp
      obtain ⟨b, post', hpost, hlink⟩ :=
        row_next cur pre post a ht.1 hsplit (kind_ne_posInf_of_lt _ _ hlt)
      subst hpost
      have hb : nodes[b.1]? = some b.2 :=
        agrees_at nodes cur (pre ++ [a]) post' b (hag cur (List.mem_cons_self _ _))
          (by rw [hsplit]; simp)
      unfold descendTo
      simp only [hcur, hlink.1, hb]
      by_cases hbs : b.2.key.lt s = true
      · rw [if_pos hbs]
        exact ih (remaining + 1) cur below (pre ++ [a]) post' b ht hag (by rw [hsplit]; simp)
          hbs hrem (by simp only [List.length_cons] at hfuel; omega)
      · rw [if_neg hbs]
        cases below with
        | nil => simp at hrem
        | cons r1 rest =>
          obtain ⟨q, hq, hbot, hqk⟩ := ht.2.1 a hamem
          obtain ⟨pre1, post1, hr1⟩ := List.append_of_mem hq
          simp only [hbot]
          obtain ⟨target, pre', post'', q', h1, h2, h3, h4⟩ :=
            ih remaining r1 rest pre1 post1 q ht.2.2
              (fun r hr => hag r (List.mem_cons_of_mem _ hr)) hr1 (by rw [hqk]; exact hlt)
              (by simpa using hrem)
              (by
                simp only [List.flatten_cons, List.length_append, List.length_cons, hr1]
                  at hfuel
                omega)
          exact ⟨target, pre', post'', q', by simpa using h1, h2, h3, h4⟩

/-- The loop that goes right on the level of a promotion ends on the node behind which `s`
belongs. -/
theorem scanRight_spec (s : SkipListKey α) (hs : s.kind = .Normal) (nodes : List (Node α))
    (fuel : Nat) (r pre post : Row α) (a : Nat × Node α) (hr : RowOK r)
    (hag : Agrees nodes r) (hsplit : r = pre ++ a :: post) (hlt : a.2.key.lt s = true)
    (hnot : s ∉ keysOf r) (hfuel : post.length + 1 ≤ fuel) :
    ∃ pre' post' c b, r = pre' ++ c :: b :: post' ∧ c.2.key.lt s = true ∧
      s.lt b.2.key = true ∧ scanRight s nodes fuel a.1 = some c.1 := by
  induction fuel generalizing pre post a with
  | zero => omega
  | succ fuel ih =>
    have hcur := agrees_at nodes r pre post a hag hsplit
    obtain ⟨b, post', hpost, hlink⟩ :=
      row_next r pre post a hr hsplit (kind_ne_posInf_of_lt _ _ hlt)
    subst hpost
    have hb : nodes[b.1]? = some b.2 :=
      agrees_at nodes r (pre ++ [a]) post' b hag (by rw [hsplit]; simp)
    unfold scanRight
    simp only [hcur, hlink.1, hb]
    by_cases hbs : b.2.key.lt s = true
    · rw [if_pos hbs]
      exact ih (pre ++ [a]) post' b (by rw [hsplit]; simp) hbs
        (by simp only [List.length_cons] at hfuel; omega)
    · rw [if_neg hbs]
      refine ⟨pre, post', a, b, hsplit, hlt, ?_, rfl⟩
      rcases gt_or_eq_of_not_lt a.2.key b.2.key s hs hlink.2 (by simpa using hbs) with h | h
      · exact h
      · exfalso
        apply hnot
        rw [keysOf, List.mem_map]
        exact ⟨b, by rw [hsplit]; simp, h⟩

end SkipListSet

namespace SkipListSet
variable {α : Type} [LinearOrder α] [Inhabited α]

open SkipListKey

/-- The top level of a set that satisfies `Inv`, with its two sentinels. -/
theorem inv_top (set : SkipListSet α) (rows : List (Row α)) (hinv : Inv set rows) :
    ∃ top rest h trest t, rows = top :: rest ∧ top = h :: trest ∧
      h.2.key = ⟨.NegInf, default⟩ ∧ set.topHead = some h.1 ∧
      top.getLast? = some t ∧ set.topTail = some t.1 := by
  cases rows with
  | nil => have := hinv.levels; simp at this
  | cons top rest =>
    obtain ⟨_, ⟨h, hh, hhk⟩, ⟨t, ht, _, _⟩⟩ := hinv.stored.tower.1
    cases top with
    | nil => simp at hh
    | cons h' trest =>
      simp only [List.head?_cons, Option.some.injEq] at hh
      subst hh
      refine ⟨_, rest, h', trest, t, rfl, rfl, hhk, ?_, ht, ?_⟩
      · rw [hinv.topHead]; rfl
      · rw [hinv.topTail]; simp [ht]

omit [LinearOrder α] [Inhabited α] in
theorem baseOf_append_cons (above below : List (Row α)) (r : Row α) :
    baseOf (above ++ r :: below) = baseOf (r :: below) := by
  rw [baseOf, baseOf, List.getLast?_append_of_ne_nil _ (by simp)]

omit [LinearOrder α] [Inhabited α] in
theorem getLast?_append_cons_rows (above below : List (Row α)) (r : Row α) :
    (above ++ r :: below).getLast? = (r :: below).getLast? :=
  List.getLast?_append_of_ne_nil _ (by simp)

/-- The promotion loop on a set that satisfies `Inv`, entered with `c` on the node of `s` on
level `level`, while `s` is on no level above: it returns, keeps `Inv`, and leaves the lowest
level and `sz` as they are. -/
theorem promote_spec (s : SkipListKey α) (hs : s.kind = .Normal) (answers : List Bool)
    (level c : Nat) (set : SkipListSet α) (rows above below : List (Row α)) (rc : Row α)
    (cn : Node α) (hinv : Inv set rows) (hrows : rows = above ++ rc :: below)
    (hlevel : above.length + level = set.lv) (hc : (c, cn) ∈ rc) (hck : cn.key = s)
    (habove : ∀ r ∈ above, s ∉ keysOf r) :
    ∃ set' rows', promote s answers level c set = some set' ∧ Inv set' rows' ∧
      baseOf rows' = baseOf rows ∧ set'.sz = set.sz := by
  induction answers generalizing level c set rows above below rc cn with
  | nil =>
    exact ⟨_, rows, rfl, ⟨hinv.stored, hinv.levels, hinv.topHead, hinv.topTail, hinv.head,
      hinv.tail⟩, rfl, rfl⟩
  | cons ans answers ih =>
    cases ans with
    | false =>
      exact ⟨_, rows, rfl, ⟨hinv.stored, hinv.levels, hinv.topHead, hinv.topTail, hinv.head,
        hinv.tail⟩, rfl, rfl⟩
    | true =>
      obtain ⟨top, rest, h, trest, t, htop, hh, hhk, htH, htl, htT⟩ := inv_top set rows hinv
      rw [promote]
      by_cases hlv : level + 1 > set.lv
      · -- a new top level
        rw [if_pos hlv]
        have habove0 : above = [] := List.length_eq_zero.mp (by omega)
        subst habove0
        simp only [List.nil_append] at hrows
        have hrc : rc = top := by rw [htop] at hrows; exact (List.cons.inj hrows).1.symm
        subst hrc
        have hstored := stored_newTop set.nodes rc rest h t (c, cn) s hs
          (by rw [← htop]; exact hinv.stored) (by rw [hh]; rfl) htl hc hck
        rw [htH, htT]
        have hlen := hinv.levels
        obtain ⟨set', rows', h1, h2, h3, h4⟩ := ih (level + 1) (set.nodes.length + 1)
          { set with
            lv := level + 1
            topHead := some (set.nodes.length + 2)
            topTail := some set.nodes.length
            nodes := set.nodes ++
              [(⟨⟨.PosInf, default⟩, some t.1, none⟩ : Node α),
                ⟨s, some c, some set.nodes.length⟩,
                ⟨⟨.NegInf, default⟩, some h.1, some (set.nodes.length + 1)⟩] }
          _ [] (rc :: rest) _ ⟨s, some c, some set.nodes.length⟩
          ⟨hstored, (by
              simp only [List.length_cons]
              rw [htop] at hlen
              simp only [List.length_cons] at hlen
              omega),
            rfl, rfl,
            (by rw [hinv.head, htop]; simp [List.getLast?_cons_cons]),
            (by rw [hinv.tail, htop]; simp [List.getLast?_cons_cons])⟩
          rfl (by simp) (by simp) rfl (by simp)
        refine ⟨set', rows', h1, h2, ?_, h4⟩
        rw [h3, baseOf_cons_cons, htop]
      · -- a level that is there
        rw [if_neg hlv]
        have hne : above ≠ [] := by
          intro h0; rw [h0] at hlevel; simp at hlevel; omega
        obtain ⟨above', rt, hab⟩ : ∃ above' rt, above = above' ++ [rt] := by
          rcases List.eq_nil_or_concat above with h0 | ⟨L, b, h0⟩
          · exact absurd h0 hne
          · exact ⟨L, b, by rw [h0, List.concat_eq_append]⟩
        subst hab
        have hrows' : rows = above' ++ rt :: rc :: below := by rw [hrows]; simp
        have hlen := hinv.levels
        have hcount := hinv.stored.count
        have htower : TowerOK (top :: rest) := by rw [← htop]; exact hinv.stored.tower
        have hagree : ∀ r ∈ top :: rest, Agrees set.nodes r := by
          rw [← htop]; exact hinv.stored.agrees
        have hhs : h.2.key.lt s = true := by rw [hhk]; simp [SkipListKey.lt, hs]
        simp only [List.length_append, List.length_cons, List.length_nil] at hlevel
        obtain ⟨target, pre1, post1, q, ht1, ht2, ht3, ht4⟩ :=
          descendTo_spec s set.nodes set.nodes.length (set.lv - (level + 1)) top rest []
            trest h htower hagree (by rw [hh]; rfl) hhs
            (by rw [htop] at hlen; simp only [List.length_cons] at hlen; omega)
            (by
              rw [htop, hh] at hcount
              simp only [List.flatten_cons, List.length_append, List.length_cons] at hcount
              omega)
        have htarget : target = rt := by
          rw [← htop, hrows', List.getElem?_append_right (by omega)] at ht1
          have e : set.lv - (level + 1) - above'.length = 0 := by omega
          rw [e] at ht1
          simpa using ht1.symm
        subst htarget
        obtain ⟨hrt, hrtb, _⟩ := towerOK_mid above' (rc :: below) target
          (by rw [← hrows']; exact hinv.stored.tower)
        have hrta : Agrees set.nodes target := hinv.stored.agrees target (by rw [hrows']; simp)
        obtain ⟨pre2, post2, c0, b0, hs1, hs2, hs3, hs4⟩ :=
          scanRight_spec s hs set.nodes set.nodes.length target pre1 post1 q hrt hrta ht2 ht3
            (habove target (by simp))
            (by
              rw [hrows', ht2] at hcount
              simp only [List.flatten_append, List.flatten_cons, List.length_append,
                List.length_cons] at hcount
              omega)
        have hc0 : set.nodes[c0.1]? = some c0.2 := hrta c0 (by rw [hs1]; simp)
        simp only [htH, ht4, hs4, hc0]
        subst hs1
        have hstored := stored_insert set.nodes above' (rc :: below) pre2 post2 c0 b0 s
          (some c) (by rw [← hrows']; exact hinv.stored) hs2 hs3
          (by
            intro p hp
            simp only [List.mem_singleton] at hp
            subst hp
            exact ⟨(c, cn), hc, rfl, hck⟩)
        obtain ⟨set', rows', h1, h2, h3, h4⟩ := ih (level + 1) set.nodes.length
          { set with
            nodes := (set.nodes ++ [(⟨s, some c, c0.2.right⟩ : Node α)]).set c0.1
              (c0.2.setRight (some set.nodes.length)) }
          _ above' (rc :: below) _ ⟨s, some c, c0.2.right⟩
          ⟨hstored, (by
              rw [hrows'] at hlen
              simp only [List.length_append, List.length_cons] at hlen ⊢
              exact hlen),
            (by
              rw [hinv.topHead, hrows']
              cases above' with
              | nil =>
                simp only [List.nil_append, List.head?_cons, Option.some_bind]
                exact (head_insert pre2 (b0 :: post2) c0 _ _).symm
              | cons r0 above'' => rfl),
            (by
              rw [hinv.topTail, hrows']
              cases above' with
              | nil =>
                simp only [List.nil_append, List.head?_cons, Option.some_bind]
                rw [getLast_insert]
              | cons r0 above'' => rfl),
            (by
              rw [hinv.head, hrows', getLast?_append_cons_rows, getLast?_append_cons_rows,
                List.getLast?_cons_cons, List.getLast?_cons_cons]),
            (by
              rw [hinv.tail, hrows', getLast?_append_cons_rows, getLast?_append_cons_rows,
                List.getLast?_cons_cons, List.getLast?_cons_cons])⟩
          rfl (by simp only; omega) (by simp) rfl
          (fun r hr => habove r (by simp [hr]))
        rw [htH] at h1
        refine ⟨set', rows', h1, h2, ?_, h4⟩
        rw [h3, hrows', baseOf_append_cons, baseOf_append_cons, baseOf_cons_cons,
          baseOf_cons_cons]

end SkipListSet

namespace SkipListSet
variable {α : Type} [LinearOrder α] [Inhabited α]

open SkipListKey

theorem towerOK_mem (rows : List (Row α)) (ht : TowerOK rows) (r : Row α) (hr : r ∈ rows) :
    RowOK r := by
  obtain ⟨above, below, rfl⟩ := List.append_of_mem hr
  exact (towerOK_mid above below r ht).1

omit [LinearOrder α] [Inhabited α] in
theorem rows_eq_dropLast_append (rows : List (Row α)) (h : rows ≠ []) :
    rows = rows.dropLast ++ [baseOf rows] := by
  cases hl : rows.getLast? with
  | none => exact absurd (List.getLast?_eq_none_iff.mp hl) h
  | some b =>
    rw [baseOf, hl]
    exact (List.dropLast_append_getLast? b hl).symm

/-- `contains` on a set that satisfies `Inv` returns whether the key is on the lowest
level. -/
theorem skip_contains_spec (set : SkipListSet α) (rows : List (Row α)) (hinv : Inv set rows)
    (e : α) :
    set.contains e = some (decide ((⟨.Normal, e⟩ : SkipListKey α) ∈ keysOf (baseOf rows))) := by
  obtain ⟨top, rest, h, trest, t, htop, hh, hhk, htH, _, _⟩ := inv_top set rows hinv
  have hcount := hinv.stored.count
  rw [contains, htH]
  simp only
  rw [htop]
  refine containsLoop_spec ⟨.Normal, e⟩ rfl set.nodes set.nodes.length top rest [] trest h
    (by rw [← htop]; exact hinv.stored.tower) (by rw [← htop]; exact hinv.stored.agrees)
    (by rw [hh]; rfl) (Or.inl (by rw [hhk]; simp [SkipListKey.lt])) ?_
  rw [htop, hh] at hcount
  simp only [List.flatten_cons, List.length_append, List.length_cons] at hcount
  omega

/-- One `add` on a set that satisfies `Inv`: it returns, keeps `Inv`, puts the key on the
lowest level, and counts one more element, also when the key was there. -/
theorem skip_add_spec (set : SkipListSet α) (rows : List (Row α)) (hinv : Inv set rows)
    (e : α) :
    ∃ set' rows', set.add e = some set' ∧ Inv set' rows' ∧
      (∀ k, k ∈ keysOf (baseOf rows') ↔
        k = (⟨.Normal, e⟩ : SkipListKey α) ∨ k ∈ keysOf (baseOf rows)) ∧
      set'.sz = set.sz + 1 := by
  obtain ⟨top, rest, h, trest, t, htop, hh, hhk, htH, _, _⟩ := inv_top set rows hinv
  have hcount := hinv.stored.count
  have hlen := hinv.levels
  have hsearch := addSearch_spec ⟨.Normal, e⟩ rfl set.nodes set.nodes.length top rest []
    trest h (by rw [← htop]; exact hinv.stored.tower) (by rw [← htop]; exact hinv.stored.agrees)
    (by rw [hh]; rfl) (Or.inl (by rw [hhk]; simp [SkipListKey.lt]))
    (by
      rw [htop, hh] at hcount
      simp only [List.flatten_cons, List.length_append, List.length_cons] at hcount
      omega)
  rw [← htop] at hsearch
  rcases hsearch with ⟨r, pre, post, c, hr, hsplit, hck, hres⟩ | ⟨pre, post, c, b, hbase, hcs, hsb, hres⟩
  · -- the key is there
    have hrow := towerOK_mem rows hinv.stored.tower r hr
    have hag := hinv.stored.agrees r hr
    obtain ⟨d, post', hpost, hlink⟩ := row_next r pre post c hrow hsplit (by rw [hck]; simp)
    subst hpost
    have hc := agrees_at set.nodes r pre _ c hag hsplit
    have hd : set.nodes[d.1]? = some d.2 :=
      agrees_at set.nodes r (pre ++ [c]) post' d hag (by rw [hsplit]; simp)
    have hne : d.2.key.eq ⟨.Normal, e⟩ = false := by
      cases hq : d.2.key.eq ⟨.Normal, e⟩ with
      | false => rfl
      | true =>
        have h1 := (key_eq_iff _ _ rfl).mp hq
        have h2 := hlink.2
        rw [hck, h1, key_lt_irrefl] at h2
        cases h2
    refine ⟨{ set with nodes := set.nodes, sz := set.sz + 1 }, rows, ?_,
      ⟨hinv.stored, hinv.levels, hinv.topHead, hinv.topTail, hinv.head, hinv.tail⟩, ?_, rfl⟩
    · simp only [add, htH, hres, hc, hlink.1, hd, hne]
      rfl
    · intro k
      have hmem := mem_base_of_mem rows hinv.stored.tower r hr c (by rw [hsplit]; simp)
      rw [hck] at hmem
      constructor
      · exact Or.inr
      · rintro (rfl | hk)
        · exact hmem
        · exact hk
  · -- the key is new
    have hne : rows ≠ [] := by rw [htop]; simp
    obtain ⟨above, hrows⟩ : ∃ above, rows = above ++ [pre ++ c :: b :: post] :=
      ⟨rows.dropLast, by rw [← hbase]; exact rows_eq_dropLast_append rows hne⟩
    have hstored := stored_insert set.nodes above [] pre post c b ⟨.Normal, e⟩ none
      (by rw [← hrows]; exact hinv.stored) hcs hsb
      (by intro p hp; simp only [List.mem_singleton] at hp; subst hp; rfl)
    have hnot : (⟨.Normal, e⟩ : SkipListKey α) ∉ keysOf (baseOf rows) :=
      not_mem_keysOf_between (baseOf rows) pre post c b _
        (towerOK_mem rows hinv.stored.tower _ (by rw [hbase, hrows]; simp)) hbase hcs hsb
    have hbase' := hstored.agrees
      (pre ++ (c.1, c.2.setRight (some set.nodes.length)) ::
        (set.nodes.length, (⟨⟨.Normal, e⟩, none, c.2.right⟩ : Node α)) :: b :: post) (by simp)
    have hc' := hbase' (c.1, c.2.setRight (some set.nodes.length)) (by simp)
    have hn' := hbase' (set.nodes.length, (⟨⟨.Normal, e⟩, none, c.2.right⟩ : Node α)) (by simp)
    simp only at hc' hn'
    obtain ⟨set', rows', h1, h2, h3, h4⟩ := promote_spec ⟨.Normal, e⟩ rfl set.levelTester 0
      set.nodes.length
      { set with
        nodes := (set.nodes ++ [(⟨⟨.Normal, e⟩, none, c.2.right⟩ : Node α)]).set c.1
          (c.2.setRight (some set.nodes.length)) }
      _ above [] _ ⟨⟨.Normal, e⟩, none, c.2.right⟩
      ⟨hstored, (by
          rw [hrows] at hlen
          simp only [List.length_append, List.length_cons, List.length_nil] at hlen ⊢
          exact hlen),
        (by
          rw [hinv.topHead, hrows]
          cases above with
          | nil =>
            simp only [List.nil_append, List.head?_cons, Option.some_bind]
            exact (head_insert pre (b :: post) c _ _).symm
          | cons r0 above' => rfl),
        (by
          rw [hinv.topTail, hrows]
          cases above with
          | nil =>
            simp only [List.nil_append, List.head?_cons, Option.some_bind]
            rw [getLast_insert]
          | cons r0 above' => rfl),
        (by
          rw [hinv.head, hrows, getLast?_append_cons_rows, getLast?_append_cons_rows]
          simp only [List.getLast?_singleton, Option.some_bind]
          exact (head_insert pre (b :: post) c _ _).symm),
        (by
          rw [hinv.tail, hrows, getLast?_append_cons_rows, getLast?_append_cons_rows]
          simp only [List.getLast?_singleton, Option.some_bind]
          rw [getLast_insert])⟩
      rfl
      (by
        rw [hrows] at hlen
        simp only [List.length_append, List.length_cons, List.length_nil] at hlen
        simp only; omega)
      (by simp) rfl
      (by
        intro r hr hmem
        rw [keysOf, List.mem_map] at hmem
        obtain ⟨p, hp, hpk⟩ := hmem
        have := mem_base_of_mem rows hinv.stored.tower r (by rw [hrows]; simp [hr]) p hp
        rw [hpk] at this
        exact hnot this)
    refine ⟨{ set' with sz := set'.sz + 1 }, rows', ?_,
      ⟨h2.stored, h2.levels, h2.topHead, h2.topTail, h2.head, h2.tail⟩, ?_, ?_⟩
    · have hq : (⟨.Normal, e⟩ : SkipListKey α).eq ⟨.Normal, e⟩ = true :=
        (key_eq_iff _ _ rfl).mpr rfl
      have hright : (c.2.setRight (some set.nodes.length)).right = some set.nodes.length := rfl
      rw [htH] at h1
      simp only [add, htH, hres, hc', hright, hn', hq, if_true, h1, Option.map_some']
    · intro k
      rw [h3, baseOf_append_cons, hbase]
      simp only [baseOf, List.getLast?_singleton, Option.getD_some, keysOf, List.map_append,
        List.map_cons, List.mem_append, List.mem_cons, Node.setRight]
      constructor
      · rintro (hk | hk | hk | hk | hk)
        · exact Or.inr (Or.inl hk)
        · exact Or.inr (Or.inr (Or.inl hk))
        · exact Or.inl hk
        · exact Or.inr (Or.inr (Or.inr (Or.inl hk)))
        · exact Or.inr (Or.inr (Or.inr (Or.inr hk)))
      · rintro (hk | hk | hk | hk | hk)
        · exact Or.inr (Or.inr (Or.inl hk))
        · exact Or.inl hk
        · exact Or.inr (Or.inl hk)
        · exact Or.inr (Or.inr (Or.inr (Or.inl hk)))
        · exact Or.inr (Or.inr (Or.inr (Or.inr hk)))
    · simp only [h4]

end SkipListSet

namespace SkipListSet
variable {α : Type} [LinearOrder α] [Inhabited α]

open SkipListKey

/-- The rows of a new set: one level with the two sentinels. -/
theorem skip_inv_new (levelTester : List Bool) :
    Inv (new levelTester : SkipListSet α)
      [[(1, ⟨⟨.NegInf, default⟩, none, some 0⟩), (0, ⟨⟨.PosInf, default⟩, none, none⟩)]] := by
  refine ⟨⟨⟨⟨?_, ⟨_, rfl, rfl⟩, ⟨_, rfl, rfl, rfl⟩⟩, ?_, trivial⟩, ?_, ?_, rfl⟩,
    rfl, rfl, rfl, rfl, rfl⟩
  · simp [Link, SkipListKey.lt]
  · intro p hp
    simp only [List.mem_cons, List.mem_singleton, List.not_mem_nil, or_false] at hp
    rcases hp with rfl | rfl <;> rfl
  · intro r hr
    simp only [List.mem_singleton] at hr
    subst hr
    intro p hp
    simp only [List.mem_cons, List.mem_singleton, List.not_mem_nil, or_false] at hp
    rcases hp with rfl | rfl <;> rfl
  · simp

/-- A sequence of `add` calls on a set that satisfies `Inv`. -/
theorem skip_addAll_spec (xs : List α) (set : SkipListSet α) (rows : List (Row α))
    (hinv : Inv set rows) :
    ∃ set' rows', set.addAll xs = some set' ∧ Inv set' rows' ∧
      (∀ k, k ∈ keysOf (baseOf rows') ↔
        (∃ x ∈ xs, k = (⟨.Normal, x⟩ : SkipListKey α)) ∨ k ∈ keysOf (baseOf rows)) ∧
      set'.sz = set.sz + xs.length := by
  induction xs generalizing set rows with
  | nil => exact ⟨set, rows, rfl, hinv, by simp, rfl⟩
  | cons x xs ih =>
    obtain ⟨s1, rows1, h1, hinv1, hm1, hsz1⟩ := skip_add_spec set rows hinv x
    obtain ⟨s2, rows2, h2, hinv2, hm2, hsz2⟩ := ih s1 rows1 hinv1
    refine ⟨s2, rows2, by simp [addAll, h1, h2], hinv2, ?_, ?_⟩
    · intro k
      rw [hm2, hm1]
      constructor
      · rintro (⟨y, hy, hk⟩ | hk | hk)
        · exact Or.inl ⟨y, List.mem_cons_of_mem _ hy, hk⟩
        · exact Or.inl ⟨x, List.mem_cons_self _ _, hk⟩
        · exact Or.inr hk
      · rintro (⟨y, hy, hk⟩ | hk)
        · rcases List.mem_cons.mp hy with rfl | hy'
          · exact Or.inr (Or.inl hk)
          · exact Or.inl ⟨y, hy', hk⟩
        · exact Or.inr (Or.inr hk)
    · rw [hsz2, hsz1, List.length_cons]; omega

end SkipListSet

namespace SkipListSet
variable {α : Type} [LinearOrder α] [Inhabited α]

open SkipListKey

omit [Inhabited α] in
theorem key_eq_iff_left (a b : SkipListKey α) (ha : a.kind = .Normal) :
    a.eq b = true ↔ a = b := by
  obtain ⟨ak, ae⟩ := a
  obtain ⟨bk, be⟩ := b
  simp only at ha
  subst ha
  cases bk <;> simp [SkipListKey.eq]

/-- On a well-formed level only the first node has the key of the head sentinel. -/
theorem eq_head_of_key (r : Row α) (hr : RowOK r) (h q : Nat × Node α)
    (hh : r.head? = some h) (hq : q ∈ r) (hk : q.2.key = h.2.key) : q = h := by
  have hp := row_pairwise r hr
  cases r with
  | nil => simp at hh
  | cons h' rest =>
    simp only [List.head?_cons, Option.some.injEq] at hh
    subst hh
    rcases List.mem_cons.mp hq with rfl | hq'
    · rfl
    · have := (List.pairwise_cons.mp hp).1 q hq'
      rw [hk, key_lt_irrefl] at this
      cases this

/-- On a well-formed level only the last node has the key of the tail sentinel. -/
theorem eq_last_of_key (r : Row α) (hr : RowOK r) (t q : Nat × Node α)
    (ht : r.getLast? = some t) (hq : q ∈ r) (hk : q.2.key = t.2.key) : q = t := by
  have hp := row_pairwise r hr
  have hsplit := List.dropLast_append_getLast? t ht
  rw [← hsplit] at hq hp
  rcases List.mem_append.mp hq with hq' | hq'
  · have := (List.pairwise_append.mp hp).2.2 q hq' t (by simp)
    rw [hk, key_lt_irrefl] at this
    cases this
  · simpa using hq'

/-- The way down the head sentinels. -/
theorem goDown_spec (nodes : List (Node α)) (n : Nat) (cur : Row α) (below : List (Row α))
    (h : Nat × Node α) (ht : TowerOK (cur :: below))
    (hag : ∀ r ∈ cur :: below, Agrees nodes r) (hh : cur.head? = some h)
    (hn : n ≤ below.length) :
    ∃ target hn, (cur :: below)[n]? = some target ∧ target.head? = some hn ∧
      goDown nodes n (some h.1) = some (some hn.1) := by
  induction n generalizing cur below h with
  | zero => exact ⟨cur, h, by simp, hh, rfl⟩
  | succ n ih =>
    cases below with
    | nil => simp at hn
    | cons r1 rest =>
      have hmem : h ∈ cur := List.mem_of_mem_head? hh
      have hcur : nodes[h.1]? = some h.2 := hag cur (List.mem_cons_self _ _) h hmem
      obtain ⟨q, hq, hbot, hqk⟩ := ht.2.1 h hmem
      obtain ⟨_, ⟨h1, hh1, hh1k⟩, _⟩ := ht.2.2.1
      obtain ⟨_, ⟨h0, hh0, hh0k⟩, _⟩ := ht.1
      rw [hh] at hh0; cases hh0
      have hq1 : q = h1 := eq_head_of_key r1 ht.2.2.1 h1 q hh1 hq (by rw [hqk, hh0k, hh1k])
      subst hq1
      obtain ⟨target, hn', h1', h2', h3'⟩ := ih r1 rest q ht.2.2
        (fun r hr => hag r (List.mem_cons_of_mem _ hr)) hh1 (by simpa using hn)
      refine ⟨target, hn', by simpa using h1', h2', ?_⟩
      rw [goDown]
      simp only [hcur, hbot]
      exact h3'

theorem last_right (r pre : Row α) (a : Nat × Node α) (hr : RowOK r) (hsplit : r = pre ++ [a]) :
    a.2.right = none := by
  obtain ⟨_, _, t, ht, _, htr⟩ := hr
  rw [hsplit] at ht
  have : a = t := by simpa using ht
  rw [this]; exact htr

/-- Following `right` from a node of a well-formed level reads the rest of the level. -/
theorem followRight_spec (nodes : List (Node α)) (r : Row α) (hr : RowOK r)
    (hag : Agrees nodes r) (fuel : Nat) (pre post : Row α) (a : Nat × Node α)
    (hsplit : r = pre ++ a :: post) (hfuel : post.length + 1 ≤ fuel) :
    followRight nodes fuel (some a.1) = some (a :: post) := by
  induction post generalizing pre a fuel with
  | nil =>
    cases fuel with
    | zero => simp at hfuel
    | succ fuel =>
      have hcur := agrees_at nodes r pre [] a hag hsplit
      rw [followRight]
      simp only [hcur, last_right r pre a hr hsplit]
      cases fuel <;> rfl
  | cons b post ih =>
    cases fuel with
    | zero => simp at hfuel
    | succ fuel =>
      have hcur := agrees_at nodes r pre (b :: post) a hag hsplit
      have hlink : Link a b := by
        have := hr.1
        rw [hsplit] at this
        exact (List.chain'_cons.mp (List.chain'_split.mp this).2).1
      rw [followRight]
      simp only [hcur, hlink.1]
      rw [ih fuel (pre ++ [a]) b (by rw [hsplit]; simp) (by simpa using hfuel)]
      rfl

/-- The scan of `isElementOnLevel` from a node of a well-formed level. -/
theorem findRight_spec (s : SkipListKey α) (hs : s.kind = .Normal) (nodes : List (Node α))
    (r : Row α) (hr : RowOK r) (hag : Agrees nodes r) (fuel : Nat) (pre post : Row α)
    (a : Nat × Node α) (hsplit : r = pre ++ a :: post) (hfuel : post.length + 1 ≤ fuel) :
    findRight s nodes fuel (some a.1) = some (decide (s ∈ keysOf (a :: post))) := by
  induction post generalizing pre a fuel with
  | nil =>
    cases fuel with
    | zero => simp at hfuel
    | succ fuel =>
      have hcur := agrees_at nodes r pre [] a hag hsplit
      rw [findRight]
      simp only [hcur, last_right r pre a hr hsplit]
      by_cases he : s.eq a.2.key = true
      · rw [if_pos he]
        simp [keysOf, (key_eq_iff_left _ _ hs).mp he]
      · rw [if_neg he]
        have : s ≠ a.2.key := fun h => he ((key_eq_iff_left _ _ hs).mpr h)
        cases fuel <;> simp [findRight, keysOf, this]
  | cons b post ih =>
    cases fuel with
    | zero => simp at hfuel
    | succ fuel =>
      have hcur := agrees_at nodes r pre (b :: post) a hag hsplit
      have hlink : Link a b := by
        have := hr.1
        rw [hsplit] at this
        exact (List.chain'_cons.mp (List.chain'_split.mp this).2).1
      rw [findRight]
      simp only [hcur, hlink.1]
      by_cases he : s.eq a.2.key = true
      · rw [if_pos he]
        simp [keysOf, (key_eq_iff_left _ _ hs).mp he]
      · rw [if_neg he]
        have : s ≠ a.2.key := fun h => he ((key_eq_iff_left _ _ hs).mpr h)
        rw [ih fuel (pre ++ [a]) b (by rw [hsplit]; simp) (by simpa using hfuel)]
        simp [keysOf, this]

/-- The count of `elementsOnLevel` from a node of a well-formed level. -/
theorem countRight_spec (nodes : List (Node α)) (r : Row α) (hr : RowOK r)
    (hag : Agrees nodes r) (fuel : Nat) (pre post : Row α) (a : Nat × Node α)
    (hsplit : r = pre ++ a :: post) (hfuel : post.length + 1 ≤ fuel) :
    countRight nodes fuel (some a.1) = some (post.length + 1) := by
  induction post generalizing pre a fuel with
  | nil =>
    cases fuel with
    | zero => simp at hfuel
    | succ fuel =>
      have hcur := agrees_at nodes r pre [] a hag hsplit
      rw [countRight]
      simp only [hcur, last_right r pre a hr hsplit]
      cases fuel <;> rfl
  | cons b post ih =>
    cases fuel with
    | zero => simp at hfuel
    | succ fuel =>
      have hcur := agrees_at nodes r pre (b :: post) a hag hsplit
      have hlink : Link a b := by
        have := hr.1
        rw [hsplit] at this
        exact (List.chain'_cons.mp (List.chain'_split.mp this).2).1
      rw [countRight]
      simp only [hcur, hlink.1]
      rw [ih fuel (pre ++ [a]) b (by rw [hsplit]; simp) (by simpa using hfuel)]
      rfl

end SkipListSet

namespace SkipListSet
variable {α : Type} [LinearOrder α] [Inhabited α]

open SkipListKey

omit [LinearOrder α] [Inhabited α] in
/-- Level `level` of a tower with `lv + 1` levels is its row number `lv - level` from the
top. -/
theorem getElem?_levelRow (rows : List (Row α)) (lv level : Nat) (hlen : rows.length = lv + 1)
    (hl : level ≤ lv) : rows[lv - level]? = some (levelRow rows level) := by
  have h1 : level < rows.reverse.length := by rw [List.length_reverse]; omega
  rw [levelRow, List.getElem?_eq_getElem h1, Option.getD_some, List.getElem_reverse]
  have h2 : rows.length - 1 - level = lv - level := by omega
  simp only [h2]
  exact List.getElem?_eq_getElem _

omit [LinearOrder α] [Inhabited α] in
theorem levelRow_of_lt (rows : List (Row α)) (level : Nat) (hl : rows.length ≤ level) :
    levelRow rows level = [] := by
  rw [levelRow, List.getElem?_eq_none (by rw [List.length_reverse]; exact hl)]
  rfl

omit [LinearOrder α] [Inhabited α] in
theorem levelRow_mem (rows : List (Row α)) (level : Nat) (hl : level < rows.length) :
    levelRow rows level ∈ rows := by
  have h1 : level < rows.reverse.length := by rw [List.length_reverse]; exact hl
  rw [levelRow, List.getElem?_eq_getElem h1, Option.getD_some]
  exact List.mem_reverse.mp (List.getElem_mem _)

omit [LinearOrder α] [Inhabited α] in
theorem length_le_flatten (rows : List (Row α)) (r : Row α) (hr : r ∈ rows) :
    r.length ≤ rows.flatten.length := by
  obtain ⟨above, below, rfl⟩ := List.append_of_mem hr
  simp only [List.flatten_append, List.flatten_cons, List.length_append]
  omega

/-- The head of level `level`, as the descent from `topHead` finds it. -/
theorem goDown_level (set : SkipListSet α) (rows : List (Row α)) (hinv : Inv set rows)
    (level : Nat) (hl : level ≤ set.lv) :
    ∃ hn rest, levelRow rows level = hn :: rest ∧
      goDown set.nodes (set.lv - level) set.topHead = some (some hn.1) := by
  obtain ⟨top, rest, h, trest, t, htop, hh, hhk, htH, _, _⟩ := inv_top set rows hinv
  have hlen := hinv.levels
  obtain ⟨target, hn, h1, h2, h3⟩ := goDown_spec set.nodes (set.lv - level) top rest h
    (by rw [← htop]; exact hinv.stored.tower) (by rw [← htop]; exact hinv.stored.agrees)
    (by rw [hh]; rfl)
    (by rw [htop] at hlen; simp only [List.length_cons] at hlen; omega)
  rw [← htop, getElem?_levelRow rows set.lv level hlen hl] at h1
  cases h1
  cases hrow : levelRow rows level with
  | nil => rw [hrow] at h2; simp at h2
  | cons a post =>
    rw [hrow] at h2
    simp only [List.head?_cons, Option.some.injEq] at h2
    subst h2
    exact ⟨a, post, rfl, by rw [htH]; exact h3⟩

/-- Reading a level of a set that satisfies `Inv` gives the level of `rows`. -/
theorem levelNodes_spec (set : SkipListSet α) (rows : List (Row α)) (hinv : Inv set rows)
    (level : Nat) (hl : level ≤ set.lv) :
    levelNodes set level = some (levelRow rows level) := by
  obtain ⟨hn, rest, hrow, hgo⟩ := goDown_level set rows hinv level hl
  have hmem := levelRow_mem rows level (by rw [hinv.levels]; omega)
  have hle := length_le_flatten rows _ hmem
  rw [hinv.stored.count, hrow] at hle
  rw [levelNodes, hgo, hrow]
  simp only
  exact followRight_spec set.nodes (hn :: rest)
    (by rw [← hrow]; exact towerOK_mem rows hinv.stored.tower _ hmem)
    (by rw [← hrow]; exact hinv.stored.agrees _ hmem) _ [] rest hn rfl
    (by simp only [List.length_cons] at hle; omega)

/-- `isElementOnLevel` on a set that satisfies `Inv` returns whether the key is on the
level of `rows`. -/
theorem isElementOnLevel_spec (set : SkipListSet α) (rows : List (Row α)) (hinv : Inv set rows)
    (e : α) (level : Nat) :
    set.isElementOnLevel e level =
      some (decide ((⟨.Normal, e⟩ : SkipListKey α) ∈ keysOf (levelRow rows level))) := by
  by_cases hl : level > set.lv
  · rw [isElementOnLevel, if_pos hl, levelRow_of_lt rows level (by rw [hinv.levels]; omega)]
    simp [keysOf]
  · obtain ⟨hn, rest, hrow, hgo⟩ := goDown_level set rows hinv level (by omega)
    have hmem := levelRow_mem rows level (by rw [hinv.levels]; omega)
    have hle := length_le_flatten rows _ hmem
    rw [hinv.stored.count, hrow] at hle
    rw [isElementOnLevel, if_neg hl, hgo, hrow]
    simp only
    exact findRight_spec _ rfl set.nodes (hn :: rest)
      (by rw [← hrow]; exact towerOK_mem rows hinv.stored.tower _ hmem)
      (by rw [← hrow]; exact hinv.stored.agrees _ hmem) _ [] rest hn rfl
      (by simp only [List.length_cons] at hle; omega)

/-- `elementsOnLevel` on a set that satisfies `Inv` returns the number of nodes on the level
of `rows` less two, and 0 for a level that is not there. -/
theorem elementsOnLevel_spec (set : SkipListSet α) (rows : List (Row α)) (hinv : Inv set rows)
    (level : Nat) :
    set.elementsOnLevel level =
      some (if level > set.lv then 0 else ((levelRow rows level).length : Int) - 2) := by
  by_cases hl : level > set.lv
  · rw [elementsOnLevel, if_pos hl, if_pos hl]
  · obtain ⟨hn, rest, hrow, hgo⟩ := goDown_level set rows hinv level (by omega)
    have hmem := levelRow_mem rows level (by rw [hinv.levels]; omega)
    have hle := length_le_flatten rows _ hmem
    rw [hinv.stored.count, hrow] at hle
    rw [elementsOnLevel, if_neg hl, if_neg hl, hgo, hrow]
    simp only
    rw [countRight_spec set.nodes (hn :: rest)
      (by rw [← hrow]; exact towerOK_mem rows hinv.stored.tower _ hmem)
      (by rw [← hrow]; exact hinv.stored.agrees _ hmem) _ [] rest hn rfl
      (by simp only [List.length_cons] at hle; omega)]
    simp

end SkipListSet

namespace SkipListSet
variable {α : Type} [LinearOrder α] [Inhabited α]

open SkipListKey

/-- The shape of a well-formed level: a `NegInf` sentinel, normal keys with strictly
ascending elements, a `PosInf` sentinel with a null `right`. -/
theorem row_shape (r : Row α) (hr : RowOK r) :
    ∃ first mids last, r = first :: (mids ++ [last]) ∧ first.2.key.kind = .NegInf ∧
      last.2.key.kind = .PosInf ∧ last.2.right = none ∧
      (∀ m ∈ mids, m.2.key.kind = .Normal) ∧
      (mids.map fun m => m.2.key.element).Sorted (· < ·) := by
  have hp := row_pairwise r hr
  obtain ⟨_, ⟨h, hh, hhk⟩, ⟨t, ht, htk, htr⟩⟩ := hr
  cases r with
  | nil => simp at hh
  | cons h' rest =>
    simp only [List.head?_cons, Option.some.injEq] at hh
    subst hh
    cases rest with
    | nil =>
      simp only [List.getLast?_singleton, Option.some.injEq] at ht
      subst ht
      rw [hhk] at htk
      cases htk
    | cons b rest' =>
      rw [List.getLast?_cons_cons] at ht
      have hsplit := List.dropLast_append_getLast? t ht
      rw [← hsplit] at hp
      obtain ⟨hp1, hp2⟩ := List.pairwise_cons.mp hp
      obtain ⟨hp3, _, hp4⟩ := List.pairwise_append.mp hp2
      have hnormal : ∀ m ∈ (b :: rest').dropLast, m.2.key.kind = .Normal := by
        intro m hm
        have h1 := hp1 m (List.mem_append_left _ hm)
        have h2 := hp4 m hm t (by simp)
        rw [hhk] at h1
        have h3 : m.2.key.kind ≠ .NegInf := by simpa [SkipListKey.lt] using h1
        have h4 := kind_ne_posInf_of_lt _ _ h2
        cases hk : m.2.key.kind with
        | Normal => rfl
        | NegInf => exact absurd hk h3
        | PosInf => exact absurd hk h4
      refine ⟨h', (b :: rest').dropLast, t, by rw [hsplit], by rw [hhk], by rw [htk], htr,
        hnormal, ?_⟩
      rw [List.Sorted, List.pairwise_map]
      refine List.Pairwise.imp_of_mem ?_ hp3
      intro x y hx hy hxy
      have hkx := hnormal x hx
      have hky := hnormal y hy
      simpa [SkipListKey.lt, hkx, hky] using hxy

/-- The `bottom` fields of a row of a well-formed tower lead to the next row. -/
theorem bottoms_of_getElem? (rows : List (Row α)) (ht : TowerOK rows) (i : Nat) (r r' : Row α)
    (h1 : rows[i]? = some r) (h2 : rows[i + 1]? = some r') : Bottoms r (some r') := by
  induction rows generalizing i with
  | nil => simp at h1
  | cons r0 rest ih =>
    cases i with
    | zero =>
      simp only [List.getElem?_cons_zero, Option.some.injEq] at h1
      subst h1
      cases rest with
      | nil => simp at h2
      | cons r1 rest' =>
        simp only [zero_add, List.getElem?_cons_succ, List.getElem?_cons_zero,
          Option.some.injEq] at h2
        subst h2
        exact ht.2.1
    | succ i =>
      exact ih ht.2.2 i (by simpa using h1) (by simpa using h2)

/-- In a set that satisfies `Inv` the `bottom` fields of a level above the lowest lead to
the level below it. -/
theorem bottoms_levelRow (set : SkipListSet α) (rows : List (Row α)) (hinv : Inv set rows)
    (k : Nat) (h0 : 0 < k) (hk : k ≤ set.lv) :
    Bottoms (levelRow rows k) (some (levelRow rows (k - 1))) := by
  have h1 := getElem?_levelRow rows set.lv k hinv.levels hk
  have h2 := getElem?_levelRow rows set.lv (k - 1) hinv.levels (by omega)
  have e : set.lv - (k - 1) = set.lv - k + 1 := by omega
  rw [e] at h2
  exact bottoms_of_getElem? rows hinv.stored.tower _ _ _ h1 h2

/-- The sets built by `add` calls from a new one satisfy `Inv`, and their lowest level holds
the keys of the elements added. -/
theorem skip_addAll_new (levelTester : List Bool) (xs : List α) :
    ∃ set rows, (new levelTester).addAll xs = some set ∧ Inv set rows ∧
      (∀ e, (⟨.Normal, e⟩ : SkipListKey α) ∈ keysOf (baseOf rows) ↔ e ∈ xs) ∧
      set.sz = xs.length := by
  obtain ⟨s, rows, h1, hinv, hm, hsz⟩ :=
    skip_addAll_spec xs (new levelTester) _ (skip_inv_new levelTester)
  refine ⟨s, rows, h1, hinv, ?_, by simpa [new] using hsz⟩
  intro e
  rw [hm]
  simp [baseOf, keysOf]

end SkipListSet

namespace SkipListSet
variable {α : Type} [LinearOrder α] [Inhabited α]

open SkipListKey

omit [LinearOrder α] [Inhabited α] in
/-- Level `below.length` of a tower is the row that has `below` beneath it; the other levels
do not change when that row is replaced. -/
theorem levelRow_replace (above below : List (Row α)) (r r' : Row α) (j : Nat) :
    levelRow (above ++ r' :: below) j =
      if j = below.length then r' else levelRow (above ++ r :: below) j := by
  simp only [levelRow, List.reverse_append, List.reverse_cons, List.append_assoc,
    List.singleton_append]
  by_cases h1 : j < below.length
  · rw [if_neg (by omega), List.getElem?_append_left (by simpa using h1),
      List.getElem?_append_left (by simpa using h1)]
  · by_cases h2 : j = below.length
    · rw [if_pos h2, List.getElem?_append_right (by simp [h2])]
      simp [h2]
    · rw [if_neg h2, List.getElem?_append_right (by simp; omega),
        List.getElem?_append_right (by simp; omega)]
      have : j - below.reverse.length = (j - below.length - 1) + 1 := by
        simp only [List.length_reverse]; omega
      rw [this]
      rfl

omit [LinearOrder α] [Inhabited α] in
theorem levelRow_replace_self (above below : List (Row α)) (r : Row α) :
    levelRow (above ++ r :: below) below.length = r := by
  rw [levelRow_replace above below r r]; simp

omit [LinearOrder α] [Inhabited α] in
/-- A new top level is the level above all others; the others stay. -/
theorem levelRow_cons (rows : List (Row α)) (r : Row α) (j : Nat) :
    levelRow (r :: rows) j = if j = rows.length then r else levelRow rows j := by
  have := levelRow_replace [] rows [] r j
  simp only [List.nil_append] at this
  rw [this]
  by_cases h : j = rows.length
  · simp [h]
  · simp only [if_neg h]
    by_cases h1 : j < rows.length
    · simp only [levelRow, List.reverse_cons]
      rw [List.getElem?_append_left (by simpa using h1)]
    · rw [levelRow_of_lt _ _ (by simp; omega), levelRow_of_lt _ _ (by omega)]

omit [LinearOrder α] [Inhabited α] in
theorem keysOf_insert (pre post : Row α) (c : Nat × Node α) (n : Nat × Node α)
    (r : Option Nat) (x : SkipListKey α) :
    x ∈ keysOf (pre ++ (c.1, c.2.setRight r) :: n :: post) ↔
      x = n.2.key ∨ x ∈ keysOf (pre ++ c :: post) := by
  simp only [keysOf, List.map_append, List.map_cons, List.mem_append, List.mem_cons,
    Node.setRight]
  tauto

theorem yesCount_replicate (k : Nat) (rest : List Bool) :
    yesCount (List.replicate k true ++ false :: rest) = k := by
  induction k with
  | zero => rfl
  | succ k ih => simp [List.replicate_succ, yesCount, ih]

end SkipListSet

namespace SkipListSet
variable {α : Type} [LinearOrder α] [Inhabited α]

open SkipListKey

/-- The promotion loop, level by level: besides what `promote_spec` says, the top level of
the result is the higher of the old top level and the level reached by the yes answers, and
the normal keys on the levels are the old ones and `s` on the levels the loop has climbed. -/
theorem promote_levels (s : SkipListKey α) (hs : s.kind = .Normal) (answers : List Bool)
    (level c : Nat) (set : SkipListSet α) (rows above below : List (Row α)) (rc : Row α)
    (cn : Node α) (hinv : Inv set rows) (hrows : rows = above ++ rc :: below)
    (hlevel : above.length + level = set.lv) (hc : (c, cn) ∈ rc) (hck : cn.key = s)
    (habove : ∀ r ∈ above, s ∉ keysOf r) :
    ∃ set' rows', promote s answers level c set = some set' ∧ Inv set' rows' ∧
      set'.sz = set.sz ∧ set'.lv = max set.lv (level + yesCount answers) ∧
      ∀ j x, x.kind = SkipListKind.Normal →
        (x ∈ keysOf (levelRow rows' j) ↔
          (x = s ∧ level < j ∧ j ≤ level + yesCount answers) ∨ x ∈ keysOf (levelRow rows j)) := by
  induction answers generalizing level c set rows above below rc cn with
  | nil =>
    refine ⟨_, rows, rfl, ⟨hinv.stored, hinv.levels, hinv.topHead, hinv.topTail, hinv.head,
      hinv.tail⟩, rfl, (by simp only [yesCount, Nat.add_zero]; exact (max_eq_left (by omega)).symm), ?_⟩
    intro j x _
    simp only [yesCount, Nat.add_zero]
    constructor
    · exact Or.inr
    · rintro (⟨_, h1, h2⟩ | h)
      · omega
      · exact h
  | cons ans answers ih =>
    cases ans with
    | false =>
      refine ⟨_, rows, rfl, ⟨hinv.stored, hinv.levels, hinv.topHead, hinv.topTail, hinv.head,
        hinv.tail⟩, rfl, (by simp only [yesCount, Nat.add_zero]; exact (max_eq_left (by omega)).symm), ?_⟩
      intro j x _
      simp only [yesCount, Nat.add_zero]
      constructor
      · exact Or.inr
      · rintro (⟨_, h1, h2⟩ | h)
        · omega
        · exact h
    | true =>
      obtain ⟨top, rest, h, trest, t, htop, hh, hhk, htH, htl, htT⟩ := inv_top set rows hinv
      have hlen := hinv.levels
      rw [promote]
      by_cases hlv : level + 1 > set.lv
      · -- a new top level
        rw [if_pos hlv]
        have habove0 : above = [] := List.length_eq_zero.mp (by omega)
        subst habove0
        simp only [List.nil_append] at hrows
        have hrc : rc = top := by rw [htop] at hrows; exact (List.cons.inj hrows).1.symm
        subst hrc
        have hstored := stored_newTop set.nodes rc rest h t (c, cn) s hs
          (by rw [← htop]; exact hinv.stored) (by rw [hh]; rfl) htl hc hck
        rw [htH, htT]
        simp only [List.length_nil, Nat.zero_add] at hlevel
        obtain ⟨set', rows', h1, h2, h4, h5, h6⟩ := ih (level + 1) (set.nodes.length + 1)
          { set with
            lv := level + 1
            topHead := some (set.nodes.length + 2)
            topTail := some set.nodes.length
            nodes := set.nodes ++
              [(⟨⟨.PosInf, default⟩, some t.1, none⟩ : Node α),
                ⟨s, some c, some set.nodes.length⟩,
                ⟨⟨.NegInf, default⟩, some h.1, some (set.nodes.length + 1)⟩] }
          _ [] (rc :: rest) _ ⟨s, some c, some set.nodes.length⟩
          ⟨hstored, (by
              simp only [List.length_cons]
              rw [htop] at hlen
              simp only [List.length_cons] at hlen
              omega),
            rfl, rfl,
            (by rw [hinv.head, htop]; simp [List.getLast?_cons_cons]),
            (by rw [hinv.tail, htop]; simp [List.getLast?_cons_cons])⟩
          rfl (by simp) (by simp) rfl (by simp)
        refine ⟨set', rows', h1, h2, h4, ?_, ?_⟩
        · rw [h5]; simp only [yesCount]; omega
        · intro j x hx
          rw [h6 j x hx, levelRow_cons, htop]
          have hrl : (rc :: rest).length = level + 1 := by
            rw [htop] at hlen; omega
          by_cases hj : j = (rc :: rest).length
          · rw [if_pos hj, levelRow_of_lt _ _ (by omega)]
            simp only [keysOf, List.map_cons, List.map_nil, List.mem_cons, List.not_mem_nil,
              or_false, yesCount]
            constructor
            · rintro (⟨rfl, _, _⟩ | rfl | rfl | rfl)
              · exact ⟨rfl, by omega, by omega⟩
              · cases hx
              · exact ⟨rfl, by omega, by omega⟩
              · cases hx
            · rintro ⟨rfl, _, _⟩
              exact Or.inr (Or.inr (Or.inl rfl))
          · rw [if_neg hj]
            simp only [yesCount]
            constructor
            · rintro (⟨rfl, h7, h8⟩ | h0)
              · exact Or.inl ⟨rfl, by omega, by omega⟩
              · exact Or.inr h0
            · rintro (⟨rfl, h7, h8⟩ | h0)
              · exact Or.inl ⟨rfl, by omega, by omega⟩
              · exact Or.inr h0
      · -- a level that is there
        rw [if_neg hlv]
        have hne : above ≠ [] := by
          intro h0; rw [h0] at hlevel; simp at hlevel; omega
        obtain ⟨above', rt, hab⟩ : ∃ above' rt, above = above' ++ [rt] := by
          rcases List.eq_nil_or_concat above with h0 | ⟨L, b, h0⟩
          · exact absurd h0 hne
          · exact ⟨L, b, by rw [h0, List.concat_eq_append]⟩
        subst hab
        have hrows' : rows = above' ++ rt :: rc :: below := by rw [hrows]; simp
        have hcount := hinv.stored.count
        have htower : TowerOK (top :: rest) := by rw [← htop]; exact hinv.stored.tower
        have hagree : ∀ r ∈ top :: rest, Agrees set.nodes r := by
          rw [← htop]; exact hinv.stored.agrees
        have hhs : h.2.key.lt s = true := by rw [hhk]; simp [SkipListKey.lt, hs]
        simp only [List.length_append, List.length_cons, List.length_nil] at hlevel
        obtain ⟨target, pre1, post1, q, ht1, ht2, ht3, ht4⟩ :=
          descendTo_spec s set.nodes set.nodes.length (set.lv - (level + 1)) top rest []
            trest h htower hagree (by rw [hh]; rfl) hhs
            (by rw [htop] at hlen; simp only [List.length_cons] at hlen; omega)
            (by
              rw [htop, hh] at hcount
              simp only [List.flatten_cons, List.length_append, List.length_cons] at hcount
              omega)
        have htarget : target = rt := by
          rw [← htop, hrows', List.getElem?_append_right (by omega)] at ht1
          have e : set.lv - (level + 1) - above'.length = 0 := by omega
          rw [e] at ht1
          simpa using ht1.symm
        subst htarget
        obtain ⟨hrt, hrtb, _⟩ := towerOK_mid above' (rc :: below) target
          (by rw [← hrows']; exact hinv.stored.tower)
        have hrta : Agrees set.nodes target := hinv.stored.agrees target (by rw [hrows']; simp)
        obtain ⟨pre2, post2, c0, b0, hs1, hs2, hs3, hs4⟩ :=
          scanRight_spec s hs set.nodes set.nodes.length target pre1 post1 q hrt hrta ht2 ht3
            (habove target (by simp))
            (by
              rw [hrows', ht2] at hcount
              simp only [List.flatten_append, List.flatten_cons, List.length_append,
                List.length_cons] at hcount
              omega)
        have hc0 : set.nodes[c0.1]? = some c0.2 := hrta c0 (by rw [hs1]; simp)
        simp only [htH, ht4, hs4, hc0]
        subst hs1
        have hstored := stored_insert set.nodes above' (rc :: below) pre2 post2 c0 b0 s
          (some c) (by rw [← hrows']; exact hinv.stored) hs2 hs3
          (by
            intro p hp
            simp only [List.mem_singleton] at hp
            subst hp
            exact ⟨(c, cn), hc, rfl, hck⟩)
        have hbl : below.length = level := by
          rw [hrows'] at hlen
          simp only [List.length_append, List.length_cons] at hlen
          omega
        obtain ⟨set', rows', h1, h2, h4, h5, h6⟩ := ih (level + 1) set.nodes.length
          { set with
            nodes := (set.nodes ++ [(⟨s, some c, c0.2.right⟩ : Node α)]).set c0.1
              (c0.2.setRight (some set.nodes.length)) }
          _ above' (rc :: below) _ ⟨s, some c, c0.2.right⟩
          ⟨hstored, (by
              rw [hrows'] at hlen
              simp only [List.length_append, List.length_cons] at hlen ⊢
              exact hlen),
            (by
              rw [hinv.topHead, hrows']
              cases above' with
              | nil =>
                simp only [List.nil_append, List.head?_cons, Option.some_bind]
                exact (head_insert pre2 (b0 :: post2) c0 _ _).symm
              | cons r0 above'' => rfl),
            (by
              rw [hinv.topTail, hrows']
              cases above' with
              | nil =>
                simp only [List.nil_append, List.head?_cons, Option.some_bind]
                rw [getLast_insert]
              | cons r0 above'' => rfl),
            (by
              rw [hinv.head, hrows', getLast?_append_cons_rows, getLast?_append_cons_rows,
                List.getLast?_cons_cons, List.getLast?_cons_cons]),
            (by
              rw [hinv.tail, hrows', getLast?_append_cons_rows, getLast?_append_cons_rows,
                List.getLast?_cons_cons, List.getLast?_cons_cons])⟩
          rfl (by simp only; omega) (by simp) rfl
          (fun r hr => habove r (by simp [hr]))
        rw [htH] at h1
        refine ⟨set', rows', h1, h2, h4, ?_, ?_⟩
        · rw [h5]; simp only [yesCount]; omega
        · intro j x hx
          rw [h6 j x hx,
            levelRow_replace above' (rc :: below) (pre2 ++ c0 :: b0 :: post2) _ j, hrows']
          have hrl : (rc :: below).length = level + 1 := by simp [hbl]
          by_cases hj : j = (rc :: below).length
          · rw [if_pos hj, keysOf_insert pre2 (b0 :: post2) c0 _ _ x, hj,
              levelRow_replace_self]
            simp only [yesCount]
            constructor
            · rintro (⟨rfl, _, _⟩ | rfl | h0)
              · exact Or.inl ⟨rfl, by omega, by omega⟩
              · exact Or.inl ⟨rfl, by omega, by omega⟩
              · exact Or.inr h0
            · rintro (⟨rfl, _, _⟩ | h0)
              · exact Or.inr (Or.inl rfl)
              · exact Or.inr (Or.inr h0)
          · rw [if_neg hj]
            simp only [yesCount]
            constructor
            · rintro (⟨rfl, h7, h8⟩ | h0)
              · exact Or.inl ⟨rfl, by omega, by omega⟩
              · exact Or.inr h0
            · rintro (⟨rfl, h7, h8⟩ | h0)
              · exact Or.inl ⟨rfl, by omega, by omega⟩
              · exact Or.inr h0


/-- `add(e)` for an element that is not there, level by level: the call returns, the rows of
the result are a tower again, the top level is the higher of the old one and the number of
yes answers, and `e` has come onto the levels up to that number while the other normal keys
are where they were. -/
theorem skip_add_levels (set : SkipListSet α) (rows : List (Row α)) (hinv : Inv set rows)
    (e : α) (hnew : (⟨.Normal, e⟩ : SkipListKey α) ∉ keysOf (baseOf rows)) :
    ∃ set' rows', set.add e = some set' ∧ Inv set' rows' ∧
      set'.lv = max set.lv (yesCount set.levelTester) ∧
      ∀ j x, x.kind = SkipListKind.Normal →
        (x ∈ keysOf (levelRow rows' j) ↔
          (x = (⟨.Normal, e⟩ : SkipListKey α) ∧ j ≤ yesCount set.levelTester) ∨
            x ∈ keysOf (levelRow rows j)) := by
  obtain ⟨top, rest, h, trest, t, htop, hh, hhk, htH, _, _⟩ := inv_top set rows hinv
  have hcount := hinv.stored.count
  have hlen := hinv.levels
  have hsearch := addSearch_spec ⟨.Normal, e⟩ rfl set.nodes set.nodes.length top rest []
    trest h (by rw [← htop]; exact hinv.stored.tower) (by rw [← htop]; exact hinv.stored.agrees)
    (by rw [hh]; rfl) (Or.inl (by rw [hhk]; simp [SkipListKey.lt]))
    (by
      rw [htop, hh] at hcount
      simp only [List.flatten_cons, List.length_append, List.length_cons] at hcount
      omega)
  rw [← htop] at hsearch
  rcases hsearch with ⟨r, pre, post, c, hr, hsplit, hck, hres⟩ | ⟨pre, post, c, b, hbase, hcs, hsb, hres⟩
  · -- the key is there
    have hmem := mem_base_of_mem rows hinv.stored.tower r hr c (by rw [hsplit]; simp)
    rw [hck] at hmem
    exact absurd hmem hnew
  · -- the key is new
    have hne : rows ≠ [] := by rw [htop]; simp
    obtain ⟨above, hrows⟩ : ∃ above, rows = above ++ [pre ++ c :: b :: post] :=
      ⟨rows.dropLast, by rw [← hbase]; exact rows_eq_dropLast_append rows hne⟩
    have hstored := stored_insert set.nodes above [] pre post c b ⟨.Normal, e⟩ none
      (by rw [← hrows]; exact hinv.stored) hcs hsb
      (by intro p hp; simp only [List.mem_singleton] at hp; subst hp; rfl)
    have hbase' := hstored.agrees
      (pre ++ (c.1, c.2.setRight (some set.nodes.length)) ::
        (set.nodes.length, (⟨⟨.Normal, e⟩, none, c.2.right⟩ : Node α)) :: b :: post) (by simp)
    have hc' := hbase' (c.1, c.2.setRight (some set.nodes.length)) (by simp)
    have hn' := hbase' (set.nodes.length, (⟨⟨.Normal, e⟩, none, c.2.right⟩ : Node α)) (by simp)
    simp only at hc' hn'
    obtain ⟨set', rows', h1, h2, h4, h5, h6⟩ := promote_levels ⟨.Normal, e⟩ rfl
      set.levelTester 0 set.nodes.length
      { set with
        nodes := (set.nodes ++ [(⟨⟨.Normal, e⟩, none, c.2.right⟩ : Node α)]).set c.1
          (c.2.setRight (some set.nodes.length)) }
      _ above [] _ ⟨⟨.Normal, e⟩, none, c.2.right⟩
      ⟨hstored, (by
          rw [hrows] at hlen
          simp only [List.length_append, List.length_cons, List.length_nil] at hlen ⊢
          exact hlen),
        (by
          rw [hinv.topHead, hrows]
          cases above with
          | nil =>
            simp only [List.nil_append, List.head?_cons, Option.some_bind]
            exact (head_insert pre (b :: post) c _ _).symm
          | cons r0 above' => rfl),
        (by
          rw [hinv.topTail, hrows]
          cases above with
          | nil =>
            simp only [List.nil_append, List.head?_cons, Option.some_bind]
            rw [getLast_insert]
          | cons r0 above' => rfl),
        (by
          rw [hinv.head, hrows, getLast?_append_cons_rows, getLast?_append_cons_rows]
          simp only [List.getLast?_singleton, Option.some_bind]
          exact (head_insert pre (b :: post) c _ _).symm),
        (by
          rw [hinv.tail, hrows, getLast?_append_cons_rows, getLast?_append_cons_rows]
          simp only [List.getLast?_singleton, Option.some_bind]
          rw [getLast_insert])⟩
      rfl
      (by
        rw [hrows] at hlen
        simp only [List.length_append, List.length_cons, List.length_nil] at hlen
        simp only; omega)
      (by simp) rfl
      (by
        intro r hr hmem
        rw [keysOf, List.mem_map] at hmem
        obtain ⟨p, hp, hpk⟩ := hmem
        have := mem_base_of_mem rows hinv.stored.tower r (by rw [hrows]; simp [hr]) p hp
        rw [hpk] at this
        exact hnew this)
    refine ⟨{ set' with sz := set'.sz + 1 }, rows', ?_,
      ⟨h2.stored, h2.levels, h2.topHead, h2.topTail, h2.head, h2.tail⟩, ?_, ?_⟩
    · have hq : (⟨.Normal, e⟩ : SkipListKey α).eq ⟨.Normal, e⟩ = true :=
        (key_eq_iff _ _ rfl).mpr rfl
      have hright : (c.2.setRight (some set.nodes.length)).right = some set.nodes.length := rfl
      rw [htH] at h1
      simp only [add, htH, hres, hc', hright, hn', hq, if_true, h1, Option.map_some']
    · simpa using h5
    · intro j x hx
      rw [h6 j x hx, levelRow_replace above [] (pre ++ c :: b :: post) _ j, hrows]
      by_cases hj : j = ([] : List (Row α)).length
      · rw [if_pos hj, keysOf_insert pre (b :: post) c _ _ x, hj, levelRow_replace_self]
        simp only [List.length_nil, Nat.zero_add]
        constructor
        · rintro (⟨rfl, h7, _⟩ | rfl | h0)
          · exact absurd h7 (by omega)
          · exact Or.inl ⟨rfl, by omega⟩
          · exact Or.inr h0
        · rintro (⟨rfl, _⟩ | h0)
          · exact Or.inr (Or.inl rfl)
          · exact Or.inr (Or.inr h0)
      · rw [if_neg hj]
        simp only [List.length_nil] at hj
        simp only [Nat.zero_add]
        constructor
        · rintro (⟨rfl, _, h8⟩ | h0)
          · exact Or.inl ⟨rfl, h8⟩
          · exact Or.inr h0
        · rintro (⟨rfl, h8⟩ | h0)
          · exact Or.inl ⟨rfl, by omega, h8⟩
          · exact Or.inr h0

end SkipListSet

namespace SkipListSet
variable {α : Type} [LinearOrder α] [Inhabited α]

open SkipListKey

omit [Inhabited α] in
/-- The loop that copies a level: a new node per node of the source level between `temp` and
the tail sentinel, linked from `current` on and ending in `currentTail`; the nodes that
were there stay as they are, `current` apart. -/
theorem copyRow_spec (src : List (Node α)) (topTail ti : Nat) (tnode : Node α)
    (tailKey : SkipListKey α) (st : Nat × Node α) (hst : st.2.key.eq tailKey = true)
    (tt : Node α) (httk : tt.key = tailKey) (smids : Row α)
    (hsag : Agrees src (smids ++ [st])) (hschain : (smids ++ [st]).Chain' RightTo)
    (hsm : ∀ m ∈ smids, m.2.key.eq tailKey = false)
    (fuel : Nat) (hfuel : smids.length + 1 ≤ fuel)
    (current : Nat) (cur : Node α) (nodes : List (Node α))
    (hcur : nodes[current]? = some cur) (htt : nodes[topTail]? = some tt)
    (hne : topTail ≠ current) :
    ∃ nodes' mids' first,
      copyRow src topTail (some ti) fuel ((smids ++ [st]).head?.map Prod.fst) current nodes =
        some nodes' ∧
      nodes'.length = nodes.length + smids.length ∧
      (∀ i, i < nodes.length → i ≠ current → nodes'[i]? = nodes[i]?) ∧
      nodes'[current]? = some (cur.setRight (some first)) ∧
      keysOf mids' = keysOf smids ∧
      mids'.map Prod.fst = List.range' nodes.length smids.length ∧
      (∀ p ∈ mids', p.2.bottom = none) ∧
      Agrees nodes' mids' ∧
      ((current, cur.setRight (some first)) :: (mids' ++ [(ti, tnode)])).Chain' RightTo := by
  have hclt : current < nodes.length := (List.getElem?_eq_some_iff.mp hcur).1
  have htlt : topTail < nodes.length := (List.getElem?_eq_some_iff.mp htt).1
  induction smids generalizing fuel current cur nodes with
  | nil =>
    cases fuel with
    | zero => simp at hfuel
    | succ fuel =>
      have hs : src[st.1]? = some st.2 := hsag st (by simp)
      refine ⟨nodes.set current (cur.setRight (some ti)), [], ti, ?_, by simp, ?_, ?_,
        rfl, rfl, by simp, by simp [Agrees], ?_⟩
      · simp only [List.nil_append, List.head?_cons, Option.map_some', copyRow, hs, htt, hcur,
          httk, hst, if_true]
      · intro i _ hi
        exact List.getElem?_set_ne (Ne.symm hi)
      · rw [List.getElem?_set_self hclt]
      · simp [RightTo, Node.setRight]
  | cons m ms ih =>
    cases fuel with
    | zero => simp at hfuel
    | succ fuel =>
      have hs : src[m.1]? = some m.2 := hsag m (by simp)
      have hmk : m.2.key.eq tt.key = false := by rw [httk]; exact hsm m (by simp)
      have hnext : m.2.right = ((ms ++ [st]).head?.map Prod.fst) := by
        cases hms : ms ++ [st] with
        | nil => simp at hms
        | cons b rest =>
          simp only [List.cons_append, hms] at hschain
          simpa [RightTo] using (List.chain'_cons.mp hschain).1
      have hn1 : ((nodes ++ [(⟨m.2.key, none, none⟩ : Node α)]).set current
            (cur.setRight (some nodes.length)))[nodes.length]? =
          some (⟨m.2.key, none, none⟩ : Node α) := by
        rw [List.getElem?_set_ne (by omega), List.getElem?_append_right (le_refl _)]
        simp
      have hn2 : ((nodes ++ [(⟨m.2.key, none, none⟩ : Node α)]).set current
            (cur.setRight (some nodes.length)))[topTail]? = some tt := by
        rw [List.getElem?_set_ne (Ne.symm hne), List.getElem?_append_left htlt, htt]
      have hlen1 : ((nodes ++ [(⟨m.2.key, none, none⟩ : Node α)]).set current
            (cur.setRight (some nodes.length))).length = nodes.length + 1 := by simp
      obtain ⟨nodes', mids', first, h1, h2, h3, h4, h5, h6, h7, h8, h9⟩ :=
        ih (fun p hp => hsag p (by simp only [List.cons_append]; exact List.mem_cons_of_mem _ hp))
          (by simp only [List.cons_append] at hschain; exact hschain.tail)
          (fun p hp => hsm p (List.mem_cons_of_mem _ hp)) fuel
          (by simp only [List.length_cons] at hfuel; omega)
          nodes.length ⟨m.2.key, none, none⟩ _ hn1 hn2 (by omega)
          (by rw [hlen1]; omega) (by rw [hlen1]; omega)
      rw [hlen1] at h2 h3 h6
      refine ⟨nodes', (nodes.length, (⟨m.2.key, none, none⟩ : Node α).setRight (some first)) ::
        mids', nodes.length, ?_, ?_, ?_, ?_, ?_, ?_, ?_, ?_, ?_⟩
      · simp only [List.cons_append, List.head?_cons, Option.map_some', copyRow, hs, htt, hcur,
          hmk, Bool.false_eq_true, if_false, hnext]
        exact h1
      · simp only [List.length_cons]; omega
      · intro i hi hic
        rw [h3 i (by omega) (by omega), List.getElem?_set_ne (Ne.symm hic),
          List.getElem?_append_left hi]
      · rw [h3 current (by omega) (by omega), List.getElem?_set_self (by simp; omega)]
      · simp only [keysOf, List.map_cons, Node.setRight] at h5 ⊢
        rw [h5]
      · simp only [List.map_cons, List.length_cons, h6]
        rw [List.range'_succ]
      · intro p hp
        rcases List.mem_cons.mp hp with rfl | hp'
        · rfl
        · exact h7 p hp'
      · intro p hp
        rcases List.mem_cons.mp hp with rfl | hp'
        · exact h4
        · exact h8 p hp'
      · exact List.chain'_cons.mpr ⟨rfl, h9⟩

end SkipListSet

namespace SkipListKey
variable {α : Type} [LinearOrder α]

theorem key_eq_self (a : SkipListKey α) : a.eq a = true := by
  obtain ⟨ak, ae⟩ := a
  cases ak <;> simp [eq]

theorem key_eq_false_of_lt (a b : SkipListKey α) (h : a.lt b = true) : b.eq a = false := by
  obtain ⟨ak, ae⟩ := a
  obtain ⟨bk, be⟩ := b
  cases ak <;> cases bk <;> simp_all [lt, eq]
  exact fun h' => absurd h (by rw [h']; exact lt_irrefl _)

theorem key_eq_false_of_gt (a b : SkipListKey α) (h : a.lt b = true) : a.eq b = false := by
  obtain ⟨ak, ae⟩ := a
  obtain ⟨bk, be⟩ := b
  cases ak <;> cases bk <;> simp_all [lt, eq]
  exact fun h' => absurd h (by rw [h']; exact lt_irrefl _)

end SkipListKey

namespace SkipListSet
variable {α : Type} [LinearOrder α] [Inhabited α]

open SkipListKey

omit [Inhabited α] in
/-- The scan of `currentBot` along a level stops on the first node with the key. -/
theorem scanBottom_spec (key : SkipListKey α) (nodes : List (Node α)) (b : Nat × Node α)
    (rest : Row α) (hb : key.eq b.2.key = true) (skipped : Row α)
    (hag : Agrees nodes (skipped ++ b :: rest))
    (hchain : (skipped ++ b :: rest).Chain' RightTo)
    (hskip : ∀ q ∈ skipped, key.eq q.2.key = false) (fuel : Nat)
    (hfuel : skipped.length + 1 ≤ fuel) :
    scanBottom key nodes fuel ((skipped ++ b :: rest).head?.map Prod.fst) = some b.1 := by
  induction skipped generalizing fuel with
  | nil =>
    cases fuel with
    | zero => simp at hfuel
    | succ fuel =>
      have h1 : nodes[b.1]? = some b.2 := hag b (by simp)
      simp only [List.nil_append, List.head?_cons, Option.map_some', scanBottom, h1, hb,
        if_true]
  | cons q qs ih =>
    cases fuel with
    | zero => simp at hfuel
    | succ fuel =>
      have h1 : nodes[q.1]? = some q.2 := hag q (by simp)
      have h2 : key.eq q.2.key = false := hskip q (by simp)
      have hnext : q.2.right = ((qs ++ b :: rest).head?.map Prod.fst) := by
        cases hms : qs ++ b :: rest with
        | nil => simp at hms
        | cons c rest' =>
          simp only [List.cons_append, hms] at hchain
          simpa [RightTo] using (List.chain'_cons.mp hchain).1
      simp only [List.cons_append, List.head?_cons, Option.map_some', scanBottom, h1, h2,
        Bool.false_eq_true, if_false, hnext]
      exact ih (fun p hp => hag p (by simp only [List.cons_append]; exact List.mem_cons_of_mem _ hp))
        (by simp only [List.cons_append] at hchain; exact hchain.tail)
        (fun p hp => hskip p (List.mem_cons_of_mem _ hp)) fuel
        (by simp only [List.length_cons] at hfuel; omega)

omit [Inhabited α] in
/-- The loop that sets the `bottom` fields of a level `us` over the level `bs` below it:
every node of `us` gets the index of the node of `bs` with its key, nothing else changes. -/
theorem linkBottoms_spec (us : Row α) (bs : Row α) (nodes : List (Node α)) (fuel : Nat)
    (hfuel : us.length ≤ fuel) (hblen : bs.length ≤ nodes.length)
    (huag : Agrees nodes us) (hbag : Agrees nodes bs)
    (huchain : us.Chain' RightTo) (hbchain : bs.Chain' RightTo)
    (hulast : ∀ t, us.getLast? = some t → t.2.right = none)
    (hunodup : (us.map Prod.fst).Nodup)
    (hdisj : ∀ p ∈ us, ∀ q ∈ bs, p.1 ≠ q.1)
    (husorted : us.Pairwise fun a b => a.2.key.lt b.2.key = true)
    (hbsorted : bs.Pairwise fun a b => a.2.key.lt b.2.key = true)
    (hsub : ∀ u ∈ us, ∃ q ∈ bs, q.2.key = u.2.key) :
    ∃ nodes' us', linkBottoms fuel (us.head?.map Prod.fst) (bs.head?.map Prod.fst) nodes =
        some nodes' ∧
      nodes'.length = nodes.length ∧
      (∀ i, i ∉ us.map Prod.fst → nodes'[i]? = nodes[i]?) ∧
      List.Forall₂ SameButBottom us' us ∧ Agrees nodes' us' ∧
      ∀ p ∈ us', ∃ q ∈ bs, p.2.bottom = some q.1 ∧ q.2.key = p.2.key := by
  induction us generalizing bs nodes fuel with
  | nil =>
    refine ⟨nodes, [], ?_, rfl, fun _ _ => rfl, List.Forall₂.nil, by simp [Agrees], by simp⟩
    cases fuel <;> rfl
  | cons u us ih =>
    cases fuel with
    | zero => simp at hfuel
    | succ fuel =>
      have hu : nodes[u.1]? = some u.2 := huag u (by simp)
      have hult : u.1 < nodes.length := (List.getElem?_eq_some_iff.mp hu).1
      obtain ⟨b, hbmem, hbk⟩ := hsub u (by simp)
      obtain ⟨skipped, rest, hsplit⟩ := List.append_of_mem hbmem
      subst hsplit
      have hskiplt : ∀ q ∈ skipped, q.2.key.lt u.2.key = true := by
        intro q hq
        rw [← hbk]
        exact (List.pairwise_append.mp hbsorted).2.2 q hq b (by simp)
      have hscan := scanBottom_spec u.2.key nodes b rest (by rw [hbk]; exact key_eq_self _)
        skipped hbag hbchain (fun q hq => key_eq_false_of_lt _ _ (hskiplt q hq)) nodes.length
        (by simp only [List.length_append, List.length_cons] at hblen; omega)
      have hnext : u.2.right = us.head?.map Prod.fst := by
        cases us with
        | nil => simpa using hulast u rfl
        | cons c rest' => simpa [RightTo] using (List.chain'_cons.mp huchain).1
      have hunot : u.1 ∉ us.map Prod.fst := (List.nodup_cons.mp hunodup).1
      obtain ⟨nodes', us', h1, h2, h3, h4, h5, h6⟩ := ih (b :: rest)
        (nodes.set u.1 (u.2.setBottom (some b.1))) fuel
        (by simp only [List.length_cons] at hfuel; omega)
        (by
          simp only [List.length_append, List.length_cons, List.length_set] at hblen ⊢
          omega)
        (by
          intro p hp
          rw [List.getElem?_set_ne]
          · exact huag p (List.mem_cons_of_mem _ hp)
          · intro he
            exact hunot (List.mem_map.mpr ⟨p, hp, he.symm⟩))
        (by
          intro q hq
          rw [List.getElem?_set_ne]
          · exact hbag q (List.mem_append_right _ hq)
          · exact hdisj u (by simp) q (List.mem_append_right _ hq))
        huchain.tail (hbchain.right_of_append)
        (by
          intro t ht
          cases us with
          | nil => simp at ht
          | cons c rest' => exact hulast t (by rw [List.getLast?_cons_cons]; exact ht))
        (List.nodup_cons.mp hunodup).2
        (fun p hp q hq => hdisj p (List.mem_cons_of_mem _ hp) q (List.mem_append_right _ hq))
        (List.pairwise_cons.mp husorted).2
        (List.pairwise_append.mp hbsorted).2.1
        (by
          intro u' hu'
          obtain ⟨q, hq, hqk⟩ := hsub u' (List.mem_cons_of_mem _ hu')
          refine ⟨q, ?_, hqk⟩
          rcases List.mem_append.mp hq with hq' | hq'
          · exfalso
            have h7 := hskiplt q hq'
            have h8 := (List.pairwise_cons.mp husorted).1 u' hu'
            have h9 := key_lt_trans _ _ _ h7 h8
            rw [hqk, key_lt_irrefl] at h9
            cases h9
          · exact hq')
      simp only [List.length_set] at h2
      refine ⟨nodes', (u.1, (u.2.setBottom (some b.1))) :: us', ?_, h2, ?_, ?_, ?_, ?_⟩
      · simp only [List.head?_cons, Option.map_some', linkBottoms, hu, hscan]
        rw [hnext]
        exact h1
      · intro i hi
        simp only [List.map_cons, List.mem_cons, not_or] at hi
        rw [h3 i hi.2, List.getElem?_set_ne (Ne.symm hi.1)]
      · exact List.Forall₂.cons ⟨rfl, rfl, rfl⟩ h4
      · intro p hp
        rcases List.mem_cons.mp hp with rfl | hp'
        · rw [h3 _ hunot, List.getElem?_set_self hult]
        · exact h5 p hp'
      · intro p hp
        rcases List.mem_cons.mp hp with rfl | hp'
        · exact ⟨b, hbmem, rfl, hbk⟩
        · obtain ⟨q, hq, hq2⟩ := h6 p hp'
          exact ⟨q, List.mem_append_right _ hq, hq2⟩

end SkipListSet

namespace SkipListSet
variable {α : Type} [LinearOrder α] [Inhabited α]

open SkipListKey

omit [Inhabited α] in
/-- A level is linked when its `right` fields lead from node to node and its keys ascend. -/
theorem chain_link_of (l : Row α) (h1 : l.Chain' RightTo)
    (h2 : (keysOf l).Chain' fun a b => a.lt b = true) : l.Chain' Link := by
  induction l with
  | nil => exact List.chain'_nil
  | cons a l ih =>
    cases l with
    | nil => exact List.chain'_singleton a
    | cons b l =>
      simp only [keysOf, List.map_cons] at h2
      rw [List.chain'_cons] at h1 h2 ⊢
      exact ⟨⟨h1.1, h2.1⟩, ih h1.2 h2.2⟩

omit [Inhabited α] in
theorem chain_rightTo_of_link (l : Row α) (h : l.Chain' Link) : l.Chain' RightTo :=
  h.imp fun {_ _} h => h.1

omit [Inhabited α] in
theorem chain_keys_of_link (l : Row α) (h : l.Chain' Link) :
    (keysOf l).Chain' fun a b => a.lt b = true := by
  rw [keysOf, List.chain'_map]
  exact h.imp fun {_ _} h => h.2

omit [LinearOrder α] [Inhabited α] in
/-- The way down a column of nodes of which each has the next as its `bottom`. -/
theorem goDown_infos (nodes : List (Node α)) (n : Nat)
    (infos : List (Option (Nat × Option Nat))) (hchain : infos.Chain' DownLink)
    (hag : ∀ i b, some (i, b) ∈ infos → ∃ x, nodes[i]? = some x ∧ x.bottom = b)
    (i0 j : Nat) (b0 bj : Option Nat) (h0 : infos[0]? = some (some (i0, b0)))
    (hn : infos[n]? = some (some (j, bj))) :
    goDown nodes n (some i0) = some (some j) := by
  induction n generalizing infos i0 b0 with
  | zero =>
    rw [h0] at hn
    cases hn
    rfl
  | succ n ih =>
    cases infos with
    | nil => simp at h0
    | cons a rest =>
      simp only [List.getElem?_cons_zero, Option.some.injEq] at h0
      subst h0
      simp only [List.getElem?_cons_succ] at hn
      cases rest with
      | nil => simp at hn
      | cons b rest' =>
        obtain ⟨⟨i, k, kb, h1, h2⟩, hrest⟩ := List.chain'_cons.mp hchain
        cases h1
        subst h2
        obtain ⟨x, hx, hxb⟩ := hag i0 (some k) (by simp)
        rw [goDown]
        simp only [hx, hxb]
        exact ih (some (k, kb) :: rest') hrest
          (fun i b hib => hag i b (List.mem_cons_of_mem _ hib)) k kb (by simp) hn

omit [LinearOrder α] [Inhabited α] in
theorem headInfo_agrees (nodes : List (Node α)) (rows : List (Row α))
    (hag : ∀ r ∈ rows, Agrees nodes r) (i : Nat) (b : Option Nat)
    (h : some (i, b) ∈ rows.map headInfo) : ∃ x, nodes[i]? = some x ∧ x.bottom = b := by
  obtain ⟨r, hr, hinfo⟩ := List.mem_map.mp h
  cases hh : r.head? with
  | none => simp [headInfo, hh] at hinfo
  | some p =>
    simp only [headInfo, hh, Option.map_some', Option.some.injEq, Prod.mk.injEq] at hinfo
    refine ⟨p.2, ?_, hinfo.2⟩
    rw [← hinfo.1]
    exact hag r hr p (List.mem_of_mem_head? hh)

omit [LinearOrder α] [Inhabited α] in
theorem lastInfo_agrees (nodes : List (Node α)) (rows : List (Row α))
    (hag : ∀ r ∈ rows, Agrees nodes r) (i : Nat) (b : Option Nat)
    (h : some (i, b) ∈ rows.map lastInfo) : ∃ x, nodes[i]? = some x ∧ x.bottom = b := by
  obtain ⟨r, hr, hinfo⟩ := List.mem_map.mp h
  cases hh : r.getLast? with
  | none => simp [lastInfo, hh] at hinfo
  | some p =>
    simp only [lastInfo, hh, Option.map_some', Option.some.injEq, Prod.mk.injEq] at hinfo
    refine ⟨p.2, ?_, hinfo.2⟩
    rw [← hinfo.1]
    exact hag r hr p (List.mem_of_mem_getLast? hh)

omit [LinearOrder α] [Inhabited α] in
theorem same_map_fst (a b : Row α) (h : List.Forall₂ SameButBottom a b) :
    a.map Prod.fst = b.map Prod.fst := by
  induction h with
  | nil => rfl
  | cons h1 _ ih => simp only [List.map_cons, ih, h1.1]

omit [LinearOrder α] [Inhabited α] in
theorem same_keysOf (a b : Row α) (h : List.Forall₂ SameButBottom a b) :
    keysOf a = keysOf b := by
  induction h with
  | nil => rfl
  | cons h1 _ ih =>
    simp only [keysOf, List.map_cons] at ih ⊢
    rw [ih, h1.2.1]

omit [LinearOrder α] [Inhabited α] in
theorem same_chain (a b : Row α) (h : List.Forall₂ SameButBottom a b)
    (hb : b.Chain' RightTo) : a.Chain' RightTo := by
  induction h with
  | nil => exact List.chain'_nil
  | cons h1 h2 ih =>
    cases h2 with
    | nil => exact List.chain'_singleton _
    | cons h3 h4 =>
      rw [List.chain'_cons] at hb ⊢
      refine ⟨?_, ih hb.2⟩
      have := hb.1
      simp only [RightTo] at this ⊢
      rw [h1.2.2, h3.1, this]

omit [LinearOrder α] [Inhabited α] in
theorem same_head (a b : Row α) (h : List.Forall₂ SameButBottom a b) (q : Nat × Node α)
    (hq : b.head? = some q) : ∃ p, a.head? = some p ∧ SameButBottom p q := by
  cases h with
  | nil => simp at hq
  | cons h1 _ =>
    simp only [List.head?_cons, Option.some.injEq] at hq
    subst hq
    exact ⟨_, rfl, h1⟩

omit [LinearOrder α] [Inhabited α] in
theorem same_last (a b : Row α) (h : List.Forall₂ SameButBottom a b) (q : Nat × Node α)
    (hq : b.getLast? = some q) : ∃ p, a.getLast? = some p ∧ SameButBottom p q := by
  induction h with
  | nil => simp at hq
  | cons h1 h2 ih =>
    cases h2 with
    | nil =>
      simp only [List.getLast?_singleton, Option.some.injEq] at hq
      subst hq
      exact ⟨_, rfl, h1⟩
    | cons h3 h4 =>
      rw [List.getLast?_cons_cons] at hq ⊢
      exact ih hq

/-- A level whose nodes differ from those of a well-formed level in the `bottom` fields only
is well-formed. -/
theorem same_rowOK (a b : Row α) (h : List.Forall₂ SameButBottom a b) (hb : RowOK b) :
    RowOK a := by
  obtain ⟨hchain, ⟨hd, hhd, hhk⟩, ⟨t, ht, htk, htr⟩⟩ := hb
  obtain ⟨p, hp, hp1⟩ := same_head a b h hd hhd
  obtain ⟨q, hq, hq1⟩ := same_last a b h t ht
  refine ⟨chain_link_of a (same_chain a b h (chain_rightTo_of_link b hchain)) ?_,
    ⟨p, hp, by rw [hp1.2.1, hhk]⟩, ⟨q, hq, by rw [hq1.2.1, htk], by rw [hq1.2.2, htr]⟩⟩
  rw [same_keysOf a b h]
  exact chain_keys_of_link b hchain

end SkipListSet

namespace SkipListSet
variable {α : Type} [LinearOrder α] [Inhabited α]

open SkipListKey

omit [LinearOrder α] [Inhabited α] in
/-- The loop that allocates the sentinels of the levels above the lowest: the levels are
pairs of sentinels, each on top of the one before. -/
theorem copySentinels_spec (hk tk : SkipListKey α) (n : Nat) (topHead topTail : Nat)
    (nodes : List (Node α)) (rows : List (Row α)) (hb tb : Option Nat)
    (hlaid : Laid nodes rows) (hpair : ∀ r ∈ rows, IsPair hk tk r)
    (hH : (rows.map headInfo).Chain' DownLink) (hT : (rows.map lastInfo).Chain' DownLink)
    (hth : (rows.map headInfo)[0]? = some (some (topHead, hb)))
    (htt : (rows.map lastInfo)[0]? = some (some (topTail, tb))) :
    ∃ rows' hb' tb' above,
      Laid (copySentinels hk tk n topHead topTail nodes).2.2 rows' ∧
      (∀ r ∈ rows', IsPair hk tk r) ∧
      (rows'.map headInfo).Chain' DownLink ∧ (rows'.map lastInfo).Chain' DownLink ∧
      (rows'.map headInfo)[0]? =
        some (some ((copySentinels hk tk n topHead topTail nodes).1, hb')) ∧
      (rows'.map lastInfo)[0]? =
        some (some ((copySentinels hk tk n topHead topTail nodes).2.1, tb')) ∧
      rows' = above ++ rows ∧ above.length = n := by
  induction n generalizing topHead topTail nodes rows hb tb with
  | zero => exact ⟨rows, hb, tb, [], hlaid, hpair, hH, hT, hth, htt, rfl, rfl⟩
  | succ n ih =>
    have hidx : ∀ p ∈ rows.flatten, p.1 < nodes.length := fun p hp =>
      stored_index_lt nodes rows hlaid.agrees p.1 (List.mem_map_of_mem _ hp)
    obtain ⟨rows', hb', tb', above, h1, h2, h3, h4, h5, h6, h7, h8⟩ :=
      ih nodes.length (nodes.length + 1)
        (nodes ++ [(⟨hk, some topHead, none⟩ : Node α), ⟨tk, some topTail, none⟩])
        ([(nodes.length, (⟨hk, some topHead, none⟩ : Node α)),
          (nodes.length + 1, ⟨tk, some topTail, none⟩)] :: rows)
        (some topHead) (some topTail)
        ⟨(by
            intro r hr
            rcases List.mem_cons.mp hr with rfl | hr'
            · intro p hp
              simp only [List.mem_cons, List.mem_singleton, List.not_mem_nil, or_false] at hp
              rcases hp with rfl | rfl
              · rw [List.getElem?_append_right (le_refl _)]
                simp
              · rw [List.getElem?_append_right (by simp)]
                simp
            · exact agrees_append nodes _ r (hlaid.agrees r hr')),
          (by
            simp only [List.flatten_cons, List.map_append, List.map_cons, List.map_nil,
              List.cons_append, List.nil_append, List.nodup_cons, List.mem_cons, List.mem_map]
            refine ⟨?_, ?_, hlaid.nodup⟩
            · rintro (h | ⟨p, hp, hpe⟩)
              · omega
              · have := hidx p hp
                omega
            · rintro ⟨p, hp, hpe⟩
              have := hidx p hp
              omega),
          (by
            simp only [List.flatten_cons, List.length_append, List.length_cons,
              List.length_nil, hlaid.count]
            omega)⟩
        (by
          intro r hr
          rcases List.mem_cons.mp hr with rfl | hr'
          · exact ⟨_, _, _, _, rfl⟩
          · exact hpair r hr')
        (by
          simp only [List.map_cons]
          rw [List.chain'_cons']
          refine ⟨?_, hH⟩
          intro b hb'
          rw [List.head?_eq_getElem?, hth, Option.mem_def, Option.some.injEq] at hb'
          subst hb'
          exact ⟨_, _, _, rfl, rfl⟩)
        (by
          simp only [List.map_cons]
          rw [List.chain'_cons']
          refine ⟨?_, hT⟩
          intro b hb'
          rw [List.head?_eq_getElem?, htt, Option.mem_def, Option.some.injEq] at hb'
          subst hb'
          exact ⟨_, _, _, rfl, rfl⟩)
        (by simp [headInfo]) (by simp [lastInfo])
    refine ⟨rows', hb', tb', above ++ [[(nodes.length, (⟨hk, some topHead, none⟩ : Node α)),
      (nodes.length + 1, ⟨tk, some topTail, none⟩)]], ?_, h2, h3, h4, ?_, ?_, ?_, ?_⟩
    · exact h1
    · exact h5
    · exact h6
    · rw [h7]; simp
    · simp [h8]

end SkipListSet

namespace SkipListSet
variable {α : Type} [LinearOrder α] [Inhabited α]

open SkipListKey

/-- One round of the loop that copies the levels: the pair of sentinels `r` of the level
above the levels `done` becomes a well-formed level with the keys of that level of the
source. -/
theorem copyLevel_spec (s : SkipListSet α) (srows : List (Row α)) (hinv : Inv s srows)
    (topHead topTail : Nat) (nodes : List (Node α)) (pend done : List (Row α)) (r : Row α)
    (hlen : pend.length + done.length = s.lv)
    (hlaid : Laid nodes (pend ++ r :: done))
    (hpend : ∀ r' ∈ pend, IsPair ⟨.NegInf, default⟩ ⟨.PosInf, default⟩ r')
    (hr : IsPair ⟨.NegInf, default⟩ ⟨.PosInf, default⟩ r)
    (hH : ((pend ++ r :: done).map headInfo).Chain' DownLink)
    (hT : ((pend ++ r :: done).map lastInfo).Chain' DownLink)
    (hb tb : Option Nat)
    (hth : ((pend ++ r :: done).map headInfo)[0]? = some (some (topHead, hb)))
    (htt : ((pend ++ r :: done).map lastInfo)[0]? = some (some (topTail, tb))) :
    ∃ nodes' r', copyLevel s topHead topTail nodes done.length = some nodes' ∧
      Laid nodes' (pend ++ r' :: done) ∧ RowOK r' ∧
      keysOf r' = keysOf (levelRow srows done.length) ∧
      headInfo r' = headInfo r ∧ lastInfo r' = lastInfo r ∧
      ((∀ p ∈ r, p.2.bottom = none) → ∀ p ∈ r', p.2.bottom = none) := by
  have hl : done.length ≤ s.lv := by omega
  have hsmem := levelRow_mem srows done.length (by rw [hinv.levels]; omega)
  have hsr := towerOK_mem srows hinv.stored.tower _ hsmem
  have hsag := hinv.stored.agrees _ hsmem
  have hslen := length_le_flatten srows _ hsmem
  rw [hinv.stored.count] at hslen
  obtain ⟨sh, rest, hrow, hgo⟩ := goDown_level s srows hinv done.length hl
  obtain ⟨first, smids, st, hshape, _, hstk, _, hmk, _⟩ := row_shape _ hsr
  rw [hshape] at hrow
  obtain ⟨rfl, rfl⟩ := List.cons.inj hrow
  have hschain := hsr.1
  obtain ⟨_, ⟨h0, hh0, hhk⟩, ⟨t0, ht0, htk, _⟩⟩ := hsr
  rw [hshape] at hh0 ht0 hschain hsag hslen
  simp only [List.head?_cons, Option.some.injEq] at hh0
  subst hh0
  have hlast : (first :: (smids ++ [st])).getLast? = some st := by
    rw [← List.cons_append, List.getLast?_append_of_ne_nil _ (by simp)]
    rfl
  rw [hlast] at ht0
  cases ht0
  obtain ⟨hi, ti, hb0, tb0, rfl⟩ := hr
  have hnd := hlaid.nodup
  have hagr := hlaid.agrees _ (List.mem_append_right pend (List.mem_cons_self _ _))
  have hcur : nodes[hi]? = some (⟨⟨.NegInf, default⟩, hb0, none⟩ : Node α) :=
    hagr (hi, (⟨⟨.NegInf, default⟩, hb0, none⟩ : Node α)) (by simp)
  have htl : nodes[ti]? = some (⟨⟨.PosInf, default⟩, tb0, none⟩ : Node α) :=
    hagr (ti, (⟨⟨.PosInf, default⟩, tb0, none⟩ : Node α)) (by simp)
  have hti : ti ≠ hi :=
    index_ne_of_nodup pend done [] [(ti, (⟨⟨.PosInf, default⟩, tb0, none⟩ : Node α))]
      (hi, (⟨⟨.NegInf, default⟩, hb0, none⟩ : Node α)) hnd
      (ti, (⟨⟨.PosInf, default⟩, tb0, none⟩ : Node α)) (by simp)
  -- the three descents
  have hgoH : goDown nodes (s.lv - done.length) (some topHead) = some (some hi) :=
    goDown_infos nodes _ _ hH (headInfo_agrees nodes _ hlaid.agrees) topHead hi hb hb0 hth
      (by
        have e : s.lv - done.length = pend.length := by omega
        rw [e, List.map_append, List.getElem?_append_right (by simp)]
        simp [headInfo])
  have hgoT : goDown nodes (s.lv - done.length) (some topTail) = some (some ti) :=
    goDown_infos nodes _ _ hT (lastInfo_agrees nodes _ hlaid.agrees) topTail ti tb tb0 htt
      (by
        have e : s.lv - done.length = pend.length := by omega
        rw [e, List.map_append, List.getElem?_append_right (by simp)]
        simp [lastInfo])
  -- the tail sentinel of the top level
  obtain ⟨tt, htt1, htt2, htt3⟩ : ∃ tt : Node α, nodes[topTail]? = some tt ∧
      tt.key = ⟨.PosInf, default⟩ ∧ topTail ≠ hi := by
    cases pend with
    | nil =>
      simp only [List.nil_append, List.map_cons, List.getElem?_cons_zero, lastInfo,
        List.getLast?_cons_cons, List.getLast?_singleton, Option.map_some', Option.some.injEq,
        Prod.mk.injEq] at htt
      rw [← htt.1]
      exact ⟨_, htl, rfl, hti⟩
    | cons r0 pend' =>
      obtain ⟨hi', ti', hb', tb', rfl⟩ := hpend r0 (by simp)
      simp only [List.cons_append, List.map_cons, List.getElem?_cons_zero, lastInfo,
        List.getLast?_cons_cons, List.getLast?_singleton, Option.map_some', Option.some.injEq,
        Prod.mk.injEq] at htt
      rw [← htt.1]
      refine ⟨_, hlaid.agrees
        [(hi', (⟨⟨.NegInf, default⟩, hb', none⟩ : Node α)), (ti', ⟨⟨.PosInf, default⟩, tb', none⟩)]
        (by simp) (ti', (⟨⟨.PosInf, default⟩, tb', none⟩ : Node α)) (by simp), rfl, ?_⟩
      exact index_ne_of_nodup (_ :: pend') done []
        [(ti, (⟨⟨.PosInf, default⟩, tb0, none⟩ : Node α))]
        (hi, (⟨⟨.NegInf, default⟩, hb0, none⟩ : Node α)) hnd
        (ti', (⟨⟨.PosInf, default⟩, tb', none⟩ : Node α)) (Or.inl (by simp))
  have hfirst : s.nodes[first.1]? = some first.2 := hsag first (by simp)
  have hnext : first.2.right = ((smids ++ [st]).head?.map Prod.fst) := by
    cases hms : smids ++ [st] with
    | nil => simp at hms
    | cons b rest' =>
      rw [hms] at hschain
      simpa using (List.chain'_cons.mp hschain).1.1
  obtain ⟨nodes', mids', nxt, h1, h2, h3, h4, h5, h6, h7, h8, h9⟩ :=
    copyRow_spec s.nodes topTail ti ⟨⟨.PosInf, default⟩, tb0, none⟩ ⟨.PosInf, default⟩ st
      (by rw [htk]; exact key_eq_self _) tt htt2 smids
      (fun p hp => hsag p (List.mem_cons_of_mem _ hp))
      (chain_rightTo_of_link _ hschain.tail)
      (fun m hm => by
        have := hmk m hm
        simp [SkipListKey.eq, this])
      s.nodes.length
      (by simp only [List.length_cons, List.length_append, List.length_nil] at hslen; omega)
      hi _ nodes hcur htt1 htt3
  have hkeys : keysOf ((hi, (⟨⟨.NegInf, default⟩, hb0, none⟩ : Node α).setRight (some nxt)) ::
      (mids' ++ [(ti, (⟨⟨.PosInf, default⟩, tb0, none⟩ : Node α))])) =
      keysOf (first :: (smids ++ [st])) := by
    simp only [keysOf, List.map_cons, List.map_append, List.map_nil, Node.setRight] at h5 ⊢
    rw [h5, hhk, htk]
  have hother : ∀ ρ, (ρ ∈ pend ∨ ρ ∈ done) → Agrees nodes' ρ := by
    intro ρ hρ p hp
    have hρmem : ρ ∈ pend ++ [(hi, (⟨⟨.NegInf, default⟩, hb0, none⟩ : Node α)),
        (ti, ⟨⟨.PosInf, default⟩, tb0, none⟩)] :: done := by
      rcases hρ with h | h
      · exact List.mem_append_left _ h
      · exact List.mem_append_right _ (List.mem_cons_of_mem _ h)
    have hag := hlaid.agrees ρ hρmem
    rw [h3 p.1 (agrees_lt nodes ρ hag p hp)
      (index_ne_of_nodup pend done [] [(ti, (⟨⟨.PosInf, default⟩, tb0, none⟩ : Node α))]
        (hi, (⟨⟨.NegInf, default⟩, hb0, none⟩ : Node α)) hnd p (by
        rcases hρ with h | h
        · exact Or.inl (List.mem_flatten.mpr ⟨ρ, h, hp⟩)
        · exact Or.inr (Or.inr (Or.inr (List.mem_flatten.mpr ⟨ρ, h, hp⟩)))))]
    exact hag p hp
  have hidx : ∀ i ∈ (pend ++ [(hi, (⟨⟨.NegInf, default⟩, hb0, none⟩ : Node α)),
      (ti, ⟨⟨.PosInf, default⟩, tb0, none⟩)] :: done).flatten.map Prod.fst,
      i < nodes.length := fun i hi' => stored_index_lt nodes _ hlaid.agrees i hi'
  refine ⟨nodes', (hi, (⟨⟨.NegInf, default⟩, hb0, none⟩ : Node α).setRight (some nxt)) ::
    (mids' ++ [(ti, ⟨⟨.PosInf, default⟩, tb0, none⟩)]), ?_, ⟨?_, ?_, ?_⟩, ⟨?_, ?_, ?_⟩, ?_,
    ?_, ?_, ?_⟩
  · simp only [copyLevel, hgo, hgoH, hgoT, hfirst, hnext]
    exact h1
  · intro ρ hρ
    rcases List.mem_append.mp hρ with h | h
    · exact hother ρ (Or.inl h)
    · rcases List.mem_cons.mp h with rfl | h'
      · intro p hp
        rcases List.mem_cons.mp hp with rfl | hp'
        · exact h4
        · rcases List.mem_append.mp hp' with hp'' | hp''
          · exact h8 p hp''
          · simp only [List.mem_singleton] at hp''
            subst hp''
            rw [h3 ti (List.getElem?_eq_some_iff.mp htl).1 hti]
            exact htl
      · exact hother ρ (Or.inr h')
  · have hperm : ((pend ++ ((hi, (⟨⟨.NegInf, default⟩, hb0, none⟩ : Node α).setRight
          (some nxt)) :: (mids' ++ [(ti, ⟨⟨.PosInf, default⟩, tb0, none⟩)])) ::
          done).flatten.map Prod.fst).Perm
        (mids'.map Prod.fst ++ ((pend ++ [(hi, (⟨⟨.NegInf, default⟩, hb0, none⟩ : Node α)),
          (ti, ⟨⟨.PosInf, default⟩, tb0, none⟩)] :: done).flatten.map Prod.fst)) := by
      rw [List.perm_iff_count]
      intro a
      simp only [List.flatten_append, List.flatten_cons, List.map_append, List.map_cons,
        List.map_nil, List.count_append, List.count_cons, List.count_nil, List.cons_append,
        List.nil_append]
      omega
    rw [hperm.nodup_iff, List.nodup_append]
    refine ⟨?_, hnd, ?_⟩
    · rw [h6]; exact List.nodup_range' _ _
    · intro a ha
      rw [h6, List.mem_range'_1] at ha
      intro hb
      have := hidx a hb
      omega
  · have := hlaid.count
    simp only [List.flatten_append, List.flatten_cons, List.length_append, List.length_cons,
      List.length_nil] at this ⊢
    have hl5 : mids'.length = smids.length := by
      have := congrArg List.length h6
      simpa using this
    rw [h2, hl5]
    omega
  · refine chain_link_of _ h9 ?_
    rw [hkeys]
    exact chain_keys_of_link _ hschain
  · exact ⟨_, rfl, rfl⟩
  · refine ⟨(ti, ⟨⟨.PosInf, default⟩, tb0, none⟩), ?_, rfl, rfl⟩
    rw [← List.cons_append, List.getLast?_append_of_ne_nil _ (by simp)]
    rfl
  · rw [hkeys, hshape]
  · simp [headInfo, Node.setRight]
  · simp only [lastInfo]
    rw [← List.cons_append, List.getLast?_append_of_ne_nil _ (by simp)]
    rfl
  · intro hbare p hp
    rcases List.mem_cons.mp hp with rfl | hp'
    · exact hbare (hi, (⟨⟨.NegInf, default⟩, hb0, none⟩ : Node α)) (by simp)
    · rcases List.mem_append.mp hp' with hp'' | hp''
      · exact h7 p hp''
      · simp only [List.mem_singleton] at hp''
        subst hp''
        exact hbare (ti, (⟨⟨.PosInf, default⟩, tb0, none⟩ : Node α)) (by simp)

end SkipListSet

namespace SkipListSet
variable {α : Type} [LinearOrder α] [Inhabited α]

open SkipListKey

/-- One round of the loop that sets the `bottom` fields: the nodes of the level `U` get the
indices of the nodes with their keys on the level `B` below it. -/
theorem linkLevel_spec (lv topHead : Nat) (nodes : List (Node α)) (up down : List (Row α))
    (U B : Row α) (hlen : up.length + down.length + 1 = lv)
    (hlaid : Laid nodes (up ++ U :: B :: down)) (hU : RowOK U) (hB : RowOK B)
    (hsub : ∀ k ∈ keysOf U, k ∈ keysOf B)
    (hH : ((up ++ U :: B :: down).map headInfo).Chain' DownLink)
    (hT : ((up ++ U :: B :: down).map lastInfo).Chain' DownLink)
    (hb : Option Nat)
    (hth : ((up ++ U :: B :: down).map headInfo)[0]? = some (some (topHead, hb))) :
    ∃ nodes' U', linkLevel lv topHead nodes down.length = some nodes' ∧
      Laid nodes' (up ++ U' :: B :: down) ∧ RowOK U' ∧ keysOf U' = keysOf U ∧
      Bottoms U' (some B) ∧ headInfo U' = headInfo U ∧ lastInfo U' = lastInfo U := by
  have hnd := hlaid.nodup
  have hUmem : U ∈ up ++ U :: B :: down := by simp
  have hBmem : B ∈ up ++ U :: B :: down := by simp
  have hUag := hlaid.agrees U hUmem
  have hBag := hlaid.agrees B hBmem
  have hUlen := length_le_flatten _ U hUmem
  have hBlen := length_le_flatten _ B hBmem
  rw [hlaid.count] at hUlen hBlen
  have hUB : (U.map Prod.fst ++ (B.map Prod.fst ++ down.flatten.map Prod.fst)).Nodup := by
    simp only [List.flatten_append, List.flatten_cons, List.map_append] at hnd
    exact (List.nodup_append.mp hnd).2.1
  have hUB' : (U.map Prod.fst ++ B.map Prod.fst).Nodup := by
    rw [← List.append_assoc] at hUB
    exact (List.nodup_append.mp hUB).1
  obtain ⟨hchainU, ⟨uh, huh, huhk⟩, ⟨ut, hut, hutk, hutr⟩⟩ := hU
  obtain ⟨hchainB, ⟨bh, hbh, hbhk⟩, ⟨bt, hbt, hbtk, hbtr⟩⟩ := hB
  have hU : RowOK U := ⟨hchainU, ⟨uh, huh, huhk⟩, ⟨ut, hut, hutk, hutr⟩⟩
  have hB : RowOK B := ⟨hchainB, ⟨bh, hbh, hbhk⟩, ⟨bt, hbt, hbtk, hbtr⟩⟩
  -- the sentinels of `U` have those of `B` as their `bottom`
  have hHU : uh.2.bottom = some bh.1 := by
    simp only [List.map_append, List.map_cons] at hH
    obtain ⟨i, j, jb, e1, e2⟩ := (List.chain'_cons.mp hH.right_of_append).1
    simp only [headInfo, huh, hbh, Option.map_some', Option.some.injEq, Prod.mk.injEq] at e1 e2
    rw [e1.2, e2.1]
  have hTU : ut.2.bottom = some bt.1 := by
    simp only [List.map_append, List.map_cons] at hT
    obtain ⟨i, j, jb, e1, e2⟩ := (List.chain'_cons.mp hT.right_of_append).1
    simp only [lastInfo, hut, hbt, Option.map_some', Option.some.injEq, Prod.mk.injEq] at e1 e2
    rw [e1.2, e2.1]
  have hgo : goDown nodes (lv - down.length - 1) (some topHead) = some (some uh.1) :=
    goDown_infos nodes _ _ hH (headInfo_agrees nodes _ hlaid.agrees) topHead uh.1 hb
      uh.2.bottom hth
      (by
        have e : lv - down.length - 1 = up.length := by omega
        rw [e, List.map_append, List.getElem?_append_right (by simp)]
        simp [headInfo, huh])
  have huh' : nodes[uh.1]? = some uh.2 := hUag uh (List.mem_of_mem_head? huh)
  obtain ⟨nodes', U', h1, h2, h3, h4, h5, h6⟩ := linkBottoms_spec U B nodes nodes.length
    hUlen hBlen hUag hBag (chain_rightTo_of_link U hchainU) (chain_rightTo_of_link B hchainB)
    (fun t ht => by rw [hut] at ht; cases ht; exact hutr)
    (List.nodup_append.mp hUB').1
    (fun p hp q hq he => (List.nodup_append.mp hUB').2.2 (List.mem_map_of_mem _ hp)
      (by rw [he]; exact List.mem_map_of_mem _ hq))
    (row_pairwise U hU) (row_pairwise B hB)
    (fun u hu => by
      have := hsub u.2.key (List.mem_map_of_mem _ hu)
      obtain ⟨q, hq, hqk⟩ := List.mem_map.mp this
      exact ⟨q, hq, hqk⟩)
  obtain ⟨p, hp, hp1⟩ := same_head U' U h4 uh huh
  obtain ⟨q, hq, hq1⟩ := same_last U' U h4 ut hut
  have hother : ∀ ρ, (ρ ∈ up ∨ ρ ∈ B :: down) → Agrees nodes' ρ := by
    intro ρ hρ x hx
    have hρmem : ρ ∈ up ++ U :: B :: down := by
      rcases hρ with h | h
      · exact List.mem_append_left _ h
      · exact List.mem_append_right _ (List.mem_cons_of_mem _ h)
    rw [h3 x.1]
    · exact hlaid.agrees ρ hρmem x hx
    · intro hmem
      obtain ⟨c, hc, hce⟩ := List.mem_map.mp hmem
      obtain ⟨pre, post, rfl⟩ := List.append_of_mem hc
      refine index_ne_of_nodup up (B :: down) pre post c hnd x ?_ hce.symm
      rcases hρ with h | h
      · exact Or.inl (List.mem_flatten.mpr ⟨ρ, h, hx⟩)
      · exact Or.inr (Or.inr (Or.inr (List.mem_flatten.mpr ⟨ρ, h, hx⟩)))
  refine ⟨nodes', U', ?_, ⟨?_, ?_, ?_⟩, same_rowOK U' U h4 hU, same_keysOf U' U h4, h6,
    ?_, ?_⟩
  · simp only [linkLevel, hgo, huh', hHU]
    have e1 : U.head?.map Prod.fst = some uh.1 := by rw [huh]; rfl
    have e2 : B.head?.map Prod.fst = some bh.1 := by rw [hbh]; rfl
    rw [e1, e2] at h1
    exact h1
  · intro ρ hρ
    rcases List.mem_append.mp hρ with h | h
    · exact hother ρ (Or.inl h)
    · rcases List.mem_cons.mp h with rfl | h'
      · exact h5
      · exact hother ρ (Or.inr h')
  · simp only [List.flatten_append, List.flatten_cons, List.map_append] at hnd ⊢
    rw [same_map_fst U' U h4]
    exact hnd
  · have := hlaid.count
    simp only [List.flatten_append, List.flatten_cons, List.length_append] at this ⊢
    rw [h4.length_eq, h2]
    exact this
  · obtain ⟨x, hx, hxb, hxk⟩ := h6 p (List.mem_of_mem_head? hp)
    have : x = bh := eq_head_of_key B hB bh x hbh hx (by rw [hxk, hp1.2.1, huhk, hbhk])
    subst this
    simp only [headInfo, hp, huh, Option.map_some', hp1.1, hxb, hHU]
  · obtain ⟨x, hx, hxb, hxk⟩ := h6 q (List.mem_of_mem_getLast? hq)
    have : x = bt := eq_last_of_key B hB bt x hbt hx (by rw [hxk, hq1.2.1, hutk, hbtk])
    subst this
    simp only [lastInfo, hq, hut, Option.map_some', hq1.1, hxb, hTU]

end SkipListSet

namespace SkipListSet
variable {α : Type} [LinearOrder α] [Inhabited α]

open SkipListKey

omit [LinearOrder α] [Inhabited α] in
theorem foldlM_range_succ {β : Type} (f : β → Nat → Option β) (init : β) (m : Nat) :
    (List.range (m + 1)).foldlM f init = ((List.range m).foldlM f init).bind fun b => f b m := by
  rw [List.range_succ, List.foldlM_append]
  cases (List.range m).foldlM f init with
  | none => rfl
  | some b =>
    simp only [Option.bind_eq_bind, Option.some_bind, List.foldlM_cons, List.foldlM_nil]
    cases f b m <;> rfl

omit [LinearOrder α] [Inhabited α] in
theorem baseOf_eq_levelRow (rows : List (Row α)) : baseOf rows = levelRow rows 0 := by
  rw [baseOf, levelRow, ← List.head?_eq_getElem?, List.head?_reverse]

/-- The loop that copies the levels, after `m` rounds: the lowest `m` levels are well-formed
and hold the keys of the levels of the source, the levels above are pairs of sentinels. -/
theorem copyLevels_spec (s : SkipListSet α) (srows : List (Row α)) (hinv : Inv s srows)
    (topHead topTail : Nat) (hb tb : Option Nat) (nodes0 : List (Node α))
    (rows0 : List (Row α)) (hlen0 : rows0.length = s.lv + 1) (hlaid0 : Laid nodes0 rows0)
    (hpair0 : ∀ r ∈ rows0, IsPair ⟨.NegInf, default⟩ ⟨.PosInf, default⟩ r)
    (hH : (rows0.map headInfo).Chain' DownLink) (hT : (rows0.map lastInfo).Chain' DownLink)
    (hth : (rows0.map headInfo)[0]? = some (some (topHead, hb)))
    (htt : (rows0.map lastInfo)[0]? = some (some (topTail, tb)))
    (hbare0 : ∀ p ∈ baseOf rows0, p.2.bottom = none) (m : Nat) (hm : m ≤ s.lv + 1) :
    ∃ nodes pend done, (List.range m).foldlM (copyLevel s topHead topTail) nodes0 = some nodes ∧
      pend.length + m = s.lv + 1 ∧ done.length = m ∧ Laid nodes (pend ++ done) ∧
      (∀ r ∈ pend, IsPair ⟨.NegInf, default⟩ ⟨.PosInf, default⟩ r) ∧ (∀ r ∈ done, RowOK r) ∧
      (pend ++ done).map headInfo = rows0.map headInfo ∧
      (pend ++ done).map lastInfo = rows0.map lastInfo ∧
      (∀ j, j < m → keysOf (levelRow (pend ++ done) j) = keysOf (levelRow srows j)) ∧
      ∀ p ∈ baseOf (pend ++ done), p.2.bottom = none := by
  induction m with
  | zero =>
    exact ⟨nodes0, rows0, [], rfl, by simpa using hlen0, rfl, by simpa using hlaid0,
      hpair0, by simp, by simp, by simp, by simp, by simpa using hbare0⟩
  | succ m ih =>
    obtain ⟨nodes, pend, done, h1, h2, h3, h4, h5, h6, h7, h8, h9, h10⟩ := ih (by omega)
    obtain ⟨pend', r, rfl⟩ : ∃ pend' r, pend = pend' ++ [r] := by
      rcases List.eq_nil_or_concat pend with h0 | ⟨L, b, h0⟩
      · rw [h0] at h2; simp at h2; omega
      · exact ⟨L, b, by rw [h0, List.concat_eq_append]⟩
    have e : pend' ++ [r] ++ done = pend' ++ r :: done := by simp
    rw [e] at h4 h7 h8 h9 h10
    simp only [List.length_append, List.length_cons, List.length_nil] at h2
    obtain ⟨nodes', r', g1, g2, g3, g4, g5, g6, g7⟩ := copyLevel_spec s srows hinv topHead
      topTail nodes pend' done r (by omega) h4 (fun x hx => h5 x (by simp [hx]))
      (h5 r (by simp)) (by rw [h7]; exact hH) (by rw [h8]; exact hT) hb tb
      (by rw [h7]; exact hth) (by rw [h8]; exact htt)
    refine ⟨nodes', pend', r' :: done, ?_, by omega, by simp [h3], g2,
      fun x hx => h5 x (by simp [hx]), ?_, ?_, ?_, ?_, ?_⟩
    · rw [foldlM_range_succ, h1, Option.some_bind, ← h3]
      exact g1
    · intro x hx
      rcases List.mem_cons.mp hx with rfl | hx'
      · exact g3
      · exact h6 x hx'
    · rw [← h7]
      simp only [List.map_append, List.map_cons, g5]
    · rw [← h8]
      simp only [List.map_append, List.map_cons, g6]
    · intro j hj
      rw [levelRow_replace pend' done r r' j]
      by_cases hjm : j = done.length
      · rw [if_pos hjm, g4, hjm]
      · rw [if_neg hjm]
        exact h9 j (by omega)
    · cases done with
      | nil =>
        rw [baseOf_append_cons] at h10 ⊢
        simp only [baseOf, List.getLast?_singleton, Option.getD_some] at h10 ⊢
        exact g7 h10
      | cons d done' =>
        rw [baseOf_append_cons, baseOf_cons_cons] at h10 ⊢
        exact h10

/-- The loop that sets the `bottom` fields, after `m` rounds: the lowest `m + 1` levels are
a well-formed tower. -/
theorem linkLevels_spec (lv topHead : Nat) (hb : Option Nat) (nodes0 : List (Node α))
    (rows0 : List (Row α)) (hlen0 : rows0.length = lv + 1) (hlaid0 : Laid nodes0 rows0)
    (hrow0 : ∀ r ∈ rows0, RowOK r)
    (hH : (rows0.map headInfo).Chain' DownLink) (hT : (rows0.map lastInfo).Chain' DownLink)
    (hth : (rows0.map headInfo)[0]? = some (some (topHead, hb)))
    (hbare0 : ∀ p ∈ baseOf rows0, p.2.bottom = none)
    (hsub0 : ∀ j, j < lv →
      ∀ k ∈ keysOf (levelRow rows0 (j + 1)), k ∈ keysOf (levelRow rows0 j))
    (m : Nat) (hm : m ≤ lv) :
    ∃ nodes up down, (List.range m).foldlM (linkLevel lv topHead) nodes0 = some nodes ∧
      up.length + m = lv ∧ down.length = m + 1 ∧ Laid nodes (up ++ down) ∧
      (∀ r ∈ up, RowOK r) ∧ TowerOK down ∧
      (up ++ down).map headInfo = rows0.map headInfo ∧
      (up ++ down).map lastInfo = rows0.map lastInfo ∧
      ∀ j, keysOf (levelRow (up ++ down) j) = keysOf (levelRow rows0 j) := by
  induction m with
  | zero =>
    have hne : rows0 ≠ [] := by intro h; rw [h] at hlen0; simp at hlen0
    have hsplit := rows_eq_dropLast_append rows0 hne
    have hbmem : baseOf rows0 ∈ rows0 := by
      have : baseOf rows0 ∈ rows0.dropLast ++ [baseOf rows0] := by simp
      rwa [← hsplit] at this
    refine ⟨nodes0, rows0.dropLast, [baseOf rows0], rfl, ?_, rfl, by rw [← hsplit]; exact hlaid0,
      fun r hr => hrow0 r (List.mem_of_mem_dropLast hr),
      ⟨hrow0 _ hbmem, hbare0, trivial⟩, by rw [← hsplit], by rw [← hsplit],
      fun j => by rw [← hsplit]⟩
    simp only [List.length_dropLast, hlen0]
    omega
  | succ m ih =>
    obtain ⟨nodes, up, down, h1, h2, h3, h4, h5, h6, h7, h8, h9⟩ := ih (by omega)
    obtain ⟨up', U, rfl⟩ : ∃ up' U, up = up' ++ [U] := by
      rcases List.eq_nil_or_concat up with h0 | ⟨L, b, h0⟩
      · rw [h0] at h2; simp at h2; omega
      · exact ⟨L, b, by rw [h0, List.concat_eq_append]⟩
    obtain ⟨B, down', rfl⟩ : ∃ B down', down = B :: down' := by
      cases down with
      | nil => simp at h3
      | cons B down' => exact ⟨B, down', rfl⟩
    have e : up' ++ [U] ++ B :: down' = up' ++ U :: B :: down' := by simp
    rw [e] at h4 h7 h8 h9
    simp only [List.length_append, List.length_cons, List.length_nil] at h2 h3
    have hUrow : levelRow (up' ++ U :: B :: down') (m + 1) = U := by
      have := levelRow_replace_self up' (B :: down') U
      simp only [List.length_cons] at this
      rw [show down'.length + 1 = m + 1 by omega] at this
      exact this
    have hBrow : levelRow (up' ++ U :: B :: down') m = B := by
      have := levelRow_replace_self (up' ++ [U]) down' B
      rw [e, show down'.length = m by omega] at this
      exact this
    obtain ⟨nodes', U', g1, g2, g3, g4, g5, g6, g7⟩ := linkLevel_spec lv topHead nodes up'
      down' U B (by omega) h4 (h5 U (by simp)) h6.1
      (by
        intro k hk
        have := hsub0 m (by omega) k (by rw [← h9, hUrow]; exact hk)
        rw [← h9, hBrow] at this
        exact this)
      (by rw [h7]; exact hH) (by rw [h8]; exact hT) hb (by rw [h7]; exact hth)
    refine ⟨nodes', up', U' :: B :: down', ?_, by omega, by simp; omega, g2,
      fun x hx => h5 x (by simp [hx]), ⟨g3, g5, h6⟩, ?_, ?_, ?_⟩
    · rw [foldlM_range_succ, h1, Option.some_bind, show m = down'.length by omega]
      exact g1
    · rw [← h7]
      simp only [List.map_append, List.map_cons, g6]
    · rw [← h8]
      simp only [List.map_append, List.map_cons, g7]
    · intro j
      rw [← h9, levelRow_replace up' (B :: down') U U' j]
      by_cases hjm : j = (B :: down').length
      · rw [if_pos hjm, g4, hjm, levelRow_replace_self]
      · rw [if_neg hjm]

end SkipListSet

namespace SkipListSet
variable {α : Type} [LinearOrder α] [Inhabited α]

open SkipListKey

omit [LinearOrder α] [Inhabited α] in
theorem corner_head (rows : List (Row α)) (i : Nat) (b : Option Nat)
    (h : (rows.map headInfo)[0]? = some (some (i, b))) :
    (rows.head?.bind List.head?).map Prod.fst = some i := by
  cases rows with
  | nil => simp at h
  | cons r rest =>
    simp only [List.map_cons, List.getElem?_cons_zero, Option.some.injEq, headInfo] at h
    cases hr : r.head? with
    | none => simp [hr] at h
    | some p =>
      simp only [hr, Option.map_some', Option.some.injEq, Prod.mk.injEq] at h
      simp [hr, h.1]

omit [LinearOrder α] [Inhabited α] in
theorem corner_last (rows : List (Row α)) (i : Nat) (b : Option Nat)
    (h : (rows.map lastInfo)[0]? = some (some (i, b))) :
    (rows.head?.bind List.getLast?).map Prod.fst = some i := by
  cases rows with
  | nil => simp at h
  | cons r rest =>
    simp only [List.map_cons, List.getElem?_cons_zero, Option.some.injEq, lastInfo] at h
    cases hr : r.getLast? with
    | none => simp [hr] at h
    | some p =>
      simp only [hr, Option.map_some', Option.some.injEq, Prod.mk.injEq] at h
      simp [hr, h.1]

omit [LinearOrder α] [Inhabited α] in
theorem corner_base_head (rows : List (Row α)) (i : Nat) (b : Option Nat)
    (h : (rows.map headInfo).getLast? = some (some (i, b))) :
    (rows.getLast?.bind List.head?).map Prod.fst = some i := by
  rw [List.getLast?_map] at h
  cases hl : rows.getLast? with
  | none => simp [hl] at h
  | some r =>
    simp only [hl, Option.map_some', Option.some.injEq, headInfo] at h
    cases hr : r.head? with
    | none => simp [hr] at h
    | some p =>
      simp only [hr, Option.map_some', Option.some.injEq, Prod.mk.injEq] at h
      simp [hr, h.1]

omit [LinearOrder α] [Inhabited α] in
theorem corner_base_last (rows : List (Row α)) (i : Nat) (b : Option Nat)
    (h : (rows.map lastInfo).getLast? = some (some (i, b))) :
    (rows.getLast?.bind List.getLast?).map Prod.fst = some i := by
  rw [List.getLast?_map] at h
  cases hl : rows.getLast? with
  | none => simp [hl] at h
  | some r =>
    simp only [hl, Option.map_some', Option.some.injEq, lastInfo] at h
    cases hr : r.getLast? with
    | none => simp [hr] at h
    | some p =>
      simp only [hr, Option.map_some', Option.some.injEq, Prod.mk.injEq] at h
      simp [hr, h.1]

/-- The copy constructor on a set that satisfies `Inv`: it returns, the copy satisfies `Inv`
with levels that hold the keys of the levels of the source, and has its `sz` and `lv`. -/
theorem skip_copy_spec (s : SkipListSet α) (srows : List (Row α)) (hinv : Inv s srows)
    (clone : List Bool) :
    ∃ c rows', s.copy clone = some c ∧ Inv c rows' ∧ c.sz = s.sz ∧ c.lv = s.lv ∧
      c.levelTester = clone ∧
      ∀ j, keysOf (levelRow rows' j) = keysOf (levelRow srows j) := by
  -- the sentinels of the lowest level of the source
  have hne : srows ≠ [] := by intro h; have := hinv.levels; rw [h] at this; simp at this
  have hsplit := rows_eq_dropLast_append srows hne
  have hlastrow : srows.getLast? = some (baseOf srows) := by
    have : (srows.dropLast ++ [baseOf srows]).getLast? = some (baseOf srows) := by simp
    rwa [← hsplit] at this
  have hbmem : baseOf srows ∈ srows := List.mem_of_mem_getLast? hlastrow
  obtain ⟨_, ⟨h0, hh0, hhk⟩, ⟨t0, ht0, htk, _⟩⟩ := towerOK_mem srows hinv.stored.tower _ hbmem
  have hag := hinv.stored.agrees _ hbmem
  have hhead : s.head = some h0.1 := by
    rw [hinv.head, hlastrow]; simp [hh0]
  have htail : s.tail = some t0.1 := by
    rw [hinv.tail, hlastrow]; simp [ht0]
  have hhn : s.nodes[h0.1]? = some h0.2 := hag h0 (List.mem_of_mem_head? hh0)
  have htn : s.nodes[t0.1]? = some t0.2 := hag t0 (List.mem_of_mem_getLast? ht0)
  -- the sentinels of the copy
  obtain ⟨rows1, hb1, tb1, above, p1, p2, p3, p4, p5, p6, p7, p8⟩ :=
    copySentinels_spec (⟨.NegInf, default⟩ : SkipListKey α) ⟨.PosInf, default⟩ s.lv 0 1
      [(⟨⟨.NegInf, default⟩, none, none⟩ : Node α), ⟨⟨.PosInf, default⟩, none, none⟩]
      [[(0, (⟨⟨.NegInf, default⟩, none, none⟩ : Node α)),
        (1, ⟨⟨.PosInf, default⟩, none, none⟩)]] none none
      ⟨(by
          intro r hr p hp
          simp only [List.mem_singleton] at hr
          subst hr
          simp only [List.mem_cons, List.mem_singleton, List.not_mem_nil, or_false] at hp
          rcases hp with rfl | rfl <;> rfl),
        (by simp), (by simp)⟩
      (by
        intro r hr
        simp only [List.mem_singleton] at hr
        subst hr
        exact ⟨_, _, _, _, rfl⟩)
      (by simp) (by simp) (by simp [headInfo]) (by simp [lastInfo])
  have hlen1 : rows1.length = s.lv + 1 := by rw [p7]; simp [p8]
  have hbase1 : baseOf rows1 = [(0, (⟨⟨.NegInf, default⟩, none, none⟩ : Node α)),
      (1, ⟨⟨.PosInf, default⟩, none, none⟩)] := by
    rw [p7, baseOf_append_cons]; rfl
  -- the levels
  obtain ⟨nodes2, pend, rows2, q1, q2, q3, q4, q5, q6, q7, q8, q9, q10⟩ :=
    copyLevels_spec s srows hinv _ _ hb1 tb1 _ rows1 hlen1 p1 p2 p3 p4 p5 p6
      (by
        rw [hbase1]
        intro p hp
        simp only [List.mem_cons, List.mem_singleton, List.not_mem_nil, or_false] at hp
        rcases hp with rfl | rfl <;> rfl)
      (s.lv + 1) (le_refl _)
  have hpend : pend = [] := List.length_eq_zero.mp (by omega)
  subst hpend
  simp only [List.nil_append] at q4 q7 q8 q9 q10
  -- the `bottom` fields
  obtain ⟨nodes3, up, rows3, r1, r2, r3, r4, r5, r6, r7, r8, r9⟩ :=
    linkLevels_spec s.lv _ hb1 nodes2 rows2 q3 q4 q6 (by rw [q7]; exact p3)
      (by rw [q8]; exact p4) (by rw [q7]; exact p5) q10
      (by
        intro j hj k hk
        rw [q9 (j + 1) (by omega)] at hk
        rw [q9 j (by omega)]
        obtain ⟨p, hp, hpk⟩ := List.mem_map.mp hk
        have := bottoms_levelRow s srows hinv (j + 1) (by omega) (by omega)
        obtain ⟨q, hq, _, hqk⟩ := this p hp
        rw [← hpk, ← hqk]
        exact List.mem_map_of_mem _ hq)
      s.lv (le_refl _)
  have hup : up = [] := List.length_eq_zero.mp (by omega)
  subst hup
  simp only [List.nil_append] at r4 r7 r8 r9
  have hH3 : rows3.map headInfo = rows1.map headInfo := by rw [r7, q7]
  have hT3 : rows3.map lastInfo = rows1.map lastInfo := by rw [r8, q8]
  refine ⟨(⟨clone, s.sz, s.lv, some 0, some 1,
      some (copySentinels (⟨.NegInf, default⟩ : SkipListKey α) ⟨.PosInf, default⟩ s.lv 0 1
        [(⟨⟨.NegInf, default⟩, none, none⟩ : Node α), ⟨⟨.PosInf, default⟩, none, none⟩]).1,
      some (copySentinels (⟨.NegInf, default⟩ : SkipListKey α) ⟨.PosInf, default⟩ s.lv 0 1
        [(⟨⟨.NegInf, default⟩, none, none⟩ : Node α), ⟨⟨.PosInf, default⟩, none, none⟩]).2.1,
      nodes3⟩ : SkipListSet α), rows3, ?_,
    ⟨⟨r6, r4.agrees, r4.nodup, r4.count⟩, r3, ?_, ?_, ?_, ?_⟩, rfl, rfl, rfl, ?_⟩
  · simp only [copy, hhead, hhn, htail, htn, hhk, htk, q1, r1]
  · exact (corner_head rows3 _ hb1 (by rw [hH3]; exact p5)).symm
  · exact (corner_last rows3 _ tb1 (by rw [hT3]; exact p6)).symm
  · refine (corner_base_head rows3 0 none ?_).symm
    rw [hH3, p7]
    simp [headInfo]
  · refine (corner_base_last rows3 1 none ?_).symm
    rw [hT3, p7]
    simp [lastInfo]
  · intro j
    rw [r9 j]
    by_cases hj : j < s.lv + 1
    · exact q9 j hj
    · rw [levelRow_of_lt rows2 j (by omega),
        levelRow_of_lt srows j (by rw [hinv.levels]; omega)]

end SkipListSet

namespace SkipListSet
variable {α : Type} [LinearOrder α] [Inhabited α]

open SkipListKey

/-- `add(e)` for an element that is there: nothing but `sz` changes; the level tester is
not asked. -/
theorem skip_add_contained (set : SkipListSet α) (rows : List (Row α)) (hinv : Inv set rows)
    (e : α) (hmem : (⟨.Normal, e⟩ : SkipListKey α) ∈ keysOf (baseOf rows)) :
    set.add e = some ⟨set.levelTester, set.sz + 1, set.lv, set.head, set.tail, set.topHead,
      set.topTail, set.nodes⟩ := by
  obtain ⟨top, rest, h, trest, t, htop, hh, hhk, htH, _, _⟩ := inv_top set rows hinv
  have hcount := hinv.stored.count
  have hsearch := addSearch_spec ⟨.Normal, e⟩ rfl set.nodes set.nodes.length top rest []
    trest h (by rw [← htop]; exact hinv.stored.tower) (by rw [← htop]; exact hinv.stored.agrees)
    (by rw [hh]; rfl) (Or.inl (by rw [hhk]; simp [SkipListKey.lt]))
    (by
      rw [htop, hh] at hcount
      simp only [List.flatten_cons, List.length_append, List.length_cons] at hcount
      omega)
  rw [← htop] at hsearch
  rcases hsearch with ⟨r, pre, post, c, hr, hsplit, hck, hres⟩ | ⟨pre, post, c, b, hbase, hcs, hsb, hres⟩
  · have hrow := towerOK_mem rows hinv.stored.tower r hr
    have hag := hinv.stored.agrees r hr
    obtain ⟨d, post', hpost, hlink⟩ := row_next r pre post c hrow hsplit (by rw [hck]; simp)
    subst hpost
    have hc := agrees_at set.nodes r pre _ c hag hsplit
    have hd : set.nodes[d.1]? = some d.2 :=
      agrees_at set.nodes r (pre ++ [c]) post' d hag (by rw [hsplit]; simp)
    have hne : d.2.key.eq ⟨.Normal, e⟩ = false := by
      cases hq : d.2.key.eq ⟨.Normal, e⟩ with
      | false => rfl
      | true =>
        have h1 := (key_eq_iff _ _ rfl).mp hq
        have h2 := hlink.2
        rw [hck, h1, key_lt_irrefl] at h2
        cases h2
    simp only [add, htH, hres, hc, hlink.1, hd, hne]
    rfl
  · have hne : rows ≠ [] := by rw [htop]; simp
    have hnot : (⟨.Normal, e⟩ : SkipListKey α) ∉ keysOf (baseOf rows) :=
      not_mem_keysOf_between (baseOf rows) pre post c b _
        (towerOK_mem rows hinv.stored.tower _ (by
          have h1 : baseOf rows ∈ rows.dropLast ++ [baseOf rows] := by simp
          rwa [← rows_eq_dropLast_append rows hne] at h1)) hbase hcs hsb
    exact absurd hmem hnot

/-- The promotion loop uses up the yes answers and the first no. -/
theorem promote_tape (s : SkipListKey α) (answers : List Bool) (level c : Nat)
    (set set' : SkipListSet α) (h : promote s answers level c set = some set') :
    set'.levelTester = answers.drop (yesCount answers + 1) := by
  induction answers generalizing level c set with
  | nil =>
    simp only [promote, Option.some.injEq] at h
    subst h
    rfl
  | cons ans answers ih =>
    cases ans with
    | false =>
      simp only [promote, Option.some.injEq] at h
      subst h
      rfl
    | true =>
      rw [promote] at h
      simp only [yesCount, List.drop_succ_cons]
      split_ifs at h with hlv
      · exact ih _ _ _ h
      · cases hth : set.topHead with
        | none => simp [hth] at h
        | some top =>
          simp only [hth] at h
          cases hd : descendTo s set.nodes set.nodes.length top (set.lv - (level + 1)) with
          | none => simp [hd] at h
          | some temp =>
            simp only [hd] at h
            cases hsc : scanRight s set.nodes set.nodes.length temp with
            | none => simp [hsc] at h
            | some temp' =>
              simp only [hsc] at h
              cases hn : set.nodes[temp']? with
              | none => simp [hn] at h
              | some t =>
                simp only [hn] at h
                exact ih _ _ _ h

omit [LinearOrder α] [Inhabited α] in
theorem yesCount_allFalse (tape : List Bool) (h : ∀ b ∈ tape, b = false) : yesCount tape = 0 := by
  cases tape with
  | nil => rfl
  | cons b rest =>
    have := h b (by simp)
    subst this
    rfl

end SkipListSet

namespace SkipListSet
variable {α : Type} [LinearOrder α] [Inhabited α]

open SkipListKey

/-- The answers left to the level tester after an `add`: all of them, or those behind the
first no. -/
theorem add_tape (set set' : SkipListSet α) (e : α) (h : set.add e = some set') :
    set'.levelTester = set.levelTester ∨
      set'.levelTester = set.levelTester.drop (yesCount set.levelTester + 1) := by
  unfold add at h
  simp only at h
  split at h
  · cases h
  · split at h
    · cases h
    · split at h
      · cases h
      · split at h
        · cases h
        · split at h
          · cases h
          · split_ifs at h
            · cases hp : promote ⟨.Normal, e⟩ set.levelTester 0 _ _ with
              | none => rw [hp] at h; cases h
              | some p =>
                rw [hp] at h
                simp only [Option.map_some', Option.some.injEq] at h
                subst h
                exact Or.inr (promote_tape _ _ _ _ _ p hp)
            · simp only [Option.some.injEq] at h
              subst h
              exact Or.inl rfl

/-- With a level tester that always says no, the sets built by `add` calls have one level. -/
theorem skip_addAll_allFalse (xs : List α) (set : SkipListSet α) (rows : List (Row α))
    (hinv : Inv set rows) (hlv : set.lv = 0) (hall : ∀ b ∈ set.levelTester, b = false) :
    ∃ set' rows', set.addAll xs = some set' ∧ Inv set' rows' ∧ set'.lv = 0 ∧
      (∀ k, k ∈ keysOf (baseOf rows') ↔
        (∃ x ∈ xs, k = (⟨.Normal, x⟩ : SkipListKey α)) ∨ k ∈ keysOf (baseOf rows)) := by
  induction xs generalizing set rows with
  | nil => exact ⟨set, rows, rfl, hinv, hlv, by simp⟩
  | cons x xs ih =>
    obtain ⟨s1, rows1, h1, hinv1, hk1, _⟩ := skip_add_spec set rows hinv x
    have hlv1 : s1.lv = 0 := by
      by_cases hmem : (⟨.Normal, x⟩ : SkipListKey α) ∈ keysOf (baseOf rows)
      · have := skip_add_contained set rows hinv x hmem
        rw [h1] at this
        cases this
        exact hlv
      · obtain ⟨s2, _, h2, _, h3, _⟩ := skip_add_levels set rows hinv x hmem
        rw [h1] at h2
        cases h2
        rw [h3, hlv, yesCount_allFalse _ hall]
        rfl
    have hall1 : ∀ b ∈ s1.levelTester, b = false := by
      intro b hb
      rcases add_tape set s1 x h1 with h | h
      · rw [h] at hb; exact hall b hb
      · rw [h] at hb; exact hall b (List.mem_of_mem_drop hb)
    obtain ⟨s2, rows2, h2, hinv2, hlv2, hk2⟩ := ih s1 rows1 hinv1 hlv1 hall1
    refine ⟨s2, rows2, by simp [addAll, h1, h2], hinv2, hlv2, ?_⟩
    intro k
    rw [hk2, hk1]
    constructor
    · rintro (⟨y, hy, rfl⟩ | rfl | h)
      · exact Or.inl ⟨y, List.mem_cons_of_mem _ hy, rfl⟩
      · exact Or.inl ⟨x, List.mem_cons_self _ _, rfl⟩
      · exact Or.inr h
    · rintro (⟨y, hy, rfl⟩ | h)
      · rcases List.mem_cons.mp hy with rfl | hy'
        · exact Or.inr (Or.inl rfl)
        · exact Or.inl ⟨y, hy', rfl⟩
      · exact Or.inr (Or.inr h)

end SkipListSet

namespace SkipListSet
variable {α : Type} [LinearOrder α] [Inhabited α]

open SkipListKey

/-- The loop that deletes a level from one of its nodes on reads the rest of the level and
ends on the null `right` of the tail sentinel. -/
theorem deleteRight_spec (nodes : List (Node α)) (r : Row α) (hr : RowOK r)
    (hag : Agrees nodes r) (fuel : Nat) (pre post : Row α) (a : Nat × Node α)
    (hsplit : r = pre ++ a :: post) (hfuel : post.length + 1 ≤ fuel) :
    deleteRight nodes fuel a.1 = some () := by
  induction post generalizing pre a fuel with
  | nil =>
    cases fuel with
    | zero => simp at hfuel
    | succ fuel =>
      have hcur := agrees_at nodes r pre [] a hag hsplit
      rw [deleteRight]
      simp only [hcur, last_right r pre a hr hsplit]
  | cons b post ih =>
    cases fuel with
    | zero => simp at hfuel
    | succ fuel =>
      have hcur := agrees_at nodes r pre (b :: post) a hag hsplit
      have hlink : a.2.right = some b.1 := by
        have hchain := hr.1
        rw [hsplit] at hchain
        exact (List.chain'_cons.mp hchain.right_of_append).1.1
      rw [deleteRight]
      simp only [hcur, hlink]
      exact ih fuel (pre ++ [a]) b (by rw [hsplit]; simp)
        (by simp only [List.length_cons] at hfuel; omega)

/-- The loop that deletes the levels of a set that satisfies `Inv` dereferences no null
pointer. -/
theorem deleteLevels_spec (set : SkipListSet α) (rows : List (Row α)) (hinv : Inv set rows)
    (rounds i : Nat) (h : i + rounds ≤ set.lv + 1) : deleteLevels set rounds i = some () := by
  induction rounds generalizing i with
  | zero => rfl
  | succ rounds ih =>
    obtain ⟨hn, rest, hrow, hgo⟩ := goDown_level set rows hinv i (by omega)
    have hmem := levelRow_mem rows i (by rw [hinv.levels]; omega)
    have hle := length_le_flatten rows _ hmem
    rw [hinv.stored.count, hrow] at hle
    have hdel := deleteRight_spec set.nodes _ (towerOK_mem rows hinv.stored.tower _ hmem)
      (hinv.stored.agrees _ hmem) set.nodes.length [] rest hn (by rw [hrow]; rfl)
      (by simp only [List.length_cons] at hle; omega)
    rw [deleteLevels]
    simp only [hgo, hdel]
    exact ih (i + 1) (by omega)

end SkipListSet


/-! ### The claims about `SkipListSet` -/

/-- C10: after the elements of `xs` are added, in order, to a new `SkipListSet` whose level
tester gives the answers `levelTester` (and so lets every `add` return), every call returns
and `contains(e)` is true exactly when `e` occurs in `xs`. -/
theorem C10_skip_contains_iff_mem {α : Type} [LinearOrder α] [Inhabited α]
    (levelTester : List Bool) (xs : List α) (e : α) :
    ∃ s, (SkipListSet.new levelTester).addAll xs = some s ∧
      s.contains e = some (decide (e ∈ xs)) := by
  obtain ⟨s, rows, h1, hinv, hm, _⟩ :=
    SkipListSet.skip_addAll_spec xs (SkipListSet.new levelTester) _
      (SkipListSet.skip_inv_new levelTester)
  refine ⟨s, h1, ?_⟩
  rw [SkipListSet.skip_contains_spec s rows hinv e]
  congr 1
  rw [decide_eq_decide, hm]
  simp [SkipListSet.baseOf, SkipListSet.keysOf]

/-- C11: a new `SkipListSet` to which 1 is added twice.  After the first `add` it contains 1
and `size()` is 1; the second `add(1)` returns with 1 still contained, but `size()` is 2:
`sz++` (line 599) is run also when the element is found. -/
theorem C11_skip_add_contained_counts_again :
    ∃ s1 s2, (SkipListSet.new []).addAll [(1 : Nat)] = some s1 ∧ s1.contains 1 = some true ∧
      s1.size = 1 ∧ s1.add 1 = some s2 ∧ s2.contains 1 = some true ∧ s2.size = 2 :=
  ⟨_, _, rfl, rfl, rfl, rfl, rfl, rfl⟩

/-- C13: a new `SkipListSet` to which 1 is added twice has one element on level 0, while
`size()` is 2. -/
theorem C13_skip_level0_count_is_not_size :
    ∃ s, (SkipListSet.new []).addAll [(1 : Nat), 1] = some s ∧
      s.elementsOnLevel 0 = some 1 ∧ s.size = 2 :=
  ⟨_, rfl, rfl, rfl⟩

/-- C12: in a `SkipListSet` built by `add` calls, an element that `isElementOnLevel` finds on
a level `k` with `0 < k < levelCount()` is found on level `k - 1` too, and its node on level
`k` has in `bottom` the index of its node on level `k - 1`; the levels are read from memory
by `levelNodes`. -/
theorem C12_skip_level_containment {α : Type} [LinearOrder α] [Inhabited α]
    (levelTester : List Bool) (xs : List α) (k : Nat) (e : α) :
    ∃ s, (SkipListSet.new levelTester).addAll xs = some s ∧
      (0 < k → k < s.levelCount → s.isElementOnLevel e k = some true →
        s.isElementOnLevel e (k - 1) = some true ∧
        ∃ rk rk1 p q, s.levelNodes k = some rk ∧ s.levelNodes (k - 1) = some rk1 ∧
          p ∈ rk ∧ p.2.key = ⟨.Normal, e⟩ ∧ q ∈ rk1 ∧ q.2.key = ⟨.Normal, e⟩ ∧
          p.2.bottom = some q.1) := by
  obtain ⟨s, rows, h1, hinv, _, _⟩ := SkipListSet.skip_addAll_new levelTester xs
  refine ⟨s, h1, ?_⟩
  intro h0 hk hon
  rw [SkipListSet.levelCount] at hk
  rw [SkipListSet.isElementOnLevel_spec s rows hinv e k] at hon
  have hmem : (⟨.Normal, e⟩ : SkipListKey α) ∈
      SkipListSet.keysOf (SkipListSet.levelRow rows k) := by simpa using hon
  rw [SkipListSet.keysOf, List.mem_map] at hmem
  obtain ⟨p, hp, hpk⟩ := hmem
  obtain ⟨q, hq, hbot, hqk⟩ := SkipListSet.bottoms_levelRow s rows hinv k h0 (by omega) p hp
  refine ⟨?_, _, _, p, q, SkipListSet.levelNodes_spec s rows hinv k (by omega),
    SkipListSet.levelNodes_spec s rows hinv (k - 1) (by omega), hp, hpk, hq,
    by rw [hqk, hpk], hbot⟩
  rw [SkipListSet.isElementOnLevel_spec s rows hinv e (k - 1)]
  have : (⟨.Normal, e⟩ : SkipListKey α) ∈
      SkipListSet.keysOf (SkipListSet.levelRow rows (k - 1)) := by
    rw [SkipListSet.keysOf, List.mem_map]
    exact ⟨q, hq, by rw [hqk, hpk]⟩
  simp [this]

/-- C14: in a `SkipListSet` built by `add` calls, every level below `levelCount()`, read from
memory by following `right`, is a `NegInf` sentinel, then nodes with normal keys whose
elements ascend strictly, then a `PosInf` sentinel whose `right` is null. -/
theorem C14_skip_levels_sorted_between_sentinels {α : Type} [LinearOrder α] [Inhabited α]
    (levelTester : List Bool) (xs : List α) (level : Nat) :
    ∃ s, (SkipListSet.new levelTester).addAll xs = some s ∧
      (level < s.levelCount →
        ∃ first mids last, s.levelNodes level = some (first :: (mids ++ [last])) ∧
          first.2.key.kind = .NegInf ∧ last.2.key.kind = .PosInf ∧ last.2.right = none ∧
          (∀ m ∈ mids, m.2.key.kind = .Normal) ∧
          (mids.map fun m => m.2.key.element).Sorted (· < ·)) := by
  obtain ⟨s, rows, h1, hinv, _, _⟩ := SkipListSet.skip_addAll_new levelTester xs
  refine ⟨s, h1, ?_⟩
  intro hl
  rw [SkipListSet.levelCount] at hl
  have hmem := SkipListSet.levelRow_mem rows level (by rw [hinv.levels]; exact hl)
  obtain ⟨first, mids, last, hrow, hrest⟩ :=
    SkipListSet.row_shape _ (SkipListSet.towerOK_mem rows hinv.stored.tower _ hmem)
  refine ⟨first, mids, last, ?_, hrest⟩
  rw [SkipListSet.levelNodes_spec s rows hinv level (by omega), hrow]

/-- C15: `add(e)` on a set made by adds that does not contain `e`, when the level tester is
going to answer yes `yesCount s.levelTester` times and then no: the call returns, afterwards
`isElementOnLevel(e, j)` is true for the levels `j` up to that number and false above,
`levelCount()` is the maximum of its value before and that number plus one, and
`isElementOnLevel` is unchanged for every other element on every level. -/
theorem C15_skip_add_promotes_by_yes_answers {α : Type} [LinearOrder α] [Inhabited α]
    (levelTester : List Bool) (xs : List α) (e : α) (he : e ∉ xs) :
    ∃ s s', (SkipListSet.new levelTester).addAll xs = some s ∧ s.contains e = some false ∧
      s.add e = some s' ∧
      (∀ j, s'.isElementOnLevel e j =
        some (decide (j ≤ SkipListSet.yesCount s.levelTester))) ∧
      s'.levelCount = max s.levelCount (SkipListSet.yesCount s.levelTester + 1) ∧
      ∀ x, x ≠ e → ∀ l, s'.isElementOnLevel x l = s.isElementOnLevel x l := by
  obtain ⟨s, rows, h1, hinv, hm, _⟩ := SkipListSet.skip_addAll_new levelTester xs
  have hnew : (⟨.Normal, e⟩ : SkipListKey α) ∉ SkipListSet.keysOf (SkipListSet.baseOf rows) :=
    fun h => he ((hm e).mp h)
  obtain ⟨s', rows', h2, hinv', hlv, hkeys⟩ := SkipListSet.skip_add_levels s rows hinv e hnew
  refine ⟨s, s', h1, ?_, h2, ?_, ?_, ?_⟩
  · rw [SkipListSet.skip_contains_spec s rows hinv e]
    simp [hnew]
  · intro j
    rw [SkipListSet.isElementOnLevel_spec s' rows' hinv' e j]
    congr 1
    rw [decide_eq_decide, hkeys j _ rfl]
    constructor
    · rintro (⟨_, h⟩ | h)
      · exact h
      · by_cases hj : j < rows.length
        · have hmem := SkipListSet.levelRow_mem rows j hj
          rw [SkipListSet.keysOf, List.mem_map] at h
          obtain ⟨p, hp, hpk⟩ := h
          have := SkipListSet.mem_base_of_mem rows hinv.stored.tower _ hmem p hp
          rw [hpk] at this
          exact absurd this hnew
        · rw [SkipListSet.levelRow_of_lt rows j (by omega)] at h
          simp [SkipListSet.keysOf] at h
    · exact fun h => Or.inl ⟨rfl, h⟩
  · rw [SkipListSet.levelCount, SkipListSet.levelCount, hlv]
    omega
  · intro x hx l
    rw [SkipListSet.isElementOnLevel_spec s' rows' hinv' x l,
      SkipListSet.isElementOnLevel_spec s rows hinv x l]
    congr 1
    rw [decide_eq_decide, hkeys l _ rfl]
    constructor
    · rintro (⟨h, _⟩ | h)
      · exact absurd (SkipListKey.mk.inj h).2 hx
      · exact h
    · exact Or.inr

/-- C15 at the set made by `add(1)`, `add(2)` with a tester that says no to both, then yes
twice, then no, and the new element 3. -/
theorem C15_skip_add_promotes_by_yes_answers_witness :
    (3 : Nat) ∉ [1, 2] ∧
      ∃ s s', (SkipListSet.new [false, false, true, true, false]).addAll [1, 2] = some s ∧
        s.contains 3 = some false ∧ s.add 3 = some s' ∧
        (∀ j, s'.isElementOnLevel 3 j =
          some (decide (j ≤ SkipListSet.yesCount s.levelTester))) ∧
        s'.levelCount = max s.levelCount (SkipListSet.yesCount s.levelTester + 1) ∧
        ∀ x, x ≠ 3 → ∀ l, s'.isElementOnLevel x l = s.isElementOnLevel x l :=
  ⟨by decide, C15_skip_add_promotes_by_yes_answers [false, false, true, true, false] [1, 2] 3
    (by decide)⟩

/-- C18: for a set `s` made by `add` calls from a new one, the copy constructor returns a set
`c` with the `size()` and the `levelCount()` of `s` and with the same results of
`contains(e)`, `elementsOnLevel(l)` and `isElementOnLevel(e, l)` for every element `e` and
level `l`; and on every level above level 0 of `c`, every node has as its `bottom` the index
of the node with its key on the level below, in the memory of `c`.  `clone` is what the
cloned level tester is going to answer. -/
theorem C18_skip_copy_same_observations {α : Type} [LinearOrder α] [Inhabited α]
    (levelTester clone : List Bool) (xs : List α) :
    ∃ s c, (SkipListSet.new levelTester).addAll xs = some s ∧ s.copy clone = some c ∧
      c.size = s.size ∧ c.levelCount = s.levelCount ∧
      (∀ e, ∃ b, s.contains e = some b ∧ c.contains e = some b) ∧
      (∀ l, ∃ n, s.elementsOnLevel l = some n ∧ c.elementsOnLevel l = some n) ∧
      (∀ e l, ∃ b, s.isElementOnLevel e l = some b ∧ c.isElementOnLevel e l = some b) ∧
      ∀ l, 0 < l → l < c.levelCount →
        ∃ upper lower, c.levelNodes l = some upper ∧ c.levelNodes (l - 1) = some lower ∧
          ∀ p ∈ upper, ∃ q ∈ lower, p.2.bottom = some q.1 ∧ q.2.key = p.2.key := by
  obtain ⟨s, rows, h1, hinv, _, _⟩ := SkipListSet.skip_addAll_new levelTester xs
  obtain ⟨c, rows', h2, hinv', hsz, hlv, _, hkeys⟩ := SkipListSet.skip_copy_spec s rows hinv clone
  refine ⟨s, c, h1, h2, hsz, by rw [SkipListSet.levelCount, SkipListSet.levelCount, hlv], ?_,
    ?_, ?_, ?_⟩
  · intro e
    refine ⟨_, SkipListSet.skip_contains_spec s rows hinv e, ?_⟩
    rw [SkipListSet.skip_contains_spec c rows' hinv' e, SkipListSet.baseOf_eq_levelRow,
      SkipListSet.baseOf_eq_levelRow, hkeys 0]
  · intro l
    refine ⟨_, SkipListSet.elementsOnLevel_spec s rows hinv l, ?_⟩
    rw [SkipListSet.elementsOnLevel_spec c rows' hinv' l, hlv]
    have := congrArg List.length (hkeys l)
    simp only [SkipListSet.keysOf, List.length_map] at this
    rw [this]
  · intro e l
    refine ⟨_, SkipListSet.isElementOnLevel_spec s rows hinv e l, ?_⟩
    rw [SkipListSet.isElementOnLevel_spec c rows' hinv' e l, hkeys l]
  · intro l h0 hl
    rw [SkipListSet.levelCount] at hl
    exact ⟨_, _, SkipListSet.levelNodes_spec c rows' hinv' l (by omega),
      SkipListSet.levelNodes_spec c rows' hinv' (l - 1) (by omega),
      SkipListSet.bottoms_levelRow c rows' hinv' l h0 (by omega)⟩

/-- C28: for an element type with a linear order, `operator<` of `SkipListKey` is a strict
total order on the keys up to `operator==`: of `a < b`, `a == b` and `b < a` exactly one
holds, `<` is transitive, and `==` is reflexive, symmetric and transitive.  `NegInf` keys are
below the `Normal` and the `PosInf` keys, `Normal` keys are below the `PosInf` keys, two
`Normal` keys compare as their elements do, and two sentinels of one kind are `==` whatever
elements they carry. -/
theorem C28_skip_key_order {α : Type} [LinearOrder α] :
    (∀ a b : SkipListKey α,
      (a.lt b = true ∧ a.eq b = false ∧ b.lt a = false) ∨
      (a.lt b = false ∧ a.eq b = true ∧ b.lt a = false) ∨
      (a.lt b = false ∧ a.eq b = false ∧ b.lt a = true)) ∧
    (∀ a b c : SkipListKey α, a.lt b = true → b.lt c = true → a.lt c = true) ∧
    (∀ a : SkipListKey α, a.eq a = true) ∧
    (∀ a b : SkipListKey α, a.eq b = b.eq a) ∧
    (∀ a b c : SkipListKey α, a.eq b = true → b.eq c = true → a.eq c = true) ∧
    (∀ x y : α, (SkipListKey.mk .NegInf x).lt ⟨.Normal, y⟩ = true ∧
      (SkipListKey.mk .NegInf x).lt ⟨.PosInf, y⟩ = true ∧
      (SkipListKey.mk .Normal x).lt ⟨.PosInf, y⟩ = true) ∧
    (∀ x y : α, ((SkipListKey.mk .Normal x).lt ⟨.Normal, y⟩ = true ↔ x < y) ∧
      ((SkipListKey.mk .Normal x).eq ⟨.Normal, y⟩ = true ↔ x = y)) ∧
    (∀ x y : α, (SkipListKey.mk .NegInf x).eq ⟨.NegInf, y⟩ = true ∧
      (SkipListKey.mk .PosInf x).eq ⟨.PosInf, y⟩ = true) := by
  refine ⟨?_, fun a b c => SkipListKey.key_lt_trans a b c, SkipListKey.key_eq_self, ?_, ?_,
    ?_, ?_, ?_⟩
  · rintro ⟨ak, ae⟩ ⟨bk, be⟩
    cases ak <;> cases bk <;> simp [SkipListKey.lt, SkipListKey.eq]
    rcases lt_trichotomy ae be with h | h | h
    · exact Or.inl ⟨h, ne_of_lt h, le_of_lt h⟩
    · exact Or.inr (Or.inl ⟨le_of_eq h.symm, h, le_of_eq h⟩)
    · exact Or.inr (Or.inr ⟨le_of_lt h, ne_of_gt h, h⟩)
  · rintro ⟨ak, ae⟩ ⟨bk, be⟩
    cases ak <;> cases bk <;> simp [SkipListKey.eq, eq_comm]
  · rintro ⟨ak, ae⟩ ⟨bk, be⟩ ⟨ck, ce⟩
    cases ak <;> cases bk <;> cases ck <;> simp [SkipListKey.eq]
    exact fun h1 h2 => h1.trans h2
  · intro x y
    simp [SkipListKey.lt]
  · intro x y
    simp [SkipListKey.lt, SkipListKey.eq]
  · intro x y
    simp [SkipListKey.eq]

/-- C21: after the elements of `xs` are added to a new `SkipListSet` whose level tester
answers no every time (`n` times no, and no again once these answers are used up),
`levelCount()` is 1, every element of `xs` is on level 0, and no element is on a level
`k >= 1`. -/
theorem C21_skip_never_promoting_tester {α : Type} [LinearOrder α] [Inhabited α] (n : Nat)
    (xs : List α) :
    ∃ s, (SkipListSet.new (List.replicate n false)).addAll xs = some s ∧ s.levelCount = 1 ∧
      (∀ e ∈ xs, s.isElementOnLevel e 0 = some true) ∧
      ∀ e k, 1 ≤ k → s.isElementOnLevel e k = some false := by
  obtain ⟨s, rows, h1, hinv, hlv, hk⟩ := SkipListSet.skip_addAll_allFalse xs
    (SkipListSet.new (List.replicate n false)) _ (SkipListSet.skip_inv_new _) rfl
    (fun b hb => (List.mem_replicate.mp hb).2)
  refine ⟨s, h1, by rw [SkipListSet.levelCount, hlv], ?_, ?_⟩
  · intro e he
    rw [SkipListSet.isElementOnLevel_spec s rows hinv e 0, ← SkipListSet.baseOf_eq_levelRow]
    have : (⟨.Normal, e⟩ : SkipListKey α) ∈ SkipListSet.keysOf (SkipListSet.baseOf rows) :=
      (hk _).mpr (Or.inl ⟨e, he, rfl⟩)
    simp [this]
  · intro e k hk1
    rw [SkipListSet.isElementOnLevel, if_pos (by omega)]

/-- C26: in a `SkipListSet` built by `add` calls, `add(e)` for an element `e` with
`contains(e)` true returns without asking the level tester (the answers it is going to give
are the same after the call) and leaves the nodes as they are: `levelCount()`, and
`elementsOnLevel(l)` and `isElementOnLevel(x, l)` for every level `l` and element `x`, are
the same before and after. -/
theorem C26_skip_add_contained_keeps_tower {α : Type} [LinearOrder α] [Inhabited α]
    (levelTester : List Bool) (xs : List α) :
    ∃ s, (SkipListSet.new levelTester).addAll xs = some s ∧
      (∀ e ∈ xs, s.contains e = some true) ∧
      ∀ e, s.contains e = some true →
        ∃ s', s.add e = some s' ∧ s'.levelTester = s.levelTester ∧ s'.nodes = s.nodes ∧
          s'.levelCount = s.levelCount ∧
          (∀ l, ∃ n, s.elementsOnLevel l = some n ∧ s'.elementsOnLevel l = some n) ∧
          ∀ x l, ∃ b, s.isElementOnLevel x l = some b ∧ s'.isElementOnLevel x l = some b := by
  obtain ⟨s, rows, h1, hinv, hm, _⟩ := SkipListSet.skip_addAll_new levelTester xs
  refine ⟨s, h1, ?_, ?_⟩
  · intro e he
    rw [SkipListSet.skip_contains_spec s rows hinv e]
    simp [(hm e).mpr he]
  · intro e hc
    rw [SkipListSet.skip_contains_spec s rows hinv e] at hc
    have hmem : (⟨.Normal, e⟩ : SkipListKey α) ∈ SkipListSet.keysOf (SkipListSet.baseOf rows) := by
      simpa using hc
    refine ⟨_, SkipListSet.skip_add_contained s rows hinv e hmem, rfl, rfl, rfl, ?_, ?_⟩
    · intro l
      exact ⟨_, SkipListSet.elementsOnLevel_spec s rows hinv l,
        SkipListSet.elementsOnLevel_spec s rows hinv l⟩
    · intro x l
      exact ⟨_, SkipListSet.isElementOnLevel_spec s rows hinv x l,
        SkipListSet.isElementOnLevel_spec s rows hinv x l⟩

/-- C29, where the code departs from it: a set that holds the one element 1 is moved from,
by the move constructor and by move assignment into an empty set.  For each of `AVLSet`,
`HashSet` and `SkipListSet` `size()` of the set moved from is 1 afterwards, not 0, and a
`SkipListSet` with two levels has `levelCount()` 2 after it was moved from, not 1.  The
destructor of that moved-from `SkipListSet` goes down one level from the null `topHead`
before its null test, a null dereference; the set itself, the set moved to, and a moved-from
set with one level are destroyed without one. -/
theorem C29_moved_from_set_is_not_empty :
    ∃ (a : AVLSet Nat) (h : HashSet Nat) (k : SkipListSet Nat)
      (k' : SkipListSet Nat × SkipListSet Nat) (k1 : SkipListSet Nat),
      (AVLSet.new true).addAll [1] = some a ∧
      (HashSet.new fun n : Nat => n).addAll [1] = some h ∧
      (SkipListSet.new [true]).addAll [1] = some k ∧
      a.size = 1 ∧ a.move.2.size = 1 ∧ ((AVLSet.new true).moveAssign a).2.size = 1 ∧
      h.size = 1 ∧ h.move.2.size = 1 ∧
      ((HashSet.new fun n : Nat => n).moveAssign h).map (fun p => p.2.size) = some 1 ∧
      k.size = 1 ∧ k.levelCount = 2 ∧ k.move.2.size = 1 ∧ k.move.2.levelCount = 2 ∧
      (SkipListSet.new []).moveAssign k = some k' ∧ k'.2.size = 1 ∧ k'.2.levelCount = 2 ∧
      k.destroy = some () ∧ k.move.1.destroy = some () ∧
      k.move.2.destroy = none ∧ k'.2.destroy = none ∧
      (SkipListSet.new [false]).addAll [1] = some k1 ∧ k1.levelCount = 1 ∧
      k1.move.2.size = 1 ∧ k1.move.2.destroy = some () :=
  ⟨_, _, _, _, _, rfl, rfl, rfl, rfl, rfl, rfl, rfl, rfl, rfl, rfl, rfl, rfl, rfl, rfl, rfl,
    rfl, rfl, rfl, rfl, rfl, rfl, rfl, rfl, rfl⟩

/-- The move operations on sets built by `add` calls: after a set `s` is moved from, by the
move constructor or by move assignment into another set `this`, the operation has returned,
the pointers of `s` to its nodes are null and the receiving set has what `s` had, and the
counters of `s` are as they were: `s.size()` is the size before the move and, for the
`SkipListSet`, `s.levelCount()` the level count before the move. -/
theorem moved_from_keeps_counters {α : Type} [LinearOrder α] [Inhabited α] (xs ys : List α)
    (b b' : Bool) (f f' : α → Nat) (t t' : List Bool) :
    (∃ s this, (AVLSet.new b).addAll xs = some s ∧ (AVLSet.new b').addAll ys = some this ∧
      ∀ made ∈ [s.move, this.moveAssign s],
        made.2.size = s.size ∧ made.2.root = NodeA.null ∧ made.1 = s) ∧
    (∃ s this, (HashSet.new f).addAll xs = some s ∧ (HashSet.new f').addAll ys = some this ∧
      ∀ made ∈ [some s.move, this.moveAssign s], ∃ p, made = some p ∧
        p.2.size = s.size ∧ p.2.cp = s.cp ∧ p.2.arr = none ∧
        p.1.size = s.size ∧ p.1.cp = s.cp ∧ p.1.arr = s.arr) ∧
    (∃ s this, (SkipListSet.new t).addAll xs = some s ∧
      (SkipListSet.new t').addAll ys = some this ∧
      ∀ made ∈ [some s.move, this.moveAssign s], ∃ p, made = some p ∧
        p.2.size = s.size ∧ p.2.levelCount = s.levelCount ∧
        p.2.head = none ∧ p.2.tail = none ∧ p.2.topHead = none ∧ p.2.topTail = none ∧
        p.1 = s) := by
  refine ⟨?_, ?_, ?_⟩
  · obtain ⟨s, h1, _⟩ := AVLSet.avl_addAll_spec xs (AVLSet.new b) (AVLSet.avl_inv_new _)
    obtain ⟨this, h2, _⟩ := AVLSet.avl_addAll_spec ys (AVLSet.new b') (AVLSet.avl_inv_new _)
    refine ⟨s, this, h1, h2, ?_⟩
    intro made hmade
    simp only [List.mem_cons, List.mem_singleton, List.not_mem_nil, or_false] at hmade
    rcases hmade with rfl | rfl <;> exact ⟨rfl, rfl, rfl⟩
  · obtain ⟨s, arr, h1, _⟩ := HashSet.addAll_new f xs
    obtain ⟨this, arr', h2, hinv', _⟩ := HashSet.addAll_new f' ys
    refine ⟨s, this, h1, h2, ?_⟩
    intro made hmade
    simp only [List.mem_cons, List.mem_singleton, List.not_mem_nil, or_false] at hmade
    rcases hmade with rfl | rfl
    · exact ⟨_, rfl, rfl, rfl, rfl, rfl, rfl, rfl⟩
    · refine ⟨s.move, ?_, rfl, rfl, rfl, rfl, rfl, rfl⟩
      simp [HashSet.moveAssign, hinv'.arr_eq, hinv'.length]
  · obtain ⟨s, rows, h1, _⟩ := SkipListSet.skip_addAll_new t xs
    obtain ⟨this, rows', h2, hinv', _⟩ := SkipListSet.skip_addAll_new t' ys
    refine ⟨s, this, h1, h2, ?_⟩
    intro made hmade
    simp only [List.mem_cons, List.mem_singleton, List.not_mem_nil, or_false] at hmade
    rcases hmade with rfl | rfl
    · exact ⟨_, rfl, rfl, rfl, rfl, rfl, rfl, rfl, rfl⟩
    · refine ⟨s.move, ?_, rfl, rfl, rfl, rfl, rfl, rfl, rfl⟩
      simp [SkipListSet.moveAssign,
        SkipListSet.deleteLevels_spec this rows' hinv' (this.lv + 1) 0 (by omega)]

/-- C36: in a `SkipListSet` built by `add` calls from a new set, for every element `e` both
`contains(e)` (the search from the top level) and `isElementOnLevel(e, 0)` (the scan of the
base level) return, and they return the same answer, which is whether `e` was added. -/
theorem C36_skip_contains_agrees_with_base_level {α : Type} [LinearOrder α] [Inhabited α]
    (levelTester : List Bool) (xs : List α) :
    ∃ s, (SkipListSet.new levelTester).addAll xs = some s ∧
      ∀ e, ∃ b : Bool, s.contains e = some b ∧ s.isElementOnLevel e 0 = some b ∧
        (b = true ↔ e ∈ xs) := by
  obtain ⟨s, rows, h1, hinv, hm, _⟩ := SkipListSet.skip_addAll_new levelTester xs
  refine ⟨s, h1, fun e => ⟨_, SkipListSet.skip_contains_spec s rows hinv e, ?_, ?_⟩⟩
  · rw [SkipListSet.isElementOnLevel_spec s rows hinv e 0, SkipListSet.baseOf_eq_levelRow]
  · rw [decide_eq_true_iff, hm]

/-! ### Lemmas about `WordChecker` -/

namespace WordChecker

theorem substr_of_le (word : List Char) (pos len : Nat) (h : pos ≤ word.length) :
    substr word pos len = some ((word.drop pos).take len) := by
  rw [substr, if_neg (by omega)]

theorem charAt_of_lt (word : List Char) (i : Nat) (h : i < word.length) :
    ∃ c, charAt word i = some c := by
  rw [charAt]
  exact ⟨word[i], List.getElem?_eq_getElem h⟩

theorem swapAt_of_lt (word : List Char) (i : Nat) (h : i + 1 < word.length) :
    ∃ temp, swapAt word i = some temp := by
  obtain ⟨b, hb⟩ := charAt_of_lt word (i + 1) h
  obtain ⟨c, hc⟩ := charAt_of_lt word i (by omega)
  rw [swapAt, substr_of_le word 0 i (by omega), hb, hc,
    substr_of_le word (i + 2) _ (by omega)]
  exact ⟨_, rfl⟩

theorem pushIfExists_eq (wordExists : List Char → Bool) (result : List (List Char))
    (temp : List Char) :
    ∃ out, pushIfExists wordExists result temp = result ++ out ∧
      ∀ s ∈ out, s = temp ∧ wordExists s = true := by
  rw [pushIfExists]
  by_cases h : wordExists temp = true
  · exact ⟨[temp], by simp [h], by simp [h]⟩
  · exact ⟨[], by simp [h], by simp⟩

/-- A loop whose every round appends strings with a property appends such strings. -/
theorem foldlM_appends {ι : Type} (P : List Char → Prop)
    (f : List (List Char) → ι → Option (List (List Char))) (xs : List ι)
    (hf : ∀ result, ∀ i ∈ xs, ∃ out, f result i = some (result ++ out) ∧ ∀ s ∈ out, P s)
    (result : List (List Char)) :
    ∃ out, xs.foldlM f result = some (result ++ out) ∧ ∀ s ∈ out, P s := by
  induction xs generalizing result with
  | nil => exact ⟨[], by simp, by simp⟩
  | cons x xs ih =>
    obtain ⟨out1, h1, hP1⟩ := hf result x (by simp)
    obtain ⟨out2, h2, hP2⟩ := ih (fun r i hi => hf r i (by simp [hi])) (result ++ out1)
    refine ⟨out1 ++ out2, ?_, ?_⟩
    · rw [List.foldlM_cons, h1]
      simpa using h2
    · intro s hs
      rcases List.mem_append.mp hs with h | h
      · exact hP1 s h
      · exact hP2 s h

theorem foldl_appends {ι : Type} (P : List Char → Prop)
    (f : List (List Char) → ι → List (List Char)) (xs : List ι)
    (hf : ∀ result, ∀ i ∈ xs, ∃ out, f result i = result ++ out ∧ ∀ s ∈ out, P s)
    (result : List (List Char)) :
    ∃ out, xs.foldl f result = result ++ out ∧ ∀ s ∈ out, P s := by
  induction xs generalizing result with
  | nil => exact ⟨[], by simp, by simp⟩
  | cons x xs ih =>
    obtain ⟨out1, h1, hP1⟩ := hf result x (by simp)
    obtain ⟨out2, h2, hP2⟩ := ih (fun r i hi => hf r i (by simp [hi])) (result ++ out1)
    refine ⟨out1 ++ out2, ?_, ?_⟩
    · rw [List.foldl_cons, h1]
      simpa using h2
    · intro s hs
      rcases List.mem_append.mp hs with h | h
      · exact hP1 s h
      · exact hP2 s h

theorem swapAdjacentLoop_spec (wordExists : List Char → Bool) (word : List Char)
    (rounds i : Nat) (result : List (List Char)) (h : i + rounds + 1 ≤ word.length) :
    ∃ out, swapAdjacentLoop wordExists word rounds i result = some (result ++ out) ∧
      ∀ s ∈ out, wordExists s = true := by
  induction rounds generalizing i result with
  | zero => exact ⟨[], by simp [swapAdjacentLoop], by simp⟩
  | succ rounds ih =>
    obtain ⟨temp, ht⟩ := swapAt_of_lt word i (by omega)
    obtain ⟨out1, h1, hP1⟩ := pushIfExists_eq wordExists result temp
    obtain ⟨out2, h2, hP2⟩ := ih (i + 1) (result ++ out1) (by omega)
    refine ⟨out1 ++ out2, ?_, ?_⟩
    · rw [swapAdjacentLoop, ht]
      simp only [h1]
      simpa using h2
    · intro s hs
      rcases List.mem_append.mp hs with h | h
      · exact (hP1 s h).2
      · exact hP2 s h

theorem swapAdjacent_spec (wordExists : List Char → Bool) (word : List Char)
    (h : word ≠ []) :
    ∃ out, swapAdjacent wordExists word = some out ∧ ∀ s ∈ out, wordExists s = true := by
  have hlen : 1 ≤ word.length := List.length_pos.mpr h
  have hbound : (word.length + sizeMax - 1) % sizeMax ≤ word.length - 1 := by
    have : word.length + sizeMax - 1 = (word.length - 1) + sizeMax := by omega
    rw [this, Nat.add_mod_right]
    exact Nat.mod_le _ _
  obtain ⟨out, h1, h2⟩ := swapAdjacentLoop_spec wordExists word
    ((word.length + sizeMax - 1) % sizeMax) 0 [] (by omega)
  exact ⟨out, by rw [swapAdjacent, h1, List.nil_append], h2⟩

theorem insertAdjacent_spec (wordExists : List Char → Bool) (word : List Char) :
    ∃ out, insertAdjacent wordExists word = some out ∧ ∀ s ∈ out, wordExists s = true := by
  obtain ⟨out1, h1, hP1⟩ := foldlM_appends (fun s => wordExists s = true)
    (fun result i =>
      letter.foldlM (fun result l => (insertAt word i l).map (pushIfExists wordExists result))
        result) (List.range word.length)
    (by
      intro result i hi
      have hi' : i < word.length := List.mem_range.mp hi
      refine foldlM_appends _ _ letter ?_ result
      intro result l _
      obtain ⟨out, ho, hP⟩ := pushIfExists_eq wordExists result
        ((word.drop 0).take i ++ l ++ (word.drop i).take (word.length - i))
      refine ⟨out, ?_, fun s hs => (hP s hs).2⟩
      rw [insertAt, substr_of_le word 0 i (by omega), substr_of_le word i _ (by omega)]
      simp only [Option.map_some', ho]) []
  obtain ⟨out2, h2, hP2⟩ := foldl_appends (fun s => wordExists s = true)
    (fun result l => pushIfExists wordExists result (word ++ l)) letter
    (by
      intro result l _
      obtain ⟨out, ho, hP⟩ := pushIfExists_eq wordExists result (word ++ l)
      exact ⟨out, ho, fun s hs => (hP s hs).2⟩) ([] ++ out1)
  refine ⟨[] ++ out1 ++ out2, ?_, ?_⟩
  · rw [insertAdjacent, h1]
    simp only [h2]
  · intro s hs
    simp only [List.nil_append, List.mem_append] at hs
    rcases hs with h | h
    · exact hP1 s h
    · exact hP2 s h

theorem deleteCharacter_spec (wordExists : List Char → Bool) (word : List Char) :
    ∃ out, deleteCharacter wordExists word = some out ∧ ∀ s ∈ out, wordExists s = true := by
  obtain ⟨out1, h1, hP1⟩ := foldlM_appends (fun s => wordExists s = true)
    (fun result i => (deleteAt word i).map (pushIfExists wordExists result))
    (List.range word.length)
    (by
      intro result i hi
      have hi' : i < word.length := List.mem_range.mp hi
      obtain ⟨out, ho, hP⟩ := pushIfExists_eq wordExists result
        ((word.drop 0).take i ++ (word.drop (i + 1)).take (word.length - i - 1))
      refine ⟨out, ?_, fun s hs => (hP s hs).2⟩
      simp only [deleteAt, substr_of_le word 0 i (by omega),
        substr_of_le word (i + 1) _ (by omega), Option.map_some', ho]) []
  exact ⟨[] ++ out1, h1, by simpa using hP1⟩

theorem replaceCharacter_spec (wordExists : List Char → Bool) (word : List Char) :
    ∃ out, replaceCharacter wordExists word = some out ∧ ∀ s ∈ out, wordExists s = true := by
  obtain ⟨out1, h1, hP1⟩ := foldlM_appends (fun s => wordExists s = true)
    (fun result i =>
      letter.foldlM (fun result l => (replaceAt word i l).map (pushIfExists wordExists result))
        result) (List.range word.length)
    (by
      intro result i hi
      have hi' : i < word.length := List.mem_range.mp hi
      refine foldlM_appends _ _ letter ?_ result
      intro result l _
      obtain ⟨out, ho, hP⟩ := pushIfExists_eq wordExists result
        ((word.drop 0).take i ++ l ++ (word.drop (i + 1)).take (word.length - i - 1))
      refine ⟨out, ?_, fun s hs => (hP s hs).2⟩
      rw [replaceAt, substr_of_le word 0 i (by omega), substr_of_le word (i + 1) _ (by omega)]
      simp only [Option.map_some', ho]) []
  exact ⟨[] ++ out1, h1, by simpa using hP1⟩

theorem splitAdjacent_spec (wordExists : List Char → Bool) (word : List Char) :
    ∃ out, splitAdjacent wordExists word = some out ∧
      ∀ s ∈ out, ∃ a b, word = a ++ b ∧ s = a ++ [' '] ++ b ∧
        wordExists a = true ∧ wordExists b = true := by
  obtain ⟨out1, h1, hP1⟩ := foldlM_appends
    (fun s => ∃ a b, word = a ++ b ∧ s = a ++ [' '] ++ b ∧
        wordExists a = true ∧ wordExists b = true)
    (splitAt wordExists word) (List.range word.length)
    (by
      intro result i hi
      have hi' : i < word.length := List.mem_range.mp hi
      rw [splitAt, substr_of_le word 0 i (by omega), substr_of_le word i _ (by omega)]
      simp only
      by_cases hc : (wordExists ((word.drop 0).take i) &&
          wordExists ((word.drop i).take (word.length - i))) = true
      · rw [if_pos hc]
        refine ⟨[_], rfl, ?_⟩
        intro s hs
        simp only [List.mem_singleton] at hs
        rw [Bool.and_eq_true] at hc
        refine ⟨_, _, ?_, hs, hc.1, hc.2⟩
        have h2 : (word.drop i).take (word.length - i) = word.drop i :=
          List.take_of_length_le (by simp)
        rw [List.drop_zero, h2]
        exact (List.take_append_drop i word).symm
      · rw [if_neg hc]
        exact ⟨[], by simp, by simp⟩) []
  exact ⟨[] ++ out1, h1, by simpa using hP1⟩

end WordChecker



namespace WordChecker

theorem pushNew_append (result a b : List (List Char)) :
    pushNew result (a ++ b) = pushNew (pushNew result a) b := by
  simp [pushNew, List.foldl_append]

theorem pushNew_snoc (result g : List (List Char)) (w : List Char) :
    pushNew result (g ++ [w]) =
      if w ∈ pushNew result g then pushNew result g else pushNew result g ++ [w] := by
  simp [pushNew, List.foldl_append]

theorem firstIndex_append_of_mem (s : List Char) (l1 l2 : List (List Char)) (h : s ∈ l1) :
    firstIndex s (l1 ++ l2) = firstIndex s l1 := by
  induction l1 with
  | nil => simp at h
  | cons w ws ih =>
    by_cases hw : w = s
    · simp [firstIndex, hw]
    · have hs : s ∈ ws := by
        rcases List.mem_cons.mp h with h' | h'
        · exact absurd h'.symm hw
        · exact h'
      simp [firstIndex, hw, ih hs]

theorem firstIndex_append_of_not_mem (s : List Char) (l1 l2 : List (List Char))
    (h : s ∉ l1) : firstIndex s (l1 ++ l2) = l1.length + firstIndex s l2 := by
  induction l1 with
  | nil => simp
  | cons w ws ih =>
    have hw : ¬ w = s := fun e => h (by simp [e])
    have hs : s ∉ ws := fun e => h (by simp [e])
    show firstIndex s (w :: (ws ++ l2)) = (w :: ws).length + firstIndex s l2
    rw [firstIndex, if_neg hw, ih hs, List.length_cons]
    omega

theorem firstIndex_lt_length (s : List Char) (l : List (List Char)) (h : s ∈ l) :
    firstIndex s l < l.length := by
  induction l with
  | nil => simp at h
  | cons w ws ih =>
    by_cases hw : w = s
    · simp [firstIndex, hw]
    · have hs : s ∈ ws := by
        rcases List.mem_cons.mp h with h' | h'
        · exact absurd h'.symm hw
        · exact h'
      simp only [firstIndex, if_neg hw, List.length_cons]
      have := ih hs
      omega

/-- The list `pushNew` makes from the empty list has no string twice, holds the strings of
`g`, and holds them in the order of their first positions in `g`. -/
theorem pushNew_spec (g : List (List Char)) :
    (pushNew [] g).Nodup ∧ (∀ s, s ∈ pushNew [] g ↔ s ∈ g) ∧
      ∀ s ∈ g, ∀ t ∈ g,
        (firstIndex s (pushNew [] g) < firstIndex t (pushNew [] g) ↔
          firstIndex s g < firstIndex t g) := by
  induction g using List.reverseRecOn with
  | nil => simp [pushNew]
  | append_singleton g w ih =>
    obtain ⟨hnd, hmem, hord⟩ := ih
    rw [pushNew_snoc]
    by_cases hw : w ∈ pushNew [] g
    · rw [if_pos hw]
      have hwg : w ∈ g := (hmem w).mp hw
      have hin : ∀ s, s ∈ g ++ [w] → s ∈ g := by
        intro s hs
        rcases List.mem_append.mp hs with h | h
        · exact h
        · rw [List.mem_singleton.mp h]; exact hwg
      refine ⟨hnd, ?_, ?_⟩
      · intro s
        rw [hmem]
        exact ⟨fun h => List.mem_append_left _ h, hin s⟩
      · intro s hs t ht
        rw [firstIndex_append_of_mem s g [w] (hin s hs),
          firstIndex_append_of_mem t g [w] (hin t ht)]
        exact hord s (hin s hs) t (hin t ht)
    · rw [if_neg hw]
      have hwg : w ∉ g := fun h => hw ((hmem w).mpr h)
      refine ⟨?_, ?_, ?_⟩
      · rw [List.nodup_append]
        refine ⟨hnd, List.nodup_singleton w, ?_⟩
        intro a ha hb
        rw [List.mem_singleton.mp hb] at ha
        exact hw ha
      · intro s
        simp only [List.mem_append, hmem]
      · have key : ∀ s, s ∈ g ++ [w] →
            (s ∈ g ∧ firstIndex s (pushNew [] g ++ [w]) = firstIndex s (pushNew [] g) ∧
              firstIndex s (g ++ [w]) = firstIndex s g ∧
              firstIndex s (pushNew [] g) < (pushNew [] g).length ∧
              firstIndex s g < g.length) ∨
            (s ∉ g ∧ firstIndex s (pushNew [] g ++ [w]) = (pushNew [] g).length ∧
              firstIndex s (g ++ [w]) = g.length) := by
          intro s hs
          by_cases hsg : s ∈ g
          · left
            exact ⟨hsg, firstIndex_append_of_mem s _ _ ((hmem s).mpr hsg),
              firstIndex_append_of_mem s _ _ hsg,
              firstIndex_lt_length s _ ((hmem s).mpr hsg), firstIndex_lt_length s _ hsg⟩
          · right
            have hsw : s = w := by
              rcases List.mem_append.mp hs with h | h
              · exact absurd h hsg
              · exact List.mem_singleton.mp h
            subst hsw
            refine ⟨hsg, ?_, ?_⟩
            · rw [firstIndex_append_of_not_mem s _ _ hw]; simp [firstIndex]
            · rw [firstIndex_append_of_not_mem s _ _ hsg]; simp [firstIndex]
        intro s hs t ht
        rcases key s hs with ⟨hsg, h1, h2, h3, h4⟩ | ⟨hsg, h1, h2⟩ <;>
          rcases key t ht with ⟨htg, k1, k2, k3, k4⟩ | ⟨htg, k1, k2⟩
        · rw [h1, h2, k1, k2]; exact hord s hsg t htg
        · rw [h1, h2, k1, k2]; exact ⟨fun _ => h4, fun _ => h3⟩
        · rw [h1, h2, k1, k2]; exact ⟨fun h => by omega, fun h => by omega⟩
        · rw [h1, h2, k1, k2]; exact ⟨fun h => by omega, fun h => by omega⟩

/-- The body of `findSuggestions`, as an equation between functions. -/
theorem findSuggestions_def :
    findSuggestions = fun wordExists word =>
      match swapAdjacent wordExists word with
      | none => none
      | some wordFromSwap =>
        match insertAdjacent wordExists word with
        | none => none
        | some wordFromInsert =>
          match deleteCharacter wordExists word with
          | none => none
          | some wordFromDelete =>
            match replaceCharacter wordExists word with
            | none => none
            | some wordFromReplace =>
              match splitAdjacent wordExists word with
              | none => none
              | some wordFromSplit =>
                some (pushNew (pushNew (pushNew (pushNew (pushNew [] wordFromSwap)
                  wordFromInsert) wordFromDelete) wordFromReplace) wordFromSplit) := by
  delta findSuggestions
  with_reducible rfl

/-- `findSuggestions` once the five generators have returned. -/
theorem findSuggestions_of_some (wordExists : List Char → Bool) (word : List Char)
    (sw ins del rep spl : List (List Char))
    (h1 : swapAdjacent wordExists word = some sw)
    (h2 : insertAdjacent wordExists word = some ins)
    (h3 : deleteCharacter wordExists word = some del)
    (h4 : replaceCharacter wordExists word = some rep)
    (h5 : splitAdjacent wordExists word = some spl) :
    findSuggestions wordExists word =
      some (pushNew (pushNew (pushNew (pushNew (pushNew [] sw) ins) del) rep) spl) := by
  rw [findSuggestions_def]
  simp only [h1, h2, h3, h4, h5]

end WordChecker


/-! ### The claims about `WordChecker` -/

/-- C30 fails: for the set that holds exactly "CAT", "CAR" and "CARS",
`findSuggestions("CAR")` returns a list that holds "CARS" and holds "CAT" too. -/
theorem C30_cat_is_a_suggestion_for_car :
    ∃ result, WordChecker.findSuggestions WordChecker.catCarCars ['C', 'A', 'R'] = some result ∧
      ['C', 'A', 'R', 'S'] ∈ result ∧ ['C', 'A', 'T'] ∈ result :=
  ⟨[['C', 'A', 'R', 'S'], ['C', 'A', 'R'], ['C', 'A', 'T']], by decide, by decide, by decide⟩

/-- C30, as the code has it: for a `WordChecker` over a set that contains exactly "CAT",
"CAR" and "CARS" (`wordExists` is its `contains`), `findSuggestions("CAR")` returns the list
"CARS", "CAR", "CAT": "CARS" from `insertAdjacent`, then "CAR" itself and "CAT" from
`replaceCharacter`, which replaces one character. -/
theorem C30_suggestions_for_car (wordExists : List Char → Bool)
    (h : ∀ w, wordExists w = true ↔
      w ∈ [['C', 'A', 'T'], ['C', 'A', 'R'], ['C', 'A', 'R', 'S']]) :
    WordChecker.findSuggestions wordExists ['C', 'A', 'R'] =
      some [['C', 'A', 'R', 'S'], ['C', 'A', 'R'], ['C', 'A', 'T']] := by
  have : wordExists = WordChecker.catCarCars := by
    funext w
    rw [WordChecker.catCarCars, Bool.eq_iff_iff, h w]
    simp
  subst this
  decide

/-- C30 at the set given by its membership test. -/
theorem C30_suggestions_for_car_witness :
    (∀ w, WordChecker.catCarCars w = true ↔
      w ∈ [['C', 'A', 'T'], ['C', 'A', 'R'], ['C', 'A', 'R', 'S']]) ∧
    WordChecker.findSuggestions WordChecker.catCarCars ['C', 'A', 'R'] =
      some [['C', 'A', 'R', 'S'], ['C', 'A', 'R'], ['C', 'A', 'T']] :=
  ⟨fun w => by simp [WordChecker.catCarCars],
    C30_suggestions_for_car WordChecker.catCarCars
      (fun w => by simp [WordChecker.catCarCars])⟩

/-- C31: for every set of words (`wordExists` is its `contains`) and every non-empty word,
the five generators and `findSuggestions` return; the list returned has no string twice;
every string in it is contained in the set or is `a + " " + b` for a split `word = a + b`
with `a` and `b` contained in the set; it holds the strings the generators made, and two of
its strings stand in the order of their first positions in the sequence made by
`swapAdjacent`, `insertAdjacent`, `deleteCharacter`, `replaceCharacter` and `splitAdjacent`,
in this order. -/
theorem C31_suggestions_unique_valid_in_order (wordExists : List Char → Bool)
    (word : List Char) (hw : word ≠ []) :
    ∃ wordFromSwap wordFromInsert wordFromDelete wordFromReplace wordFromSplit result,
      WordChecker.swapAdjacent wordExists word = some wordFromSwap ∧
      WordChecker.insertAdjacent wordExists word = some wordFromInsert ∧
      WordChecker.deleteCharacter wordExists word = some wordFromDelete ∧
      WordChecker.replaceCharacter wordExists word = some wordFromReplace ∧
      WordChecker.splitAdjacent wordExists word = some wordFromSplit ∧
      WordChecker.findSuggestions wordExists word = some result ∧
      result.Nodup ∧
      (∀ s ∈ result, wordExists s = true ∨
        ∃ a b, word = a ++ b ∧ s = a ++ [' '] ++ b ∧
          wordExists a = true ∧ wordExists b = true) ∧
      (∀ s, s ∈ result ↔ s ∈ wordFromSwap ++ wordFromInsert ++ wordFromDelete ++
        wordFromReplace ++ wordFromSplit) ∧
      ∀ s ∈ result, ∀ t ∈ result,
        (WordChecker.firstIndex s result < WordChecker.firstIndex t result ↔
          WordChecker.firstIndex s (wordFromSwap ++ wordFromInsert ++ wordFromDelete ++
              wordFromReplace ++ wordFromSplit) <
            WordChecker.firstIndex t (wordFromSwap ++ wordFromInsert ++ wordFromDelete ++
              wordFromReplace ++ wordFromSplit)) := by
  obtain ⟨sw, h1, p1⟩ := WordChecker.swapAdjacent_spec wordExists word hw
  obtain ⟨ins, h2, p2⟩ := WordChecker.insertAdjacent_spec wordExists word
  obtain ⟨del, h3, p3⟩ := WordChecker.deleteCharacter_spec wordExists word
  obtain ⟨rep, h4, p4⟩ := WordChecker.replaceCharacter_spec wordExists word
  obtain ⟨spl, h5, p5⟩ := WordChecker.splitAdjacent_spec wordExists word
  obtain ⟨hnd, hmem, hord⟩ := WordChecker.pushNew_spec (sw ++ ins ++ del ++ rep ++ spl)
  have hres : WordChecker.findSuggestions wordExists word =
      some (WordChecker.pushNew [] (sw ++ ins ++ del ++ rep ++ spl)) := by
    rw [WordChecker.findSuggestions_of_some wordExists word sw ins del rep spl h1 h2 h3 h4 h5]
    simp only [WordChecker.pushNew_append]
  refine ⟨sw, ins, del, rep, spl, _, h1, h2, h3, h4, h5, hres, hnd, ?_, hmem, ?_⟩
  · intro s hs
    rw [hmem] at hs
    simp only [List.mem_append] at hs
    rcases hs with (((h | h) | h) | h) | h
    · exact Or.inl (p1 s h)
    · exact Or.inl (p2 s h)
    · exact Or.inl (p3 s h)
    · exact Or.inl (p4 s h)
    · exact Or.inr (p5 s h)
  · intro s hs t ht
    exact hord s ((hmem s).mp hs) t ((hmem t).mp ht)

/-- C31 at the word "CAR" and the set that holds "CAT", "CAR" and "CARS". -/
theorem C31_suggestions_unique_valid_in_order_witness :
    ['C', 'A', 'R'] ≠ [] ∧
    ∃ wordFromSwap wordFromInsert wordFromDelete wordFromReplace wordFromSplit result,
      WordChecker.swapAdjacent WordChecker.catCarCars ['C', 'A', 'R'] = some wordFromSwap ∧
      WordChecker.insertAdjacent WordChecker.catCarCars ['C', 'A', 'R'] =
        some wordFromInsert ∧
      WordChecker.deleteCharacter WordChecker.catCarCars ['C', 'A', 'R'] =
        some wordFromDelete ∧
      WordChecker.replaceCharacter WordChecker.catCarCars ['C', 'A', 'R'] =
        some wordFromReplace ∧
      WordChecker.splitAdjacent WordChecker.catCarCars ['C', 'A', 'R'] = some wordFromSplit ∧
      WordChecker.findSuggestions WordChecker.catCarCars ['C', 'A', 'R'] = some result ∧
      result.Nodup ∧
      (∀ s ∈ result, WordChecker.catCarCars s = true ∨
        ∃ a b, ['C', 'A', 'R'] = a ++ b ∧ s = a ++ [' '] ++ b ∧
          WordChecker.catCarCars a = true ∧ WordChecker.catCarCars b = true) ∧
      (∀ s, s ∈ result ↔ s ∈ wordFromSwap ++ wordFromInsert ++ wordFromDelete ++
        wordFromReplace ++ wordFromSplit) ∧
      ∀ s ∈ result, ∀ t ∈ result,
        (WordChecker.firstIndex s result < WordChecker.firstIndex t result ↔
          WordChecker.firstIndex s (wordFromSwap ++ wordFromInsert ++ wordFromDelete ++
              wordFromReplace ++ wordFromSplit) <
            WordChecker.firstIndex t (wordFromSwap ++ wordFromInsert ++ wordFromDelete ++
              wordFromReplace ++ wordFromSplit)) :=
  ⟨by simp, C31_suggestions_unique_valid_in_order WordChecker.catCarCars ['C', 'A', 'R']
    (by simp)⟩

/-- C37: for every set of words, `findSuggestions` on the empty word throws
`std::out_of_range`: the bound `word.length() - 1` of the loop of `swapAdjacent` is
`2^64 - 1` for length 0, the first round reads the characters at the positions 1 and 0, which
both are out of range, and so `swapAdjacent` throws.  For every word of length 1 or more
the five generators and `findSuggestions` return a list: no access is out of range. -/
theorem C37_empty_word_is_out_of_range (wordExists : List Char → Bool) :
    WordChecker.findSuggestions wordExists [] = none ∧
    WordChecker.swapAdjacent wordExists [] = none ∧
    (([] : List Char).length + WordChecker.sizeMax - 1) % WordChecker.sizeMax =
      2 ^ 64 - 1 ∧
    WordChecker.charAt [] (0 + 1) = none ∧ WordChecker.charAt [] 0 = none ∧
    WordChecker.swapAt [] 0 = none ∧
    ∀ word : List Char, 1 ≤ word.length →
      ∃ wordFromSwap wordFromInsert wordFromDelete wordFromReplace wordFromSplit result,
        WordChecker.swapAdjacent wordExists word = some wordFromSwap ∧
        WordChecker.insertAdjacent wordExists word = some wordFromInsert ∧
        WordChecker.deleteCharacter wordExists word = some wordFromDelete ∧
        WordChecker.replaceCharacter wordExists word = some wordFromReplace ∧
        WordChecker.splitAdjacent wordExists word = some wordFromSplit ∧
        WordChecker.findSuggestions wordExists word = some result := by
  have e1 : WordChecker.findSuggestions wordExists [] = none := rfl
  have e2 : WordChecker.swapAdjacent wordExists [] = none := rfl
  have e3 : (([] : List Char).length + WordChecker.sizeMax - 1) % WordChecker.sizeMax =
      2 ^ 64 - 1 := by decide
  refine ⟨e1, e2, e3, rfl, rfl, rfl, ?_⟩
  intro word hw
  have hne : word ≠ [] := List.length_pos.mp hw
  obtain ⟨sw, h1, _⟩ := WordChecker.swapAdjacent_spec wordExists word hne
  obtain ⟨ins, h2, _⟩ := WordChecker.insertAdjacent_spec wordExists word
  obtain ⟨del, h3, _⟩ := WordChecker.deleteCharacter_spec wordExists word
  obtain ⟨rep, h4, _⟩ := WordChecker.replaceCharacter_spec wordExists word
  obtain ⟨spl, h5, _⟩ := WordChecker.splitAdjacent_spec wordExists word
  refine ⟨sw, ins, del, rep, spl,
    WordChecker.pushNew (WordChecker.pushNew (WordChecker.pushNew (WordChecker.pushNew
      (WordChecker.pushNew [] sw) ins) del) rep) spl, h1, h2, h3, h4, h5,
    WordChecker.findSuggestions_of_some wordExists word sw ins del rep spl h1 h2 h3 h4 h5⟩


end SpellCheckers
